import Mathlib

set_option linter.unusedSectionVars false

/-!
# An ordered set (treap) with checked iterators

The container of `set.h`, embedded over an explicit heap.  Every `base_node`
object lives at an address; its members `left`, `right`, `parent` and
`iterators` are kept as maps from addresses, and the `value`/`key` members of a
`node` are kept in the object tag.  Iterator objects live in a table of their
own, because nodes store pointers to them.  A `nullptr` is `none`.
-/

/-- Address of a `base_node` (or `node`) object. -/
abbrev Addr := Nat

/-- Ways an operation stops without a result. -/
inductive Fault
  | assertion
  | undefined
  | fuel
  deriving DecidableEq, Repr

/-- Result of running a piece of the program. -/
abbrev Res (α : Type) := Except Fault α

/-- What is stored at an address: nothing (never allocated, or deleted), a plain
`base_node` (the `_root` member of a set), or a `node` with its value and key. -/
inductive Obj (T : Type)
  | free
  | base
  | node (value : T) (key : Nat)

/-- The members of a `set_iterator` object. -/
structure set_iterator where
  node : Option Addr
  is_valid : Bool
  owner : Option Addr
  deriving DecidableEq, Repr

/-- The program state.  A set object is identified with the address of its
`_root` member; `size` holds the `_size` member of the set at that address. -/
@[ext]
structure Heap (T : Type) where
  obj : Addr → Obj T
  left : Addr → Option Addr
  right : Addr → Option Addr
  parent : Addr → Option Addr
  iterators : Addr → List Nat
  its : Nat → Option set_iterator
  size : Addr → Nat
  next : Addr
  nextIt : Nat

/-- `assert(b)`. -/
def check (b : Bool) : Res Unit :=
  if b then .ok () else .error .assertion

namespace Heap

variable {T : Type}

/-- The state before anything is constructed. -/
def empty : Heap T where
  obj := fun _ => .free
  left := fun _ => none
  right := fun _ => none
  parent := fun _ => none
  iterators := fun _ => []
  its := fun _ => none
  size := fun _ => 0
  next := 0
  nextIt := 0

/-- An object is stored at the address. -/
def live (h : Heap T) (a : Addr) : Bool :=
  match h.obj a with
  | .free => false
  | _ => true

/-- Bound on the length of any loop or recursion that does not revisit a state. -/
def fuel (h : Heap T) : Nat := 2 * h.next + 2

/-- `p->left`. -/
def rdLeft (h : Heap T) : Option Addr → Res (Option Addr)
  | none => .error .undefined
  | some a => if h.live a then .ok (h.left a) else .error .undefined

/-- `p->right`. -/
def rdRight (h : Heap T) : Option Addr → Res (Option Addr)
  | none => .error .undefined
  | some a => if h.live a then .ok (h.right a) else .error .undefined

/-- `p->parent`. -/
def rdParent (h : Heap T) : Option Addr → Res (Option Addr)
  | none => .error .undefined
  | some a => if h.live a then .ok (h.parent a) else .error .undefined

/-- `static_cast<node*>(p)->value`. -/
def value (h : Heap T) : Option Addr → Res T
  | none => .error .undefined
  | some a =>
    match h.obj a with
    | .node v _ => .ok v
    | _ => .error .undefined

/-- `static_cast<node*>(p)->key`. -/
def key (h : Heap T) : Option Addr → Res Nat
  | none => .error .undefined
  | some a =>
    match h.obj a with
    | .node _ k => .ok k
    | _ => .error .undefined

/-- The state with the `left` member of the object at `a` set to `x`. -/
def setLeft (h : Heap T) (a : Addr) (x : Option Addr) : Heap T :=
  { h with left := Function.update h.left a x }

/-- The state with the `right` member of the object at `a` set to `x`. -/
def setRight (h : Heap T) (a : Addr) (x : Option Addr) : Heap T :=
  { h with right := Function.update h.right a x }

/-- The state with the `parent` member of the object at `a` set to `x`. -/
def setParent (h : Heap T) (a : Addr) (x : Option Addr) : Heap T :=
  { h with parent := Function.update h.parent a x }

/-- `p->left = x`. -/
def wrLeft (h : Heap T) (p x : Option Addr) : Res (Heap T) :=
  match p with
  | none => .error .undefined
  | some a => if h.live a then .ok (h.setLeft a x) else .error .undefined

/-- `p->right = x`. -/
def wrRight (h : Heap T) (p x : Option Addr) : Res (Heap T) :=
  match p with
  | none => .error .undefined
  | some a => if h.live a then .ok (h.setRight a x) else .error .undefined

/-- `p->parent = x`. -/
def wrParent (h : Heap T) (p x : Option Addr) : Res (Heap T) :=
  match p with
  | none => .error .undefined
  | some a => if h.live a then .ok (h.setParent a x) else .error .undefined

/-- `if (p) p->parent = x;`. -/
def wrParentIf (h : Heap T) (p x : Option Addr) : Res (Heap T) :=
  match p with
  | none => .ok h
  | some a => h.wrParent (some a) x

/-- `new node(val)`: a fresh address holding a node with null links, an empty
registry, the given value, and the key drawn from the generator. -/
def newNode (h : Heap T) (val : T) (k : Nat) : Heap T × Addr :=
  ({ h with
      obj := Function.update h.obj h.next (.node val k)
      left := Function.update h.left h.next none
      right := Function.update h.right h.next none
      parent := Function.update h.parent h.next none
      iterators := Function.update h.iterators h.next []
      next := h.next + 1 }, h.next)

/-- `delete p` with `~base_node`: every registered iterator gets `is_valid = false`,
then the object is gone.  The registry holds pointers: writing through one whose
iterator object no longer exists is undefined. -/
def delete (h : Heap T) (p : Option Addr) : Res (Heap T) :=
  match p with
  | none => .ok h
  | some a =>
    if h.live a then
      if (h.iterators a).all (fun i => (h.its i).isSome) then
        .ok { h with
          its := fun i =>
            if i ∈ h.iterators a then (h.its i).map (fun it => { it with is_valid := false })
            else h.its i
          obj := Function.update h.obj a .free
          iterators := Function.update h.iterators a [] }
      else .error .undefined
    else .error .undefined

/-- The iterator object with the given identity. -/
def getIt (h : Heap T) (i : Nat) : Res set_iterator :=
  match h.its i with
  | some it => .ok it
  | none => .error .undefined

/-- Overwrite the members of an iterator object. -/
def setIt (h : Heap T) (i : Nat) (it : set_iterator) : Heap T :=
  { h with its := Function.update h.its i (some it) }

end Heap

namespace set_iterator

variable {T : Type}

/-- `vector_add`. -/
def vector_add (h : Heap T) (i : Nat) : Res (Heap T) := do
  let it ← h.getIt i
  if it.is_valid then
    match it.node with
    | none => .error .undefined
    | some a =>
      if h.live a then
        .ok { h with iterators := Function.update h.iterators a (h.iterators a ++ [i]) }
      else .error .undefined
  else .ok h

/-- `vector_del`. -/
def vector_del (h : Heap T) (i : Nat) : Res (Heap T) := do
  let it ← h.getIt i
  if it.is_valid then
    match it.node with
    | none => .error .undefined
    | some a =>
      if h.live a then
        .ok { h with iterators := Function.update h.iterators a ((h.iterators a).erase i) }
      else .error .undefined
  else .ok h

/-- `change_node`. -/
def change_node (h : Heap T) (i : Nat) (new_node : Option Addr) : Res (Heap T) := do
  let h1 ← vector_del h i
  let it ← h1.getIt i
  vector_add (h1.setIt i { it with node := new_node }) i

/-- `set_iterator(base_node* node, const set* host)`: a new iterator object. -/
def create (h : Heap T) (node host : Option Addr) : Res (Heap T × Nat) := do
  let i := h.nextIt
  let h1 := { h.setIt i ⟨node, true, host⟩ with nextIt := i + 1 }
  let h2 ← vector_add h1 i
  .ok (h2, i)

/-- `set_iterator()`: a new singular iterator object. -/
def singular (h : Heap T) : Heap T × Nat :=
  ({ h.setIt h.nextIt ⟨none, false, none⟩ with nextIt := h.nextIt + 1 }, h.nextIt)

/-- `set_iterator(const set_iterator& other)`: a new iterator object. -/
def copy (h : Heap T) (other : Nat) : Res (Heap T × Nat) := do
  let o ← h.getIt other
  let i := h.nextIt
  let h1 := { h.setIt i o with nextIt := i + 1 }
  let h2 ← vector_add h1 i
  .ok (h2, i)

/-- `operator=(const set_iterator& other)`. -/
def assign (h : Heap T) (i other : Nat) : Res (Heap T) := do
  if i ≠ other then
    let h1 ← vector_del h i
    let _ ← h1.getIt i
    let o ← h1.getIt other
    vector_add (h1.setIt i o) i
  else .ok h

/-- `~set_iterator()`: the object deregisters itself and ceases to exist. -/
def destroy (h : Heap T) (i : Nat) : Res (Heap T) := do
  let h1 ← vector_del h i
  .ok { h1 with its := Function.update h1.its i none }

/-- `operator*`. -/
def deref (h : Heap T) (i : Nat) : Res T := do
  let it ← h.getIt i
  check it.is_valid
  let r ← h.rdRight it.node
  check (it.node != r)
  h.value it.node

/-- The loop `while (_node->left != nullptr && _node->left != _node) change_node(_node->left);`. -/
def descend_left : Nat → Heap T → Nat → Res (Heap T)
  | 0, _, _ => .error .fuel
  | n + 1, h, i => do
    let it ← h.getIt i
    let l ← h.rdLeft it.node
    if l != none && l != it.node then
      let h1 ← change_node h i l
      descend_left n h1 i
    else .ok h

/-- The loop `while (_node->right != nullptr && _node->right != _node) change_node(_node->right);`. -/
def descend_right : Nat → Heap T → Nat → Res (Heap T)
  | 0, _, _ => .error .fuel
  | n + 1, h, i => do
    let it ← h.getIt i
    let r ← h.rdRight it.node
    if r != none && r != it.node then
      let h1 ← change_node h i r
      descend_right n h1 i
    else .ok h

/-- The loop of `operator++` that climbs while the node is a right child, followed
by the final `change_node(parent)`. -/
def climb_right : Nat → Heap T → Nat → Option Addr → Res (Heap T)
  | 0, _, _, _ => .error .fuel
  | n + 1, h, i, parent => do
    let it ← h.getIt i
    let np ← h.rdParent it.node
    if np != none then
      let pr ← h.rdRight parent
      if it.node == pr then
        let h1 ← change_node h i parent
        let pp ← h1.rdParent parent
        climb_right n h1 i pp
      else change_node h i parent
    else change_node h i parent

/-- The loop of `operator--` that climbs while the node is a left child, followed
by the final `change_node(parent)`. -/
def climb_left : Nat → Heap T → Nat → Option Addr → Res (Heap T)
  | 0, _, _, _ => .error .fuel
  | n + 1, h, i, parent => do
    let it ← h.getIt i
    if parent != none then
      let pl ← h.rdLeft parent
      if it.node == pl then
        let pr ← h.rdRight parent
        if it.node != pr then
          let h1 ← change_node h i parent
          let pp ← h1.rdParent parent
          climb_left n h1 i pp
        else change_node h i parent
      else change_node h i parent
    else change_node h i parent

/-- `operator++()`. -/
def incr (h : Heap T) (i : Nat) : Res (Heap T) := do
  let it ← h.getIt i
  check it.is_valid
  let r ← h.rdRight it.node
  check (it.node != r)
  if r != none then
    let h1 ← change_node h i r
    descend_left h.fuel h1 i
  else
    let parent ← h.rdParent it.node
    climb_right h.fuel h i parent

/-- `operator--()`. -/
def decr (h : Heap T) (i : Nat) : Res (Heap T) := do
  let it ← h.getIt i
  check it.is_valid
  let l ← h.rdLeft it.node
  let h2 ←
    if l != none && l != it.node then do
      let h1 ← change_node h i l
      descend_right h.fuel h1 i
    else do
      let parent ← h.rdParent it.node
      climb_left h.fuel h i parent
  let it2 ← h2.getIt i
  let r ← h2.rdRight it2.node
  check (it2.node != r)
  .ok h2

/-- `operator++(int)`: returns the copy made before the increment. -/
def post_incr (h : Heap T) (i : Nat) : Res (Heap T × Nat) := do
  let (h1, tmp) ← copy h i
  let h2 ← incr h1 i
  .ok (h2, tmp)

/-- `operator--(int)`: returns the copy made before the decrement. -/
def post_decr (h : Heap T) (i : Nat) : Res (Heap T × Nat) := do
  let (h1, tmp) ← copy h i
  let h2 ← decr h1 i
  .ok (h2, tmp)

/-- `operator==`. -/
def eq (h : Heap T) (i j : Nat) : Res Bool := do
  let a ← h.getIt i
  let b ← h.getIt j
  check a.is_valid
  check b.is_valid
  check (a.owner == b.owner)
  .ok (a.node == b.node)

/-- `operator!=`. -/
def ne (h : Heap T) (i j : Nat) : Res Bool := do
  let a ← h.getIt i
  let b ← h.getIt j
  check a.is_valid
  check b.is_valid
  check (a.owner == b.owner)
  .ok (a.node != b.node)

end set_iterator

namespace set_iterator

variable {T : Type}

/-- The statement `it = set_iterator(node, host);`: a temporary is constructed,
assigned to `it`, and destroyed. -/
def assign_new (h : Heap T) (it : Nat) (node host : Option Addr) : Res (Heap T) := do
  let (h1, tmp) ← create h node host
  let h2 ← assign h1 it tmp
  destroy h2 tmp

end set_iterator

namespace set

open set_iterator

variable {T : Type} [LinearOrder T]

/-- `set()`: the `_root` member is a `base_node` whose three links reference itself,
and `_size` is 0. -/
def construct (h : Heap T) : Heap T × Addr :=
  ({ h with
      obj := Function.update h.obj h.next .base
      left := Function.update h.left h.next (some h.next)
      right := Function.update h.right h.next (some h.next)
      parent := Function.update h.parent h.next (some h.next)
      iterators := Function.update h.iterators h.next []
      size := Function.update h.size h.next 0
      next := h.next + 1 }, h.next)

/-- `size()`. -/
def size (h : Heap T) (s : Addr) : Nat := h.size s

/-- `empty()`. -/
def empty (h : Heap T) (s : Addr) : Bool := size h s == 0

/-- `_size++`. -/
def size_inc (h : Heap T) (s : Addr) : Heap T :=
  { h with size := Function.update h.size s (h.size s + 1) }

/-- `_size--` on a `size_t`: 0 wraps around. -/
def size_dec (h : Heap T) (s : Addr) : Heap T :=
  { h with size := Function.update h.size s (if h.size s = 0 then 2 ^ 64 - 1 else h.size s - 1) }

/-- `end()`. -/
def end_ (h : Heap T) (s : Addr) : Res (Heap T × Nat) :=
  create h (some s) (some s)

/-- `most_left`. -/
def most_left : Nat → Heap T → Option Addr → Res (Option Addr)
  | 0, _, _ => .error .fuel
  | n + 1, h, curr => do
    let l ← h.rdLeft curr
    if l != none then most_left n h l else .ok curr

/-- `begin()`. -/
def begin (h : Heap T) (s : Addr) : Res (Heap T × Nat) := do
  if empty h s then end_ h s
  else
    let l ← h.rdLeft (some s)
    let m ← most_left h.fuel h l
    create h m (some s)

/-- The private `find(base_node* t, const T& value)`. -/
def find_rec : Nat → Heap T → Option Addr → T → Res (Option Addr)
  | 0, _, _, _ => .error .fuel
  | _ + 1, _, none, _ => .ok none
  | n + 1, h, some a, value => do
    let x ← h.value (some a)
    if x = value then .ok (some a)
    else if value < x then
      let l ← h.rdLeft (some a)
      find_rec n h l value
    else
      let r ← h.rdRight (some a)
      find_rec n h r value

/-- `split`.  The two reference parameters are returned; the caller stores them
where the references pointed. -/
def split : Nat → Heap T → Option Addr → T → Res (Heap T × Option Addr × Option Addr)
  | 0, _, _, _ => .error .fuel
  | _ + 1, h, none, _ => .ok (h, none, none)
  | n + 1, h, some a, value => do
    let x ← h.value (some a)
    if x < value then
      let r ← h.rdRight (some a)
      let (h1, l1, r1) ← split n h r value
      let h2 ← h1.wrRight (some a) l1
      let h3 ← h2.wrParentIf l1 (some a)
      let h4 ← h3.wrParent (some a) none
      .ok (h4, some a, r1)
    else
      let l ← h.rdLeft (some a)
      let (h1, l1, r1) ← split n h l value
      let h2 ← h1.wrLeft (some a) r1
      let h3 ← h2.wrParentIf r1 (some a)
      let h4 ← h3.wrParent (some a) none
      .ok (h4, l1, some a)

/-- `merge`. -/
def merge : Nat → Heap T → Option Addr → Option Addr → Res (Heap T × Option Addr)
  | 0, _, _, _ => .error .fuel
  | _ + 1, h, none, right => .ok (h, right)
  | _ + 1, h, some a, none => .ok (h, some a)
  | n + 1, h, some a, some b => do
    let ka ← h.key (some a)
    let kb ← h.key (some b)
    if ka > kb then
      let r ← h.rdRight (some a)
      let (h1, m) ← merge n h r (some b)
      let h2 ← h1.wrRight (some a) m
      let h3 ← h2.wrParentIf m (some a)
      .ok (h3, some a)
    else
      let l ← h.rdLeft (some b)
      let (h1, m) ← merge n h (some a) l
      let h2 ← h1.wrLeft (some b) m
      let h3 ← h2.wrParentIf m (some b)
      .ok (h3, some b)

/-- The public `find(const T& value)`. -/
def find (h : Heap T) (s : Addr) (value : T) : Res (Heap T × Nat) := do
  if empty h s then end_ h s
  else
    let root ← h.rdLeft (some s)
    let ans ← find_rec h.fuel h root value
    if ans != none then create h ans (some s) else end_ h s

/-- `insert`.  The key of the new node is the number the generator returns. -/
def insert (h : Heap T) (s : Addr) (value : T) (k : Nat) : Res (Heap T × Nat × Bool) := do
  let (h, it) := singular h
  if empty h s then
    let (h, new_node) := h.newNode value k
    let h ← assign_new h it (some new_node) (some s)
    let h ← h.wrLeft (some s) (some new_node)
    let h ← h.wrParent (some new_node) (some s)
    let h := size_inc h s
    let (h, r) ← create h (some new_node) (some s)
    let h ← destroy h it
    .ok (h, r, true)
  else
    let root ← h.rdLeft (some s)
    let try_find ← find_rec h.fuel h root value
    if try_find != none then
      let (h, r) ← create h try_find (some s)
      let h ← destroy h it
      .ok (h, r, false)
    else
      let (h, new_node) := h.newNode value k
      let h ← assign_new h it (some new_node) (some s)
      let root ← h.rdLeft (some s)
      let (h, left, right) ← split h.fuel h root value
      let (h, m) ← merge h.fuel h left (some new_node)
      let (h, root) ← merge h.fuel h m right
      let h ← h.wrParent root (some s)
      let h ← h.wrLeft (some s) root
      let h := size_inc h s
      let (h, r) ← copy h it
      let h ← destroy h it
      .ok (h, r, true)

/-- `erase(const_iterator pos)`.  The parameter is a copy of the caller's iterator,
and it is returned. -/
def erase (h : Heap T) (s : Addr) (p : Nat) : Res (Heap T × Nat) := do
  let (h, pos) ← copy h p
  let it ← h.getIt pos
  check it.is_valid
  check (it.owner == some s)
  check (it.node != some s)
  let h := size_dec h s
  let this_node := it.node
  let (h, tmp) ← post_incr h pos
  let h ← destroy h tmp
  let l ← h.rdLeft this_node
  let r ← h.rdRight this_node
  let (h, kids) ← merge h.fuel h l r
  let h ←
    if this_node == some s then do
      let h ← h.wrParent kids (some s)
      h.wrLeft (some s) kids
    else do
      let par ← h.rdParent this_node
      let pl ← h.rdLeft par
      let h ← if pl == this_node then h.wrLeft par kids else h.wrRight par kids
      match kids with
      | none => .ok h
      | some c => do
        let par2 ← h.rdParent this_node
        h.wrParent (some c) par2
  let h ← h.delete this_node
  .ok (h, pos)

/-- `erase(const T& value)`. -/
def erase_value (h : Heap T) (s : Addr) (value : T) : Res (Heap T × Nat) := do
  if empty h s then .ok (h, 0)
  else
    let (h, ans) ← find h s value
    let (h, e) ← end_ h s
    let b ← set_iterator.eq h ans e
    let h ← destroy h e
    if b then
      let h ← destroy h ans
      .ok (h, 0)
    else
      let (h, r) ← erase h s ans
      let h ← destroy h r
      let h ← destroy h ans
      .ok (h, 1)

/-- The loop of `lower_bound`. -/
def lower_loop : Nat → Heap T → Addr → Nat → Option Addr → T → Res (Heap T)
  | 0, _, _, _, _, _ => .error .fuel
  | n + 1, h, s, result, current, value => do
    if current != none then
      let r ← h.rdRight current
      if current != r then
        let x ← h.value current
        if x ≥ value then
          let h ← assign_new h result current (some s)
          let l ← h.rdLeft current
          lower_loop n h s result l value
        else
          let r ← h.rdRight current
          lower_loop n h s result r value
      else .ok h
    else .ok h

/-- `lower_bound`. -/
def lower_bound (h : Heap T) (s : Addr) (value : T) : Res (Heap T × Nat) := do
  let current ← h.rdLeft (some s)
  let (h, result) ← end_ h s
  let h ← lower_loop h.fuel h s result current value
  .ok (h, result)

/-- The loop of `upper_bound`. -/
def upper_loop : Nat → Heap T → Addr → Nat → Option Addr → T → Res (Heap T)
  | 0, _, _, _, _, _ => .error .fuel
  | n + 1, h, s, result, current, value => do
    if current != none then
      let r ← h.rdRight current
      if current != r then
        let x ← h.value current
        if x > value then
          let h ← assign_new h result current (some s)
          let l ← h.rdLeft current
          upper_loop n h s result l value
        else
          let r ← h.rdRight current
          upper_loop n h s result r value
      else .ok h
    else .ok h

/-- `upper_bound`. -/
def upper_bound (h : Heap T) (s : Addr) (value : T) : Res (Heap T × Nat) := do
  let current ← h.rdLeft (some s)
  let (h, result) ← end_ h s
  let h ← upper_loop h.fuel h s result current value
  .ok (h, result)

/-- The loop `for (; it != last; ++it) out.push_back(*it);` of a client. -/
def walk : Nat → Heap T → Nat → Nat → Res (Heap T × List T)
  | 0, _, _, _ => .error .fuel
  | n + 1, h, it, last => do
    let b ← set_iterator.ne h it last
    if b then
      let v ← deref h it
      let h1 ← incr h it
      let (h2, vs) ← walk n h1 it last
      .ok (h2, v :: vs)
    else .ok (h, [])

/-- A client reading the set from `begin()` to `end()`. -/
def traverse (h : Heap T) (s : Addr) : Res (List T) := do
  let (h, it) ← begin h s
  let (h, last) ← end_ h s
  let (_, vs) ← walk h.fuel h it last
  .ok vs

/-- The loop `while (it != first) out.push_back(*--it);` of a client. -/
def walk_back : Nat → Heap T → Nat → Nat → Res (Heap T × List T)
  | 0, _, _, _ => .error .fuel
  | n + 1, h, it, first => do
    let b ← set_iterator.ne h it first
    if b then
      let h1 ← decr h it
      let v ← deref h1 it
      let (h2, vs) ← walk_back n h1 it first
      .ok (h2, v :: vs)
    else .ok (h, [])

/-- A client reading the set backwards from `end()` to `begin()`. -/
def traverse_back (h : Heap T) (s : Addr) : Res (List T) := do
  let (h, it) ← end_ h s
  let (h, first) ← begin h s
  let (_, vs) ← walk_back h.fuel h it first
  .ok vs

end set

/-- The shape of the element nodes below a `_root`: which node is where, with its
value and key.  Used to state what the heap holds. -/
inductive Treap (T : Type)
  | nil
  | node (l : Treap T) (a : Addr) (v : T) (k : Nat) (r : Treap T)

namespace Treap

variable {T : Type}

/-- Addresses of the nodes, in order. -/
def addrs : Treap T → List Addr
  | nil => []
  | node l a _ _ r => l.addrs ++ a :: r.addrs

/-- Values of the nodes, in order. -/
def values : Treap T → List T
  | nil => []
  | node l _ v _ r => l.values ++ v :: r.values

/-- Number of nodes. -/
def size : Treap T → Nat
  | nil => 0
  | node l _ _ _ r => l.size + 1 + r.size

/-- The pointer to the tree: its top node, or null. -/
def root : Treap T → Option Addr
  | nil => none
  | node _ a _ _ _ => some a

/-- The first node in order, or `e` for no node. -/
def first : Treap T → Addr → Addr
  | nil, e => e
  | node l a _ _ _, _ => l.first a

/-- The last node in order, or `e` for no node. -/
def last : Treap T → Addr → Addr
  | nil, e => e
  | node _ a _ _ r, _ => r.last a

/-- The node after `x` in order; `e` after the last one. -/
def next : Treap T → Addr → Addr → Addr
  | nil, _, e => e
  | node l a _ _ r, x, e =>
    if x ∈ l.addrs then l.next x a
    else if x = a then r.first e
    else r.next x e

/-- The node before `x` in order; `e` before the first one. -/
def prev : Treap T → Addr → Addr → Addr
  | nil, _, e => e
  | node l a _ _ r, x, e =>
    if x ∈ r.addrs then r.prev x a
    else if x = a then l.last e
    else l.prev x e

/-- The value stored in node `x`. -/
def valueAt : Treap T → Addr → Option T
  | nil, _ => none
  | node l a v _ r, x =>
    if x = a then some v
    else match l.valueAt x with
      | some w => some w
      | none => r.valueAt x

/-- Search-tree order: everything on the left is smaller, everything on the right
is greater. -/
def BST [LinearOrder T] : Treap T → Prop
  | nil => True
  | node l _ v _ r => (∀ x ∈ l.values, x < v) ∧ (∀ x ∈ r.values, v < x) ∧ l.BST ∧ r.BST

/-- Heap order on the keys: no child has a larger key than its parent. -/
def HeapOrdered : Treap T → Prop
  | nil => True
  | node l _ _ k r =>
    (∀ kl, (match l with | nil => none | node _ _ _ j _ => some j) = some kl → kl ≤ k) ∧
    (∀ kr, (match r with | nil => none | node _ _ _ j _ => some j) = some kr → kr ≤ k) ∧
    l.HeapOrdered ∧ r.HeapOrdered

/-- What `split` computes, on shapes. -/
def split [LinearOrder T] : Treap T → T → Treap T × Treap T
  | nil, _ => (nil, nil)
  | node l a v k r, x =>
    if v < x then ((node l a v k (r.split x).1), (r.split x).2)
    else ((l.split x).1, node (l.split x).2 a v k r)

/-- What `merge` computes, on shapes. -/
def merge : Treap T → Treap T → Treap T
  | nil, r => r
  | node ll a v k lr, nil => node ll a v k lr
  | node ll a v k lr, node rl b w j rr =>
    if k > j then node ll a v k (merge lr (node rl b w j rr))
    else node (merge (node ll a v k lr) rl) b w j rr
  termination_by l r => l.size + r.size
  decreasing_by
    all_goals simp_wf
    all_goals simp only [size]
    all_goals omega

/-- What the private `find` computes, on shapes. -/
def find [LinearOrder T] : Treap T → T → Option Addr
  | nil, _ => none
  | node l a v _ r, x =>
    if v = x then some a
    else if x < v then l.find x
    else r.find x

/-- What the loop of `lower_bound` computes, on shapes: the node of the last
value `≥ x` met on the way down, or `res`. -/
def lower [LinearOrder T] : Treap T → T → Addr → Addr
  | nil, _, res => res
  | node l a v _ r, x, res =>
    if v ≥ x then l.lower x a else r.lower x res

/-- What the loop of `upper_bound` computes, on shapes. -/
def upper [LinearOrder T] : Treap T → T → Addr → Addr
  | nil, _, res => res
  | node l a v _ r, x, res =>
    if v > x then l.upper x a else r.upper x res

/-- The tree with node `x` removed and its two subtrees merged in its place,
as `erase` does. -/
def remove : Treap T → Addr → Treap T
  | nil, _ => nil
  | node l a v k r, x =>
    if x = a then merge l r
    else if x ∈ l.addrs then node (l.remove x) a v k r
    else node l a v k (r.remove x)

section order

variable [LinearOrder T]

end order

end Treap

namespace Heap

variable {T : Type}

/-- The state after `if (p) p->parent = x;`. -/
def setParentIf (h : Heap T) (p x : Option Addr) : Heap T :=
  match p with
  | none => h
  | some b => h.setParent b x

/-- The heap holds the nodes of the shape, linked as the shape says. -/
def Rep (h : Heap T) : Treap T → Prop
  | .nil => True
  | .node l a v k r =>
    h.obj a = .node v k ∧ h.left a = l.root ∧ h.right a = r.root ∧ Rep h l ∧ Rep h r

/-- Every node below the top of the shape has its `parent` link referencing its
actual parent. -/
def ParIn (h : Heap T) : Treap T → Prop
  | .nil => True
  | .node l a _ _ r =>
    (∀ b, l.root = some b → h.parent b = some a) ∧
    (∀ b, r.root = some b → h.parent b = some a) ∧ ParIn h l ∧ ParIn h r

/-- As `ParIn`, and the top node's `parent` link is `p`. -/
def Par (h : Heap T) (t : Treap T) (p : Option Addr) : Prop :=
  (∀ b, t.root = some b → h.parent b = p) ∧ ParIn h t

/-- The second state differs from the first only in the links of the addresses
listed. -/
structure Frame (h h' : Heap T) (A : List Addr) : Prop where
  obj : h'.obj = h.obj
  iterators : h'.iterators = h.iterators
  its : h'.its = h.its
  size : h'.size = h.size
  next : h'.next = h.next
  nextIt : h'.nextIt = h.nextIt
  left : ∀ a, a ∉ A → h'.left a = h.left a
  right : ∀ a, a ∉ A → h'.right a = h.right a
  parent : ∀ a, a ∉ A → h'.parent a = h.parent a

end Heap

namespace Treap

variable {T : Type}

section order

variable [LinearOrder T]

end order

end Treap

namespace Heap

variable {T : Type}

/-- Well-formed registries and allocation: a node's registry lists exactly the
valid iterator objects referencing it, each once; identities from `nextIt` on and
addresses from `next` on are unused; a deleted object has no registry. -/
structure WF (h : Heap T) : Prop where
  reg_it : ∀ a i, i ∈ h.iterators a → ∃ o, h.its i = some ⟨some a, true, o⟩
  it_reg : ∀ i it, h.its i = some it → it.is_valid = true →
    ∃ a, it.node = some a ∧ i ∈ h.iterators a
  fresh : ∀ i, h.nextIt ≤ i → h.its i = none
  nodup : ∀ a, (h.iterators a).Nodup
  dead : ∀ a, h.live a = false → h.iterators a = []
  alloc : ∀ a, h.next ≤ a → h.live a = false

/-- The two states have the same objects, links and sizes; they may differ in the
iterator objects and registries. -/
structure Same (h h' : Heap T) : Prop where
  obj : h'.obj = h.obj
  left : h'.left = h.left
  right : h'.right = h.right
  parent : h'.parent = h.parent
  size : h'.size = h.size
  next : h'.next = h.next

/-- The objects, links and sizes at the addresses in use that are not listed in `A`
are the same in both states, and no address in use was given up. -/
structure Outside (h h' : Heap T) (A : List Addr) : Prop where
  obj : ∀ x, x ∉ A → x < h.next → h'.obj x = h.obj x
  left : ∀ x, x ∉ A → x < h.next → h'.left x = h.left x
  right : ∀ x, x ∉ A → x < h.next → h'.right x = h.right x
  parent : ∀ x, x ∉ A → x < h.next → h'.parent x = h.parent x
  size : ∀ x, x ∉ A → h'.size x = h.size x
  next : h.next ≤ h'.next

/-- The state in which iterator object `i` has the members `it` and is registered
accordingly (and nowhere else). -/
def place (h : Heap T) (i : Nat) (it : set_iterator) : Heap T :=
  { h with
    its := Function.update h.its i (some it)
    nextIt := max h.nextIt (i + 1)
    iterators := fun a =>
      if it.is_valid = true ∧ it.node = some a then (h.iterators a).erase i ++ [i]
      else (h.iterators a).erase i }

/-- The state in which iterator object `i` no longer exists. -/
def remove (h : Heap T) (i : Nat) : Heap T :=
  { h with
    its := Function.update h.its i none
    iterators := fun a => (h.iterators a).erase i }

end Heap

namespace Treap

variable {T : Type}

/-- Addresses with values, in order. -/
def pairs : Treap T → List (Addr × T)
  | nil => []
  | node l a v _ r => l.pairs ++ (a, v) :: r.pairs

end Treap

namespace set_iterator

open Heap

variable {T : Type}

/-- Iterator object `i` now references node `b` (valid, owner `o`); apart from
that only registries changed. -/
structure Moved (h h' : Heap T) (i : Nat) (b : Addr) (o : Option Addr) : Prop where
  same : Same h h'
  wf : h'.WF
  here : h'.its i = some ⟨some b, true, o⟩
  others : ∀ j, j ≠ i → h'.its j = h.its j
  nextIt : h'.nextIt = h.nextIt

end set_iterator

namespace set_iterator

open Heap

variable {T : Type}

/-- The closing assertion of `operator--`. -/
def decr_tail (i : Nat) (h2 : Heap T) : Res (Heap T) :=
  h2.getIt i >>= fun it2 => h2.rdRight it2.node >>= fun r =>
    check (it2.node != r) >>= fun _ => .ok h2

end set_iterator

namespace set

open Heap set_iterator

variable {T : Type} [LinearOrder T]

/-- The links of the set at `s` hold exactly the nodes of the shape `t`: the
sentinel is a plain `base_node`, the nodes are linked below `_root.left` as the shape
says with correct `parent` links, and the sentinel's `right` link references no
element node and no unused address. -/
structure Shape (h : Heap T) (s : Addr) (t : Treap T) : Prop where
  wf : h.WF
  base : h.obj s = .base
  rep : h.Rep t
  root : t ≠ .nil → h.left s = t.root
  par : h.Par t (some s)
  nodup : t.addrs.Nodup
  right : ∀ r, h.right s = some r → r ∉ t.addrs ∧ r < h.next

/-- The representation invariant of the set at `s` with content `t`: the links
hold the shape, `_size` counts its nodes, and it is a search tree. -/
structure Inv (h : Heap T) (s : Addr) (t : Treap T) extends Shape h s t : Prop where
  size : h.size s = t.size
  bst : t.BST

end set

namespace Treap

variable {T : Type} [LinearOrder T]

/-- The shape after `insert` adds a node `a` holding the absent value `v`. -/
def insert (t : Treap T) (a : Addr) (v : T) (k : Nat) : Treap T :=
  merge (merge (t.split v).1 (node nil a v k nil)) (t.split v).2

end Treap

namespace set

open Heap set_iterator

variable {T : Type} [LinearOrder T]

/-- What a successful insertion of an absent value leaves. -/
structure Inserted (h h' : Heap T) (s : Addr) (t : Treap T) (v : T) (k : Nat) (r : Nat) : Prop where
  inv : Inv h' s (t.insert h.next v k)
  here : h'.its r = some ⟨some h.next, true, some s⟩
  id : r = h.nextIt + 2
  nextIt : h'.nextIt = h.nextIt + 3
  next : h'.next = h.next + 1
  others : ∀ j, j < h.nextIt → h'.its j = h.its j
  live : ∀ a, h'.live a = (if a = h.next then true else h.live a)
  right_s : h'.right s = h.right s
  parent_s : h'.parent s = h.parent s
  outside : Outside h h' (s :: t.addrs)

end set

namespace Treap

variable {T : Type}

/-- The left subtree of node `x`. -/
def lsub : Treap T → Addr → Treap T
  | nil, _ => nil
  | node l a _ _ r, x =>
    if x = a then l else if x ∈ l.addrs then l.lsub x else r.lsub x

/-- The right subtree of node `x`. -/
def rsub : Treap T → Addr → Treap T
  | nil, _ => nil
  | node l a _ _ r, x =>
    if x = a then r else if x ∈ l.addrs then l.rsub x else r.rsub x

/-- The parent of node `x`, where `p` is the parent of the top node. -/
def parentOf : Treap T → Addr → Addr → Addr
  | nil, _, p => p
  | node l a _ _ r, x, p =>
    if x = a then p else if x ∈ l.addrs then l.parentOf x a else r.parentOf x a

end Treap

namespace Heap

variable {T : Type}

/-- The state after `delete` of the object at `a`. -/
def deleted (h : Heap T) (a : Addr) : Heap T :=
  { h with
    its := fun i =>
      if i ∈ h.iterators a then (h.its i).map (fun it => { it with is_valid := false })
      else h.its i
    obj := Function.update h.obj a .free
    iterators := Function.update h.iterators a [] }

/-- State `h'` is `h` with node `a` cut out: its two subtrees `la` and `ra` are
merged, the result hangs where `a` hung below its parent `pa`, and nothing else
changed. -/
structure Spliced (h h' : Heap T) (a pa : Addr) (la ra : Treap T) : Prop where
  obj : h'.obj = h.obj
  links : ∀ x, x ∉ la.addrs ++ ra.addrs → x ≠ pa →
    h'.left x = h.left x ∧ h'.right x = h.right x
  parent : ∀ x, x ∉ la.addrs ++ ra.addrs → h'.parent x = h.parent x
  rep : h'.Rep (Treap.merge la ra)
  parIn : h'.ParIn (Treap.merge la ra)
  slotL : h.left pa = some a →
    h'.left pa = (Treap.merge la ra).root ∧ h'.right pa = h.right pa
  slotR : h.left pa ≠ some a →
    h'.right pa = (Treap.merge la ra).root ∧ h'.left pa = h.left pa
  kids : ∀ c, (Treap.merge la ra).root = some c → h'.parent c = some pa

end Heap

namespace set

open Heap set_iterator

variable {T : Type} [LinearOrder T]

/-- What `erase` of a handle at node `a` leaves. -/
structure Erased (h h' : Heap T) (s : Addr) (t : Treap T) (a : Addr) : Prop where
  inv : Inv h' s (t.remove a)
  here : h'.its h.nextIt = some ⟨some (t.next a s), true, some s⟩
  nextIt : h'.nextIt = h.nextIt + 2
  next : h'.next = h.next
  live : ∀ x, h'.live x = (if x = a then false else h.live x)
  others : ∀ j it, h.its j = some it → ¬ (it.node = some a ∧ it.is_valid = true) →
    h'.its j = some it
  stale : ∀ j o, h.its j = some ⟨some a, true, o⟩ → h'.its j = some ⟨some a, false, o⟩
  right_s : h'.right s = h.right s
  parent_s : h'.parent s = h.parent s
  left_nil : t.remove a = .nil → h'.left s = none
  outside : Outside h h' (s :: t.addrs)

end set

namespace set

open Heap set_iterator

variable {T : Type} [LinearOrder T]

/-- What a loop that re-homes the result handle leaves. -/
structure Bound (h h' : Heap T) (s : Addr) (r : Nat) (b : Addr) : Prop where
  same : Same h h'
  wf : h'.WF
  here : h'.its r = some ⟨some b, true, some s⟩
  others : ∀ j, j < h.nextIt → j ≠ r → h'.its j = h.its j
  nextIt : h.nextIt ≤ h'.nextIt

end set

namespace set

open Heap set_iterator

variable {T : Type} [LinearOrder T]

/-- The client test `it == s.end()`. -/
def is_end (h : Heap T) (s : Addr) (it : Nat) : Res Bool := do
  let (h, e) ← end_ h s
  set_iterator.eq h it e

/-- The client test `s.begin() == s.end()`. -/
def begin_is_end (h : Heap T) (s : Addr) : Res Bool := do
  let (h, b) ← begin h s
  let (h, e) ← end_ h s
  set_iterator.eq h b e

/-- What removing the node `a` from the set leaves, whichever `erase` did it. -/
structure Dropped (h h' : Heap T) (s : Addr) (t : Treap T) (a : Addr) : Prop where
  inv : Inv h' s (t.remove a)
  live : ∀ x, h'.live x = (if x = a then false else h.live x)
  right_s : h'.right s = h.right s
  parent_s : h'.parent s = h.parent s
  left_nil : t.remove a = .nil → h'.left s = none
  outside : Outside h h' (s :: t.addrs)

end set

namespace set

open Heap set_iterator

variable {T : Type} [LinearOrder T]

/-- A call a client makes on one set.  A handle is named by the identity of its
iterator object; every handle a call returns is kept by the client. -/
inductive Op (T : Type)
  | insert (value : T) (key : Nat)
  | erase (pos : Nat)
  | erase_value (value : T)
  | find (value : T)
  | begin
  | end_

/-- The state after the call. -/
def Op.run (h : Heap T) (s : Addr) : Op T → Res (Heap T)
  | .insert value key => do
    let (h, _, _) ← set.insert h s value key
    .ok h
  | .erase pos => do
    let (h, _) ← set.erase h s pos
    .ok h
  | .erase_value value => do
    let (h, _) ← set.erase_value h s value
    .ok h
  | .find value => do
    let (h, _) ← set.find h s value
    .ok h
  | .begin => do
    let (h, _) ← set.begin h s
    .ok h
  | .end_ => do
    let (h, _) ← set.end_ h s
    .ok h

/-- The precondition of the call: `erase(pos)` needs a valid handle of this set
that is not `end()`; the other calls need nothing. -/
def Op.ready (h : Heap T) (s : Addr) : Op T → Bool
  | .erase pos =>
    match h.its pos with
    | some it => it.is_valid && it.owner == some s && it.node != some s
    | none => false
  | _ => true

/-- The state after a sequence of calls. -/
def run (h : Heap T) (s : Addr) : List (Op T) → Res (Heap T)
  | [] => .ok h
  | op :: ops => do
    let h ← op.run h s
    run h s ops

/-- Every call of the sequence is made with its precondition met. -/
def ready (h : Heap T) (s : Addr) : List (Op T) → Bool
  | [] => true
  | op :: ops =>
    op.ready h s &&
      match op.run h s with
      | .ok h1 => ready h1 s ops
      | .error _ => true

/-- A freshly constructed set in a program that has no other object. -/
def fresh : Heap T × Addr := construct Heap.empty

/-- The calls that insert the given values with the given keys, in order. -/
def inserts (ins : List (T × Nat)) : List (Op T) :=
  ins.map (fun p => Op.insert p.1 p.2)

/-- The element nodes reachable from a link through `left` and `right`, in order.
A link to the sentinel, a null link and a link to a deleted object reach none. -/
def reachable : Nat → Heap T → Option Addr → List Addr
  | 0, _, _ => []
  | _ + 1, _, none => []
  | n + 1, h, some a =>
    match h.obj a with
    | .node _ _ => reachable n h (h.left a) ++ a :: reachable n h (h.right a)
    | _ => []

/-- The invariant of a program whose only object is the set at `s`: the
representation invariant, every stored object is the sentinel or an element node,
the sentinel's `right` and `parent` links reference the sentinel, and the `left`
link of an empty set references the sentinel or is null. -/
structure Solo (h : Heap T) (s : Addr) (t : Treap T) extends Inv h s t : Prop where
  closed : ∀ a, h.live a = true → a = s ∨ a ∈ t.addrs
  right_s : h.right s = some s
  parent_s : h.parent s = some s
  left_s : t = .nil → h.left s = some s ∨ h.left s = none

end set

namespace set

open Heap set_iterator

variable {T : Type} [LinearOrder T]

/-- A client that constructs a set and makes the calls on it: the final state and
the set. -/
def build (ops : List (Op T)) : Res (Heap T × Addr) := do
  let h ← run (fresh (T := T)).1 (fresh (T := T)).2 ops
  .ok (h, (fresh (T := T)).2)

/-- Every call of the client is made with its precondition met. -/
def admissible (ops : List (Op T)) : Bool :=
  ready (fresh (T := T)).1 (fresh (T := T)).2 ops

end set

set_option maxRecDepth 100000

namespace set

open Heap set_iterator

/-- A client of a set of numbers: six insertions, one of them of a value that is
already present.  The keys make 5 the top node, with 3 and 8 below it and 1 and 4
below 3. -/
def sample_calls : List (Op Nat) :=
  [.insert 5 90, .insert 3 70, .insert 8 60, .insert 3 10, .insert 1 10, .insert 4 50]

/-- The state the client `sample_calls` ends in, and its set. -/
def sample : Heap Nat × Addr :=
  match build sample_calls with
  | .ok x => x
  | .error _ => (Heap.empty, 0)

/-- A client of a set of numbers that inserts, looks up and erases, by handle (the
handle `find` returned, then the handle the first `insert` returned) and by value. -/
def mixed_calls : List (Op Nat) :=
  [.insert 5 90, .insert 3 70, .insert 8 60, .find 3, .erase 9, .erase_value 8, .erase 2,
    .begin, .insert 7 1, .end_]

end set

namespace set

open Heap set_iterator

variable {T : Type} [LinearOrder T]

/-- `deleting`. -/
def deleting : Nat → Heap T → Option Addr → Res (Heap T)
  | 0, _, _ => .error .fuel
  | _ + 1, h, none => .ok h
  | n + 1, h, some a => do
    let l ← h.rdLeft (some a)
    let h ← deleting n h l
    let r ← h.rdRight (some a)
    let h ← deleting n h r
    h.delete (some a)

/-- `_size = 0`. -/
def size_zero (h : Heap T) (s : Addr) : Heap T :=
  { h with size := Function.update h.size s 0 }

/-- `clear()`. -/
def clear (h : Heap T) (s : Addr) : Res (Heap T) := do
  if empty h s then .ok h
  else
    let l ← h.rdLeft (some s)
    let h ← deleting h.fuel h l
    .ok (size_zero h s)

/-- `~set()`, followed by the destruction of the `_root` member. -/
def destruct (h : Heap T) (s : Addr) : Res (Heap T) := do
  let h ←
    if empty h s then .ok h
    else do
      let l ← h.rdLeft (some s)
      deleting h.fuel h l
  h.delete (some s)

/-- The loop `for (...; t != other.end(); t++) insert(*t);` of the copy constructor.
The new nodes take their keys from `keys`, in order. -/
def copy_loop : Nat → Heap T → Addr → Addr → Nat → (Nat → Nat) → Res (Heap T)
  | 0, _, _, _, _, _ => .error .fuel
  | n + 1, h, this, other, t, keys => do
    let (h, e) ← end_ h other
    let b ← set_iterator.ne h t e
    let h ← destroy h e
    if b then
      let v ← deref h t
      let (h, r, _) ← insert h this v (keys 0)
      let h ← destroy h r
      let (h, tmp) ← post_incr h t
      let h ← destroy h tmp
      copy_loop n h this other t (fun i => keys (i + 1))
    else .ok h

/-- `set(const set& other)`: the new set is returned. -/
def copy_construct (h : Heap T) (other : Addr) (keys : Nat → Nat) : Res (Heap T × Addr) := do
  let fuel := h.fuel
  let (h, this) := construct h
  let (h, t) ← begin h other
  let h ← copy_loop fuel h this other t keys
  let h ← destroy h t
  .ok (h, this)

/-- `std::swap(a, b)` on two `base_node` objects.  `base_node` declares a destructor,
so it has no move operations: a temporary is copied from `a`, `b` is copied to `a`,
the temporary is copied to `b`, and the temporary is destroyed.  The copies take
the three links and the registry. -/
def swap_base (h : Heap T) (a b : Addr) : Res (Heap T) := do
  if h.live a && h.live b then
    let tmp := h.next
    let h1 : Heap T :=
      { h with
        obj := Function.update h.obj tmp .base
        left := Function.update h.left tmp (h.left a)
        right := Function.update h.right tmp (h.right a)
        parent := Function.update h.parent tmp (h.parent a)
        iterators := Function.update h.iterators tmp (h.iterators a)
        next := h.next + 1 }
    let h2 : Heap T :=
      { h1 with
        left := Function.update h1.left a (h1.left b)
        right := Function.update h1.right a (h1.right b)
        parent := Function.update h1.parent a (h1.parent b)
        iterators := Function.update h1.iterators a (h1.iterators b) }
    let h3 : Heap T :=
      { h2 with
        left := Function.update h2.left b (h2.left tmp)
        right := Function.update h2.right b (h2.right tmp)
        parent := Function.update h2.parent b (h2.parent tmp)
        iterators := Function.update h2.iterators b (h2.iterators tmp) }
    h3.delete (some tmp)
  else .error .undefined

/-- `std::swap(left._size, right._size)`. -/
def swap_size (h : Heap T) (a b : Addr) : Heap T :=
  { h with size := Function.update (Function.update h.size a (h.size b)) b (h.size a) }

/-- `swap(set& left, set& right)`. -/
def swap (h : Heap T) (left right : Addr) : Res (Heap T) := do
  let left_root ← h.rdLeft (some left)
  let right_root ← h.rdLeft (some right)
  let h ← swap_base h left right
  let h := swap_size h left right
  let h ← h.wrParent left_root (some right)
  h.wrParent right_root (some left)

/-- `operator=(const set& other)`. -/
def copy_assign (h : Heap T) (this other : Addr) (keys : Nat → Nat) : Res (Heap T) := do
  if this ≠ other then
    let (h, temp) ← copy_construct h other keys
    let h ← swap h this temp
    destruct h temp
  else .ok h

/-- The steps of `insert` that can fail: `new node(value)` (the allocation, the copy
of the value), and each registration of a handle in a registry (`push_back`): of
the temporary `iterator(new_node, this)`, of `it` when the temporary is assigned
to it, and of the handle made for the returned pair.  `never` is the run in which
no step fails. -/
inductive FaultPoint
  | never
  | node
  | reg_temp
  | reg_it
  | reg_result
  deriving DecidableEq, Repr

/-- The block `try { new_node = new node(value); it = iterator(new_node, this); }
catch (...) { delete new_node; throw; }` of `insert` with the step `p` failing: the
state and the new node, or `none` when the exception was rethrown. -/
def try_new_node (h : Heap T) (s : Addr) (it : Nat) (value : T) (k : Nat) (p : FaultPoint) :
    Res (Heap T × Option Addr) := do
  if p = .node then
    -- `new_node` is still null: `delete new_node` does nothing
    .ok (h, none)
  else
    let (h, new_node) := h.newNode value k
    if p = .reg_temp then
      -- the temporary is not constructed; `catch`: `delete new_node`
      let h ← h.delete (some new_node)
      .ok (h, none)
    else
      let (h, tmp) ← create h (some new_node) (some s)
      if p = .reg_it then
        -- `operator=`: deregistered, members copied, `is_valid = false`
        let h ← vector_del h it
        let h := h.setIt it ⟨some new_node, false, some s⟩
        let h ← destroy h tmp
        let h ← h.delete (some new_node)
        .ok (h, none)
      else
        let h ← assign h it tmp
        let h ← destroy h tmp
        .ok (h, some new_node)

/-- `insert` with the step `p` failing when it is reached: the state in which the
call ends, and the returned pair, or `none` when the exception left the call. -/
def insert_fault (h : Heap T) (s : Addr) (value : T) (k : Nat) (p : FaultPoint) :
    Res (Heap T × Option (Nat × Bool)) := do
  let (h, it) := singular h
  if empty h s then
    let (h, n) ← try_new_node h s it value k p
    match n with
    | none =>
      let h ← destroy h it
      .ok (h, none)
    | some new_node =>
      let h ← h.wrLeft (some s) (some new_node)
      let h ← h.wrParent (some new_node) (some s)
      let h := size_inc h s
      if p = .reg_result then
        let h ← destroy h it
        .ok (h, none)
      else
        let (h, r) ← create h (some new_node) (some s)
        let h ← destroy h it
        .ok (h, some (r, true))
  else
    let root ← h.rdLeft (some s)
    let try_find ← find_rec h.fuel h root value
    if try_find != none then
      if p = .reg_result then
        let h ← destroy h it
        .ok (h, none)
      else
        let (h, r) ← create h try_find (some s)
        let h ← destroy h it
        .ok (h, some (r, false))
    else
      let (h, n) ← try_new_node h s it value k p
      match n with
      | none =>
        let h ← destroy h it
        .ok (h, none)
      | some new_node =>
        let root ← h.rdLeft (some s)
        let (h, left, right) ← split h.fuel h root value
        let (h, m) ← merge h.fuel h left (some new_node)
        let (h, root) ← merge h.fuel h m right
        let h ← h.wrParent root (some s)
        let h ← h.wrLeft (some s) root
        let h := size_inc h s
        if p = .reg_result then
          let h ← destroy h it
          .ok (h, none)
        else
          let (h, r) ← copy h it
          let h ← destroy h it
          .ok (h, some (r, true))

end set

set_option maxRecDepth 100000

namespace set

open Heap set_iterator

/-- A freshly constructed set of numbers, whose `_root` is at address 0, in a
program that has no other object. -/
def one_fresh : Heap Nat := (construct Heap.empty).1

/-- Two freshly constructed sets of numbers in a program that has no other object:
`A`, whose `_root` is at address 0, and `B`, whose `_root` is at address 1. -/
def pair_fresh : Heap Nat := (construct (construct Heap.empty).1).1

/-- The client inserts 1 and 3 into `A` and 2 into `B`.  The nodes are at the
addresses 2 (value 1), 3 (value 3) and 4 (value 2); the handles the insertions
returned are the iterator objects 2, 5 and 8. -/
def pair_full : Res (Heap Nat) := do
  let h ← run pair_fresh 0 [.insert 1 5, .insert 3 9]
  run h 1 [.insert 2 7]

/-- The client inserts 1 into `A` and erases it through the handle the insertion
returned (iterator object 2), then inserts 2 into `B`; the handle that insertion
returned is the iterator object 7. -/
def pair_erased : Res (Heap Nat) := do
  let h ← run pair_fresh 0 [.insert 1 5, .erase 2]
  run h 1 [.insert 2 7]

/-- The client inserts 1 into `A` and calls `A.clear()`, then inserts 2 into `B`. -/
def pair_cleared : Res (Heap Nat) := do
  let h ← run pair_fresh 0 [.insert 1 5]
  let h ← clear h 0
  run h 1 [.insert 2 7]

end set

set_option maxRecDepth 100000

set_option maxRecDepth 100000

namespace Heap

variable {T : Type}

/-- State `h'` is `h` with the objects at the addresses `L` deleted: they are gone,
the valid handles that referenced them are invalid, and nothing else changed. -/
structure Cleared (h h' : Heap T) (L : List Addr) : Prop where
  wf : h'.WF
  left : h'.left = h.left
  right : h'.right = h.right
  parent : h'.parent = h.parent
  size : h'.size = h.size
  next : h'.next = h.next
  nextIt : h'.nextIt = h.nextIt
  obj : ∀ x, h'.obj x = if x ∈ L then .free else h.obj x
  stale : ∀ i b o, h.its i = some ⟨some b, true, o⟩ → b ∈ L → h'.its i = some ⟨some b, false, o⟩
  keep : ∀ i it, h.its i = some it → (∀ b, it.node = some b → it.is_valid = true → b ∉ L) →
    h'.its i = some it

end Heap

set_option maxRecDepth 100000

namespace set

open Heap set_iterator

variable {T : Type} [LinearOrder T]

/-- A call a client makes on a set that changes its content. -/
inductive Mut (T : Type)
  | insert (value : T) (key : Nat)
  | erase (pos : Nat)
  | erase_value (value : T)
  | clear

/-- The state after the call on the set at `x`. -/
def Mut.run (h : Heap T) (x : Addr) : Mut T → Res (Heap T)
  | .insert value key => do
    let (h, _, _) ← set.insert h x value key
    .ok h
  | .erase pos => do
    let (h, _) ← set.erase h x pos
    .ok h
  | .erase_value value => do
    let (h, _) ← set.erase_value h x value
    .ok h
  | .clear => set.clear h x

/-- The precondition of the call on the set at `x`: `erase(pos)` needs a valid
handle of this set that references one of its elements; the other calls need
nothing. -/
def Mut.ready (h : Heap T) (x : Addr) : Mut T → Bool
  | .erase pos =>
    match h.its pos with
    | some it =>
      it.is_valid && it.owner == some x && !(empty h x) &&
        (reachable h.fuel h (h.left x)).any (fun a => it.node == some a)
    | none => false
  | _ => true

/-- The state after a sequence of calls on two sets, the original at `s` and the
copy at `c`; each call is marked `true` when it is made on the copy. -/
def mutate (h : Heap T) (s c : Addr) : List (Bool × Mut T) → Res (Heap T)
  | [] => .ok h
  | m :: ms => do
    let h ← m.2.run h (if m.1 then c else s)
    mutate h s c ms

/-- Every call of the sequence is made with its precondition met. -/
def mutable (h : Heap T) (s c : Addr) : List (Bool × Mut T) → Bool
  | [] => true
  | m :: ms =>
    m.2.ready h (if m.1 then c else s) &&
      match m.2.run h (if m.1 then c else s) with
      | .ok h1 => mutable h1 s c ms
      | .error _ => true

/-- The two sets at `s` and `c` hold the shapes `t` and `tc`, on separate nodes. -/
structure Apart (h : Heap T) (s c : Addr) (t tc : Treap T) : Prop where
  one : Inv h s t
  two : Inv h c tc
  ne : s ≠ c
  disj : ∀ a ∈ t.addrs, a ∉ tc.addrs

end set

set_option maxRecDepth 100000

set_option maxRecDepth 100000

namespace set_iterator

open Heap

variable {T : Type}

/-- The loop `for (auto it : node->iterators) { it->_node = node; }` of the handle
swap. -/
def reset_nodes (h : Heap T) (node : Option Addr) : Res (Heap T) :=
  match node with
  | none => .error .undefined
  | some a =>
    if h.live a then
      (h.iterators a).foldlM
        (fun g i => do
          let it ← g.getIt i
          .ok (g.setIt i { it with node := some a })) h
    else .error .undefined

/-- `swap(set_iterator& left, set_iterator& right)`. -/
def swap (h : Heap T) (left right : Nat) : Res (Heap T) := do
  let l ← h.getIt left
  let r ← h.getIt right
  check l.is_valid
  check r.is_valid
  check (l.node != r.node)
  let lr ← h.rdRight l.node
  check (l.node != lr)
  let rr ← h.rdRight r.node
  check (r.node != rr)
  let left_node := l.node
  let right_node := r.node
  -- `std::swap(left._node, right._node); std::swap(left.owner, right.owner);`
  let h := h.setIt left { l with node := right_node, owner := r.owner }
  let r ← h.getIt right
  let h := h.setIt right { r with node := left_node, owner := l.owner }
  let h ← reset_nodes h left_node
  reset_nodes h right_node

end set_iterator

set_option maxRecDepth 100000

namespace Treap

variable {T : Type}

/-- The nodes with their values and keys, in order. -/
def nodes : Treap T → List (Addr × T × Nat)
  | nil => []
  | node l a v k r => l.nodes ++ (a, v, k) :: r.nodes

/-- The key of the top node. -/
def rootKey : Treap T → Option Nat
  | nil => none
  | node _ _ _ k _ => some k

section order

variable [LinearOrder T]

end order

end Treap

set_option maxRecDepth 100000

set_option maxRecDepth 100000

namespace Heap

variable {T : Type}

/-- From the first state to the second no node changed its value or key: a node is
still the same node or has been deleted, a deleted object stays deleted, and no
address in use was given up. -/
structure Kept (h h' : Heap T) : Prop where
  next : h.next ≤ h'.next
  node : ∀ a v k, h.obj a = .node v k → h'.obj a = .node v k ∨ h'.obj a = .free
  free : ∀ a, a < h.next → h.obj a = .free → h'.obj a = .free

end Heap

set_option maxRecDepth 100000

set_option maxRecDepth 100000

namespace set

open Heap set_iterator

/-- A heap with two separate one-node trees: the node at address 0 holds 1 with
key 5, the node at address 1 holds 7 with key 3. -/
def two_nodes : Heap Nat := ((Heap.empty.newNode 1 5).1.newNode 7 3).1

/-- A heap with a two-node tree: the node at address 0 holds 5 with key 9, and its
left child, at address 1, holds 3 with key 4. -/
def small_tree : Heap Nat :=
  ((((Heap.empty.newNode 5 9).1.newNode 3 4).1.setLeft 0 (some 1)).setParent 1 (some 0))

/-- A client that inserts five values, erases one through the handle its insertion
returned and one by value, and inserts again. -/
def later_calls : List (Op Nat) :=
  [.erase 5, .erase_value 8, .insert 7 100, .insert 2 1]

end set

/-! ## Theorems -/

namespace Treap

variable {T : Type}

@[simp] theorem addrs_nil : (nil : Treap T).addrs = [] := rfl
@[simp] theorem values_nil : (nil : Treap T).values = [] := rfl
@[simp] theorem size_nil : (nil : Treap T).size = 0 := rfl
@[simp] theorem root_nil : (nil : Treap T).root = none := rfl
@[simp] theorem addrs_node (l : Treap T) (a v k r) :
    (node l a v k r).addrs = l.addrs ++ a :: r.addrs := rfl
@[simp] theorem values_node (l : Treap T) (a v k r) :
    (node l a v k r).values = l.values ++ v :: r.values := rfl
@[simp] theorem size_node (l : Treap T) (a v k r) :
    (node l a v k r).size = l.size + 1 + r.size := rfl
@[simp] theorem root_node (l : Treap T) (a v k r) : (node l a v k r).root = some a := rfl

theorem length_addrs (t : Treap T) : t.addrs.length = t.size := by
  induction t with
  | nil => rfl
  | node l a v k r ihl ihr => simp [ihl, ihr]; omega

theorem length_values (t : Treap T) : t.values.length = t.size := by
  induction t with
  | nil => rfl
  | node l a v k r ihl ihr => simp [ihl, ihr]; omega

theorem root_mem (t : Treap T) (a : Addr) (h : t.root = some a) : a ∈ t.addrs := by
  cases t with
  | nil => simp at h
  | node l b v k r => simp at h; simp [h]

theorem root_eq_none (t : Treap T) : t.root = none ↔ t = nil := by
  cases t <;> simp

theorem merge_nil_left (r : Treap T) : merge nil r = r := by
  rw [merge]

theorem merge_nil_right (l : Treap T) : merge l nil = l := by
  cases l <;> rw [merge]

theorem merge_node (ll : Treap T) (a v k lr rl b w j rr) :
    merge (node ll a v k lr) (node rl b w j rr) =
      if k > j then node ll a v k (merge lr (node rl b w j rr))
      else node (merge (node ll a v k lr) rl) b w j rr := by
  rw [merge]

theorem merge_addrs (l r : Treap T) : (merge l r).addrs = l.addrs ++ r.addrs := by
  induction l generalizing r with
  | nil => simp [merge_nil_left]
  | node ll a v k lr _ ihr =>
    induction r with
    | nil => simp [merge_nil_right]
    | node rl b w j rr ihl _ =>
      rw [merge_node]
      split
      · simp [ihr]
      · simp [ihl]

theorem merge_values (l r : Treap T) : (merge l r).values = l.values ++ r.values := by
  induction l generalizing r with
  | nil => simp [merge_nil_left]
  | node ll a v k lr _ ihr =>
    induction r with
    | nil => simp [merge_nil_right]
    | node rl b w j rr ihl _ =>
      rw [merge_node]
      split
      · simp [ihr]
      · simp [ihl]

theorem merge_size (l r : Treap T) : (merge l r).size = l.size + r.size := by
  rw [← length_addrs, merge_addrs, List.length_append, length_addrs, length_addrs]

section order

variable [LinearOrder T]

theorem split_addrs (t : Treap T) (x : T) :
    (t.split x).1.addrs ++ (t.split x).2.addrs = t.addrs := by
  induction t with
  | nil => rfl
  | node l a v k r ihl ihr =>
    simp only [split]
    split
    · simp [ihr]
    · simp [← ihl]

theorem split_values (t : Treap T) (x : T) :
    (t.split x).1.values ++ (t.split x).2.values = t.values := by
  induction t with
  | nil => rfl
  | node l a v k r ihl ihr =>
    simp only [split]
    split
    · simp [ihr]
    · simp [← ihl]

theorem split_fst_lt (t : Treap T) (x : T) (hb : t.BST) : ∀ y ∈ (t.split x).1.values, y < x := by
  induction t with
  | nil => simp [split]
  | node l a v k r ihl ihr =>
    obtain ⟨hl, hr, bl, br⟩ := hb
    simp only [split]
    split
    · rename_i hv
      intro y hy
      simp only [values_node, List.mem_append, List.mem_cons] at hy
      rcases hy with hy | hy | hy
      · exact lt_trans (hl y hy) hv
      · exact hy ▸ hv
      · exact ihr br y hy
    · exact ihl bl

theorem split_snd_ge (t : Treap T) (x : T) (hb : t.BST) : ∀ y ∈ (t.split x).2.values, x ≤ y := by
  induction t with
  | nil => simp [split]
  | node l a v k r ihl ihr =>
    obtain ⟨hl, hr, bl, br⟩ := hb
    simp only [split]
    split
    · exact ihr br
    · rename_i hv
      have hv : x ≤ v := not_lt.mp hv
      intro y hy
      simp only [values_node, List.mem_append, List.mem_cons] at hy
      rcases hy with hy | hy | hy
      · exact ihl bl y hy
      · exact hy ▸ hv
      · exact le_trans hv (le_of_lt (hr y hy))

theorem mem_split_values (t : Treap T) (x y : T) :
    y ∈ t.values ↔ y ∈ (t.split x).1.values ∨ y ∈ (t.split x).2.values := by
  rw [← split_values t x, List.mem_append]

theorem split_BST (t : Treap T) (x : T) (hb : t.BST) : (t.split x).1.BST ∧ (t.split x).2.BST := by
  induction t with
  | nil => simp [split, BST]
  | node l a v k r ihl ihr =>
    obtain ⟨hl, hr, bl, br⟩ := hb
    simp only [split]
    split
    · refine ⟨⟨hl, ?_, bl, (ihr br).1⟩, (ihr br).2⟩
      intro y hy
      exact hr y ((mem_split_values r x y).2 (Or.inl hy))
    · refine ⟨(ihl bl).1, ⟨?_, hr, (ihl bl).2, br⟩⟩
      intro y hy
      exact hl y ((mem_split_values l x y).2 (Or.inr hy))

theorem merge_BST (l r : Treap T) (hl : l.BST) (hr : r.BST)
    (hlr : ∀ x ∈ l.values, ∀ y ∈ r.values, x < y) : (merge l r).BST := by
  induction l generalizing r with
  | nil => simpa [merge_nil_left] using hr
  | node ll a v k lr _ ihr =>
    induction r with
    | nil => simpa [merge_nil_right] using hl
    | node rl b w j rr ihl _ =>
      rw [merge_node]
      obtain ⟨hl1, hl2, hl3, hl4⟩ := hl
      obtain ⟨hr1, hr2, hr3, hr4⟩ := hr
      split
      · refine ⟨hl1, ?_, hl3, ihr _ hl4 ⟨hr1, hr2, hr3, hr4⟩ ?_⟩
        · intro y hy
          rw [merge_values, List.mem_append] at hy
          rcases hy with hy | hy
          · exact hl2 y hy
          · exact hlr v (by simp) y hy
        · intro x hx y hy
          exact hlr x (by simp [hx]) y hy
      · refine ⟨?_, hr2, ihl hr3 ?_, hr4⟩
        · intro y hy
          rw [merge_values, List.mem_append] at hy
          rcases hy with hy | hy
          · exact hlr y hy w (by simp)
          · exact hr1 y hy
        · intro x hx y hy
          exact hlr x hx y (by simp [hy])

theorem BST_sorted (t : Treap T) (hb : t.BST) : t.values.Pairwise (· < ·) := by
  induction t with
  | nil => simp
  | node l a v k r ihl ihr =>
    obtain ⟨hl, hr, bl, br⟩ := hb
    simp only [values_node]
    rw [List.pairwise_append]
    refine ⟨ihl bl, ?_, ?_⟩
    · rw [List.pairwise_cons]
      exact ⟨hr, ihr br⟩
    · intro x hx y hy
      rw [List.mem_cons] at hy
      rcases hy with hy | hy
      · exact hy ▸ hl x hx
      · exact lt_trans (hl x hx) (hr y hy)

end order

end Treap

theorem Res.ok_bind {α β : Type} (a : α) (f : α → Res β) :
    ((Except.ok a : Res α) >>= f) = f a := rfl

theorem Res.error_bind {α β : Type} (e : Fault) (f : α → Res β) :
    ((Except.error e : Res α) >>= f) = Except.error e := rfl

theorem Res.pure_eq {α : Type} (a : α) : (pure a : Res α) = Except.ok a := rfl

theorem check_true : check true = Except.ok () := rfl

theorem check_false : check false = Except.error Fault.assertion := rfl

namespace Heap

variable {T : Type}

theorem live_node {h : Heap T} {a : Addr} {v : T} {k : Nat} (ho : h.obj a = .node v k) :
    h.live a = true := by
  simp [live, ho]

theorem live_base {h : Heap T} {a : Addr} (ho : h.obj a = .base) : h.live a = true := by
  simp [live, ho]

theorem rdLeft_ok {h : Heap T} {a : Addr} (hl : h.live a = true) :
    h.rdLeft (some a) = .ok (h.left a) := by
  simp [rdLeft, hl]

theorem rdRight_ok {h : Heap T} {a : Addr} (hl : h.live a = true) :
    h.rdRight (some a) = .ok (h.right a) := by
  simp [rdRight, hl]

theorem rdParent_ok {h : Heap T} {a : Addr} (hl : h.live a = true) :
    h.rdParent (some a) = .ok (h.parent a) := by
  simp [rdParent, hl]

theorem value_ok {h : Heap T} {a : Addr} {v : T} {k : Nat} (ho : h.obj a = .node v k) :
    h.value (some a) = .ok v := by
  simp [value, ho]

theorem key_ok {h : Heap T} {a : Addr} {v : T} {k : Nat} (ho : h.obj a = .node v k) :
    h.key (some a) = .ok k := by
  simp [key, ho]

@[simp] theorem setLeft_obj (h : Heap T) (a : Addr) (x : Option Addr) :
    (h.setLeft a x).obj = h.obj := rfl
@[simp] theorem setLeft_left (h : Heap T) (a : Addr) (x : Option Addr) (b : Addr) :
    (h.setLeft a x).left b = if b = a then x else h.left b := by
  simp [setLeft, Function.update_apply]
@[simp] theorem setLeft_right (h : Heap T) (a : Addr) (x : Option Addr) :
    (h.setLeft a x).right = h.right := rfl
@[simp] theorem setLeft_parent (h : Heap T) (a : Addr) (x : Option Addr) :
    (h.setLeft a x).parent = h.parent := rfl
@[simp] theorem setLeft_iterators (h : Heap T) (a : Addr) (x : Option Addr) :
    (h.setLeft a x).iterators = h.iterators := rfl
@[simp] theorem setLeft_its (h : Heap T) (a : Addr) (x : Option Addr) :
    (h.setLeft a x).its = h.its := rfl
@[simp] theorem setLeft_size (h : Heap T) (a : Addr) (x : Option Addr) :
    (h.setLeft a x).size = h.size := rfl
@[simp] theorem setLeft_next (h : Heap T) (a : Addr) (x : Option Addr) :
    (h.setLeft a x).next = h.next := rfl
@[simp] theorem setLeft_nextIt (h : Heap T) (a : Addr) (x : Option Addr) :
    (h.setLeft a x).nextIt = h.nextIt := rfl
@[simp] theorem setLeft_live (h : Heap T) (a : Addr) (x : Option Addr) (b : Addr) :
    (h.setLeft a x).live b = h.live b := rfl

@[simp] theorem setRight_obj (h : Heap T) (a : Addr) (x : Option Addr) :
    (h.setRight a x).obj = h.obj := rfl
@[simp] theorem setRight_left (h : Heap T) (a : Addr) (x : Option Addr) :
    (h.setRight a x).left = h.left := rfl
@[simp] theorem setRight_right (h : Heap T) (a : Addr) (x : Option Addr) (b : Addr) :
    (h.setRight a x).right b = if b = a then x else h.right b := by
  simp [setRight, Function.update_apply]
@[simp] theorem setRight_parent (h : Heap T) (a : Addr) (x : Option Addr) :
    (h.setRight a x).parent = h.parent := rfl
@[simp] theorem setRight_iterators (h : Heap T) (a : Addr) (x : Option Addr) :
    (h.setRight a x).iterators = h.iterators := rfl
@[simp] theorem setRight_its (h : Heap T) (a : Addr) (x : Option Addr) :
    (h.setRight a x).its = h.its := rfl
@[simp] theorem setRight_size (h : Heap T) (a : Addr) (x : Option Addr) :
    (h.setRight a x).size = h.size := rfl
@[simp] theorem setRight_next (h : Heap T) (a : Addr) (x : Option Addr) :
    (h.setRight a x).next = h.next := rfl
@[simp] theorem setRight_nextIt (h : Heap T) (a : Addr) (x : Option Addr) :
    (h.setRight a x).nextIt = h.nextIt := rfl
@[simp] theorem setRight_live (h : Heap T) (a : Addr) (x : Option Addr) (b : Addr) :
    (h.setRight a x).live b = h.live b := rfl

@[simp] theorem setParent_obj (h : Heap T) (a : Addr) (x : Option Addr) :
    (h.setParent a x).obj = h.obj := rfl
@[simp] theorem setParent_left (h : Heap T) (a : Addr) (x : Option Addr) :
    (h.setParent a x).left = h.left := rfl
@[simp] theorem setParent_right (h : Heap T) (a : Addr) (x : Option Addr) :
    (h.setParent a x).right = h.right := rfl
@[simp] theorem setParent_parent (h : Heap T) (a : Addr) (x : Option Addr) (b : Addr) :
    (h.setParent a x).parent b = if b = a then x else h.parent b := by
  simp [setParent, Function.update_apply]
@[simp] theorem setParent_iterators (h : Heap T) (a : Addr) (x : Option Addr) :
    (h.setParent a x).iterators = h.iterators := rfl
@[simp] theorem setParent_its (h : Heap T) (a : Addr) (x : Option Addr) :
    (h.setParent a x).its = h.its := rfl
@[simp] theorem setParent_size (h : Heap T) (a : Addr) (x : Option Addr) :
    (h.setParent a x).size = h.size := rfl
@[simp] theorem setParent_next (h : Heap T) (a : Addr) (x : Option Addr) :
    (h.setParent a x).next = h.next := rfl
@[simp] theorem setParent_nextIt (h : Heap T) (a : Addr) (x : Option Addr) :
    (h.setParent a x).nextIt = h.nextIt := rfl
@[simp] theorem setParent_live (h : Heap T) (a : Addr) (x : Option Addr) (b : Addr) :
    (h.setParent a x).live b = h.live b := rfl

theorem wrLeft_ok {h : Heap T} {a : Addr} (x : Option Addr) (hl : h.live a = true) :
    h.wrLeft (some a) x = .ok (h.setLeft a x) := by
  simp [wrLeft, hl]

theorem wrRight_ok {h : Heap T} {a : Addr} (x : Option Addr) (hl : h.live a = true) :
    h.wrRight (some a) x = .ok (h.setRight a x) := by
  simp [wrRight, hl]

theorem wrParent_ok {h : Heap T} {a : Addr} (x : Option Addr) (hl : h.live a = true) :
    h.wrParent (some a) x = .ok (h.setParent a x) := by
  simp [wrParent, hl]

@[simp] theorem setParentIf_obj (h : Heap T) (p x : Option Addr) :
    (h.setParentIf p x).obj = h.obj := by cases p <;> rfl
@[simp] theorem setParentIf_left (h : Heap T) (p x : Option Addr) :
    (h.setParentIf p x).left = h.left := by cases p <;> rfl
@[simp] theorem setParentIf_right (h : Heap T) (p x : Option Addr) :
    (h.setParentIf p x).right = h.right := by cases p <;> rfl
@[simp] theorem setParentIf_parent (h : Heap T) (p x : Option Addr) (b : Addr) :
    (h.setParentIf p x).parent b = if p = some b then x else h.parent b := by
  cases p with
  | none => simp [setParentIf]
  | some c => simp [setParentIf, eq_comm]
@[simp] theorem setParentIf_iterators (h : Heap T) (p x : Option Addr) :
    (h.setParentIf p x).iterators = h.iterators := by cases p <;> rfl
@[simp] theorem setParentIf_its (h : Heap T) (p x : Option Addr) :
    (h.setParentIf p x).its = h.its := by cases p <;> rfl
@[simp] theorem setParentIf_size (h : Heap T) (p x : Option Addr) :
    (h.setParentIf p x).size = h.size := by cases p <;> rfl
@[simp] theorem setParentIf_next (h : Heap T) (p x : Option Addr) :
    (h.setParentIf p x).next = h.next := by cases p <;> rfl
@[simp] theorem setParentIf_nextIt (h : Heap T) (p x : Option Addr) :
    (h.setParentIf p x).nextIt = h.nextIt := by cases p <;> rfl
@[simp] theorem setParentIf_live (h : Heap T) (p x : Option Addr) (b : Addr) :
    (h.setParentIf p x).live b = h.live b := by cases p <;> rfl

theorem wrParentIf_ok {h : Heap T} (p x : Option Addr) (hl : ∀ b, p = some b → h.live b = true) :
    h.wrParentIf p x = .ok (h.setParentIf p x) := by
  cases p with
  | none => rfl
  | some b => simp [wrParentIf, setParentIf, wrParent_ok x (hl b rfl)]

theorem Frame.refl_frame (h : Heap T) (A : List Addr) : Frame h h A :=
  ⟨rfl, rfl, rfl, rfl, rfl, rfl, fun _ _ => rfl, fun _ _ => rfl, fun _ _ => rfl⟩

theorem Frame.mono {h h' : Heap T} {A B : List Addr} (f : Frame h h' A) (hs : ∀ a ∈ A, a ∈ B) :
    Frame h h' B :=
  ⟨f.obj, f.iterators, f.its, f.size, f.next, f.nextIt,
    fun a ha => f.left a (fun hc => ha (hs a hc)),
    fun a ha => f.right a (fun hc => ha (hs a hc)),
    fun a ha => f.parent a (fun hc => ha (hs a hc))⟩

theorem Frame.trans_frame {h h1 h2 : Heap T} {A : List Addr} (f : Frame h h1 A) (g : Frame h1 h2 A) :
    Frame h h2 A :=
  ⟨g.obj.trans f.obj, g.iterators.trans f.iterators, g.its.trans f.its, g.size.trans f.size,
    g.next.trans f.next, g.nextIt.trans f.nextIt,
    fun a ha => (g.left a ha).trans (f.left a ha),
    fun a ha => (g.right a ha).trans (f.right a ha),
    fun a ha => (g.parent a ha).trans (f.parent a ha)⟩

theorem Frame.live_frame {h h' : Heap T} {A : List Addr} (f : Frame h h' A) (a : Addr) :
    h'.live a = h.live a := by
  simp [Heap.live, f.obj]

theorem Rep.congr_rep {h h' : Heap T} (t : Treap T) (ho : ∀ a ∈ t.addrs, h'.obj a = h.obj a)
    (hl : ∀ a ∈ t.addrs, h'.left a = h.left a) (hr : ∀ a ∈ t.addrs, h'.right a = h.right a)
    (hrep : Rep h t) : Rep h' t := by
  induction t with
  | nil => trivial
  | node l a v k r ihl ihr =>
    obtain ⟨h1, h2, h3, h4, h5⟩ := hrep
    refine ⟨?_, ?_, ?_, ihl ?_ ?_ ?_ h4, ihr ?_ ?_ ?_ h5⟩
    · rw [ho a (by simp), h1]
    · rw [hl a (by simp), h2]
    · rw [hr a (by simp), h3]
    all_goals intro b hb
    · exact ho b (by simp [hb])
    · exact hl b (by simp [hb])
    · exact hr b (by simp [hb])
    · exact ho b (by simp [hb])
    · exact hl b (by simp [hb])
    · exact hr b (by simp [hb])

theorem Rep.frame_rep {h h' : Heap T} {A : List Addr} (t : Treap T) (f : Frame h h' A)
    (hd : ∀ a ∈ t.addrs, a ∉ A) (hrep : Rep h t) : Rep h' t :=
  Rep.congr_rep t (fun a _ => by rw [f.obj]) (fun a ha => f.left a (hd a ha))
    (fun a ha => f.right a (hd a ha)) hrep

theorem Rep.live {h : Heap T} (t : Treap T) (hrep : Rep h t) : ∀ a ∈ t.addrs, h.live a = true := by
  induction t with
  | nil => simp
  | node l a v k r ihl ihr =>
    obtain ⟨h1, _, _, h4, h5⟩ := hrep
    intro b hb
    simp only [Treap.addrs_node, List.mem_append, List.mem_cons] at hb
    rcases hb with hb | hb | hb
    · exact ihl h4 b hb
    · exact hb ▸ Heap.live_node h1
    · exact ihr h5 b hb

theorem ParIn.congr_par {h h' : Heap T} (t : Treap T)
    (hp : ∀ a ∈ t.addrs, h'.parent a = h.parent a)
    (hpar : ParIn h t) : ParIn h' t := by
  induction t with
  | nil => trivial
  | node l a v k r ihl ihr =>
    obtain ⟨h1, h2, h3, h4⟩ := hpar
    have hla : ∀ b ∈ l.addrs, b ∈ (Treap.node l a v k r).addrs := fun b hb => by simp [hb]
    have hra : ∀ b ∈ r.addrs, b ∈ (Treap.node l a v k r).addrs := fun b hb => by simp [hb]
    refine ⟨?_, ?_, ihl ?_ h3, ihr ?_ h4⟩
    · intro b hb
      rw [hp b (hla b (Treap.root_mem _ _ hb)), h1 b hb]
    · intro b hb
      rw [hp b (hra b (Treap.root_mem _ _ hb)), h2 b hb]
    · exact fun b hb => hp b (hla b hb)
    · exact fun b hb => hp b (hra b hb)

/-- Changing the `parent` link of the top node leaves `ParIn`. -/
theorem ParIn.congr_top {h h' : Heap T} (t : Treap T) (hnd : t.addrs.Nodup)
    (hp : ∀ a ∈ t.addrs, t.root ≠ some a → h'.parent a = h.parent a)
    (hpar : ParIn h t) : ParIn h' t := by
  cases t with
  | nil => trivial
  | node l a v k r =>
    obtain ⟨h1, h2, h3, h4⟩ := hpar
    simp only [Treap.addrs_node] at hnd
    have hnd2 := List.nodup_append.1 hnd
    have hal : a ∉ l.addrs := fun hc => hnd2.2.2 hc (List.mem_cons_self _ _)
    have har : a ∉ r.addrs := (List.nodup_cons.1 hnd2.2.1).1
    have hl : ∀ b ∈ l.addrs, h'.parent b = h.parent b := fun b hb =>
      hp b (by simp [hb]) (by simp; rintro rfl; exact hal hb)
    have hr : ∀ b ∈ r.addrs, h'.parent b = h.parent b := fun b hb =>
      hp b (by simp [hb]) (by simp; rintro rfl; exact har hb)
    refine ⟨?_, ?_, ParIn.congr_par l hl h3, ParIn.congr_par r hr h4⟩
    · intro b hb
      rw [hl b (Treap.root_mem _ _ hb), h1 b hb]
    · intro b hb
      rw [hr b (Treap.root_mem _ _ hb), h2 b hb]

end Heap

namespace set

open Heap

variable {T : Type} [LinearOrder T]

theorem find_rec_spec (v : T) (t : Treap T) (h : Heap T) (hrep : h.Rep t) :
    ∀ n, t.size < n → find_rec n h t.root v = .ok (t.find v) := by
  induction t with
  | nil =>
    intro n hn
    cases n with
    | zero => simp at hn
    | succ n => rfl
  | node l a x k r ihl ihr =>
    intro n hn
    obtain ⟨h1, h2, h3, h4, h5⟩ := hrep
    cases n with
    | zero => simp at hn
    | succ n =>
      simp only [Treap.size_node] at hn
      simp only [Treap.root_node, find_rec, value_ok h1, Res.ok_bind, Treap.find,
        rdLeft_ok (live_node h1), rdRight_ok (live_node h1), h2, h3]
      split
      · rfl
      · split
        · exact ihl h4 n (by omega)
        · exact ihr h5 n (by omega)

theorem most_left_spec (t : Treap T) (h : Heap T) (hrep : h.Rep t) (e : Addr) :
    ∀ n, t.size < n → ∀ a, t.root = some a → most_left n h (some a) = .ok (some (t.first e)) := by
  induction t generalizing e with
  | nil => intro n _ a ha; simp at ha
  | node l a x k r ihl _ =>
    intro n hn b hb
    obtain ⟨h1, h2, h3, h4, h5⟩ := hrep
    simp only [Treap.root_node, Option.some.injEq] at hb
    subst hb
    cases n with
    | zero => simp at hn
    | succ n =>
      simp only [Treap.size_node] at hn
      simp only [most_left, rdLeft_ok (live_node h1), Res.ok_bind, h2, Treap.first]
      cases hl : l.root with
      | none =>
        rw [Treap.root_eq_none] at hl
        subst hl
        simp [Treap.first]
      | some c =>
        simp only [bne_iff_ne, ne_eq, reduceCtorEq, not_false_eq_true, ↓reduceIte]
        exact ihl h4 a n (by omega) c hl

end set

namespace Treap

variable {T : Type}

theorem nodup_node {l : Treap T} {a : Addr} {v : T} {k : Nat} {r : Treap T}
    (hnd : (node l a v k r).addrs.Nodup) :
    l.addrs.Nodup ∧ r.addrs.Nodup ∧ a ∉ l.addrs ∧ a ∉ r.addrs ∧
      (∀ b ∈ l.addrs, b ∉ r.addrs) := by
  simp only [addrs_node] at hnd
  have h2 := List.nodup_append.1 hnd
  have h3 := List.nodup_cons.1 h2.2.1
  refine ⟨h2.1, h3.2, fun hc => h2.2.2 hc (List.mem_cons_self _ _), h3.1, ?_⟩
  intro b hb hc
  exact h2.2.2 hb (List.mem_cons_of_mem _ hc)

section order

variable [LinearOrder T]

theorem split_mem_fst (t : Treap T) (x : T) : ∀ b ∈ (t.split x).1.addrs, b ∈ t.addrs := by
  intro b hb
  rw [← split_addrs t x]
  exact List.mem_append_left _ hb

theorem split_mem_snd (t : Treap T) (x : T) : ∀ b ∈ (t.split x).2.addrs, b ∈ t.addrs := by
  intro b hb
  rw [← split_addrs t x]
  exact List.mem_append_right _ hb

theorem split_nodup (t : Treap T) (x : T) (hnd : t.addrs.Nodup) :
    (t.split x).1.addrs.Nodup ∧ (t.split x).2.addrs.Nodup ∧
      ∀ b ∈ (t.split x).1.addrs, b ∉ (t.split x).2.addrs := by
  rw [← split_addrs t x] at hnd
  have h2 := List.nodup_append.1 hnd
  exact ⟨h2.1, h2.2.1, fun b hb hc => h2.2.2 hb hc⟩

theorem split_size (t : Treap T) (x : T) : (t.split x).1.size + (t.split x).2.size = t.size := by
  rw [← length_addrs, ← length_addrs, ← length_addrs, ← List.length_append, split_addrs]

end order

end Treap

namespace set

open Heap

variable {T : Type} [LinearOrder T]

theorem split_spec (v : T) (t : Treap T) :
    ∀ (h : Heap T) (n : Nat), h.Rep t → h.ParIn t → t.addrs.Nodup → t.size < n →
      ∃ h', split n h t.root v = .ok (h', (t.split v).1.root, (t.split v).2.root) ∧
        h'.Rep (t.split v).1 ∧ h'.Rep (t.split v).2 ∧
        h'.Par (t.split v).1 none ∧ h'.Par (t.split v).2 none ∧ Frame h h' t.addrs := by
  induction t with
  | nil =>
    intro h n _ _ _ hn
    cases n with
    | zero => simp at hn
    | succ n =>
      refine ⟨h, rfl, trivial, trivial, ⟨?_, trivial⟩, ⟨?_, trivial⟩, Frame.refl_frame _ _⟩ <;>
      · intro b hb; simp [Treap.split] at hb
  | node l a x k r ihl ihr =>
    intro h n hrep hpar hnd hn
    obtain ⟨ho, hle, hri, hrl, hrr⟩ := hrep
    obtain ⟨hpl, hpr, hpil, hpir⟩ := hpar
    obtain ⟨ndl, ndr, hal, har, hlr⟩ := Treap.nodup_node hnd
    have hsub : ∀ b, b ∉ (Treap.node l a x k r).addrs → b ∉ l.addrs ∧ b ∉ r.addrs ∧ b ≠ a := by
      intro b hb
      simp only [Treap.addrs_node, List.mem_append, List.mem_cons, not_or] at hb
      exact ⟨hb.1, hb.2.2, hb.2.1⟩
    cases n with
    | zero => simp at hn
    | succ n =>
      simp only [Treap.size_node] at hn
      by_cases hx : x < v
      · obtain ⟨h1, e1, r1, r2, p1, p2, f1⟩ := ihr h n hrr hpir ndr (by omega)
        obtain ⟨nd1, nd2, d12⟩ := Treap.split_nodup r v ndr
        have m1 := Treap.split_mem_fst r v
        have m2 := Treap.split_mem_snd r v
        have hlive : h1.live a = true := by rw [f1.live_frame]; exact live_node ho
        have hlive2 : ∀ b, (r.split v).1.root = some b →
            (h1.setRight a (r.split v).1.root).live b = true := by
          intro b hb
          exact Rep.live _ r1 b (Treap.root_mem _ _ hb)
        have hroot1 : ∀ b, (r.split v).1.root = some b → b ∈ r.addrs :=
          fun b hb => m1 _ (Treap.root_mem _ _ hb)
        refine ⟨((h1.setRight a (r.split v).1.root).setParentIf (r.split v).1.root
            (some a)).setParent a none, ?_, ?_, ?_, ?_, ?_, ?_⟩
        · simp only [Treap.root_node, split, value_ok ho, Res.ok_bind, hx, ↓reduceIte,
            rdRight_ok (live_node ho), hri, e1, Treap.split]
          rw [wrRight_ok _ hlive, Res.ok_bind, wrParentIf_ok _ _ hlive2, Res.ok_bind,
            wrParent_ok _ (by simpa using hlive), Res.ok_bind]
        · simp only [Treap.split, hx, ↓reduceIte]
          refine ⟨?_, ?_, ?_, ?_, ?_⟩
          · simp [f1.obj, ho]
          · simp [f1.left a har, hle]
          · simp
          · refine Rep.congr_rep l ?_ ?_ ?_ hrl
            · intro b _; simp [f1.obj]
            · intro b hb; simp [f1.left b (hlr b hb)]
            · intro b hb
              have : b ≠ a := by rintro rfl; exact hal hb
              simp [this, f1.right b (hlr b hb)]
          · refine Rep.congr_rep _ ?_ ?_ ?_ r1
            · intro b _; simp
            · intro b _; simp
            · intro b hb
              have : b ≠ a := by rintro rfl; exact har (m1 _ hb)
              simp [this]
        · simp only [Treap.split, hx, ↓reduceIte]
          refine Rep.congr_rep _ ?_ ?_ ?_ r2
          · intro b _; simp
          · intro b _; simp
          · intro b hb
            have : b ≠ a := by rintro rfl; exact har (m2 _ hb)
            simp [this]
        · simp only [Treap.split, hx, ↓reduceIte]
          refine ⟨by intro b hb; simp at hb; subst hb; simp, ?_, ?_, ?_, ?_⟩
          · intro b hb
            have hb' := Treap.root_mem _ _ hb
            have h1b : b ≠ a := by rintro rfl; exact hal hb'
            have h2b : (r.split v).1.root ≠ some b := fun hc => hlr b hb' (hroot1 b hc)
            simp [h1b, h2b, f1.parent b (hlr b hb'), hpl b hb]
          · intro b hb
            have h1b : b ≠ a := by rintro rfl; exact har (hroot1 b hb)
            simp [h1b, hb]
          · refine ParIn.congr_par l ?_ hpil
            intro b hb
            have h1b : b ≠ a := by rintro rfl; exact hal hb
            have h2b : (r.split v).1.root ≠ some b := fun hc => hlr b hb (hroot1 b hc)
            simp [h1b, h2b, f1.parent b (hlr b hb)]
          · refine ParIn.congr_top _ nd1 ?_ p1.2
            intro b hb hne
            have h1b : b ≠ a := by rintro rfl; exact har (m1 _ hb)
            simp [h1b, hne]
        · simp only [Treap.split, hx, ↓reduceIte]
          refine ⟨?_, ParIn.congr_par _ ?_ p2.2⟩
          · intro b hb
            have hb' := Treap.root_mem _ _ hb
            have h1b : b ≠ a := by rintro rfl; exact har (m2 _ hb')
            have h2b : (r.split v).1.root ≠ some b := fun hc =>
              d12 b (Treap.root_mem _ _ hc) hb'
            simp [h1b, h2b, p2.1 b hb]
          · intro b hb
            have h1b : b ≠ a := by rintro rfl; exact har (m2 _ hb)
            have h2b : (r.split v).1.root ≠ some b := fun hc =>
              d12 b (Treap.root_mem _ _ hc) hb
            simp [h1b, h2b]
        · refine ⟨by simp [f1.obj], by simp [f1.iterators], by simp [f1.its], by simp [f1.size],
            by simp [f1.next], by simp [f1.nextIt], ?_, ?_, ?_⟩
          · intro b hb
            simp [f1.left b (hsub b hb).2.1]
          · intro b hb
            simp [(hsub b hb).2.2, f1.right b (hsub b hb).2.1]
          · intro b hb
            have h2b : (r.split v).1.root ≠ some b := fun hc => (hsub b hb).2.1 (hroot1 b hc)
            simp [(hsub b hb).2.2, h2b, f1.parent b (hsub b hb).2.1]
      · obtain ⟨h1, e1, r1, r2, p1, p2, f1⟩ := ihl h n hrl hpil ndl (by omega)
        obtain ⟨nd1, nd2, d12⟩ := Treap.split_nodup l v ndl
        have m1 := Treap.split_mem_fst l v
        have m2 := Treap.split_mem_snd l v
        have hlive : h1.live a = true := by rw [f1.live_frame]; exact live_node ho
        have hlive2 : ∀ b, (l.split v).2.root = some b →
            (h1.setLeft a (l.split v).2.root).live b = true := by
          intro b hb
          exact Rep.live _ r2 b (Treap.root_mem _ _ hb)
        have hroot2 : ∀ b, (l.split v).2.root = some b → b ∈ l.addrs :=
          fun b hb => m2 _ (Treap.root_mem _ _ hb)
        have hrl' : ∀ b ∈ r.addrs, b ∉ l.addrs := fun b hb hc => hlr b hc hb
        refine ⟨((h1.setLeft a (l.split v).2.root).setParentIf (l.split v).2.root
            (some a)).setParent a none, ?_, ?_, ?_, ?_, ?_, ?_⟩
        · simp only [Treap.root_node, split, value_ok ho, Res.ok_bind, hx, ↓reduceIte,
            rdLeft_ok (live_node ho), hle, e1, Treap.split]
          rw [wrLeft_ok _ hlive, Res.ok_bind, wrParentIf_ok _ _ hlive2, Res.ok_bind,
            wrParent_ok _ (by simpa using hlive), Res.ok_bind]
        · simp only [Treap.split, hx, ↓reduceIte]
          refine Rep.congr_rep _ ?_ ?_ ?_ r1
          · intro b _; simp
          · intro b hb
            have : b ≠ a := by rintro rfl; exact hal (m1 _ hb)
            simp [this]
          · intro b _; simp
        · simp only [Treap.split, hx, ↓reduceIte]
          refine ⟨?_, ?_, ?_, ?_, ?_⟩
          · simp [f1.obj, ho]
          · simp
          · simp [f1.right a hal, hri]
          · refine Rep.congr_rep _ ?_ ?_ ?_ r2
            · intro b _; simp
            · intro b hb
              have : b ≠ a := by rintro rfl; exact hal (m2 _ hb)
              simp [this]
            · intro b _; simp
          · refine Rep.congr_rep r ?_ ?_ ?_ hrr
            · intro b _; simp [f1.obj]
            · intro b hb
              have : b ≠ a := by rintro rfl; exact har hb
              simp [this, f1.left b (hrl' b hb)]
            · intro b hb; simp [f1.right b (hrl' b hb)]
        · simp only [Treap.split, hx, ↓reduceIte]
          refine ⟨?_, ParIn.congr_par _ ?_ p1.2⟩
          · intro b hb
            have hb' := Treap.root_mem _ _ hb
            have h1b : b ≠ a := by rintro rfl; exact hal (m1 _ hb')
            have h2b : (l.split v).2.root ≠ some b := fun hc =>
              d12 b hb' (Treap.root_mem _ _ hc)
            simp [h1b, h2b, p1.1 b hb]
          · intro b hb
            have h1b : b ≠ a := by rintro rfl; exact hal (m1 _ hb)
            have h2b : (l.split v).2.root ≠ some b := fun hc =>
              d12 b hb (Treap.root_mem _ _ hc)
            simp [h1b, h2b]
        · simp only [Treap.split, hx, ↓reduceIte]
          refine ⟨by intro b hb; simp at hb; subst hb; simp, ?_, ?_, ?_, ?_⟩
          · intro b hb
            have h1b : b ≠ a := by rintro rfl; exact hal (hroot2 b hb)
            simp [h1b, hb]
          · intro b hb
            have hb' := Treap.root_mem _ _ hb
            have h1b : b ≠ a := by rintro rfl; exact har hb'
            have h2b : (l.split v).2.root ≠ some b := fun hc => hrl' b hb' (hroot2 b hc)
            simp [h1b, h2b, f1.parent b (hrl' b hb'), hpr b hb]
          · refine ParIn.congr_top _ nd2 ?_ p2.2
            intro b hb hne
            have h1b : b ≠ a := by rintro rfl; exact hal (m2 _ hb)
            simp [h1b, hne]
          · refine ParIn.congr_par r ?_ hpir
            intro b hb
            have h1b : b ≠ a := by rintro rfl; exact har hb
            have h2b : (l.split v).2.root ≠ some b := fun hc => hrl' b hb (hroot2 b hc)
            simp [h1b, h2b, f1.parent b (hrl' b hb)]
        · refine ⟨by simp [f1.obj], by simp [f1.iterators], by simp [f1.its], by simp [f1.size],
            by simp [f1.next], by simp [f1.nextIt], ?_, ?_, ?_⟩
          · intro b hb
            simp [(hsub b hb).2.2, f1.left b (hsub b hb).1]
          · intro b hb
            simp [f1.right b (hsub b hb).1]
          · intro b hb
            have h2b : (l.split v).2.root ≠ some b := fun hc => (hsub b hb).1 (hroot2 b hc)
            simp [(hsub b hb).2.2, h2b, f1.parent b (hsub b hb).1]

end set

namespace set

open Heap

variable {T : Type}

theorem merge_spec (l : Treap T) :
    ∀ (r : Treap T) (h : Heap T) (n : Nat), h.Rep l → h.Rep r → h.ParIn l → h.ParIn r →
      (l.addrs ++ r.addrs).Nodup → l.size + r.size < n →
      ∃ h', merge n h l.root r.root = .ok (h', (Treap.merge l r).root) ∧
        h'.Rep (Treap.merge l r) ∧ h'.ParIn (Treap.merge l r) ∧
        Frame h h' (l.addrs ++ r.addrs) ∧
        (∀ b, (Treap.merge l r).root = some b → h'.parent b = h.parent b) := by
  induction l with
  | nil =>
    intro r h n _ hr _ hpr _ hn
    cases n with
    | zero => simp at hn
    | succ n =>
      refine ⟨h, ?_, ?_, ?_, Frame.refl_frame _ _, fun _ _ => rfl⟩
      · simp [merge, Treap.merge_nil_left]
      · simpa [Treap.merge_nil_left] using hr
      · simpa [Treap.merge_nil_left] using hpr
  | node ll a v k lr _ ihlr =>
    intro r
    induction r with
    | nil =>
      intro h n hl _ hpl _ _ hn
      cases n with
      | zero => simp at hn
      | succ n =>
        refine ⟨h, ?_, ?_, ?_, Frame.refl_frame _ _, fun _ _ => rfl⟩
        · simp [merge, Treap.merge_nil_right]
        · simpa [Treap.merge_nil_right] using hl
        · simpa [Treap.merge_nil_right] using hpl
    | node rl b w j rr ihrl _ =>
      intro h n hl hr hpl hpr hnd hn
      have hl0 := hl
      have hr0 := hr
      obtain ⟨hoa, hlea, hria, hrll, hrlr⟩ := hl
      obtain ⟨hob, hleb, hrib, hrrl, hrrr⟩ := hr
      have hpl0 := hpl
      have hpr0 := hpr
      obtain ⟨hpll, hplr, hpill, hpilr⟩ := hpl
      obtain ⟨hprl, hprr, hpirl, hpirr⟩ := hpr
      have hnd2 := List.nodup_append.1 hnd
      obtain ⟨ndll, ndlr, hall, halr, hdl⟩ := Treap.nodup_node hnd2.1
      obtain ⟨ndrl, ndrr, hbrl, hbrr, hdr⟩ := Treap.nodup_node hnd2.2.1
      have hdis : ∀ c ∈ (Treap.node ll a v k lr).addrs, c ∉ (Treap.node rl b w j rr).addrs :=
        fun c hc hc' => hnd2.2.2 hc hc'
      cases n with
      | zero => simp at hn
      | succ n =>
        simp only [Treap.size_node] at hn
        rw [Treap.merge_node]
        by_cases hk : k > j
        · have hnd' : (lr.addrs ++ (Treap.node rl b w j rr).addrs).Nodup := by
            refine List.nodup_append.2 ⟨ndlr, hnd2.2.1, ?_⟩
            intro c hc hc'
            exact hdis c (by simp [hc]) hc'
          obtain ⟨h1, e1, r1, p1, f1, q1⟩ :=
            ihlr (Treap.node rl b w j rr) h n hrlr hr0 hpilr hpr0 hnd' (by simp; omega)
          have haR : a ∉ lr.addrs ++ (Treap.node rl b w j rr).addrs := by
            rw [List.mem_append, not_or]
            exact ⟨halr, hdis a (by simp)⟩
          have hllR : ∀ c ∈ ll.addrs, c ∉ lr.addrs ++ (Treap.node rl b w j rr).addrs := by
            intro c hc
            rw [List.mem_append, not_or]
            exact ⟨hdl c hc, hdis c (by simp [hc])⟩
          have hM : (Treap.merge lr (Treap.node rl b w j rr)).addrs
              = lr.addrs ++ (Treap.node rl b w j rr).addrs := Treap.merge_addrs _ _
          have hrootM : ∀ c, (Treap.merge lr (Treap.node rl b w j rr)).root = some c →
              c ∈ lr.addrs ++ (Treap.node rl b w j rr).addrs := by
            intro c hc
            rw [← hM]
            exact Treap.root_mem _ _ hc
          have hlive : h1.live a = true := by rw [f1.live_frame]; exact live_node hoa
          have hlive2 : ∀ c, (Treap.merge lr (Treap.node rl b w j rr)).root = some c →
              (h1.setRight a (Treap.merge lr (Treap.node rl b w j rr)).root).live c = true := by
            intro c hc
            exact Rep.live _ r1 c (Treap.root_mem _ _ hc)
          refine ⟨(h1.setRight a (Treap.merge lr (Treap.node rl b w j rr)).root).setParentIf
            (Treap.merge lr (Treap.node rl b w j rr)).root (some a), ?_, ?_, ?_, ?_, ?_⟩
          · simp only [Treap.root_node, merge, key_ok hoa, key_ok hob, Res.ok_bind, hk,
              ↓reduceIte, rdRight_ok (live_node hoa), hria]
            have e1' := e1
            simp only [Treap.root_node] at e1'
            rw [e1', Res.ok_bind]
            simp only []
            rw [wrRight_ok _ hlive, Res.ok_bind, wrParentIf_ok _ _ hlive2, Res.ok_bind]
          · simp only [hk, ↓reduceIte]
            refine ⟨?_, ?_, ?_, ?_, ?_⟩
            · simp [f1.obj, hoa]
            · simp [f1.left a haR, hlea]
            · simp
            · refine Rep.congr_rep ll ?_ ?_ ?_ hrll
              · intro c _; simp [f1.obj]
              · intro c hc; simp [f1.left c (hllR c hc)]
              · intro c hc
                have : c ≠ a := by rintro rfl; exact hall hc
                simp [this, f1.right c (hllR c hc)]
            · refine Rep.congr_rep _ ?_ ?_ ?_ r1
              · intro c _; simp
              · intro c _; simp
              · intro c hc
                rw [hM] at hc
                have : c ≠ a := by rintro rfl; exact haR hc
                simp [this]
          · simp only [hk, ↓reduceIte]
            refine ⟨?_, ?_, ?_, ?_⟩
            · intro c hc
              have hc' := Treap.root_mem _ _ hc
              have h2 : (Treap.merge lr (Treap.node rl b w j rr)).root ≠ some c :=
                fun hx => hllR c hc' (hrootM c hx)
              simp [h2, f1.parent c (hllR c hc'), hpll c hc]
            · intro c hc
              simp [hc]
            · refine ParIn.congr_par ll ?_ hpill
              intro c hc
              have h2 : (Treap.merge lr (Treap.node rl b w j rr)).root ≠ some c :=
                fun hx => hllR c hc (hrootM c hx)
              simp [h2, f1.parent c (hllR c hc)]
            · refine ParIn.congr_top _ (by rw [hM]; exact hnd') ?_ p1
              intro c _ hne
              simp [hne]
          · refine ⟨by simp [f1.obj], by simp [f1.iterators], by simp [f1.its],
              by simp [f1.size], by simp [f1.next], by simp [f1.nextIt], ?_, ?_, ?_⟩
            · intro c hc
              refine (by simp : _ = h1.left c).trans (f1.left c ?_)
              intro hx
              apply hc
              simp only [Treap.addrs_node, List.mem_append, List.mem_cons] at hx ⊢
              tauto
            · intro c hc
              have hca : c ≠ a := by rintro rfl; exact hc (by simp)
              simp only [setParentIf_right, setRight_right, hca, ↓reduceIte]
              apply f1.right
              intro hx
              apply hc
              simp only [Treap.addrs_node, List.mem_append, List.mem_cons] at hx ⊢
              tauto
            · intro c hc
              have hcR : c ∉ lr.addrs ++ (Treap.node rl b w j rr).addrs := by
                intro hx
                apply hc
                simp only [Treap.addrs_node, List.mem_append, List.mem_cons] at hx ⊢
                tauto
              have h2 : (Treap.merge lr (Treap.node rl b w j rr)).root ≠ some c :=
                fun hx => hcR (hrootM c hx)
              simp [h2, f1.parent c hcR]
          · intro c hc
            simp only [hk, ↓reduceIte, Treap.root_node, Option.some.injEq] at hc
            subst hc
            have h2 : (Treap.merge lr (Treap.node rl b w j rr)).root ≠ some a :=
              fun hx => haR (hrootM a hx)
            simp [h2, f1.parent a haR]
        · have hnd' : ((Treap.node ll a v k lr).addrs ++ rl.addrs).Nodup := by
            refine List.nodup_append.2 ⟨hnd2.1, ndrl, ?_⟩
            intro c hc hc'
            exact hdis c hc (by simp [hc'])
          obtain ⟨h1, e1, r1, p1, f1, q1⟩ :=
            ihrl h n hl0 hrrl hpl0 hpirl hnd' (by simp; omega)
          have hbL : b ∉ (Treap.node ll a v k lr).addrs ++ rl.addrs := by
            rw [List.mem_append, not_or]
            exact ⟨fun hc => hdis b hc (by simp), hbrl⟩
          have hrrL : ∀ c ∈ rr.addrs, c ∉ (Treap.node ll a v k lr).addrs ++ rl.addrs := by
            intro c hc
            rw [List.mem_append, not_or]
            exact ⟨fun hx => hdis c hx (by simp [hc]), fun hx => hdr c hx hc⟩
          have hM : (Treap.merge (Treap.node ll a v k lr) rl).addrs
              = (Treap.node ll a v k lr).addrs ++ rl.addrs := Treap.merge_addrs _ _
          have hrootM : ∀ c, (Treap.merge (Treap.node ll a v k lr) rl).root = some c →
              c ∈ (Treap.node ll a v k lr).addrs ++ rl.addrs := by
            intro c hc
            rw [← hM]
            exact Treap.root_mem _ _ hc
          have hlive : h1.live b = true := by rw [f1.live_frame]; exact live_node hob
          have hlive2 : ∀ c, (Treap.merge (Treap.node ll a v k lr) rl).root = some c →
              (h1.setLeft b (Treap.merge (Treap.node ll a v k lr) rl).root).live c = true := by
            intro c hc
            exact Rep.live _ r1 c (Treap.root_mem _ _ hc)
          refine ⟨(h1.setLeft b (Treap.merge (Treap.node ll a v k lr) rl).root).setParentIf
            (Treap.merge (Treap.node ll a v k lr) rl).root (some b), ?_, ?_, ?_, ?_, ?_⟩
          · simp only [Treap.root_node, merge, key_ok hoa, key_ok hob, Res.ok_bind, hk,
              ↓reduceIte, rdLeft_ok (live_node hob), hleb]
            have e1' := e1
            simp only [Treap.root_node] at e1'
            rw [e1', Res.ok_bind]
            simp only []
            rw [wrLeft_ok _ hlive, Res.ok_bind, wrParentIf_ok _ _ hlive2, Res.ok_bind]
          · simp only [hk, ↓reduceIte]
            refine ⟨?_, ?_, ?_, ?_, ?_⟩
            · simp [f1.obj, hob]
            · simp
            · simp [f1.right b hbL, hrib]
            · refine Rep.congr_rep _ ?_ ?_ ?_ r1
              · intro c _; simp
              · intro c hc
                rw [hM] at hc
                have : c ≠ b := by rintro rfl; exact hbL hc
                simp [this]
              · intro c _; simp
            · refine Rep.congr_rep rr ?_ ?_ ?_ hrrr
              · intro c _; simp [f1.obj]
              · intro c hc
                have : c ≠ b := by rintro rfl; exact hbrr hc
                simp [this, f1.left c (hrrL c hc)]
              · intro c hc; simp [f1.right c (hrrL c hc)]
          · simp only [hk, ↓reduceIte]
            refine ⟨?_, ?_, ?_, ?_⟩
            · intro c hc
              simp [hc]
            · intro c hc
              have hc' := Treap.root_mem _ _ hc
              have h2 : (Treap.merge (Treap.node ll a v k lr) rl).root ≠ some c :=
                fun hx => hrrL c hc' (hrootM c hx)
              simp [h2, f1.parent c (hrrL c hc'), hprr c hc]
            · refine ParIn.congr_top _ (by rw [hM]; exact hnd') ?_ p1
              intro c _ hne
              simp [hne]
            · refine ParIn.congr_par rr ?_ hpirr
              intro c hc
              have h2 : (Treap.merge (Treap.node ll a v k lr) rl).root ≠ some c :=
                fun hx => hrrL c hc (hrootM c hx)
              simp [h2, f1.parent c (hrrL c hc)]
          · refine ⟨by simp [f1.obj], by simp [f1.iterators], by simp [f1.its],
              by simp [f1.size], by simp [f1.next], by simp [f1.nextIt], ?_, ?_, ?_⟩
            · intro c hc
              have hcb : c ≠ b := by rintro rfl; exact hc (by simp)
              simp only [setParentIf_left, setLeft_left, hcb, ↓reduceIte]
              apply f1.left
              intro hx
              apply hc
              simp only [Treap.addrs_node, List.mem_append, List.mem_cons] at hx ⊢
              tauto
            · intro c hc
              refine (by simp : _ = h1.right c).trans (f1.right c ?_)
              intro hx
              apply hc
              simp only [Treap.addrs_node, List.mem_append, List.mem_cons] at hx ⊢
              tauto
            · intro c hc
              have hcR : c ∉ (Treap.node ll a v k lr).addrs ++ rl.addrs := by
                intro hx
                apply hc
                simp only [Treap.addrs_node, List.mem_append, List.mem_cons] at hx ⊢
                tauto
              have h2 : (Treap.merge (Treap.node ll a v k lr) rl).root ≠ some c :=
                fun hx => hcR (hrootM c hx)
              simp [h2, f1.parent c hcR]
          · intro c hc
            simp only [hk, ↓reduceIte, Treap.root_node, Option.some.injEq] at hc
            subst hc
            have h2 : (Treap.merge (Treap.node ll a v k lr) rl).root ≠ some b :=
              fun hx => hbL (hrootM b hx)
            simp [h2, f1.parent b hbL]

end set

namespace Heap

variable {T : Type}

theorem Same.refl (h : Heap T) : Same h h := ⟨rfl, rfl, rfl, rfl, rfl, rfl⟩

theorem Same.outside {h h' : Heap T} (f : Same h h') (A : List Addr) : Outside h h' A :=
  ⟨fun _ _ _ => by rw [f.obj], fun _ _ _ => by rw [f.left], fun _ _ _ => by rw [f.right],
    fun _ _ _ => by rw [f.parent], fun _ _ => by rw [f.size], Nat.le_of_eq f.next.symm⟩

theorem Outside.same_left {h h1 h2 : Heap T} {A : List Addr} (f : Same h h1)
    (g : Outside h1 h2 A) : Outside h h2 A :=
  ⟨fun x hx hl => by rw [g.obj x hx (by rw [f.next]; exact hl), f.obj],
    fun x hx hl => by rw [g.left x hx (by rw [f.next]; exact hl), f.left],
    fun x hx hl => by rw [g.right x hx (by rw [f.next]; exact hl), f.right],
    fun x hx hl => by rw [g.parent x hx (by rw [f.next]; exact hl), f.parent],
    fun x hx => by rw [g.size x hx, f.size], by rw [← f.next]; exact g.next⟩

theorem Outside.same_right {h h1 h2 : Heap T} {A : List Addr} (g : Outside h h1 A)
    (f : Same h1 h2) : Outside h h2 A :=
  ⟨fun x hx hl => by rw [f.obj, g.obj x hx hl], fun x hx hl => by rw [f.left, g.left x hx hl],
    fun x hx hl => by rw [f.right, g.right x hx hl],
    fun x hx hl => by rw [f.parent, g.parent x hx hl],
    fun x hx => by rw [f.size, g.size x hx], by rw [f.next]; exact g.next⟩

theorem Outside.mono_outside {h h' : Heap T} {A B : List Addr} (f : Outside h h' A)
    (hs : ∀ a ∈ A, a ∈ B) : Outside h h' B :=
  ⟨fun x hx => f.obj x (fun hc => hx (hs x hc)), fun x hx => f.left x (fun hc => hx (hs x hc)),
    fun x hx => f.right x (fun hc => hx (hs x hc)),
    fun x hx => f.parent x (fun hc => hx (hs x hc)),
    fun x hx => f.size x (fun hc => hx (hs x hc)), f.next⟩

theorem Same.trans {h h1 h2 : Heap T} (f : Same h h1) (g : Same h1 h2) : Same h h2 :=
  ⟨g.obj.trans f.obj, g.left.trans f.left, g.right.trans f.right, g.parent.trans f.parent,
    g.size.trans f.size, g.next.trans f.next⟩

theorem Same.symm {h h' : Heap T} (f : Same h h') : Same h' h :=
  ⟨f.obj.symm, f.left.symm, f.right.symm, f.parent.symm, f.size.symm, f.next.symm⟩

theorem Same.live_same {h h' : Heap T} (f : Same h h') (a : Addr) : h'.live a = h.live a := by
  simp [Heap.live, f.obj]

theorem Same.fuel_eq {h h' : Heap T} (f : Same h h') : h'.fuel = h.fuel := by
  simp [Heap.fuel, f.next]

theorem Same.Rep {h h' : Heap T} (f : Same h h') (t : Treap T) (hr : h.Rep t) : h'.Rep t :=
  Rep.congr_rep t (fun _ _ => by rw [f.obj]) (fun _ _ => by rw [f.left]) (fun _ _ => by rw [f.right]) hr

theorem Same.ParIn {h h' : Heap T} (f : Same h h') (t : Treap T) (hr : h.ParIn t) :
    h'.ParIn t :=
  ParIn.congr_par t (fun _ _ => by rw [f.parent]) hr

@[simp] theorem place_obj (h : Heap T) (i : Nat) (it : set_iterator) :
    (h.place i it).obj = h.obj := rfl
@[simp] theorem place_left (h : Heap T) (i : Nat) (it : set_iterator) :
    (h.place i it).left = h.left := rfl
@[simp] theorem place_right (h : Heap T) (i : Nat) (it : set_iterator) :
    (h.place i it).right = h.right := rfl
@[simp] theorem place_parent (h : Heap T) (i : Nat) (it : set_iterator) :
    (h.place i it).parent = h.parent := rfl
@[simp] theorem place_size (h : Heap T) (i : Nat) (it : set_iterator) :
    (h.place i it).size = h.size := rfl
@[simp] theorem place_next (h : Heap T) (i : Nat) (it : set_iterator) :
    (h.place i it).next = h.next := rfl
@[simp] theorem place_nextIt (h : Heap T) (i : Nat) (it : set_iterator) :
    (h.place i it).nextIt = max h.nextIt (i + 1) := rfl
@[simp] theorem place_live (h : Heap T) (i : Nat) (it : set_iterator) (a : Addr) :
    (h.place i it).live a = h.live a := rfl
@[simp] theorem place_fuel (h : Heap T) (i : Nat) (it : set_iterator) :
    (h.place i it).fuel = h.fuel := rfl
@[simp] theorem place_its (h : Heap T) (i : Nat) (it : set_iterator) (j : Nat) :
    (h.place i it).its j = if j = i then some it else h.its j := by
  simp [place, Function.update_apply]

@[simp] theorem remove_obj (h : Heap T) (i : Nat) : (h.remove i).obj = h.obj := rfl
@[simp] theorem remove_left (h : Heap T) (i : Nat) : (h.remove i).left = h.left := rfl
@[simp] theorem remove_right (h : Heap T) (i : Nat) : (h.remove i).right = h.right := rfl
@[simp] theorem remove_parent (h : Heap T) (i : Nat) : (h.remove i).parent = h.parent := rfl
@[simp] theorem remove_size_eq (h : Heap T) (i : Nat) : (h.remove i).size = h.size := rfl
@[simp] theorem remove_next (h : Heap T) (i : Nat) : (h.remove i).next = h.next := rfl
@[simp] theorem remove_nextIt (h : Heap T) (i : Nat) : (h.remove i).nextIt = h.nextIt := rfl
@[simp] theorem remove_live (h : Heap T) (i : Nat) (a : Addr) :
    (h.remove i).live a = h.live a := rfl
@[simp] theorem remove_fuel (h : Heap T) (i : Nat) : (h.remove i).fuel = h.fuel := rfl
@[simp] theorem remove_its (h : Heap T) (i : Nat) (j : Nat) :
    (h.remove i).its j = if j = i then none else h.its j := by
  simp [remove, Function.update_apply]

theorem Same.place_same (h : Heap T) (i : Nat) (it : set_iterator) : Same h (h.place i it) :=
  ⟨rfl, rfl, rfl, rfl, rfl, rfl⟩

theorem Same.remove_same (h : Heap T) (i : Nat) : Same h (h.remove i) :=
  ⟨rfl, rfl, rfl, rfl, rfl, rfl⟩

theorem WF.lt_nextIt {h : Heap T} (w : h.WF) {i : Nat} {it : set_iterator}
    (hi : h.its i = some it) : i < h.nextIt := by
  by_contra hc
  rw [w.fresh i (Nat.le_of_not_lt hc)] at hi
  exact Option.noConfusion hi

theorem WF.live_of_mem {h : Heap T} (w : h.WF) {a : Addr} {i : Nat}
    (hi : i ∈ h.iterators a) : h.live a = true := by
  by_contra hc
  rw [w.dead a (by simpa using hc)] at hi
  exact List.not_mem_nil _ hi

theorem WF.live_of_valid {h : Heap T} (w : h.WF) {i : Nat} {it : set_iterator}
    (hi : h.its i = some it) (hv : it.is_valid = true) :
    ∃ a, it.node = some a ∧ h.live a = true := by
  obtain ⟨a, ha, hm⟩ := w.it_reg i it hi hv
  exact ⟨a, ha, w.live_of_mem hm⟩

theorem WF.lt_next {h : Heap T} (w : h.WF) {a : Addr} (hl : h.live a = true) : a < h.next := by
  by_contra hc
  rw [w.alloc a (Nat.le_of_not_lt hc)] at hl
  exact Bool.noConfusion hl

theorem WF.not_mem_of_ne {h : Heap T} (w : h.WF) {i : Nat} {it : set_iterator}
    (hi : h.its i = some it) {a : Addr} (hne : it.node ≠ some a) : i ∉ h.iterators a := by
  intro hm
  obtain ⟨o, ho⟩ := w.reg_it a i hm
  rw [hi] at ho
  injection ho with ho
  exact hne (by rw [ho])

theorem WF.not_mem_of_invalid {h : Heap T} (w : h.WF) {i : Nat} {it : set_iterator}
    (hi : h.its i = some it) (hv : it.is_valid = false) (a : Addr) : i ∉ h.iterators a := by
  intro hm
  obtain ⟨o, ho⟩ := w.reg_it a i hm
  rw [hi] at ho
  injection ho with ho
  rw [ho] at hv
  exact Bool.noConfusion hv

theorem WF.not_mem_of_none {h : Heap T} (w : h.WF) {i : Nat}
    (hi : h.its i = none) (a : Addr) : i ∉ h.iterators a := by
  intro hm
  obtain ⟨o, ho⟩ := w.reg_it a i hm
  rw [hi] at ho
  exact Option.noConfusion ho

theorem WF.place {h : Heap T} (w : h.WF) (i : Nat) (it : set_iterator)
    (hv : it.is_valid = true → ∃ a, it.node = some a ∧ h.live a = true) : (h.place i it).WF := by
  have herase : ∀ a j, j ∈ (h.iterators a).erase i ↔ j ≠ i ∧ j ∈ h.iterators a :=
    fun a j => (w.nodup a).mem_erase_iff
  have hmem : ∀ a j, j ∈ (h.place i it).iterators a ↔
      (j ≠ i ∧ j ∈ h.iterators a) ∨ (j = i ∧ it.is_valid = true ∧ it.node = some a) := by
    intro a j
    simp only [Heap.place]
    split
    · rename_i hc
      simp only [List.mem_append, herase, List.mem_singleton]
      tauto
    · rename_i hc
      simp only [herase]
      tauto
  refine ⟨?_, ?_, ?_, ?_, ?_, ?_⟩
  · intro a j hj
    rcases (hmem a j).1 hj with ⟨hji, hj⟩ | ⟨hji, hval, hnode⟩
    · simp only [place_its, hji, ↓reduceIte]
      exact w.reg_it a j hj
    · subst hji
      refine ⟨it.owner, ?_⟩
      simp only [place_its, ↓reduceIte, Option.some.injEq]
      cases it
      simp_all
  · intro j x hj hx
    simp only [place_its] at hj
    split at hj
    · rename_i hji
      subst hji
      injection hj with hj
      subst hj
      obtain ⟨a, ha, _⟩ := hv hx
      exact ⟨a, ha, (hmem a j).2 (Or.inr ⟨rfl, hx, ha⟩)⟩
    · rename_i hji
      obtain ⟨a, ha, hm⟩ := w.it_reg j x hj hx
      exact ⟨a, ha, (hmem a j).2 (Or.inl ⟨hji, hm⟩)⟩
  · intro j hj
    simp only [place_nextIt, max_le_iff] at hj
    have : j ≠ i := by omega
    simp only [place_its, this, ↓reduceIte]
    exact w.fresh j hj.1
  · intro a
    simp only [Heap.place]
    have hnd : ((h.iterators a).erase i).Nodup := (w.nodup a).erase i
    split
    · refine List.nodup_append.2 ⟨hnd, List.nodup_singleton i, ?_⟩
      intro j hj hj'
      rw [List.mem_singleton] at hj'
      exact ((herase a j).1 hj).1 hj'
    · exact hnd
  · intro a ha
    simp only [place_live] at ha
    simp only [Heap.place, w.dead a ha]
    split
    · rename_i hc
      obtain ⟨b, hb, hl⟩ := hv hc.1
      rw [hc.2] at hb
      injection hb with hb
      subst hb
      rw [ha] at hl
      exact Bool.noConfusion hl
    · rfl
  · exact w.alloc

theorem WF.remove {h : Heap T} (w : h.WF) (i : Nat) : (h.remove i).WF := by
  have herase : ∀ a j, j ∈ (h.iterators a).erase i ↔ j ≠ i ∧ j ∈ h.iterators a :=
    fun a j => (w.nodup a).mem_erase_iff
  refine ⟨?_, ?_, ?_, ?_, ?_, ?_⟩
  · intro a j hj
    have := (herase a j).1 hj
    simp only [remove_its, this.1, ↓reduceIte]
    exact w.reg_it a j this.2
  · intro j x hj hx
    simp only [remove_its] at hj
    split at hj
    · exact Option.noConfusion hj
    · rename_i hji
      obtain ⟨a, ha, hm⟩ := w.it_reg j x hj hx
      exact ⟨a, ha, (herase a j).2 ⟨hji, hm⟩⟩
  · intro j hj
    simp only [remove_its]
    split
    · rfl
    · exact w.fresh j hj
  · intro a
    exact (w.nodup a).erase i
  · intro a ha
    simp only [remove_live] at ha
    simp [Heap.remove, w.dead a ha]
  · exact w.alloc

theorem WF.frame {h h' : Heap T} {A : List Addr} (f : Frame h h' A) (w : h.WF) : h'.WF := by
  refine ⟨?_, ?_, ?_, ?_, ?_, ?_⟩
  · intro a i hi
    rw [f.iterators] at hi
    rw [f.its]
    exact w.reg_it a i hi
  · intro i it hi hv
    rw [f.its] at hi
    rw [f.iterators]
    exact w.it_reg i it hi hv
  · intro i hi
    rw [f.nextIt] at hi
    rw [f.its]
    exact w.fresh i hi
  · intro a
    rw [f.iterators]
    exact w.nodup a
  · intro a ha
    rw [f.live_frame] at ha
    rw [f.iterators]
    exact w.dead a ha
  · intro a ha
    rw [f.next] at ha
    rw [f.live_frame]
    exact w.alloc a ha

end Heap

namespace set_iterator

open Heap

variable {T : Type}

theorem getIt_ok {h : Heap T} {i : Nat} {c : set_iterator} (hi : h.its i = some c) :
    h.getIt i = .ok c := by
  simp [Heap.getIt, hi]

theorem vector_del_eq {h : Heap T} (w : h.WF) {i : Nat} {it : set_iterator}
    (hi : h.its i = some it) :
    vector_del h i = .ok { h with iterators := fun a => (h.iterators a).erase i } := by
  simp only [vector_del, getIt_ok hi, Res.ok_bind]
  cases hv : it.is_valid with
  | false =>
    simp only [Bool.false_eq_true, ↓reduceIte]
    congr 1
    apply Heap.ext <;> try rfl
    funext a
    simp only
    rw [List.erase_of_not_mem (w.not_mem_of_invalid hi hv a)]
  | true =>
    obtain ⟨a, ha, hm⟩ := w.it_reg i it hi hv
    simp only [↓reduceIte, ha, w.live_of_mem hm]
    congr 1
    apply Heap.ext <;> try rfl
    funext b
    simp only
    by_cases hb : b = a
    · subst hb; simp
    · have : it.node ≠ some b := by rw [ha]; simpa using Ne.symm hb
      rw [Function.update_noteq hb, List.erase_of_not_mem (w.not_mem_of_ne hi this)]

theorem vector_add_eq {h : Heap T} {i : Nat} {c : set_iterator} (hi : h.its i = some c)
    (hv : c.is_valid = true → ∃ a, c.node = some a ∧ h.live a = true) :
    vector_add h i = .ok { h with iterators := fun a =>
      if c.is_valid = true ∧ c.node = some a then h.iterators a ++ [i] else h.iterators a } := by
  simp only [vector_add, getIt_ok hi, Res.ok_bind]
  cases hval : c.is_valid with
  | false => simp
  | true =>
    obtain ⟨a, ha, hl⟩ := hv hval
    simp only [↓reduceIte, ha, hl, true_and, Option.some.injEq]
    congr 1
    apply Heap.ext <;> try rfl
    funext b
    simp only
    by_cases hb : b = a
    · subst hb; simp
    · rw [Function.update_noteq hb]
      simp [Ne.symm hb]

/-- The members of object `i` are replaced and it is registered anew: what
`change_node` and `operator=` do. -/
theorem rehome_eq {h : Heap T} (w : h.WF) {i : Nat} {it c : set_iterator}
    (hi : h.its i = some it)
    (hv : c.is_valid = true → ∃ a, c.node = some a ∧ h.live a = true) :
    (vector_del h i >>= fun h1 => vector_add (h1.setIt i c) i) = .ok (h.place i c) := by
  rw [vector_del_eq w hi, Res.ok_bind]
  rw [vector_add_eq (h := Heap.setIt _ i c) (c := c) (by simp [Heap.setIt])
    (fun hx => by simpa [Heap.setIt, Heap.live] using hv hx)]
  have := w.lt_nextIt hi
  congr 1
  apply Heap.ext <;> try rfl
  simp only [Heap.setIt, Heap.place]
  omega

theorem change_node_eq {h : Heap T} (w : h.WF) {i : Nat} {it : set_iterator}
    (hi : h.its i = some it) {a : Addr} (hl : h.live a = true) :
    change_node h i (some a) = .ok (h.place i { it with node := some a }) := by
  rw [← rehome_eq w hi (c := { it with node := some a }) (fun _ => ⟨a, rfl, hl⟩)]
  simp only [change_node, vector_del_eq w hi, Res.ok_bind]
  rw [getIt_ok (c := it) (by simpa using hi), Res.ok_bind]

theorem assign_eq {h : Heap T} (w : h.WF) {i j : Nat} {it ot : set_iterator}
    (hi : h.its i = some it) (hj : h.its j = some ot) (hne : i ≠ j) :
    assign h i j = .ok (h.place i ot) := by
  have hv : ot.is_valid = true → ∃ a, ot.node = some a ∧ h.live a = true :=
    fun hv => w.live_of_valid hj hv
  rw [← rehome_eq w hi (c := ot) hv]
  simp only [assign, hne, ne_eq, not_false_eq_true, ↓reduceIte, vector_del_eq w hi, Res.ok_bind]
  rw [getIt_ok (c := it) (by simpa using hi), Res.ok_bind,
    getIt_ok (c := ot) (by simpa using hj), Res.ok_bind]

theorem create_eq {h : Heap T} (w : h.WF) {a : Addr} (hl : h.live a = true) (host : Option Addr) :
    create h (some a) host = .ok (h.place h.nextIt ⟨some a, true, host⟩, h.nextIt) := by
  have hnone : h.its h.nextIt = none := w.fresh _ (Nat.le_refl _)
  simp only [create]
  rw [vector_add_eq (c := ⟨some a, true, host⟩) (by simp [Heap.setIt])
    (fun _ => ⟨a, rfl, by simpa [Heap.setIt, Heap.live] using hl⟩), Res.ok_bind]
  congr 2
  apply Heap.ext <;> try rfl
  · funext b
    simp only [Heap.setIt, Heap.place]
    rw [List.erase_of_not_mem (w.not_mem_of_none hnone b)]
  · simp only [Heap.setIt, Heap.place]
    omega

theorem copy_eq {h : Heap T} (w : h.WF) {j : Nat} {ot : set_iterator} (hj : h.its j = some ot) :
    copy h j = .ok (h.place h.nextIt ot, h.nextIt) := by
  have hnone : h.its h.nextIt = none := w.fresh _ (Nat.le_refl _)
  have hv : ot.is_valid = true → ∃ a, ot.node = some a ∧ h.live a = true :=
    fun hv => w.live_of_valid hj hv
  simp only [copy, getIt_ok hj, Res.ok_bind]
  rw [vector_add_eq (c := ot) (by simp [Heap.setIt])
    (fun hx => by simpa [Heap.setIt, Heap.live] using hv hx), Res.ok_bind]
  congr 2
  apply Heap.ext <;> try rfl
  · funext b
    simp only [Heap.setIt, Heap.place]
    rw [List.erase_of_not_mem (w.not_mem_of_none hnone b)]
  · simp only [Heap.setIt, Heap.place]
    omega

theorem destroy_eq {h : Heap T} (w : h.WF) {i : Nat} {c : set_iterator}
    (hi : h.its i = some c) : destroy h i = .ok (h.remove i) := by
  simp only [destroy, vector_del_eq w hi, Res.ok_bind]
  rfl

theorem assign_new_eq {h : Heap T} (w : h.WF) {i : Nat} {it : set_iterator}
    (hi : h.its i = some it) {a : Addr} (hl : h.live a = true) (host : Option Addr) :
    ∃ h', assign_new h i (some a) host = .ok h' ∧ Same h h' ∧ h'.WF ∧
      h'.nextIt = h.nextIt + 1 ∧ h'.its i = some ⟨some a, true, host⟩ ∧
      h'.its h.nextIt = none ∧
      (∀ j, j ≠ i → j ≠ h.nextIt → h'.its j = h.its j) := by
  have hlt := w.lt_nextIt hi
  have hne : i ≠ h.nextIt := Nat.ne_of_lt hlt
  have w1 : (h.place h.nextIt ⟨some a, true, host⟩).WF := w.place _ _ (fun _ => ⟨a, rfl, hl⟩)
  have hi1 : (h.place h.nextIt ⟨some a, true, host⟩).its i = some it := by simp [hne, hi]
  have hj1 : (h.place h.nextIt ⟨some a, true, host⟩).its h.nextIt
      = some ⟨some a, true, host⟩ := by simp
  have w2 := w1.place i ⟨some a, true, host⟩ (fun _ => ⟨a, rfl, by simpa using hl⟩)
  refine ⟨((h.place h.nextIt ⟨some a, true, host⟩).place i ⟨some a, true, host⟩).remove h.nextIt,
    ?_, ?_, w2.remove _, ?_, ?_, ?_, ?_⟩
  · simp only [assign_new, create_eq w hl, Res.ok_bind]
    rw [assign_eq w1 hi1 hj1 hne, Res.ok_bind]
    exact destroy_eq w2 (c := ⟨some a, true, host⟩) (by simp [Ne.symm hne])
  · exact ((Same.place_same _ _ _).trans (Same.place_same _ _ _)).trans (Same.remove_same _ _)
  · simp only [remove_nextIt, place_nextIt]
    omega
  · simp [hne]
  · simp
  · intro j hj1 hj2
    simp [hj1, hj2]

end set_iterator

theorem List.getLastD_append_cons' {α : Type} (l1 : List α) (a : α) (l2 : List α) (e : α) :
    (l1 ++ a :: l2).getLastD e = l2.getLastD a := by
  induction l1 generalizing e with
  | nil => exact List.getLastD_cons _ _ _
  | cons b l1 ih => rw [List.cons_append, List.getLastD_cons, ih]

theorem List.nodup_length_le_of_lt {l : List Nat} {n : Nat} (hnd : l.Nodup) (hlt : ∀ a ∈ l, a < n) :
    l.length ≤ n := by
  have h1 : l.toFinset ⊆ Finset.range n := by
    intro a ha
    rw [List.mem_toFinset] at ha
    exact Finset.mem_range.2 (hlt a ha)
  have h2 := Finset.card_le_card h1
  rwa [List.toFinset_card_of_nodup hnd, Finset.card_range] at h2

namespace Treap

variable {T : Type}

theorem pairs_fst (t : Treap T) : t.pairs.map Prod.fst = t.addrs := by
  induction t with
  | nil => rfl
  | node l a v k r ihl ihr => simp [pairs, ihl, ihr]

theorem pairs_snd (t : Treap T) : t.pairs.map Prod.snd = t.values := by
  induction t with
  | nil => rfl
  | node l a v k r ihl ihr => simp [pairs, ihl, ihr]

theorem mem_values_of_pairs {t : Treap T} {p : Addr × T} (hp : p ∈ t.pairs) :
    p.2 ∈ t.values := by
  rw [← pairs_snd]
  exact List.mem_map_of_mem _ hp

theorem mem_addrs_of_pairs {t : Treap T} {p : Addr × T} (hp : p ∈ t.pairs) :
    p.1 ∈ t.addrs := by
  rw [← pairs_fst]
  exact List.mem_map_of_mem _ hp

theorem first_eq (t : Treap T) (e : Addr) : t.first e = t.addrs.headD e := by
  induction t generalizing e with
  | nil => rfl
  | node l a v k r ihl _ =>
    simp only [first, ihl, addrs_node]
    cases l.addrs <;> rfl

theorem last_eq (t : Treap T) (e : Addr) : t.last e = t.addrs.getLastD e := by
  induction t generalizing e with
  | nil => rfl
  | node l a v k r _ ihr =>
    simp only [last, ihr, addrs_node]
    rw [List.getLastD_append_cons']

theorem first_mem (t : Treap T) (e : Addr) (hne : t ≠ nil) : t.first e ∈ t.addrs := by
  induction t generalizing e with
  | nil => exact absurd rfl hne
  | node l a v k r ihl _ =>
    simp only [first, addrs_node, List.mem_append, List.mem_cons]
    cases l with
    | nil => simp [first]
    | node ll b w j lr => exact Or.inl (ihl a (by simp))

theorem last_mem (t : Treap T) (e : Addr) (hne : t ≠ nil) : t.last e ∈ t.addrs := by
  induction t generalizing e with
  | nil => exact absurd rfl hne
  | node l a v k r _ ihr =>
    simp only [last, addrs_node, List.mem_append, List.mem_cons]
    cases r with
    | nil => simp [last]
    | node rl b w j rr => exact Or.inr (Or.inr (ihr a (by simp)))

theorem first_irrel (t : Treap T) (e e' : Addr) (hne : t ≠ nil) : t.first e = t.first e' := by
  cases t with
  | nil => exact absurd rfl hne
  | node l a v k r => rfl

theorem last_irrel (t : Treap T) (e e' : Addr) (hne : t ≠ nil) : t.last e = t.last e' := by
  cases t with
  | nil => exact absurd rfl hne
  | node l a v k r => rfl

theorem ne_nil_of_mem {t : Treap T} {a : Addr} (h : a ∈ t.addrs) : t ≠ nil := by
  rintro rfl
  simp at h

theorem next_last (t : Treap T) (e e' : Addr) (hne : t ≠ nil) (hnd : t.addrs.Nodup) :
    t.next (t.last e') e = e := by
  induction t generalizing e e' with
  | nil => exact absurd rfl hne
  | node l a v k r _ ihr =>
    obtain ⟨_, ndr, hal, har, hlr⟩ := nodup_node hnd
    simp only [last, next]
    cases r with
    | nil => simp [last, hal, first]
    | node rl b w j rr =>
      have hm := last_mem (node rl b w j rr) a (by simp)
      have h1 : (node rl b w j rr).last a ∉ l.addrs := fun hc => hlr _ hc hm
      have h2 : (node rl b w j rr).last a ≠ a := by
        intro hc
        rw [hc] at hm
        exact har hm
      rw [if_neg h1, if_neg h2]
      exact ihr e a (by simp) ndr

theorem prev_first (t : Treap T) (e e' : Addr) (hne : t ≠ nil) (hnd : t.addrs.Nodup) :
    t.prev (t.first e') e = e := by
  induction t generalizing e e' with
  | nil => exact absurd rfl hne
  | node l a v k r ihl _ =>
    obtain ⟨ndl, _, hal, har, hlr⟩ := nodup_node hnd
    simp only [first, prev]
    cases l with
    | nil => simp [first, har, last]
    | node ll b w j lr =>
      have hm := first_mem (node ll b w j lr) a (by simp)
      have h1 : (node ll b w j lr).first a ∉ r.addrs := fun hc => hlr _ hm hc
      have h2 : (node ll b w j lr).first a ≠ a := by
        intro hc
        rw [hc] at hm
        exact hal hm
      rw [if_neg h1, if_neg h2]
      exact ihl e a (by simp) ndl

theorem next_spec (t : Treap T) :
    ∀ (pre : List Addr) (a : Addr) (post : List Addr) (e : Addr), t.addrs.Nodup →
      t.addrs = pre ++ a :: post → t.next a e = post.headD e := by
  induction t with
  | nil => intro pre a post e _ h; simp at h
  | node l x v k r ihl ihr =>
    intro pre a post e hnd h
    obtain ⟨ndl, ndr, hxl, hxr, hlr⟩ := nodup_node hnd
    simp only [addrs_node] at h
    simp only [next]
    rcases List.append_eq_append_iff.1 h with ⟨m, h1, h2⟩ | ⟨m, h1, h2⟩
    · -- `a` is `x` or lies in `r`
      have hal : a ∉ l.addrs := by
        intro hc
        have : a ∈ x :: r.addrs := by rw [h2]; simp
        rcases List.mem_cons.1 this with rfl | h3
        · exact hxl hc
        · exact hlr a hc h3
      rw [if_neg hal]
      cases m with
      | nil =>
        simp only [List.nil_append, List.cons.injEq] at h2
        obtain ⟨rfl, rfl⟩ := h2
        simp [first_eq]
      | cons y m =>
        simp only [List.cons_append, List.cons.injEq] at h2
        obtain ⟨rfl, h2⟩ := h2
        have hax : a ≠ x := by
          rintro rfl
          apply hxr
          rw [h2]
          simp
        rw [if_neg hax]
        exact ihr m a post e ndr h2
    · cases m with
      | nil =>
        simp only [List.nil_append, List.cons.injEq] at h2
        obtain ⟨rfl, rfl⟩ := h2
        simp [hxl, first_eq]
      | cons y m =>
        simp only [List.cons_append, List.cons.injEq] at h2
        obtain ⟨rfl, rfl⟩ := h2
        have hal : a ∈ l.addrs := by rw [h1]; simp
        rw [if_pos hal, ihl pre a m x ndl h1]
        cases m <;> rfl

theorem prev_spec (t : Treap T) :
    ∀ (pre : List Addr) (a : Addr) (post : List Addr) (e : Addr), t.addrs.Nodup →
      t.addrs = pre ++ a :: post → t.prev a e = pre.getLastD e := by
  induction t with
  | nil => intro pre a post e _ h; simp at h
  | node l x v k r ihl ihr =>
    intro pre a post e hnd h
    obtain ⟨ndl, ndr, hxl, hxr, hlr⟩ := nodup_node hnd
    simp only [addrs_node] at h
    simp only [prev]
    rcases List.append_eq_append_iff.1 h with ⟨m, h1, h2⟩ | ⟨m, h1, h2⟩
    · cases m with
      | nil =>
        simp only [List.nil_append, List.cons.injEq] at h2
        obtain ⟨rfl, rfl⟩ := h2
        simp only [List.append_nil] at h1
        subst h1
        rw [if_neg hxr, if_pos rfl, last_eq]
      | cons y m =>
        simp only [List.cons_append, List.cons.injEq] at h2
        obtain ⟨rfl, h2⟩ := h2
        have har : a ∈ r.addrs := by rw [h2]; simp
        rw [if_pos har, ihr m a post x ndr h2, h1, List.getLastD_append_cons']
    · have har : a ∉ r.addrs := by
        intro hc
        have : a ∈ l.addrs ∨ a = x := by
          cases m with
          | nil =>
            simp only [List.nil_append, List.cons.injEq] at h2
            exact Or.inr h2.1
          | cons y m =>
            simp only [List.cons_append, List.cons.injEq] at h2
            left
            rw [h1, ← h2.1]
            simp
        rcases this with h3 | rfl
        · exact hlr a h3 hc
        · exact hxr hc
      rw [if_neg har]
      cases m with
      | nil =>
        simp only [List.nil_append, List.cons.injEq] at h2
        obtain ⟨rfl, rfl⟩ := h2
        simp only [List.append_nil] at h1
        subst h1
        rw [if_pos rfl, last_eq]
      | cons y m =>
        simp only [List.cons_append, List.cons.injEq] at h2
        obtain ⟨rfl, rfl⟩ := h2
        have hax : a ≠ x := by
          rintro rfl
          apply hxl
          rw [h1]
          simp
        rw [if_neg hax]
        exact ihl pre a m e ndl h1

end Treap

namespace Heap

variable {T : Type}

theorem Rep.value {h : Heap T} (t : Treap T) (hrep : h.Rep t) :
    ∀ p ∈ t.pairs, h.value (some p.1) = .ok p.2 := by
  induction t with
  | nil => intro p hp; simp [Treap.pairs] at hp
  | node l a v k r ihl ihr =>
    obtain ⟨h1, _, _, h4, h5⟩ := hrep
    intro p hp
    simp only [Treap.pairs, List.mem_append, List.mem_cons] at hp
    rcases hp with hp | rfl | hp
    · exact ihl h4 p hp
    · exact value_ok h1
    · exact ihr h5 p hp

theorem Rep.right_last {h : Heap T} (t : Treap T) (hrep : h.Rep t) (e : Addr)
    (hne : t ≠ .nil) : h.right (t.last e) = none := by
  induction t generalizing e with
  | nil => exact absurd rfl hne
  | node l a v k r _ ihr =>
    obtain ⟨_, _, h3, _, h5⟩ := hrep
    cases r with
    | nil => simpa [Treap.last] using h3
    | node rl b w j rr => exact ihr h5 a (by simp)

theorem Rep.left_first {h : Heap T} (t : Treap T) (hrep : h.Rep t) (e : Addr)
    (hne : t ≠ .nil) : h.left (t.first e) = none := by
  induction t generalizing e with
  | nil => exact absurd rfl hne
  | node l a v k r ihl _ =>
    obtain ⟨_, h2, _, h4, _⟩ := hrep
    cases l with
    | nil => simpa [Treap.first] using h2
    | node ll b w j lr => exact ihl h4 a (by simp)

/-- A node's `right` link never references the node itself. -/
theorem Rep.right_ne {h : Heap T} (t : Treap T) (hrep : h.Rep t) (hnd : t.addrs.Nodup) :
    ∀ a ∈ t.addrs, h.right a ≠ some a := by
  induction t with
  | nil => simp
  | node l a v k r ihl ihr =>
    obtain ⟨_, _, h3, h4, h5⟩ := hrep
    obtain ⟨ndl, ndr, hal, har, _⟩ := Treap.nodup_node hnd
    intro b hb
    simp only [Treap.addrs_node, List.mem_append, List.mem_cons] at hb
    rcases hb with hb | rfl | hb
    · exact ihl h4 ndl b hb
    · rw [h3]
      intro hc
      exact har (Treap.root_mem _ _ hc)
    · exact ihr h5 ndr b hb

/-- A node's `left` link never references the node itself. -/
theorem Rep.left_ne {h : Heap T} (t : Treap T) (hrep : h.Rep t) (hnd : t.addrs.Nodup) :
    ∀ a ∈ t.addrs, h.left a ≠ some a := by
  induction t with
  | nil => simp
  | node l a v k r ihl ihr =>
    obtain ⟨_, h2, _, h4, h5⟩ := hrep
    obtain ⟨ndl, ndr, hal, har, _⟩ := Treap.nodup_node hnd
    intro b hb
    simp only [Treap.addrs_node, List.mem_append, List.mem_cons] at hb
    rcases hb with hb | rfl | hb
    · exact ihl h4 ndl b hb
    · rw [h2]
      intro hc
      exact hal (Treap.root_mem _ _ hc)
    · exact ihr h5 ndr b hb

end Heap

namespace set_iterator

open Heap

variable {T : Type}

theorem Moved.refl_moved {h : Heap T} {i : Nat} {b : Addr} {o : Option Addr} (w : h.WF)
    (hi : h.its i = some ⟨some b, true, o⟩) : Moved h h i b o :=
  ⟨Same.refl h, w, hi, fun _ _ => rfl, rfl⟩

theorem Moved.trans_moved {h h1 h2 : Heap T} {i : Nat} {b c : Addr} {o : Option Addr}
    (f : Moved h h1 i b o) (g : Moved h1 h2 i c o) : Moved h h2 i c o :=
  ⟨f.same.trans g.same, g.wf, g.here, fun j hj => (g.others j hj).trans (f.others j hj),
    g.nextIt.trans f.nextIt⟩

theorem Moved.step {h : Heap T} {i : Nat} {a : Addr} {o : Option Addr} (w : h.WF)
    (hi : h.its i = some ⟨some a, true, o⟩) {b : Addr} (hl : h.live b = true) :
    change_node h i (some b) = .ok (h.place i ⟨some b, true, o⟩) ∧
      Moved h (h.place i ⟨some b, true, o⟩) i b o := by
  refine ⟨change_node_eq w hi hl, Same.place_same _ _ _, w.place _ _ (fun _ => ⟨b, rfl, hl⟩), by simp,
    fun j hj => by simp [hj], ?_⟩
  have := w.lt_nextIt hi
  simp only [place_nextIt]
  omega

theorem descend_left_spec (i : Nat) (o : Option Addr) (e : Addr) (t : Treap T) :
    ∀ (h : Heap T) (n : Nat) (a : Addr), h.WF → h.Rep t → t.addrs.Nodup → t.root = some a →
      h.its i = some ⟨some a, true, o⟩ → t.size < n →
      ∃ h', descend_left n h i = .ok h' ∧ Moved h h' i (t.first e) o := by
  induction t generalizing e with
  | nil => intro h n a _ _ _ hr; simp at hr
  | node l x v k r ihl _ =>
    intro h n a w hrep hnd hroot hi hn
    simp only [Treap.root_node, Option.some.injEq] at hroot
    subst hroot
    obtain ⟨ho, hle, _, hrl, _⟩ := hrep
    obtain ⟨ndl, _, hxl, _, _⟩ := Treap.nodup_node hnd
    cases n with
    | zero => simp at hn
    | succ n =>
      simp only [Treap.size_node] at hn
      simp only [descend_left, getIt_ok hi, Res.ok_bind, rdLeft_ok (live_node ho), hle]
      cases hl : l.root with
      | none =>
        rw [Treap.root_eq_none] at hl
        subst hl
        exact ⟨h, by simp, by simpa [Treap.first] using Moved.refl_moved w hi⟩
      | some c =>
        have hc := Treap.root_mem _ _ hl
        have hcx : c ≠ x := by rintro rfl; exact hxl hc
        have hlive := Rep.live _ hrl c hc
        obtain ⟨e1, m1⟩ := Moved.step w hi hlive
        obtain ⟨h', e2, m2⟩ := ihl x _ n c m1.wf (m1.same.Rep _ hrl) ndl hl m1.here (by omega)
        refine ⟨h', ?_, m1.trans_moved m2⟩
        simp [hcx, e1, Res.ok_bind, e2]

theorem descend_right_spec (i : Nat) (o : Option Addr) (e : Addr) (t : Treap T) :
    ∀ (h : Heap T) (n : Nat) (a : Addr), h.WF → h.Rep t → t.addrs.Nodup → t.root = some a →
      h.its i = some ⟨some a, true, o⟩ → t.size < n →
      ∃ h', descend_right n h i = .ok h' ∧ Moved h h' i (t.last e) o := by
  induction t generalizing e with
  | nil => intro h n a _ _ _ hr; simp at hr
  | node l x v k r _ ihr =>
    intro h n a w hrep hnd hroot hi hn
    simp only [Treap.root_node, Option.some.injEq] at hroot
    subst hroot
    obtain ⟨ho, _, hri, _, hrr⟩ := hrep
    obtain ⟨_, ndr, _, hxr, _⟩ := Treap.nodup_node hnd
    cases n with
    | zero => simp at hn
    | succ n =>
      simp only [Treap.size_node] at hn
      simp only [descend_right, getIt_ok hi, Res.ok_bind, rdRight_ok (live_node ho), hri]
      cases hl : r.root with
      | none =>
        rw [Treap.root_eq_none] at hl
        subst hl
        exact ⟨h, by simp, by simpa [Treap.last] using Moved.refl_moved w hi⟩
      | some c =>
        have hc := Treap.root_mem _ _ hl
        have hcx : c ≠ x := by rintro rfl; exact hxr hc
        have hlive := Rep.live _ hrr c hc
        obtain ⟨e1, m1⟩ := Moved.step w hi hlive
        obtain ⟨h', e2, m2⟩ := ihr x _ n c m1.wf (m1.same.Rep _ hrr) ndr hl m1.here (by omega)
        refine ⟨h', ?_, m1.trans_moved m2⟩
        simp [hcx, e1, Res.ok_bind, e2]

/-- From the last node of a subtree, the climbing loop of `operator++` reaches the
top of the subtree, in fewer steps than the subtree has nodes. -/
theorem climb_right_top (i : Nat) (o : Option Addr) (t : Treap T) :
    ∀ (h : Heap T) (e : Addr) (x : Addr), h.WF → h.Rep t → h.ParIn t → t.addrs.Nodup →
      t.root = some x → h.its i = some ⟨some (t.last e), true, o⟩ →
      ∃ h' d, d < t.size ∧ Moved h h' i x o ∧
        ∀ n, climb_right (n + d) h i (h.parent (t.last e)) = climb_right n h' i (h'.parent x) := by
  induction t with
  | nil => intro h e x _ _ _ _ hr; simp at hr
  | node l a v k r _ ihr =>
    intro h e x w hrep hpar hnd hroot hi
    simp only [Treap.root_node, Option.some.injEq] at hroot
    subst hroot
    obtain ⟨ho, _, hri, _, hrr⟩ := hrep
    obtain ⟨_, hpr, _, hpir⟩ := hpar
    obtain ⟨_, ndr, _, har, _⟩ := Treap.nodup_node hnd
    cases hr : r with
    | nil =>
      subst hr
      exact ⟨h, 0, by simp, by simpa [Treap.last] using Moved.refl_moved w hi, fun n => rfl⟩
    | node rl b w' j rr =>
      rw [← hr]
      have hrne : r ≠ .nil := by rw [hr]; simp
      have hroot : r.root = some b := by rw [hr]; rfl
      have hlast : (Treap.node l a v k r).last e = r.last a := rfl
      rw [hlast] at hi ⊢
      obtain ⟨h1, d, hd, m1, e1⟩ := ihr h a b w hrr hpir ndr hroot hi
      have hb1 : h1.its i = some ⟨some b, true, o⟩ := m1.here
      have hpb : h1.parent b = some a := by rw [m1.same.parent]; exact hpr b hroot
      have hla : h1.live a = true := by rw [m1.same.live_same]; exact live_node ho
      have hlb : h1.live b = true := by
        rw [m1.same.live_same]; exact Rep.live _ hrr b (Treap.root_mem _ _ hroot)
      obtain ⟨e2, m2⟩ := Moved.step m1.wf hb1 hla
      refine ⟨_, d + 1, by simp only [Treap.size_node]; omega, m1.trans_moved m2, ?_⟩
      intro n
      rw [show n + (d + 1) = (n + 1) + d by omega, e1 (n + 1), hpb]
      simp only [climb_right, getIt_ok hb1, Res.ok_bind, rdParent_ok hlb, hpb,
        rdRight_ok hla, m1.same.right, hri, hroot, bne_iff_ne, ne_eq, reduceCtorEq,
        not_false_eq_true, ↓reduceIte, beq_self_eq_true, e2]
      rw [rdParent_ok (by simpa using hla), Res.ok_bind]

/-- From the first node of a subtree, the climbing loop of `operator--` reaches the
top of the subtree, in fewer steps than the subtree has nodes. -/
theorem climb_left_top (i : Nat) (o : Option Addr) (t : Treap T) :
    ∀ (h : Heap T) (e : Addr) (x : Addr), h.WF → h.Rep t → h.ParIn t → t.addrs.Nodup →
      t.root = some x → h.its i = some ⟨some (t.first e), true, o⟩ →
      ∃ h' d, d < t.size ∧ Moved h h' i x o ∧
        ∀ n, climb_left (n + d) h i (h.parent (t.first e)) = climb_left n h' i (h'.parent x) := by
  induction t with
  | nil => intro h e x _ _ _ _ hr; simp at hr
  | node l a v k r ihl _ =>
    intro h e x w hrep hpar hnd hroot hi
    simp only [Treap.root_node, Option.some.injEq] at hroot
    subst hroot
    obtain ⟨ho, hle, hri, hrl, _⟩ := hrep
    obtain ⟨hpl, _, hpil, _⟩ := hpar
    obtain ⟨ndl, _, hal, har, hlr⟩ := Treap.nodup_node hnd
    cases hl : l with
    | nil =>
      subst hl
      exact ⟨h, 0, by simp, by simpa [Treap.first] using Moved.refl_moved w hi, fun n => rfl⟩
    | node ll b w' j lr =>
      rw [← hl]
      have hroot : l.root = some b := by rw [hl]; rfl
      have hfirst : (Treap.node l a v k r).first e = l.first a := rfl
      rw [hfirst] at hi ⊢
      obtain ⟨h1, d, hd, m1, e1⟩ := ihl h a b w hrl hpil ndl hroot hi
      have hb1 : h1.its i = some ⟨some b, true, o⟩ := m1.here
      have hpb : h1.parent b = some a := by rw [m1.same.parent]; exact hpl b hroot
      have hla : h1.live a = true := by rw [m1.same.live_same]; exact live_node ho
      have hbl : b ∈ l.addrs := Treap.root_mem _ _ hroot
      have hbr : r.root ≠ some b := fun hc => hlr b hbl (Treap.root_mem _ _ hc)
      obtain ⟨e2, m2⟩ := Moved.step m1.wf hb1 hla
      refine ⟨_, d + 1, by simp only [Treap.size_node]; omega, m1.trans_moved m2, ?_⟩
      intro n
      rw [show n + (d + 1) = (n + 1) + d by omega, e1 (n + 1), hpb]
      simp only [climb_left, getIt_ok hb1, Res.ok_bind, rdLeft_ok hla, m1.same.left, hle,
        rdRight_ok hla, m1.same.right, hri, hroot, bne_iff_ne, ne_eq, reduceCtorEq,
        not_false_eq_true, ↓reduceIte, beq_self_eq_true, e2, Ne.symm hbr]
      rw [rdParent_ok (by simpa using hla), Res.ok_bind]

end set_iterator

namespace set_iterator

open Heap

variable {T : Type}

theorem incr_unfold {h : Heap T} {i : Nat} {a : Addr} {o : Option Addr}
    (hi : h.its i = some ⟨some a, true, o⟩) (hl : h.live a = true) (hr : h.right a ≠ some a) :
    incr h i =
      if h.right a != none then
        change_node h i (h.right a) >>= fun h1 => descend_left h.fuel h1 i
      else climb_right h.fuel h i (h.parent a) := by
  have hne : (some a != h.right a) = true := by
    simp only [bne_iff_ne, ne_eq]
    exact fun hc => hr hc.symm
  simp only [incr, getIt_ok hi, Res.ok_bind, check_true, rdRight_ok hl, hne, rdParent_ok hl]

theorem decr_unfold {h : Heap T} {i : Nat} {a : Addr} {o : Option Addr}
    (hi : h.its i = some ⟨some a, true, o⟩) (hl : h.live a = true) :
    decr h i =
      if (h.left a != none && h.left a != some a) then
        change_node h i (h.left a) >>= fun h1 => descend_right h.fuel h1 i >>= decr_tail i
      else climb_left h.fuel h i (h.parent a) >>= decr_tail i := by
  simp only [decr, getIt_ok hi, Res.ok_bind, check_true, rdLeft_ok hl, rdParent_ok hl]
  split <;> rfl

/-- The closing assertion of `operator--` passes at a node of the tree. -/
theorem decr_final {h h2 : Heap T} {i : Nat} {b : Addr} {o : Option Addr}
    (m : Moved h h2 i b o) (hl : h.live b = true) (hr : h.right b ≠ some b) :
    decr_tail i h2 = .ok h2 := by
  have hl2 : h2.live b = true := by rw [m.same.live_same]; exact hl
  have hne : (some b != h2.right b) = true := by
    simp only [bne_iff_ne, ne_eq, m.same.right]
    exact fun hc => hr hc.symm
  simp only [decr_tail, getIt_ok m.here, Res.ok_bind, rdRight_ok hl2, hne, check_true]

theorem incr_inner (i : Nat) (o : Option Addr) (t : Treap T) :
    ∀ (h : Heap T) (a e : Addr), h.WF → h.Rep t → h.ParIn t → t.addrs.Nodup → a ∈ t.addrs →
      a ≠ t.last e → h.its i = some ⟨some a, true, o⟩ → t.size < h.fuel →
      ∃ h', incr h i = .ok h' ∧ Moved h h' i (t.next a e) o := by
  induction t with
  | nil => intro h a e _ _ _ _ ha; simp at ha
  | node l x v k r ihl ihr =>
    intro h a e w hrep hpar hnd ha hlast hi hfuel
    have hrep0 := hrep
    obtain ⟨ho, hle, hri, hrl, hrr⟩ := hrep
    obtain ⟨hpl, hpr, hpil, hpir⟩ := hpar
    obtain ⟨ndl, ndr, hxl, hxr, hlr⟩ := Treap.nodup_node hnd
    simp only [Treap.size_node] at hfuel
    have hlive : h.live a = true := Rep.live _ hrep0 a ha
    have hrne : h.right a ≠ some a := Rep.right_ne _ hrep0 hnd a ha
    simp only [Treap.next]
    by_cases hal : a ∈ l.addrs
    · rw [if_pos hal]
      by_cases hll : a = l.last x
      · have hlne := Treap.ne_nil_of_mem hal
        have hra : h.right a = none := by rw [hll]; exact Rep.right_last l hrl x hlne
        obtain ⟨b, hb⟩ : ∃ b, l.root = some b := by
          cases l with
          | nil => exact absurd rfl hlne
          | node ll b w' j lr => exact ⟨b, rfl⟩
        have hbl := Treap.root_mem _ _ hb
        obtain ⟨h1, d, hd, m1, e1⟩ :=
          climb_right_top i o l h x b w hrl hpil ndl hb (hll ▸ hi)
        have hb1 : h1.its i = some ⟨some b, true, o⟩ := m1.here
        have hpb : h1.parent b = some x := by rw [m1.same.parent]; exact hpl b hb
        have hlx : h1.live x = true := by rw [m1.same.live_same]; exact live_node ho
        have hlb : h1.live b = true := by rw [m1.same.live_same]; exact Rep.live _ hrl b hbl
        have hbr : r.root ≠ some b := fun hc => hlr b hbl (Treap.root_mem _ _ hc)
        obtain ⟨e2, m2⟩ := Moved.step m1.wf hb1 hlx
        refine ⟨h1.place i ⟨some x, true, o⟩, ?_, ?_⟩
        rotate_left
        · rw [hll, Treap.next_last l x x hlne ndl]
          exact m1.trans_moved m2
        · rw [incr_unfold hi hlive hrne, hra]
          simp only [bne_self_eq_false, Bool.false_eq_true, ↓reduceIte]
          rw [show h.fuel = (h.fuel - d - 1 + 1) + d by omega, hll, e1, hpb]
          simp only [climb_right, getIt_ok hb1, Res.ok_bind, rdParent_ok hlb, hpb,
            rdRight_ok hlx, m1.same.right, hri, bne_iff_ne, ne_eq, reduceCtorEq,
            not_false_eq_true, ↓reduceIte, e2, beq_iff_eq, Ne.symm hbr]
      · exact ihl h a x w hrl hpil ndl hal hll hi (by omega)
    · rw [if_neg hal]
      by_cases hax : a = x
      · subst hax
        rw [if_pos rfl]
        obtain ⟨c, hc⟩ : ∃ c, r.root = some c := by
          cases r with
          | nil => exact absurd rfl hlast
          | node rl c w' j rr => exact ⟨c, rfl⟩
        have hcr := Treap.root_mem _ _ hc
        obtain ⟨e1, m1⟩ := Moved.step w hi (Rep.live _ hrr c hcr)
        obtain ⟨h', e2, m2⟩ := descend_left_spec i o e r _ h.fuel c m1.wf (m1.same.Rep _ hrr)
          ndr hc m1.here (by omega)
        refine ⟨h', ?_, m1.trans_moved m2⟩
        rw [incr_unfold hi hlive hrne, hri, hc]
        simp only [bne_iff_ne, ne_eq, reduceCtorEq, not_false_eq_true, ↓reduceIte, e1,
          Res.ok_bind, e2]
      · rw [if_neg hax]
        have har : a ∈ r.addrs := by
          simp only [Treap.addrs_node, List.mem_append, List.mem_cons] at ha
          tauto
        have hlast' : a ≠ r.last e := by
          rw [Treap.last_irrel r e x (Treap.ne_nil_of_mem har)]
          exact hlast
        exact ihr h a e w hrr hpir ndr har hlast' hi (by omega)

theorem decr_inner (i : Nat) (o : Option Addr) (t : Treap T) :
    ∀ (h : Heap T) (a e : Addr), h.WF → h.Rep t → h.ParIn t → t.addrs.Nodup → a ∈ t.addrs →
      a ≠ t.first e → h.its i = some ⟨some a, true, o⟩ → t.size < h.fuel →
      ∃ h', decr h i = .ok h' ∧ Moved h h' i (t.prev a e) o := by
  induction t with
  | nil => intro h a e _ _ _ _ ha; simp at ha
  | node l x v k r ihl ihr =>
    intro h a e w hrep hpar hnd ha hfirst hi hfuel
    have hrep0 := hrep
    obtain ⟨ho, hle, hri, hrl, hrr⟩ := hrep
    obtain ⟨hpl, hpr, hpil, hpir⟩ := hpar
    obtain ⟨ndl, ndr, hxl, hxr, hlr⟩ := Treap.nodup_node hnd
    simp only [Treap.size_node] at hfuel
    have hlive : h.live a = true := Rep.live _ hrep0 a ha
    have hlx0 : h.live x = true := live_node ho
    have hrx : h.right x ≠ some x := Rep.right_ne _ hrep0 hnd x (by simp)
    simp only [Treap.prev]
    by_cases har : a ∈ r.addrs
    · rw [if_pos har]
      by_cases hff : a = r.first x
      · have hrne := Treap.ne_nil_of_mem har
        have hla : h.left a = none := by rw [hff]; exact Rep.left_first r hrr x hrne
        obtain ⟨b, hb⟩ : ∃ b, r.root = some b := by
          cases r with
          | nil => exact absurd rfl hrne
          | node rl b w' j rr => exact ⟨b, rfl⟩
        have hbr := Treap.root_mem _ _ hb
        obtain ⟨h1, d, hd, m1, e1⟩ :=
          climb_left_top i o r h x b w hrr hpir ndr hb (hff ▸ hi)
        have hb1 : h1.its i = some ⟨some b, true, o⟩ := m1.here
        have hpb : h1.parent b = some x := by rw [m1.same.parent]; exact hpr b hb
        have hlx : h1.live x = true := by rw [m1.same.live_same]; exact hlx0
        have hbl : l.root ≠ some b := fun hc => hlr b (Treap.root_mem _ _ hc) hbr
        obtain ⟨e2, m2⟩ := Moved.step m1.wf hb1 hlx
        refine ⟨h1.place i ⟨some x, true, o⟩, ?_, ?_⟩
        rotate_left
        · rw [hff, Treap.prev_first r x x hrne ndr]
          exact m1.trans_moved m2
        · rw [decr_unfold hi hlive, hla]
          simp only [bne_self_eq_false, Bool.false_and, Bool.false_eq_true, ↓reduceIte]
          rw [show h.fuel = (h.fuel - d - 1 + 1) + d by omega, hff, e1, hpb]
          simp only [climb_left, getIt_ok hb1, Res.ok_bind, rdLeft_ok hlx, m1.same.left, hle,
            bne_iff_ne, ne_eq, reduceCtorEq, not_false_eq_true, ↓reduceIte, e2, beq_iff_eq,
            Ne.symm hbl]
          exact decr_final (m1.trans_moved m2) hlx0 hrx
      · obtain ⟨h', e1, m1⟩ := ihr h a x w hrr hpir ndr har hff hi (by omega)
        exact ⟨h', e1, m1⟩
    · rw [if_neg har]
      by_cases hax : a = x
      · subst hax
        rw [if_pos rfl]
        obtain ⟨c, hc⟩ : ∃ c, l.root = some c := by
          cases l with
          | nil => exact absurd rfl hfirst
          | node ll c w' j lr => exact ⟨c, rfl⟩
        have hcl := Treap.root_mem _ _ hc
        have hca : c ≠ a := by rintro rfl; exact hxl hcl
        have hlne := Treap.ne_nil_of_mem hcl
        obtain ⟨e1, m1⟩ := Moved.step w hi (Rep.live _ hrl c hcl)
        obtain ⟨h', e2, m2⟩ := descend_right_spec i o e l _ h.fuel c m1.wf (m1.same.Rep _ hrl)
          ndl hc m1.here (by omega)
        have hlm := Treap.last_mem l e hlne
        refine ⟨h', ?_, m1.trans_moved m2⟩
        rw [decr_unfold hi hlive, hle, hc]
        have hcond : (some c != none && some c != some a) = true := by simp [hca]
        simp only [hcond, ↓reduceIte, e1, Res.ok_bind, e2]
        exact decr_final (m1.trans_moved m2) (Rep.live _ hrl _ hlm) (Rep.right_ne _ hrl ndl _ hlm)
      · rw [if_neg hax]
        have hal : a ∈ l.addrs := by
          simp only [Treap.addrs_node, List.mem_append, List.mem_cons] at ha
          tauto
        have hfirst' : a ≠ l.first e := by
          rw [Treap.first_irrel l e x (Treap.ne_nil_of_mem hal)]
          exact hfirst
        exact ihl h a e w hrl hpil ndl hal hfirst' hi (by omega)

end set_iterator

namespace set

open Heap set_iterator

variable {T : Type} [LinearOrder T]

theorem Shape.live_s {h : Heap T} {s : Addr} {t : Treap T} (inv : Shape h s t) : h.live s = true :=
  live_base inv.base

theorem Shape.not_mem {h : Heap T} {s : Addr} {t : Treap T} (inv : Shape h s t) : s ∉ t.addrs := by
  intro hc
  have : ∀ (u : Treap T), h.Rep u → s ∈ u.addrs → False := by
    intro u
    induction u with
    | nil => intro _ hm; simp at hm
    | node l a v k r ihl ihr =>
      intro hr hm
      obtain ⟨h1, _, _, h4, h5⟩ := hr
      simp only [Treap.addrs_node, List.mem_append, List.mem_cons] at hm
      rcases hm with hm | rfl | hm
      · exact ihl h4 hm
      · rw [inv.base] at h1
        exact Obj.noConfusion h1
      · exact ihr h5 hm
  exact this t inv.rep hc

theorem Shape.size_lt {h : Heap T} {s : Addr} {t : Treap T} (inv : Shape h s t) :
    t.size < h.next := by
  have hnd : (s :: t.addrs).Nodup := List.nodup_cons.2 ⟨inv.not_mem, inv.nodup⟩
  have hlt : ∀ a ∈ s :: t.addrs, a < h.next := by
    intro a ha
    rcases List.mem_cons.1 ha with rfl | ha
    · exact inv.wf.lt_next inv.live_s
    · exact inv.wf.lt_next (Rep.live _ inv.rep a ha)
  have := List.nodup_length_le_of_lt hnd hlt
  simp only [List.length_cons, Treap.length_addrs] at this
  omega

theorem Shape.fuel {h : Heap T} {s : Addr} {t : Treap T} (inv : Shape h s t) :
    2 * t.size + 4 ≤ h.fuel := by
  have := inv.size_lt
  simp only [Heap.fuel]
  omega

theorem Shape.of_eq_shape {h h' : Heap T} {s : Addr} {t : Treap T} (inv : Shape h s t) (w : h'.WF)
    (ho : h'.obj = h.obj) (hl : h'.left = h.left) (hr : h'.right = h.right)
    (hp : h'.parent = h.parent) (hn : h'.next = h.next) : Shape h' s t :=
  ⟨w, by rw [ho]; exact inv.base,
    Rep.congr_rep t (fun _ _ => by rw [ho]) (fun _ _ => by rw [hl]) (fun _ _ => by rw [hr]) inv.rep,
    fun hne => by rw [hl]; exact inv.root hne,
    ⟨fun b hb => by rw [hp]; exact inv.par.1 b hb,
      ParIn.congr_par t (fun _ _ => by rw [hp]) inv.par.2⟩, inv.nodup,
    fun r hr' => by rw [hn]; exact inv.right r (by rw [← hr]; exact hr')⟩

theorem Shape.same_shape {h h' : Heap T} {s : Addr} {t : Treap T} (inv : Shape h s t) (f : Same h h')
    (w : h'.WF) : Shape h' s t :=
  ⟨w, by rw [f.obj]; exact inv.base, f.Rep _ inv.rep,
    fun hne => by rw [f.left]; exact inv.root hne,
    ⟨fun b hb => by rw [f.parent]; exact inv.par.1 b hb, f.ParIn _ inv.par.2⟩, inv.nodup,
    fun r hr => by rw [f.next]; exact inv.right r (by rw [← f.right]; exact hr)⟩

theorem Inv.same {h h' : Heap T} {s : Addr} {t : Treap T} (inv : Inv h s t) (f : Same h h')
    (w : h'.WF) : Inv h' s t :=
  ⟨inv.toShape.same_shape f w, by rw [f.size]; exact inv.size, inv.bst⟩

theorem Inv.empty_iff {h : Heap T} {s : Addr} {t : Treap T} (inv : Inv h s t) :
    empty h s = true ↔ t = .nil := by
  have hs : set.size h s = t.size := inv.size
  simp only [empty, hs, beq_iff_eq]
  cases t with
  | nil => simp
  | node l a v k r => simp

theorem end_spec {h : Heap T} {s : Addr} {t : Treap T} (inv : Shape h s t) :
    end_ h s = .ok (h.place h.nextIt ⟨some s, true, some s⟩, h.nextIt) :=
  create_eq inv.wf inv.live_s _

theorem begin_spec {h : Heap T} {s : Addr} {t : Treap T} (inv : Inv h s t) :
    begin h s = .ok (h.place h.nextIt ⟨some (t.first s), true, some s⟩, h.nextIt) := by
  cases ht : t with
  | nil =>
    have he : empty h s = true := inv.empty_iff.2 ht
    simp only [begin, he, ↓reduceIte, Treap.first]
    exact end_spec inv.toShape
  | node l a v k r =>
    rw [← ht]
    have hne : t ≠ .nil := by rw [ht]; simp
    have he : empty h s = false := by
      rw [← Bool.not_eq_true, inv.empty_iff]; exact hne
    have hroot : t.root = some a := by rw [ht]; rfl
    have hlive := Rep.live _ inv.rep _ (Treap.first_mem t s hne)
    have hfuel := inv.fuel
    simp only [begin, he, Bool.false_eq_true, ↓reduceIte, rdLeft_ok inv.live_s, Res.ok_bind,
      inv.root hne, hroot, most_left_spec t h inv.rep s h.fuel (by omega) a hroot]
    exact create_eq inv.wf hlive _

theorem incr_spec {h : Heap T} {s : Addr} {t : Treap T} (inv : Shape h s t) {i : Nat} {a : Addr}
    {o : Option Addr} (ha : a ∈ t.addrs) (hi : h.its i = some ⟨some a, true, o⟩) :
    ∃ h', incr h i = .ok h' ∧ Moved h h' i (t.next a s) o := by
  have hfuel := inv.fuel
  by_cases hlast : a = t.last s
  · have hne := Treap.ne_nil_of_mem ha
    have hlive : h.live a = true := Rep.live _ inv.rep a ha
    have hrne : h.right a ≠ some a := Rep.right_ne _ inv.rep inv.nodup a ha
    have hra : h.right a = none := by rw [hlast]; exact Rep.right_last t inv.rep s hne
    obtain ⟨b, hb⟩ : ∃ b, t.root = some b := by
      cases t with
      | nil => exact absurd rfl hne
      | node l b w' j r => exact ⟨b, rfl⟩
    have hbt := Treap.root_mem _ _ hb
    obtain ⟨h1, d, hd, m1, e1⟩ :=
      climb_right_top i o t h s b inv.wf inv.rep inv.par.2 inv.nodup hb (hlast ▸ hi)
    have hb1 : h1.its i = some ⟨some b, true, o⟩ := m1.here
    have hpb : h1.parent b = some s := by rw [m1.same.parent]; exact inv.par.1 b hb
    have hls : h1.live s = true := by rw [m1.same.live_same]; exact inv.live_s
    have hlb : h1.live b = true := by rw [m1.same.live_same]; exact Rep.live _ inv.rep b hbt
    have hbr : h.right s ≠ some b := fun hc => (inv.right b hc).1 hbt
    obtain ⟨e2, m2⟩ := Moved.step m1.wf hb1 hls
    refine ⟨h1.place i ⟨some s, true, o⟩, ?_, ?_⟩
    rotate_left
    · rw [hlast, Treap.next_last t s s hne inv.nodup]
      exact m1.trans_moved m2
    · rw [incr_unfold hi hlive hrne, hra]
      simp only [bne_self_eq_false, Bool.false_eq_true, ↓reduceIte]
      rw [show h.fuel = (h.fuel - d - 1 + 1) + d by omega, hlast, e1, hpb]
      simp only [climb_right, getIt_ok hb1, Res.ok_bind, rdParent_ok hlb, hpb,
        rdRight_ok hls, m1.same.right, bne_iff_ne, ne_eq, reduceCtorEq,
        not_false_eq_true, ↓reduceIte, e2, beq_iff_eq, Ne.symm hbr]
  · exact incr_inner i o t h a s inv.wf inv.rep inv.par.2 inv.nodup ha hlast hi (by omega)

theorem decr_spec {h : Heap T} {s : Addr} {t : Treap T} (inv : Shape h s t) {i : Nat} {a : Addr}
    {o : Option Addr} (ha : a ∈ t.addrs) (hfirst : a ≠ t.first s)
    (hi : h.its i = some ⟨some a, true, o⟩) :
    ∃ h', decr h i = .ok h' ∧ Moved h h' i (t.prev a s) o := by
  have hfuel := inv.fuel
  exact decr_inner i o t h a s inv.wf inv.rep inv.par.2 inv.nodup ha hfirst hi (by omega)

theorem decr_end_spec {h : Heap T} {s : Addr} {t : Treap T} (inv : Shape h s t) {i : Nat}
    {o : Option Addr} (hne : t ≠ .nil) (hi : h.its i = some ⟨some s, true, o⟩) :
    ∃ h', decr h i = .ok h' ∧ Moved h h' i (t.last s) o := by
  have hfuel := inv.fuel
  obtain ⟨c, hc⟩ : ∃ c, t.root = some c := by
    cases t with
    | nil => exact absurd rfl hne
    | node l b w' j r => exact ⟨b, rfl⟩
  have hct := Treap.root_mem _ _ hc
  have hcs : c ≠ s := by rintro rfl; exact inv.not_mem hct
  obtain ⟨e1, m1⟩ := Moved.step inv.wf hi (Rep.live _ inv.rep c hct)
  obtain ⟨h', e2, m2⟩ := descend_right_spec i o s t _ h.fuel c m1.wf (m1.same.Rep _ inv.rep)
    inv.nodup hc m1.here (by omega)
  have hlm := Treap.last_mem t s hne
  refine ⟨h', ?_, m1.trans_moved m2⟩
  rw [decr_unfold hi inv.live_s, inv.root hne, hc]
  have hcond : (some c != none && some c != some s) = true := by simp [hcs]
  simp only [hcond, ↓reduceIte, e1, Res.ok_bind, e2]
  exact decr_final (m1.trans_moved m2) (Rep.live _ inv.rep _ hlm)
    (Rep.right_ne _ inv.rep inv.nodup _ hlm)

end set

namespace set_iterator

open Heap

variable {T : Type}

theorem ne_spec {h : Heap T} {i j : Nat} {a b : Addr} {o : Option Addr}
    (hi : h.its i = some ⟨some a, true, o⟩) (hj : h.its j = some ⟨some b, true, o⟩) :
    set_iterator.ne h i j = .ok (a != b) := by
  simp only [set_iterator.ne, getIt_ok hi, getIt_ok hj, Res.ok_bind, check_true, beq_self_eq_true]
  rfl

theorem eq_spec {h : Heap T} {i j : Nat} {a b : Addr} {o : Option Addr}
    (hi : h.its i = some ⟨some a, true, o⟩) (hj : h.its j = some ⟨some b, true, o⟩) :
    set_iterator.eq h i j = .ok (a == b) := by
  simp only [set_iterator.eq, getIt_ok hi, getIt_ok hj, Res.ok_bind, check_true, beq_self_eq_true]
  rfl

theorem deref_spec {h : Heap T} {i : Nat} {a : Addr} {o : Option Addr} {v : T}
    (hi : h.its i = some ⟨some a, true, o⟩) (hl : h.live a = true) (hr : h.right a ≠ some a)
    (hv : h.value (some a) = .ok v) : deref h i = .ok v := by
  have hne : (some a != h.right a) = true := by
    simp only [bne_iff_ne, ne_eq]
    exact fun hc => hr hc.symm
  simp only [deref, getIt_ok hi, Res.ok_bind, check_true, rdRight_ok hl, hne, hv]

end set_iterator

namespace Treap

variable {T : Type}

theorem addrs_of_pairs {t : Treap T} {u post : List (Addr × T)} {p : Addr × T}
    (h : t.pairs = u ++ p :: post) :
    t.addrs = u.map Prod.fst ++ p.1 :: post.map Prod.fst := by
  rw [← pairs_fst, h]
  simp

theorem pairs_ne_nil {t : Treap T} (hne : t ≠ nil) : t.pairs ≠ [] := by
  cases t with
  | nil => exact absurd rfl hne
  | node l a v k r => simp [pairs]

end Treap

namespace set

open Heap set_iterator

variable {T : Type} [LinearOrder T]

theorem walk_spec (s : Addr) (t : Treap T) (i e : Nat) (hie : i ≠ e) :
    ∀ (post pre : List (Addr × T)) (p : Addr × T) (h : Heap T) (n : Nat), Shape h s t →
      h.its e = some ⟨some s, true, some s⟩ → t.pairs = pre ++ p :: post →
      h.its i = some ⟨some p.1, true, some s⟩ → post.length + 1 < n →
      ∃ h', walk n h i e = .ok (h', (p :: post).map Prod.snd) := by
  intro post
  induction post with
  | nil =>
    intro pre p h n inv he hp hi hn
    have haddrs := Treap.addrs_of_pairs hp
    have ha : p.1 ∈ t.addrs := by rw [haddrs]; simp
    have hps : p.1 ≠ s := by rintro hc; exact inv.not_mem (hc ▸ ha)
    obtain ⟨h1, e1, m1⟩ := incr_spec inv ha hi
    rw [Treap.next_spec t _ _ _ s inv.nodup haddrs] at m1
    have he1 : h1.its e = some ⟨some s, true, some s⟩ := by
      rw [m1.others e (Ne.symm hie)]; exact he
    obtain ⟨n, rfl⟩ : ∃ m, n = m + 2 := ⟨n - 2, by simp at hn; omega⟩
    refine ⟨h1, ?_⟩
    have hne : (p.1 != s) = true := by simpa using hps
    have hss : (s != s) = false := by simp
    simp only [walk, ne_spec hi he, Res.ok_bind, hne, ↓reduceIte,
      deref_spec hi (Rep.live _ inv.rep _ ha) (Rep.right_ne _ inv.rep inv.nodup _ ha)
        (Rep.value t inv.rep p (by rw [hp]; simp)), e1]
    simp only [List.map_nil, List.headD_nil] at m1
    simp only [ne_spec m1.here he1, Res.ok_bind, hss, Bool.false_eq_true, ↓reduceIte,
      List.map_cons, List.map_nil]
  | cons q post ih =>
    intro pre p h n inv he hp hi hn
    have haddrs := Treap.addrs_of_pairs hp
    have ha : p.1 ∈ t.addrs := by rw [haddrs]; simp
    have hps : p.1 ≠ s := by rintro hc; exact inv.not_mem (hc ▸ ha)
    obtain ⟨h1, e1, m1⟩ := incr_spec inv ha hi
    rw [Treap.next_spec t _ _ _ s inv.nodup haddrs] at m1
    simp only [List.map_cons, List.headD_cons] at m1
    have he1 : h1.its e = some ⟨some s, true, some s⟩ := by
      rw [m1.others e (Ne.symm hie)]; exact he
    obtain ⟨n, rfl⟩ : ∃ m, n = m + 1 := ⟨n - 1, by simp at hn; omega⟩
    have hp' : t.pairs = (pre ++ [p]) ++ q :: post := by rw [hp]; simp
    obtain ⟨h2, e2⟩ := ih (pre ++ [p]) q h1 n (inv.same_shape m1.same m1.wf) he1 hp' m1.here
      (by simp at hn ⊢; omega)
    refine ⟨h2, ?_⟩
    have hne : (p.1 != s) = true := by simpa using hps
    simp only [walk, ne_spec hi he, Res.ok_bind, hne, ↓reduceIte,
      deref_spec hi (Rep.live _ inv.rep _ ha) (Rep.right_ne _ inv.rep inv.nodup _ ha)
        (Rep.value t inv.rep p (by rw [hp]; simp)), e1, e2, List.map_cons]

/-- Reading the set from `begin()` to `end()` yields the values of the shape, in
order. -/
theorem traverse_spec {h : Heap T} {s : Addr} {t : Treap T} (inv : Inv h s t) :
    traverse h s = .ok t.values := by
  have hfuel := inv.fuel
  have w1 : (h.place h.nextIt ⟨some (t.first s), true, some s⟩).WF := by
    refine inv.wf.place _ _ (fun _ => ⟨_, rfl, ?_⟩)
    cases t with
    | nil => exact inv.live_s
    | node l a v k r => exact Rep.live _ inv.rep _ (Treap.first_mem _ s (by simp))
  have inv1 := inv.same (Same.place_same h h.nextIt ⟨some (t.first s), true, some s⟩) w1
  have w2 := (inv1.wf.place (h.nextIt + 1) ⟨some s, true, some s⟩
    (fun _ => ⟨s, rfl, inv1.live_s⟩))
  have inv2 := inv1.same (Same.place_same _ (h.nextIt + 1) ⟨some s, true, some s⟩) w2
  have hn1 : (h.place h.nextIt ⟨some (t.first s), true, some s⟩).nextIt = h.nextIt + 1 := by
    simp
  simp only [traverse, begin_spec inv, Res.ok_bind, end_spec inv1.toShape, hn1]
  cases hp : t.pairs with
  | nil =>
    have ht : t = .nil := by
      by_contra hc
      exact Treap.pairs_ne_nil hc hp
    subst ht
    have hss : (s != s) = false := by simp
    have hf : ∃ m, Heap.fuel ((h.place h.nextIt ⟨some s, true, some s⟩).place (h.nextIt + 1)
        ⟨some s, true, some s⟩) = m + 1 := ⟨_, rfl⟩
    obtain ⟨m, hm⟩ := hf
    simp only [Treap.first, hm, walk]
    rw [ne_spec (a := s) (b := s) (o := some s) (by simp) (by simp)]
    simp [Res.ok_bind, hss]
  | cons p post =>
    have hfirst : t.first s = p.1 := by
      rw [Treap.first_eq, Treap.addrs_of_pairs (u := []) hp]
      rfl
    have hlen : post.length + 1 = t.size := by
      rw [← Treap.length_values, ← Treap.pairs_snd, hp]
      simp
    obtain ⟨h', e1⟩ := walk_spec s t h.nextIt (h.nextIt + 1) (by omega) post [] p _
      (Heap.fuel ((h.place h.nextIt ⟨some (t.first s), true, some s⟩).place (h.nextIt + 1)
        ⟨some s, true, some s⟩)) inv2.toShape (by simp) hp (by simp [hfirst])
      (by simp only [place_fuel]; omega)
    rw [e1, Res.ok_bind, ← Treap.pairs_snd, hp]

theorem walk_back_spec (s : Addr) (t : Treap T) (i f : Nat) (hif : i ≠ f) :
    ∀ (pre : List (Addr × T)) (p : Addr × T) (post : List (Addr × T)) (h : Heap T) (n : Nat),
      Shape h s t → h.its f = some ⟨some (t.first s), true, some s⟩ → t.pairs = pre ++ p :: post →
      h.its i = some ⟨some p.1, true, some s⟩ → pre.length + 1 < n →
      ∃ h', walk_back n h i f = .ok (h', pre.reverse.map Prod.snd) := by
  intro pre
  induction pre using List.reverseRecOn with
  | nil =>
    intro p post h n inv hf hp hi hn
    have hfirst : t.first s = p.1 := by
      rw [Treap.first_eq, Treap.addrs_of_pairs (u := []) hp]
      rfl
    obtain ⟨n, rfl⟩ : ∃ m, n = m + 1 := ⟨n - 1, by simp at hn; omega⟩
    refine ⟨h, ?_⟩
    have hss : (p.1 != t.first s) = false := by simp [hfirst]
    simp only [walk_back, ne_spec hi hf, Res.ok_bind, hss, Bool.false_eq_true, ↓reduceIte,
      List.reverse_nil, List.map_nil]
  | append_singleton pre q ih =>
    intro p post h n inv hf hp hi hn
    have haddrs := Treap.addrs_of_pairs hp
    have hnd := inv.nodup
    rw [haddrs] at hnd
    have ha : p.1 ∈ t.addrs := by rw [haddrs]; simp
    have hfirst : t.first s ∈ (pre ++ [q]).map Prod.fst := by
      rw [Treap.first_eq, haddrs]
      cases pre <;> simp
    have hpf : p.1 ≠ t.first s := by
      intro hc
      rw [← hc] at hfirst
      exact (List.nodup_append.1 hnd).2.2 hfirst (List.mem_cons_self _ _)
    obtain ⟨h1, e1, m1⟩ := decr_spec inv ha hpf hi
    rw [Treap.prev_spec t _ _ _ s inv.nodup haddrs] at m1
    have hq : ((pre ++ [q]).map Prod.fst).getLastD s = q.1 := by
      rw [List.map_append, List.map_singleton, List.getLastD_concat]
    rw [hq] at m1
    have hf1 : h1.its f = some ⟨some (t.first s), true, some s⟩ := by
      rw [m1.others f (Ne.symm hif)]; exact hf
    have hp' : t.pairs = pre ++ q :: (p :: post) := by rw [hp]; simp
    have hqa : q.1 ∈ t.addrs := by rw [Treap.addrs_of_pairs hp']; simp
    have inv1 := inv.same_shape m1.same m1.wf
    obtain ⟨n, rfl⟩ : ∃ m, n = m + 1 := ⟨n - 1, by simp at hn; omega⟩
    obtain ⟨h2, e2⟩ := ih q (p :: post) h1 n inv1 hf1 hp' m1.here (by simp at hn ⊢; omega)
    refine ⟨h2, ?_⟩
    have hne : (p.1 != t.first s) = true := by simpa using hpf
    simp only [walk_back, ne_spec hi hf, Res.ok_bind, hne, ↓reduceIte, e1,
      deref_spec m1.here (Rep.live _ inv1.rep _ hqa) (Rep.right_ne _ inv1.rep inv1.nodup _ hqa)
        (Rep.value t inv1.rep q (by rw [hp']; simp)), e2]
    simp

/-- Reading the set backwards from `end()` to `begin()` yields the values of the
shape in reverse order. -/
theorem traverse_back_spec {h : Heap T} {s : Addr} {t : Treap T} (inv : Inv h s t) :
    traverse_back h s = .ok t.values.reverse := by
  have hfuel := inv.fuel
  have w1 : (h.place h.nextIt ⟨some s, true, some s⟩).WF :=
    inv.wf.place _ _ (fun _ => ⟨s, rfl, inv.live_s⟩)
  have inv1 := inv.same (Same.place_same h h.nextIt ⟨some s, true, some s⟩) w1
  have w2 : ((h.place h.nextIt ⟨some s, true, some s⟩).place (h.nextIt + 1)
      ⟨some (t.first s), true, some s⟩).WF := by
    refine inv1.wf.place _ _ (fun _ => ⟨_, rfl, ?_⟩)
    cases t with
    | nil => exact inv1.live_s
    | node l a v k r => exact Rep.live _ inv1.rep _ (Treap.first_mem _ s (by simp))
  have inv2 := inv1.same (Same.place_same _ (h.nextIt + 1) ⟨some (t.first s), true, some s⟩) w2
  have hn1 : (h.place h.nextIt ⟨some s, true, some s⟩).nextIt = h.nextIt + 1 := by
    simp
  simp only [traverse_back, end_spec inv.toShape, Res.ok_bind, begin_spec inv1, hn1]
  have hi2 : ((h.place h.nextIt ⟨some s, true, some s⟩).place (h.nextIt + 1)
      ⟨some (t.first s), true, some s⟩).its h.nextIt = some ⟨some s, true, some s⟩ := by simp
  have hf2 : ((h.place h.nextIt ⟨some s, true, some s⟩).place (h.nextIt + 1)
      ⟨some (t.first s), true, some s⟩).its (h.nextIt + 1)
      = some ⟨some (t.first s), true, some s⟩ := by simp
  obtain ⟨m, hm⟩ : ∃ m, Heap.fuel ((h.place h.nextIt ⟨some s, true, some s⟩).place
      (h.nextIt + 1) ⟨some (t.first s), true, some s⟩) = m + 1 := ⟨_, rfl⟩
  have hm' : h.fuel = m + 1 := by simpa using hm
  rw [hm]
  by_cases hne : t = .nil
  · subst hne
    have hss : (s != s) = false := by simp
    simp only [Treap.first] at hi2 hf2 ⊢
    simp only [walk_back, ne_spec hi2 hf2, Res.ok_bind, hss, Bool.false_eq_true,
      ↓reduceIte, Treap.values_nil, List.reverse_nil]
  · obtain ⟨pre, p, hp⟩ : ∃ pre p, t.pairs = pre ++ [p] := by
      rcases List.eq_nil_or_concat t.pairs with h0 | ⟨pre, p, h0⟩
      · exact absurd h0 (Treap.pairs_ne_nil hne)
      · exact ⟨pre, p, by rw [h0]; simp⟩
    have haddrs := Treap.addrs_of_pairs hp
    have hlast : t.last s = p.1 := by
      rw [Treap.last_eq, haddrs, List.getLastD_append_cons']
      rfl
    have hfs : s ≠ t.first s := by
      intro hc
      exact inv.not_mem (hc ▸ Treap.first_mem t s hne)
    obtain ⟨h1, e1, m1⟩ := decr_end_spec inv2.toShape hne hi2
    rw [hlast] at m1
    have hpa : p.1 ∈ t.addrs := by rw [haddrs]; simp
    have inv3 := inv2.same m1.same m1.wf
    have hf3 : h1.its (h.nextIt + 1) = some ⟨some (t.first s), true, some s⟩ := by
      rw [m1.others _ (by omega)]; exact hf2
    have hlen : pre.length + 1 = t.size := by
      rw [← Treap.length_values, ← Treap.pairs_snd, hp]
      simp
    obtain ⟨h2, e2⟩ := walk_back_spec s t h.nextIt (h.nextIt + 1) (by omega) pre p [] h1 m
      inv3.toShape hf3 hp m1.here (by omega)
    have hne' : (s != t.first s) = true := by simpa using hfs
    simp only [walk_back, ne_spec hi2 hf2, Res.ok_bind, hne', ↓reduceIte, e1,
      deref_spec m1.here (Rep.live _ inv3.rep _ hpa) (Rep.right_ne _ inv3.rep inv3.nodup _ hpa)
        (Rep.value t inv3.rep p (by rw [hp]; simp)), e2]
    rw [← Treap.pairs_snd, hp]
    simp

end set

namespace Heap

variable {T : Type}

theorem WF.of_eq {h h' : Heap T} (w : h.WF) (ho : h'.obj = h.obj)
    (hi : h'.iterators = h.iterators) (ht : h'.its = h.its) (hn : h'.next = h.next)
    (hni : h'.nextIt = h.nextIt) : h'.WF := by
  have hl : ∀ a, h'.live a = h.live a := fun a => by simp [Heap.live, ho]
  refine ⟨?_, ?_, ?_, ?_, ?_, ?_⟩
  · intro a i hm
    rw [hi] at hm
    rw [ht]
    exact w.reg_it a i hm
  · intro i it hm hv
    rw [ht] at hm
    rw [hi]
    exact w.it_reg i it hm hv
  · intro i hm
    rw [hni] at hm
    rw [ht]
    exact w.fresh i hm
  · intro a
    rw [hi]
    exact w.nodup a
  · intro a ha
    rw [hl] at ha
    rw [hi]
    exact w.dead a ha
  · intro a ha
    rw [hn] at ha
    rw [hl]
    exact w.alloc a ha

@[simp] theorem newNode_snd (h : Heap T) (v : T) (k : Nat) : (h.newNode v k).2 = h.next := rfl
@[simp] theorem newNode_obj (h : Heap T) (v : T) (k : Nat) (a : Addr) :
    (h.newNode v k).1.obj a = if a = h.next then .node v k else h.obj a := by
  simp [newNode, Function.update_apply]
@[simp] theorem newNode_left (h : Heap T) (v : T) (k : Nat) (a : Addr) :
    (h.newNode v k).1.left a = if a = h.next then none else h.left a := by
  simp [newNode, Function.update_apply]
@[simp] theorem newNode_right (h : Heap T) (v : T) (k : Nat) (a : Addr) :
    (h.newNode v k).1.right a = if a = h.next then none else h.right a := by
  simp [newNode, Function.update_apply]
@[simp] theorem newNode_parent (h : Heap T) (v : T) (k : Nat) (a : Addr) :
    (h.newNode v k).1.parent a = if a = h.next then none else h.parent a := by
  simp [newNode, Function.update_apply]
@[simp] theorem newNode_iterators (h : Heap T) (v : T) (k : Nat) (a : Addr) :
    (h.newNode v k).1.iterators a = if a = h.next then [] else h.iterators a := by
  simp [newNode, Function.update_apply]
@[simp] theorem newNode_its (h : Heap T) (v : T) (k : Nat) : (h.newNode v k).1.its = h.its := rfl
@[simp] theorem newNode_size (h : Heap T) (v : T) (k : Nat) :
    (h.newNode v k).1.size = h.size := rfl
@[simp] theorem newNode_next (h : Heap T) (v : T) (k : Nat) :
    (h.newNode v k).1.next = h.next + 1 := rfl
@[simp] theorem newNode_nextIt (h : Heap T) (v : T) (k : Nat) :
    (h.newNode v k).1.nextIt = h.nextIt := rfl

theorem newNode_live (h : Heap T) (v : T) (k : Nat) (a : Addr) :
    (h.newNode v k).1.live a = if a = h.next then true else h.live a := by
  simp only [Heap.live, newNode_obj]
  by_cases ha : a = h.next
  · simp [ha]
  · simp [ha]

theorem WF.newNode_wf {h : Heap T} (w : h.WF) (v : T) (k : Nat) : (h.newNode v k).1.WF := by
  have hdead : h.live h.next = false := w.alloc _ (Nat.le_refl _)
  refine ⟨?_, ?_, ?_, ?_, ?_, ?_⟩
  · intro a i hm
    simp only [newNode_iterators] at hm
    split at hm
    · simp at hm
    · simpa using w.reg_it a i hm
  · intro i it hm hv
    simp only [newNode_its] at hm
    obtain ⟨a, ha, hmem⟩ := w.it_reg i it hm hv
    refine ⟨a, ha, ?_⟩
    have : a ≠ h.next := by
      rintro rfl
      rw [w.live_of_mem hmem] at hdead
      exact Bool.noConfusion hdead
    simpa [this] using hmem
  · intro i hi
    simpa using w.fresh i hi
  · intro a
    simp only [newNode_iterators]
    split
    · exact List.nodup_nil
    · exact w.nodup a
  · intro a ha
    rw [newNode_live] at ha
    simp only [newNode_iterators]
    split
    · rfl
    · rename_i hne
      rw [if_neg hne] at ha
      exact w.dead a ha
  · intro a ha
    simp only [newNode_next] at ha
    have h2 : h.next ≤ a := Nat.le_of_succ_le ha
    have h1 : a ≠ h.next := fun hc => by
      rw [hc] at ha
      exact Nat.not_succ_le_self _ ha
    rw [newNode_live, if_neg h1]
    exact w.alloc a h2

theorem Rep.newNode {h : Heap T} (t : Treap T) (v : T) (k : Nat) (hn : h.next ∉ t.addrs)
    (hr : h.Rep t) : (h.newNode v k).1.Rep t := by
  have hne : ∀ a ∈ t.addrs, a ≠ h.next := fun a ha hc => hn (hc ▸ ha)
  refine Rep.congr_rep t ?_ ?_ ?_ hr <;> intro a ha <;> simp [hne a ha]

theorem ParIn.newNode_par {h : Heap T} (t : Treap T) (v : T) (k : Nat) (hn : h.next ∉ t.addrs)
    (hr : h.ParIn t) : (h.newNode v k).1.ParIn t := by
  have hne : ∀ a ∈ t.addrs, a ≠ h.next := fun a ha hc => hn (hc ▸ ha)
  refine ParIn.congr_par t ?_ hr
  intro a ha
  simp [hne a ha]

end Heap

namespace set_iterator

open Heap

variable {T : Type}

theorem singular_eq {h : Heap T} (w : h.WF) :
    singular h = (h.place h.nextIt ⟨none, false, none⟩, h.nextIt) := by
  have hnone : h.its h.nextIt = none := w.fresh _ (Nat.le_refl _)
  simp only [singular]
  congr 1
  apply Heap.ext <;> try rfl
  · funext b
    simp only [Heap.setIt, Heap.place]
    rw [List.erase_of_not_mem (w.not_mem_of_none hnone b)]
    simp
  · simp only [Heap.setIt, Heap.place]
    omega

end set_iterator

namespace Treap

variable {T : Type} [LinearOrder T]

theorem insert_addrs (t : Treap T) (a : Addr) (v : T) (k : Nat) :
    (t.insert a v k).addrs = (t.split v).1.addrs ++ a :: (t.split v).2.addrs := by
  simp [insert, merge_addrs]

theorem insert_values (t : Treap T) (a : Addr) (v : T) (k : Nat) :
    (t.insert a v k).values = (t.split v).1.values ++ v :: (t.split v).2.values := by
  simp [insert, merge_values]

theorem insert_size (t : Treap T) (a : Addr) (v : T) (k : Nat) :
    (t.insert a v k).size = t.size + 1 := by
  rw [← length_addrs, insert_addrs, List.length_append, List.length_cons, length_addrs,
    length_addrs, ← split_size t v]
  omega

theorem mem_insert_values (t : Treap T) (a : Addr) (v : T) (k : Nat) (x : T) :
    x ∈ (t.insert a v k).values ↔ x = v ∨ x ∈ t.values := by
  rw [insert_values, mem_split_values t v x]
  simp only [List.mem_append, List.mem_cons]
  tauto

theorem mem_insert_addrs (t : Treap T) (a : Addr) (v : T) (k : Nat) (x : Addr) :
    x ∈ (t.insert a v k).addrs ↔ x = a ∨ x ∈ t.addrs := by
  rw [insert_addrs, ← split_addrs t v]
  simp only [List.mem_append, List.mem_cons]
  tauto

theorem insert_ne_nil (t : Treap T) (a : Addr) (v : T) (k : Nat) : t.insert a v k ≠ nil := by
  intro hc
  have := insert_size t a v k
  rw [hc] at this
  simp at this

theorem insert_BST (t : Treap T) (a : Addr) (v : T) (k : Nat) (hb : t.BST)
    (hv : v ∉ t.values) : (t.insert a v k).BST := by
  have h1 := split_fst_lt t v hb
  have h2 := split_snd_ge t v hb
  have h3 := split_BST t v hb
  have h2' : ∀ y ∈ (t.split v).2.values, v < y := by
    intro y hy
    refine lt_of_le_of_ne (h2 y hy) ?_
    rintro rfl
    exact hv ((mem_split_values t v v).2 (Or.inr hy))
  refine merge_BST _ _ (merge_BST _ _ h3.1 ?_ ?_) h3.2 ?_
  · exact ⟨by simp, by simp, trivial, trivial⟩
  · intro x hx y hy
    simp only [values_node, values_nil, List.nil_append, List.mem_singleton] at hy
    subst hy
    exact h1 x hx
  · intro x hx y hy
    rw [merge_values] at hx
    simp only [values_node, values_nil, List.nil_append, List.mem_append,
      List.mem_singleton] at hx
    rcases hx with hx | rfl
    · exact lt_trans (h1 x hx) (h2' y hy)
    · exact h2' y hy

theorem insert_nodup (t : Treap T) (a : Addr) (v : T) (k : Nat) (hnd : t.addrs.Nodup)
    (ha : a ∉ t.addrs) : (t.insert a v k).addrs.Nodup := by
  rw [insert_addrs]
  obtain ⟨n1, n2, d12⟩ := split_nodup t v hnd
  refine List.nodup_append.2 ⟨n1, List.nodup_cons.2 ⟨?_, n2⟩, ?_⟩
  · exact fun hc => ha (split_mem_snd t v a hc)
  · intro x hx hx'
    rcases List.mem_cons.1 hx' with rfl | hx'
    · exact ha (split_mem_fst t v x hx)
    · exact d12 x hx hx'

theorem find_pairs (t : Treap T) (v : T) (a : Addr) (hf : t.find v = some a) :
    (a, v) ∈ t.pairs := by
  induction t with
  | nil => simp [find] at hf
  | node l b x k r ihl ihr =>
    simp only [find] at hf
    simp only [pairs, List.mem_append, List.mem_cons]
    split at hf
    · rename_i hx
      simp only [Option.some.injEq] at hf
      subst hf hx
      exact Or.inr (Or.inl rfl)
    · split at hf
      · exact Or.inl (ihl hf)
      · exact Or.inr (Or.inr (ihr hf))

theorem find_none (t : Treap T) (v : T) (hb : t.BST) (hf : t.find v = none) :
    v ∉ t.values := by
  induction t with
  | nil => simp
  | node l b x k r ihl ihr =>
    obtain ⟨hl, hr, bl, br⟩ := hb
    simp only [find] at hf
    simp only [values_node, List.mem_append, List.mem_cons, not_or]
    split at hf
    · exact Option.noConfusion hf
    · rename_i hx
      split at hf
      · rename_i hlt
        refine ⟨ihl bl hf, Ne.symm hx, ?_⟩
        intro hc
        exact lt_asymm hlt (hr v hc)
      · rename_i hlt
        refine ⟨?_, Ne.symm hx, ihr br hf⟩
        intro hc
        have := hl v hc
        exact hlt this

theorem find_of_mem (t : Treap T) (v : T) (hb : t.BST) (hv : v ∈ t.values) :
    ∃ a, t.find v = some a := by
  cases hf : t.find v with
  | none => exact absurd hv (find_none t v hb hf)
  | some a => exact ⟨a, rfl⟩

end Treap

namespace set

open Heap set_iterator

variable {T : Type} [LinearOrder T]

@[simp] theorem size_inc_obj (h : Heap T) (s : Addr) : (size_inc h s).obj = h.obj := rfl
@[simp] theorem size_inc_left (h : Heap T) (s : Addr) : (size_inc h s).left = h.left := rfl
@[simp] theorem size_inc_right (h : Heap T) (s : Addr) : (size_inc h s).right = h.right := rfl
@[simp] theorem size_inc_parent (h : Heap T) (s : Addr) :
    (size_inc h s).parent = h.parent := rfl
@[simp] theorem size_inc_iterators (h : Heap T) (s : Addr) :
    (size_inc h s).iterators = h.iterators := rfl
@[simp] theorem size_inc_its (h : Heap T) (s : Addr) : (size_inc h s).its = h.its := rfl
@[simp] theorem size_inc_next (h : Heap T) (s : Addr) : (size_inc h s).next = h.next := rfl
@[simp] theorem size_inc_nextIt (h : Heap T) (s : Addr) :
    (size_inc h s).nextIt = h.nextIt := rfl
@[simp] theorem size_inc_live (h : Heap T) (s a : Addr) :
    (size_inc h s).live a = h.live a := rfl
@[simp] theorem size_inc_size (h : Heap T) (s a : Addr) :
    (size_inc h s).size a = if a = s then h.size s + 1 else h.size a := by
  simp [size_inc, Function.update_apply]

@[simp] theorem size_dec_obj (h : Heap T) (s : Addr) : (size_dec h s).obj = h.obj := rfl
@[simp] theorem size_dec_left (h : Heap T) (s : Addr) : (size_dec h s).left = h.left := rfl
@[simp] theorem size_dec_right (h : Heap T) (s : Addr) : (size_dec h s).right = h.right := rfl
@[simp] theorem size_dec_parent (h : Heap T) (s : Addr) :
    (size_dec h s).parent = h.parent := rfl
@[simp] theorem size_dec_iterators (h : Heap T) (s : Addr) :
    (size_dec h s).iterators = h.iterators := rfl
@[simp] theorem size_dec_its (h : Heap T) (s : Addr) : (size_dec h s).its = h.its := rfl
@[simp] theorem size_dec_next (h : Heap T) (s : Addr) : (size_dec h s).next = h.next := rfl
@[simp] theorem size_dec_nextIt (h : Heap T) (s : Addr) :
    (size_dec h s).nextIt = h.nextIt := rfl
@[simp] theorem size_dec_live (h : Heap T) (s a : Addr) :
    (size_dec h s).live a = h.live a := rfl
@[simp] theorem size_dec_fuel (h : Heap T) (s : Addr) : (size_dec h s).fuel = h.fuel := rfl
@[simp] theorem size_inc_fuel (h : Heap T) (s : Addr) : (size_inc h s).fuel = h.fuel := rfl
@[simp] theorem size_dec_size (h : Heap T) (s a : Addr) :
    (size_dec h s).size a =
      if a = s then (if h.size s = 0 then 2 ^ 64 - 1 else h.size s - 1) else h.size a := by
  simp [size_dec, Function.update_apply]

/-- Inserting a value that is present: the existing node is found, a handle to it
is returned with `false`, and only iterator objects change. -/
theorem insert_present {h : Heap T} {s : Addr} {t : Treap T} (inv : Inv h s t) (v : T) (k : Nat)
    {a : Addr} (hf : t.find v = some a) :
    insert h s v k = .ok (((h.place h.nextIt ⟨none, false, none⟩).place (h.nextIt + 1)
      ⟨some a, true, some s⟩).remove h.nextIt, h.nextIt + 1, false) := by
  have hfuel := inv.fuel
  have hp := Treap.find_pairs t v a hf
  have ha := Treap.mem_addrs_of_pairs hp
  have hne := Treap.ne_nil_of_mem ha
  have w0 : (h.place h.nextIt ⟨none, false, none⟩).WF :=
    inv.wf.place _ _ (fun hc => Bool.noConfusion hc)
  have inv0 := inv.same (Same.place_same h h.nextIt ⟨none, false, none⟩) w0
  have he : empty (h.place h.nextIt ⟨none, false, none⟩) s = false := by
    rw [← Bool.not_eq_true, inv0.empty_iff]; exact hne
  have hlive : (h.place h.nextIt ⟨none, false, none⟩).live a = true :=
    Rep.live _ inv0.rep a ha
  have hn0 : (h.place h.nextIt ⟨none, false, none⟩).nextIt = h.nextIt + 1 := by simp
  have w1 := w0.place (h.nextIt + 1) ⟨some a, true, some s⟩ (fun _ => ⟨a, rfl, hlive⟩)
  simp only [insert, singular_eq inv.wf, he, Bool.false_eq_true, ↓reduceIte,
    rdLeft_ok inv0.live_s, Res.ok_bind, inv0.root hne,
    find_rec_spec v t _ inv0.rep (h.place h.nextIt ⟨none, false, none⟩).fuel
      (by simp only [place_fuel]; omega), hf]
  simp only [bne_iff_ne, ne_eq, reduceCtorEq, not_false_eq_true, ↓reduceIte,
    create_eq w0 hlive, Res.ok_bind, hn0]
  rw [destroy_eq w1 (c := ⟨none, false, none⟩) (by simp), Res.ok_bind]

end set

namespace set

open Heap set_iterator

variable {T : Type} [LinearOrder T]

theorem insert_absent_empty {h : Heap T} {s : Addr} (inv : Inv h s .nil) (v : T) (k : Nat) :
    ∃ h', insert h s v k = .ok (h', h.nextIt + 2, true) ∧
      Inserted h h' s .nil v k (h.nextIt + 2) := by
  have hsn : s ≠ h.next := Nat.ne_of_lt (inv.wf.lt_next inv.live_s)
  have w0 : (h.place h.nextIt ⟨none, false, none⟩).WF :=
    inv.wf.place _ _ (fun hc => Bool.noConfusion hc)
  have inv0 := inv.same (Same.place_same h h.nextIt ⟨none, false, none⟩) w0
  have he : empty (h.place h.nextIt ⟨none, false, none⟩) s = true := inv0.empty_iff.2 rfl
  simp only [insert, singular_eq inv.wf, he, ↓reduceIte, newNode_snd, place_next]
  obtain ⟨h1, hh1⟩ : ∃ h1, h1 = ((h.place h.nextIt ⟨none, false, none⟩).newNode v k).1 :=
    ⟨_, rfl⟩
  rw [← hh1]
  have w1 : h1.WF := by rw [hh1]; exact w0.newNode_wf v k
  have hl1 : ∀ a, h1.live a = if a = h.next then true else h.live a := by
    intro a; rw [hh1, newNode_live]; rfl
  have hi1 : h1.its h.nextIt = some ⟨none, false, none⟩ := by rw [hh1]; simp
  have hn1 : h1.nextIt = h.nextIt + 1 := by rw [hh1]; simp
  obtain ⟨h2, e2, s2, w2, n2, i2, -, o2⟩ :=
    assign_new_eq w1 hi1 (a := h.next) (by rw [hl1]; simp) (some s)
  rw [e2, Res.ok_bind]
  have hl2 : ∀ a, h2.live a = if a = h.next then true else h.live a := by
    intro a; rw [s2.live_same, hl1]
  rw [wrLeft_ok _ (by rw [hl2, if_neg hsn]; exact inv.live_s), Res.ok_bind,
    wrParent_ok _ (by rw [setLeft_live, hl2]; simp), Res.ok_bind]
  obtain ⟨h5, hh5⟩ :
      ∃ h5, h5 = size_inc ((h2.setLeft s (some h.next)).setParent h.next (some s)) s :=
    ⟨_, rfl⟩
  rw [← hh5]
  have w5 : h5.WF := by
    rw [hh5]
    exact w2.of_eq rfl rfl rfl rfl rfl
  have hl5 : ∀ a, h5.live a = if a = h.next then true else h.live a := by
    intro a; rw [hh5]; simpa using hl2 a
  have hn5 : h5.nextIt = h.nextIt + 2 := by rw [hh5]; simp [n2, hn1]
  have hi5 : h5.its h.nextIt = some ⟨some h.next, true, some s⟩ := by rw [hh5]; simpa using i2
  rw [create_eq w5 (by rw [hl5]; simp), Res.ok_bind, hn5]
  have w6 := w5.place (h.nextIt + 2) ⟨some h.next, true, some s⟩
    (fun _ => ⟨h.next, rfl, by rw [hl5]; simp⟩)
  simp only []
  rw [destroy_eq w6 (i := h.nextIt) (c := ⟨some h.next, true, some s⟩)
    (by simp [hi5]), Res.ok_bind]
  refine ⟨_, rfl, ?_, ?_, rfl, ?_, ?_, ?_, ?_, ?_, ?_, ?_⟩
  rotate_right 3
  · simp [hh5, s2.right, hh1, hsn]
  · simp [hh5, hsn, s2.parent, hh1]
  · refine ⟨?_, ?_, ?_, ?_, ?_, ?_⟩
    · intro x _ hlt
      simp [hh5, s2.obj, hh1, Nat.ne_of_lt hlt]
    · intro x hx hlt
      have hxs : x ≠ s := fun hc => hx (by simp [hc])
      simp [hh5, s2.left, hh1, Nat.ne_of_lt hlt, hxs]
    · intro x _ hlt
      simp [hh5, s2.right, hh1, Nat.ne_of_lt hlt]
    · intro x _ hlt
      simp [hh5, s2.parent, hh1, Nat.ne_of_lt hlt]
    · intro x hx
      have hxs : x ≠ s := fun hc => hx (by simp [hc])
      simp [hh5, s2.size, hh1, hxs]
    · simp [hh5, s2.next, hh1]
  · have htree : (Treap.nil : Treap T).insert h.next v k = .node .nil h.next v k .nil := by
      simp [Treap.insert, Treap.split, Treap.merge_nil_left, Treap.merge_nil_right]
    rw [htree]
    have hobj : h5.obj = h1.obj := by rw [hh5]; simpa using s2.obj
    refine ⟨⟨w6.remove _, ?_, ⟨?_, ?_, ?_, trivial, trivial⟩, ?_, ⟨?_, ?_, ?_, trivial, trivial⟩,
      by simp, ?_⟩, ?_, ⟨by simp, by simp, trivial, trivial⟩⟩
    rotate_right
    · simp [hh5, s2.size, hh1, inv.size]
    · simp [hobj, hh1, hsn, inv.base]
    · simp [hobj, hh1]
    · simp [hh5, Ne.symm hsn, s2.left, hh1]
    · simp [hh5, s2.right, hh1]
    · intro _; simp [hh5]
    · intro b hb
      simp only [Treap.root_node, Option.some.injEq] at hb
      subst hb
      simp [hh5]
    · intro b hb; simp at hb
    · intro b hb; simp at hb
    · intro r hr
      have hr' : h.right s = some r := by
        simpa [hh5, s2.right, hh1, hsn] using hr
      have := (inv.right r hr').2
      simp only [remove_next, place_next, hh5, size_inc_next, setParent_next, setLeft_next,
        s2.next, hh1, newNode_next, Treap.addrs_node, Treap.addrs_nil, List.nil_append,
        List.mem_singleton]
      exact ⟨Nat.ne_of_lt this, Nat.lt_succ_of_lt this⟩
  · simp [hn5]
  · simp [hn5]
  · simp [hh5, s2.next, hh1]
  · intro j hj
    have h1j : j ≠ h.nextIt := Nat.ne_of_lt hj
    have h2j : j ≠ h.nextIt + 2 := Nat.ne_of_lt (Nat.lt_add_right 2 hj)
    have h3j : j ≠ h1.nextIt := by rw [hn1]; exact Nat.ne_of_lt (Nat.lt_add_right 1 hj)
    simp only [remove_its, h1j, ↓reduceIte, place_its, hn5, h2j]
    rw [hh5]
    simp only [size_inc_its, setParent_its, setLeft_its]
    rw [o2 j h1j h3j, hh1]
    simp [h1j]
  · intro a
    simpa using hl5 a

end set

namespace set

open Heap set_iterator

variable {T : Type} [LinearOrder T]

theorem insert_absent_nonempty {h : Heap T} {s : Addr} {t : Treap T} (inv : Inv h s t)
    (hne : t ≠ .nil) (v : T) (k : Nat) (hf : t.find v = none) :
    ∃ h', insert h s v k = .ok (h', h.nextIt + 2, true) ∧
      Inserted h h' s t v k (h.nextIt + 2) := by
  have hfuel := inv.fuel
  have hsn : s ≠ h.next := Nat.ne_of_lt (inv.wf.lt_next inv.live_s)
  have hnt : h.next ∉ t.addrs := fun hc =>
    Nat.lt_irrefl _ (inv.wf.lt_next (Rep.live _ inv.rep _ hc))
  have hant : ∀ a ∈ t.addrs, a ≠ h.next := fun a ha hc => hnt (hc ▸ ha)
  have hst : s ∉ t.addrs := inv.not_mem
  have w0 : (h.place h.nextIt ⟨none, false, none⟩).WF :=
    inv.wf.place _ _ (fun hc => Bool.noConfusion hc)
  have inv0 := inv.same (Same.place_same h h.nextIt ⟨none, false, none⟩) w0
  have he : empty (h.place h.nextIt ⟨none, false, none⟩) s = false := by
    rw [← Bool.not_eq_true, inv0.empty_iff]; exact hne
  simp only [insert, singular_eq inv.wf, he, Bool.false_eq_true, ↓reduceIte,
    rdLeft_ok inv0.live_s, Res.ok_bind, inv0.root hne,
    find_rec_spec v t _ inv0.rep (h.place h.nextIt ⟨none, false, none⟩).fuel
      (by simp only [place_fuel]; omega), hf, newNode_snd, place_next]
  simp only [bne_self_eq_false, Bool.false_eq_true, ↓reduceIte]
  obtain ⟨h1, hh1⟩ : ∃ h1, h1 = ((h.place h.nextIt ⟨none, false, none⟩).newNode v k).1 :=
    ⟨_, rfl⟩
  rw [← hh1]
  have w1 : h1.WF := by rw [hh1]; exact w0.newNode_wf v k
  have hl1 : ∀ a, h1.live a = if a = h.next then true else h.live a := by
    intro a; rw [hh1, newNode_live]; rfl
  have hi1 : h1.its h.nextIt = some ⟨none, false, none⟩ := by rw [hh1]; simp
  have hn1 : h1.nextIt = h.nextIt + 1 := by rw [hh1]; simp
  have hrep1 : h1.Rep t := by rw [hh1]; exact Rep.newNode t v k hnt inv0.rep
  have hpar1 : h1.ParIn t := by rw [hh1]; exact ParIn.newNode_par t v k hnt inv0.par.2
  obtain ⟨h2, e2, s2, w2, n2, i2, -, o2⟩ :=
    assign_new_eq w1 hi1 (a := h.next) (by rw [hl1]; simp) (some s)
  rw [e2, Res.ok_bind]
  have hl2 : ∀ a, h2.live a = if a = h.next then true else h.live a := by
    intro a; rw [s2.live_same, hl1]
  have hls2 : h2.live s = true := by rw [hl2, if_neg hsn]; exact inv.live_s
  have hleft2 : h2.left s = t.root := by
    rw [s2.left, hh1]; simp [hsn, inv.root hne]
  have hfuel2 : h2.fuel = h.fuel + 2 := by
    simp only [Heap.fuel, s2.next, hh1, newNode_next, place_next]; omega
  rw [rdLeft_ok hls2, Res.ok_bind, hleft2]
  -- split
  obtain ⟨h3, e3, rl3, rr3, pl3, pr3, f3⟩ :=
    split_spec v t h2 h2.fuel (s2.Rep t hrep1) (s2.ParIn t hpar1) inv.nodup (by omega)
  rw [e3, Res.ok_bind]
  simp only []
  obtain ⟨nd1, nd2, d12⟩ := Treap.split_nodup t v inv.nodup
  have m1 := Treap.split_mem_fst t v
  have m2 := Treap.split_mem_snd t v
  have hsz := Treap.split_size t v
  have hfuel3 : h3.fuel = h.fuel + 2 := by simp only [Heap.fuel, f3.next] at hfuel2 ⊢; exact hfuel2
  -- first merge
  have hrep3s : h3.Rep (Treap.node .nil h.next v k .nil) := by
    refine ⟨?_, ?_, ?_, trivial, trivial⟩
    · rw [f3.obj, s2.obj, hh1]; simp
    · rw [f3.left _ hnt, s2.left, hh1]; simp
    · rw [f3.right _ hnt, s2.right, hh1]; simp
  have hnd4 : ((t.split v).1.addrs ++ (Treap.node (.nil : Treap T) h.next v k .nil).addrs).Nodup := by
    refine List.nodup_append.2 ⟨nd1, by simp, ?_⟩
    intro a ha ha'
    simp only [Treap.addrs_node, Treap.addrs_nil, List.nil_append, List.mem_singleton] at ha'
    exact hant a (m1 a ha) ha'
  obtain ⟨h4, e4, r4, p4, f4, -⟩ :=
    merge_spec (t.split v).1 (Treap.node .nil h.next v k .nil) h3 h3.fuel rl3 hrep3s pl3.2
      ⟨by simp, by simp, trivial, trivial⟩ hnd4 (by simp only [Treap.size_node, Treap.size_nil]; omega)
  simp only [Treap.root_node] at e4
  rw [e4, Res.ok_bind]
  simp only []
  have hfuel4 : h4.fuel = h.fuel + 2 := by simp only [Heap.fuel, f4.next] at hfuel3 ⊢; exact hfuel3
  -- second merge
  have hdis4 : ∀ a ∈ (t.split v).2.addrs,
      a ∉ (t.split v).1.addrs ++ (Treap.node (.nil : Treap T) h.next v k .nil).addrs := by
    intro a ha hc
    simp only [Treap.addrs_node, Treap.addrs_nil, List.nil_append, List.mem_append,
      List.mem_singleton] at hc
    rcases hc with hc | hc
    · exact d12 a hc ha
    · exact hant a (m2 a ha) hc
  have hrep4r : h4.Rep (t.split v).2 := Rep.frame_rep _ f4 hdis4 rr3
  have hpar4r : h4.ParIn (t.split v).2 :=
    ParIn.congr_par _ (fun a ha => f4.parent a (hdis4 a ha)) pr3.2
  have hnd5 : ((Treap.merge (t.split v).1 (Treap.node .nil h.next v k .nil)).addrs
      ++ (t.split v).2.addrs).Nodup := by
    have := Treap.insert_nodup t h.next v k inv.nodup hnt
    rw [Treap.insert_addrs] at this
    simpa [Treap.merge_addrs] using this
  obtain ⟨h5, e5, r5, p5, f5, -⟩ :=
    merge_spec (Treap.merge (t.split v).1 (Treap.node .nil h.next v k .nil)) (t.split v).2 h4
      h4.fuel r4 hrep4r p4 hpar4r hnd5
      (by rw [Treap.merge_size]; simp only [Treap.size_node, Treap.size_nil]; omega)
  rw [e5, Res.ok_bind]
  simp only []
  have hins : Treap.merge (Treap.merge (t.split v).1 (Treap.node .nil h.next v k .nil))
      (t.split v).2 = t.insert h.next v k := rfl
  rw [hins] at r5 p5 ⊢
  have hmem := Treap.mem_insert_addrs t h.next v k
  have hnd' := Treap.insert_nodup t h.next v k inv.nodup hnt
  have hst' : s ∉ (t.insert h.next v k).addrs := by
    rw [hmem]; rintro (hc | hc)
    · exact hsn hc
    · exact hst hc
  have f25 : Frame h2 h5 (h.next :: t.addrs) := by
    refine (f3.mono ?_).trans_frame ((f4.mono ?_).trans_frame (f5.mono ?_))
    · intro a ha; exact List.mem_cons_of_mem _ ha
    · intro a ha
      simp only [Treap.addrs_node, Treap.addrs_nil, List.nil_append, List.mem_append,
        List.mem_singleton] at ha
      rcases ha with ha | ha
      · exact List.mem_cons_of_mem _ (m1 a ha)
      · rw [ha]; exact List.mem_cons_self _ _
    · intro a ha
      simp only [Treap.merge_addrs, Treap.addrs_node, Treap.addrs_nil, List.nil_append,
        List.mem_append, List.mem_singleton] at ha
      rcases ha with (ha | ha) | ha
      · exact List.mem_cons_of_mem _ (m1 a ha)
      · rw [ha]; exact List.mem_cons_self _ _
      · exact List.mem_cons_of_mem _ (m2 a ha)
  have hsA : s ∉ h.next :: t.addrs := by
    rw [List.mem_cons, not_or]; exact ⟨hsn, hst⟩
  have w5 : h5.WF := WF.frame f25 w2
  have hl5 : ∀ a, h5.live a = if a = h.next then true else h.live a := by
    intro a; rw [f25.live_frame, hl2]
  obtain ⟨c, hc⟩ : ∃ c, (t.insert h.next v k).root = some c := by
    cases hti : t.insert h.next v k with
    | nil => exact absurd hti (Treap.insert_ne_nil t h.next v k)
    | node l c w' j r => exact ⟨c, rfl⟩
  have hct := Treap.root_mem _ _ hc
  have hcs : c ≠ s := by rintro rfl; exact hst' hct
  rw [hc, wrParent_ok _ (Rep.live _ r5 c hct), Res.ok_bind,
    wrLeft_ok _ (by rw [setParent_live, hl5, if_neg hsn]; exact inv.live_s), Res.ok_bind]
  obtain ⟨h8, hh8⟩ :
      ∃ h8, h8 = size_inc ((h5.setParent c (some s)).setLeft s (some c)) s := ⟨_, rfl⟩
  rw [← hh8]
  have w8 : h8.WF := by
    rw [hh8]
    exact w5.of_eq rfl rfl rfl rfl rfl
  have hl8 : ∀ a, h8.live a = if a = h.next then true else h.live a := by
    intro a; rw [hh8]; simpa using hl5 a
  have hn8 : h8.nextIt = h.nextIt + 2 := by rw [hh8]; simp [f25.nextIt, n2, hn1]
  have hi8 : h8.its h.nextIt = some ⟨some h.next, true, some s⟩ := by
    rw [hh8]; simpa [f25.its] using i2
  rw [copy_eq w8 hi8, Res.ok_bind, hn8]
  have w9 := w8.place (h.nextIt + 2) ⟨some h.next, true, some s⟩
    (fun _ => ⟨h.next, rfl, by rw [hl8]; simp⟩)
  simp only []
  rw [destroy_eq w9 (i := h.nextIt) (c := ⟨some h.next, true, some s⟩)
    (by simp [hi8]), Res.ok_bind]
  refine ⟨_, rfl, ?_, ?_, rfl, ?_, ?_, ?_, ?_, ?_, ?_, ?_⟩
  rotate_right 3
  · simp only [remove_right, place_right, hh8, size_inc_right, setLeft_right, setParent_right]
    rw [f25.right s hsA, s2.right, hh1]; simp [hsn]
  · simp only [remove_parent, place_parent, hh8, size_inc_parent, setLeft_parent,
      setParent_parent, if_neg (Ne.symm hcs)]
    rw [f25.parent s hsA, s2.parent, hh1]; simp [hsn]
  · have hout : ∀ x, x ∉ s :: t.addrs → x < h.next →
        x ≠ s ∧ x ≠ h.next ∧ x ≠ c ∧ x ∉ h.next :: t.addrs := by
      intro x hx hlt
      rw [List.mem_cons, not_or] at hx
      have hxn : x ≠ h.next := Nat.ne_of_lt hlt
      refine ⟨hx.1, hxn, ?_, ?_⟩
      · rintro rfl
        rcases (hmem x).1 hct with hc' | hc'
        · exact hxn hc'
        · exact hx.2 hc'
      · rw [List.mem_cons, not_or]
        exact ⟨hxn, hx.2⟩
    refine ⟨?_, ?_, ?_, ?_, ?_, ?_⟩
    · intro x hx hlt
      obtain ⟨-, hxn, -, -⟩ := hout x hx hlt
      simp only [remove_obj, place_obj, hh8, size_inc_obj, setLeft_obj, setParent_obj, f25.obj,
        s2.obj, hh1]
      simp [hxn]
    · intro x hx hlt
      obtain ⟨hxs, hxn, -, hxA⟩ := hout x hx hlt
      simp only [remove_left, place_left, hh8, size_inc_left, setLeft_left, setParent_left,
        if_neg hxs]
      rw [f25.left x hxA, s2.left, hh1]
      simp [hxn]
    · intro x hx hlt
      obtain ⟨-, hxn, -, hxA⟩ := hout x hx hlt
      simp only [remove_right, place_right, hh8, size_inc_right, setLeft_right, setParent_right]
      rw [f25.right x hxA, s2.right, hh1]
      simp [hxn]
    · intro x hx hlt
      obtain ⟨-, hxn, hxc, hxA⟩ := hout x hx hlt
      simp only [remove_parent, place_parent, hh8, size_inc_parent, setLeft_parent,
        setParent_parent, if_neg hxc]
      rw [f25.parent x hxA, s2.parent, hh1]
      simp [hxn]
    · intro x hx
      have hxs : x ≠ s := fun hc' => hx (by simp [hc'])
      simp [hh8, f25.size, s2.size, hh1, hxs]
    · simp [hh8, f25.next, s2.next, hh1]
  · have hobj : h8.obj = h1.obj := by
      rw [hh8]; simp only [size_inc_obj, setLeft_obj, setParent_obj, f25.obj, s2.obj]
    refine ⟨⟨w9.remove _, ?_, ?_, ?_, ⟨?_, ?_⟩, hnd', ?_⟩, ?_, ?_⟩
    rotate_right 2
    · simp [hh8, f25.size, s2.size, hh1, inv.size, Treap.insert_size]
    · exact Treap.insert_BST t h.next v k inv.bst (Treap.find_none t v inv.bst hf)
    · simp [hobj, hh1, hsn, inv.base]
    · refine Rep.congr_rep _ ?_ ?_ ?_ r5
      · intro a _; simp [hh8]
      · intro a ha
        have : a ≠ s := by rintro rfl; exact hst' ha
        simp [hh8, this]
      · intro a _; simp [hh8]
    · intro _; simp [hh8, hc]
    · intro b hb
      rw [hc] at hb
      simp only [Option.some.injEq] at hb
      subst hb
      simp [hh8]
    · refine ParIn.congr_top _ hnd' ?_ p5
      intro a _ hna
      have : a ≠ c := by rintro rfl; exact hna hc
      simp [hh8, this]
    · intro r hr
      have hr' : h.right s = some r := by
        have : h5.right s = h.right s := by
          rw [f25.right s hsA, s2.right, hh1]; simp [hsn]
        simpa [hh8, this] using hr
      obtain ⟨hr1, hr2⟩ := inv.right r hr'
      refine ⟨?_, ?_⟩
      · rw [hmem]; rintro (hx | hx)
        · exact Nat.ne_of_lt hr2 hx
        · exact hr1 hx
      · simp only [remove_next, place_next, hh8, size_inc_next, setParent_next, setLeft_next,
          f25.next, s2.next, hh1, newNode_next]
        exact Nat.lt_succ_of_lt hr2
  · simp
  · simp [hn8]
  · simp [hh8, f25.next, s2.next, hh1]
  · intro j hj
    have h1j : j ≠ h.nextIt := Nat.ne_of_lt hj
    have h2j : j ≠ h.nextIt + 2 := Nat.ne_of_lt (Nat.lt_add_right 2 hj)
    have h3j : j ≠ h1.nextIt := by rw [hn1]; exact Nat.ne_of_lt (Nat.lt_add_right 1 hj)
    simp only [remove_its, h1j, ↓reduceIte, place_its, h2j]
    rw [hh8]
    simp only [size_inc_its, setParent_its, setLeft_its, f25.its]
    rw [o2 j h1j h3j, hh1]
    simp [h1j]
  · intro a
    simpa using hl8 a

/-- Inserting an absent value: a node is allocated at the next free address, the
tree becomes `t.insert`, and a handle to the new node is returned with `true`. -/
theorem insert_absent {h : Heap T} {s : Addr} {t : Treap T} (inv : Inv h s t)
    (v : T) (k : Nat) (hf : t.find v = none) :
    ∃ h', insert h s v k = .ok (h', h.nextIt + 2, true) ∧
      Inserted h h' s t v k (h.nextIt + 2) := by
  by_cases hne : t = .nil
  · subst hne
    exact insert_absent_empty inv v k
  · exact insert_absent_nonempty inv hne v k hf

end set

namespace Treap

variable {T : Type}

theorem merge_pairs (l r : Treap T) : (merge l r).pairs = l.pairs ++ r.pairs := by
  induction l generalizing r with
  | nil => simp [merge_nil_left, pairs]
  | node ll a v k lr _ ihr =>
    induction r with
    | nil => simp [merge_nil_right, pairs]
    | node rl b w j rr ihl _ =>
      rw [merge_node]
      split
      · simp [pairs, ihr]
      · simp [pairs, ihl]

theorem lsub_mem (t : Treap T) (a : Addr) (hnd : t.addrs.Nodup) :
    ∀ x ∈ (t.lsub a).addrs, x ∈ t.addrs ∧ x ≠ a := by
  induction t with
  | nil => simp [lsub]
  | node l b v k r ihl ihr =>
    obtain ⟨ndl, ndr, hbl, hbr, hlr⟩ := nodup_node hnd
    intro x hx
    simp only [lsub] at hx
    simp only [addrs_node, List.mem_append, List.mem_cons]
    split at hx
    · rename_i hab
      subst hab
      exact ⟨Or.inl hx, fun hc => hbl (hc ▸ hx)⟩
    · split at hx
      · exact ⟨Or.inl (ihl ndl x hx).1, (ihl ndl x hx).2⟩
      · exact ⟨Or.inr (Or.inr (ihr ndr x hx).1), (ihr ndr x hx).2⟩

theorem rsub_mem (t : Treap T) (a : Addr) (hnd : t.addrs.Nodup) :
    ∀ x ∈ (t.rsub a).addrs, x ∈ t.addrs ∧ x ≠ a := by
  induction t with
  | nil => simp [rsub]
  | node l b v k r ihl ihr =>
    obtain ⟨ndl, ndr, hbl, hbr, hlr⟩ := nodup_node hnd
    intro x hx
    simp only [rsub] at hx
    simp only [addrs_node, List.mem_append, List.mem_cons]
    split at hx
    · rename_i hab
      subst hab
      exact ⟨Or.inr (Or.inr hx), fun hc => hbr (hc ▸ hx)⟩
    · split at hx
      · exact ⟨Or.inl (ihl ndl x hx).1, (ihl ndl x hx).2⟩
      · exact ⟨Or.inr (Or.inr (ihr ndr x hx).1), (ihr ndr x hx).2⟩

theorem sub_nodup (t : Treap T) (a : Addr) (hnd : t.addrs.Nodup) :
    ((t.lsub a).addrs ++ (t.rsub a).addrs).Nodup := by
  induction t with
  | nil => simp [lsub, rsub]
  | node l b v k r ihl ihr =>
    obtain ⟨ndl, ndr, hbl, hbr, hlr⟩ := nodup_node hnd
    simp only [lsub, rsub]
    split
    · exact List.nodup_append.2 ⟨ndl, ndr, fun x hx hx' => hlr x hx hx'⟩
    · split
      · exact ihl ndl
      · exact ihr ndr

theorem sub_size (t : Treap T) (a : Addr) : (t.lsub a).size + (t.rsub a).size ≤ t.size := by
  induction t with
  | nil => simp [lsub, rsub]
  | node l b v k r ihl ihr =>
    simp only [lsub, rsub, size_node]
    split
    · omega
    · split <;> omega

theorem parentOf_root (t : Treap T) (a p : Addr) (h : t.root = some a) : t.parentOf a p = p := by
  cases t with
  | nil => rfl
  | node l b v k r =>
    simp only [root_node, Option.some.injEq] at h
    simp [parentOf, h]

theorem parentOf_mem (t : Treap T) (a p : Addr) (ha : a ∈ t.addrs) (hr : t.root ≠ some a) :
    t.parentOf a p ∈ t.addrs := by
  induction t generalizing p with
  | nil => simp at ha
  | node l b v k r ihl ihr =>
    have hab : a ≠ b := fun hc => hr (by simp [hc])
    simp only [parentOf, if_neg hab, addrs_node, List.mem_append, List.mem_cons]
    simp only [addrs_node, List.mem_append, List.mem_cons] at ha
    by_cases hal : a ∈ l.addrs
    · rw [if_pos hal]
      by_cases hlr : l.root = some a
      · rw [parentOf_root l a b hlr]; exact Or.inr (Or.inl rfl)
      · exact Or.inl (ihl b hal hlr)
    · rw [if_neg hal]
      have har : a ∈ r.addrs := by tauto
      by_cases hrr : r.root = some a
      · rw [parentOf_root r a b hrr]; exact Or.inr (Or.inl rfl)
      · exact Or.inr (Or.inr (ihr b har hrr))

theorem parentOf_not_sub (t : Treap T) (a p : Addr) (hnd : t.addrs.Nodup) (ha : a ∈ t.addrs)
    (hp : p ∉ t.addrs) : t.parentOf a p ∉ (t.lsub a).addrs ++ (t.rsub a).addrs := by
  induction t generalizing p with
  | nil => simp at ha
  | node l b v k r ihl ihr =>
    obtain ⟨ndl, ndr, hbl, hbr, hlr⟩ := nodup_node hnd
    simp only [addrs_node, List.mem_append, List.mem_cons, not_or] at hp ha
    simp only [parentOf, lsub, rsub]
    by_cases hab : a = b
    · simp only [hab, ↓reduceIte, List.mem_append, not_or]
      exact ⟨hp.1, hp.2.2⟩
    · simp only [if_neg hab]
      by_cases hal : a ∈ l.addrs
      · simp only [if_pos hal]
        exact ihl b ndl hal hbl
      · simp only [if_neg hal]
        exact ihr b ndr (by tauto) hbr

theorem next_ne (t : Treap T) (a e : Addr) (hnd : t.addrs.Nodup) (ha : a ∈ t.addrs)
    (he : e ∉ t.addrs) : t.next a e ≠ a := by
  obtain ⟨pre, post, h⟩ := List.append_of_mem ha
  rw [next_spec t pre a post e hnd h]
  cases post with
  | nil =>
    rintro rfl
    exact he ha
  | cons b post =>
    rw [h] at hnd
    have h2 := (List.nodup_append.1 hnd).2.1
    have h3 := (List.nodup_cons.1 h2).1
    simp only [List.headD_cons]
    rintro rfl
    exact h3 (List.mem_cons_self _ _)

theorem next_mem (t : Treap T) (a e : Addr) (hnd : t.addrs.Nodup) (ha : a ∈ t.addrs) :
    t.next a e = e ∨ t.next a e ∈ t.addrs := by
  obtain ⟨pre, post, h⟩ := List.append_of_mem ha
  rw [next_spec t pre a post e hnd h]
  cases post with
  | nil => exact Or.inl rfl
  | cons b post =>
    right
    rw [h]
    simp

theorem remove_root_ne (t : Treap T) (a : Addr) (hr : t.root ≠ some a) :
    (t.remove a).root = t.root := by
  cases t with
  | nil => rfl
  | node l b v k r =>
    have hab : a ≠ b := fun hc => hr (by simp [hc])
    simp only [remove, if_neg hab]
    split <;> rfl

theorem remove_root_eq (t : Treap T) (a : Addr) (hr : t.root = some a) :
    t.remove a = merge (t.lsub a) (t.rsub a) := by
  cases t with
  | nil => simp at hr
  | node l b v k r =>
    simp only [root_node, Option.some.injEq] at hr
    simp [remove, lsub, rsub, hr]

theorem filter_pairs_of_not_mem (u : Treap T) (a : Addr) (hu : a ∉ u.addrs) :
    u.pairs.filter (fun p => p.1 != a) = u.pairs := by
  rw [List.filter_eq_self]
  intro p hp
  have := mem_addrs_of_pairs hp
  simp only [bne_iff_ne, ne_eq]
  rintro rfl
  exact hu this

theorem remove_pairs (t : Treap T) (a : Addr) (hnd : t.addrs.Nodup) :
    (t.remove a).pairs = t.pairs.filter (fun p => p.1 != a) := by
  induction t with
  | nil => rfl
  | node l b v k r ihl ihr =>
    obtain ⟨ndl, ndr, hbl, hbr, hlr⟩ := nodup_node hnd
    simp only [remove, pairs, List.filter_append, List.filter_cons]
    by_cases hab : a = b
    · subst hab
      simp only [↓reduceIte, merge_pairs, filter_pairs_of_not_mem l a hbl,
        filter_pairs_of_not_mem r a hbr, bne_self_eq_false, Bool.false_eq_true]
    · have hba : (b != a) = true := by simpa using Ne.symm hab
      simp only [if_neg hab, hba, ↓reduceIte]
      by_cases hal : a ∈ l.addrs
      · have har : a ∉ r.addrs := hlr a hal
        simp only [if_pos hal, pairs, ihl ndl, filter_pairs_of_not_mem r a har]
      · simp only [if_neg hal, pairs, ihr ndr, filter_pairs_of_not_mem l a hal]

theorem remove_addrs (t : Treap T) (a : Addr) (hnd : t.addrs.Nodup) :
    (t.remove a).addrs = t.addrs.filter (fun x => x != a) := by
  rw [← pairs_fst, remove_pairs t a hnd, ← pairs_fst, List.filter_map]
  rfl

theorem mem_remove_addrs (t : Treap T) (a x : Addr) (hnd : t.addrs.Nodup) :
    x ∈ (t.remove a).addrs ↔ x ∈ t.addrs ∧ x ≠ a := by
  rw [remove_addrs t a hnd]
  simp

theorem remove_nodup (t : Treap T) (a : Addr) (hnd : t.addrs.Nodup) :
    (t.remove a).addrs.Nodup := by
  rw [remove_addrs t a hnd]
  exact hnd.filter _

theorem remove_size (t : Treap T) (a : Addr) (hnd : t.addrs.Nodup) (ha : a ∈ t.addrs) :
    (t.remove a).size + 1 = t.size := by
  rw [← length_addrs, ← length_addrs, remove_addrs t a hnd, ← hnd.erase_eq_filter,
    List.length_erase_of_mem ha]
  have : 0 < t.addrs.length := List.length_pos_of_mem ha
  omega

theorem mem_remove_values (t : Treap T) (a : Addr) (hnd : t.addrs.Nodup) (y : T)
    (hy : y ∈ (t.remove a).values) : y ∈ t.values := by
  rw [← pairs_snd] at hy ⊢
  rw [remove_pairs t a hnd] at hy
  obtain ⟨p, hp, rfl⟩ := List.mem_map.1 hy
  exact List.mem_map_of_mem _ (List.mem_filter.1 hp).1

theorem remove_BST [LinearOrder T] (t : Treap T) (a : Addr) (hnd : t.addrs.Nodup) (hb : t.BST) :
    (t.remove a).BST := by
  induction t with
  | nil => trivial
  | node l b v k r ihl ihr =>
    obtain ⟨ndl, ndr, hbl, hbr, hlr⟩ := nodup_node hnd
    obtain ⟨hl, hr, bl, br⟩ := hb
    simp only [remove]
    split
    · exact merge_BST l r bl br (fun x hx y hy => lt_trans (hl x hx) (hr y hy))
    · split
      · exact ⟨fun x hx => hl x (mem_remove_values l a ndl x hx), hr, ihl ndl bl, br⟩
      · exact ⟨hl, fun x hx => hr x (mem_remove_values r a ndr x hx), bl, ihr ndr br⟩

end Treap

namespace Heap

variable {T : Type}

theorem delete_ok {h : Heap T} (w : h.WF) {a : Addr} (hl : h.live a = true) :
    h.delete (some a) = .ok (h.deleted a) := by
  have hall : (h.iterators a).all (fun i => (h.its i).isSome) = true := by
    rw [List.all_eq_true]
    intro i hi
    obtain ⟨o, ho⟩ := w.reg_it a i hi
    rw [ho]
    rfl
  simp only [delete, hl, hall, ↓reduceIte]
  rfl

@[simp] theorem deleted_left (h : Heap T) (a : Addr) : (h.deleted a).left = h.left := rfl
@[simp] theorem deleted_right (h : Heap T) (a : Addr) : (h.deleted a).right = h.right := rfl
@[simp] theorem deleted_parent (h : Heap T) (a : Addr) : (h.deleted a).parent = h.parent := rfl
@[simp] theorem deleted_size (h : Heap T) (a : Addr) : (h.deleted a).size = h.size := rfl
@[simp] theorem deleted_next (h : Heap T) (a : Addr) : (h.deleted a).next = h.next := rfl
@[simp] theorem deleted_nextIt (h : Heap T) (a : Addr) : (h.deleted a).nextIt = h.nextIt := rfl
@[simp] theorem deleted_obj (h : Heap T) (a b : Addr) :
    (h.deleted a).obj b = if b = a then .free else h.obj b := by
  simp [deleted, Function.update_apply]
@[simp] theorem deleted_iterators (h : Heap T) (a b : Addr) :
    (h.deleted a).iterators b = if b = a then [] else h.iterators b := by
  simp [deleted, Function.update_apply]
theorem deleted_its (h : Heap T) (a : Addr) (i : Nat) :
    (h.deleted a).its i =
      if i ∈ h.iterators a then (h.its i).map (fun it => { it with is_valid := false })
      else h.its i := rfl

theorem deleted_live (h : Heap T) (a b : Addr) :
    (h.deleted a).live b = if b = a then false else h.live b := by
  simp only [Heap.live, deleted_obj]
  by_cases hb : b = a
  · simp [hb]
  · simp [hb]

theorem WF.deleted {h : Heap T} (w : h.WF) (a : Addr) : (h.deleted a).WF := by
  refine ⟨?_, ?_, ?_, ?_, ?_, ?_⟩
  · intro b i hi
    simp only [deleted_iterators] at hi
    split at hi
    · simp at hi
    · rename_i hba
      obtain ⟨o, ho⟩ := w.reg_it b i hi
      have hia : i ∉ h.iterators a := by
        intro hc
        obtain ⟨o', ho'⟩ := w.reg_it a i hc
        rw [ho] at ho'
        simp only [Option.some.injEq, set_iterator.mk.injEq, true_and] at ho'
        exact hba ho'.1
      exact ⟨o, by rw [deleted_its, if_neg hia, ho]⟩
  · intro i it hi hv
    rw [deleted_its] at hi
    split at hi
    · cases hx : h.its i with
      | none => rw [hx] at hi; simp at hi
      | some x =>
        rw [hx] at hi
        simp only [Option.map_some', Option.some.injEq] at hi
        rw [← hi] at hv
        simp at hv
    · rename_i hia
      obtain ⟨b, hb, hm⟩ := w.it_reg i it hi hv
      refine ⟨b, hb, ?_⟩
      have hba : b ≠ a := by rintro rfl; exact hia hm
      simpa [hba] using hm
  · intro i hi
    have hnone := w.fresh i hi
    rw [deleted_its, hnone]
    split <;> rfl
  · intro b
    simp only [deleted_iterators]
    split
    · exact List.nodup_nil
    · exact w.nodup b
  · intro b hb
    rw [deleted_live] at hb
    simp only [deleted_iterators]
    split
    · rfl
    · rename_i hba
      rw [if_neg hba] at hb
      exact w.dead b hb
  · intro b hb
    rw [deleted_live]
    split
    · rfl
    · exact w.alloc b hb

theorem sub_rep {h : Heap T} {a : Addr} (t : Treap T) :
    ∀ (p : Addr), h.Rep t → h.Par t (some p) → t.addrs.Nodup → a ∈ t.addrs →
      h.Rep (t.lsub a) ∧ h.Rep (t.rsub a) ∧ h.ParIn (t.lsub a) ∧ h.ParIn (t.rsub a) ∧
      h.left a = (t.lsub a).root ∧ h.right a = (t.rsub a).root ∧
      h.parent a = some (t.parentOf a p) := by
  induction t with
  | nil => intro p _ _ _ ha; simp at ha
  | node l b v k r ihl ihr =>
    intro p hrep hpar hnd ha
    obtain ⟨ho, hle, hri, hrl, hrr⟩ := hrep
    obtain ⟨hpb, hpl, hpr, hpil, hpir⟩ := hpar
    obtain ⟨ndl, ndr, hbl, hbr, hlr⟩ := Treap.nodup_node hnd
    simp only [Treap.addrs_node, List.mem_append, List.mem_cons] at ha
    simp only [Treap.lsub, Treap.rsub, Treap.parentOf]
    by_cases hab : a = b
    · subst hab
      simp only [↓reduceIte]
      exact ⟨hrl, hrr, hpil, hpir, hle, hri, hpb a rfl⟩
    · simp only [if_neg hab]
      by_cases hal : a ∈ l.addrs
      · simp only [if_pos hal]
        exact ihl b hrl ⟨hpl, hpil⟩ ndl hal
      · simp only [if_neg hal]
        exact ihr b hrr ⟨hpr, hpir⟩ ndr (by tauto)

/-- Cutting a node out of the heap yields the shape `t.remove a`. -/
theorem remove_rep {h h' : Heap T} {a : Addr} (t : Treap T) :
    ∀ (p : Addr), h.Rep t → h.Par t (some p) → t.addrs.Nodup → a ∈ t.addrs → p ∉ t.addrs →
      Spliced h h' a (t.parentOf a p) (t.lsub a) (t.rsub a) →
      h'.Rep (t.remove a) ∧ h'.Par (t.remove a) (some p) := by
  induction t with
  | nil => intro p _ _ _ ha; simp at ha
  | node l b v k r ihl ihr =>
    intro p hrep hpar hnd ha hp sp
    obtain ⟨ho, hle, hri, hrl, hrr⟩ := hrep
    obtain ⟨hpb, hpl, hpr, hpil, hpir⟩ := hpar
    obtain ⟨ndl, ndr, hbl, hbr, hlr⟩ := Treap.nodup_node hnd
    simp only [Treap.addrs_node, List.mem_append, List.mem_cons] at ha
    by_cases hab : a = b
    · subst hab
      simp only [Treap.lsub, Treap.rsub, Treap.parentOf, ↓reduceIte] at sp
      simp only [Treap.remove, ↓reduceIte]
      exact ⟨sp.rep, sp.kids, sp.parIn⟩
    · simp only [Treap.lsub, Treap.rsub, Treap.parentOf, if_neg hab] at sp
      simp only [Treap.remove, if_neg hab]
      by_cases hal : a ∈ l.addrs
      · simp only [if_pos hal] at sp ⊢
        have hsubl := Treap.lsub_mem l a ndl
        have hsubr := Treap.rsub_mem l a ndl
        have hsub : ∀ x ∈ (l.lsub a).addrs ++ (l.rsub a).addrs, x ∈ l.addrs := by
          intro x hx
          rcases List.mem_append.1 hx with hx | hx
          · exact (hsubl x hx).1
          · exact (hsubr x hx).1
        obtain ⟨r1, p1⟩ := ihl b hrl ⟨hpl, hpil⟩ ndl hal hbl sp
        have hbsub : b ∉ (l.lsub a).addrs ++ (l.rsub a).addrs := fun hc => hbl (hsub b hc)
        have hrsub : ∀ y ∈ r.addrs, y ∉ (l.lsub a).addrs ++ (l.rsub a).addrs :=
          fun y hy hc => hlr y (hsub y hc) hy
        have hpa : l.parentOf a b = b ∨ l.parentOf a b ∈ l.addrs := by
          by_cases hroot : l.root = some a
          · exact Or.inl (Treap.parentOf_root l a b hroot)
          · exact Or.inr (Treap.parentOf_mem l a b hal hroot)
        have hrpa : ∀ y ∈ r.addrs, y ≠ l.parentOf a b := by
          intro y hy hc
          rcases hpa with h1 | h1
          · exact hbr (by rw [← h1, ← hc]; exact hy)
          · exact hlr _ h1 (hc ▸ hy)
        have hleft : h'.left b = (l.remove a).root ∧ h'.right b = h.right b := by
          by_cases hroot : l.root = some a
          · have hpab := Treap.parentOf_root l a b hroot
            rw [hpab] at sp
            have := sp.slotL (by rw [hle, hroot])
            rw [Treap.remove_root_eq l a hroot]
            exact this
          · have hpam := Treap.parentOf_mem l a b hal hroot
            have hne : b ≠ l.parentOf a b := fun hc => hbl (hc ▸ hpam)
            have := sp.links b hbsub hne
            rw [Treap.remove_root_ne l a hroot]
            exact ⟨this.1.trans hle, this.2⟩
        refine ⟨⟨?_, hleft.1, hleft.2.trans hri, r1, ?_⟩, ⟨?_, ?_, ?_, p1.2, ?_⟩⟩
        · rw [sp.obj, ho]
        · refine Rep.congr_rep r (fun y _ => by rw [sp.obj]) ?_ ?_ hrr
          · exact fun y hy => (sp.links y (hrsub y hy) (hrpa y hy)).1
          · exact fun y hy => (sp.links y (hrsub y hy) (hrpa y hy)).2
        · intro c hc
          simp only [Treap.root_node, Option.some.injEq] at hc
          subst hc
          rw [sp.parent _ hbsub]
          exact hpb _ rfl
        · exact p1.1
        · intro c hc
          rw [sp.parent c (hrsub c (Treap.root_mem _ _ hc))]
          exact hpr c hc
        · exact ParIn.congr_par r (fun y hy => sp.parent y (hrsub y hy)) hpir
      · have har : a ∈ r.addrs := by tauto
        simp only [if_neg hal] at sp ⊢
        have hsubl := Treap.lsub_mem r a ndr
        have hsubr := Treap.rsub_mem r a ndr
        have hsub : ∀ x ∈ (r.lsub a).addrs ++ (r.rsub a).addrs, x ∈ r.addrs := by
          intro x hx
          rcases List.mem_append.1 hx with hx | hx
          · exact (hsubl x hx).1
          · exact (hsubr x hx).1
        obtain ⟨r1, p1⟩ := ihr b hrr ⟨hpr, hpir⟩ ndr har hbr sp
        have hbsub : b ∉ (r.lsub a).addrs ++ (r.rsub a).addrs := fun hc => hbr (hsub b hc)
        have hlsub : ∀ y ∈ l.addrs, y ∉ (r.lsub a).addrs ++ (r.rsub a).addrs :=
          fun y hy hc => hlr y hy (hsub y hc)
        have hpa : r.parentOf a b = b ∨ r.parentOf a b ∈ r.addrs := by
          by_cases hroot : r.root = some a
          · exact Or.inl (Treap.parentOf_root r a b hroot)
          · exact Or.inr (Treap.parentOf_mem r a b har hroot)
        have hlpa : ∀ y ∈ l.addrs, y ≠ r.parentOf a b := by
          intro y hy hc
          rcases hpa with h1 | h1
          · exact hbl (by rw [← h1, ← hc]; exact hy)
          · exact hlr y hy (hc ▸ h1)
        have hla : h.left b ≠ some a := by
          rw [hle]
          intro hc
          exact hal (Treap.root_mem _ _ hc)
        have hright : h'.right b = (r.remove a).root ∧ h'.left b = h.left b := by
          by_cases hroot : r.root = some a
          · have hpab := Treap.parentOf_root r a b hroot
            rw [hpab] at sp
            have := sp.slotR hla
            rw [Treap.remove_root_eq r a hroot]
            exact this
          · have hpam := Treap.parentOf_mem r a b har hroot
            have hne : b ≠ r.parentOf a b := fun hc => hbr (hc ▸ hpam)
            have := sp.links b hbsub hne
            rw [Treap.remove_root_ne r a hroot]
            exact ⟨this.2.trans hri, this.1⟩
        refine ⟨⟨?_, hright.2.trans hle, hright.1, ?_, r1⟩, ⟨?_, ?_, ?_, ?_, p1.2⟩⟩
        · rw [sp.obj, ho]
        · refine Rep.congr_rep l (fun y _ => by rw [sp.obj]) ?_ ?_ hrl
          · exact fun y hy => (sp.links y (hlsub y hy) (hlpa y hy)).1
          · exact fun y hy => (sp.links y (hlsub y hy) (hlpa y hy)).2
        · intro c hc
          simp only [Treap.root_node, Option.some.injEq] at hc
          subst hc
          rw [sp.parent _ hbsub]
          exact hpb _ rfl
        · intro c hc
          rw [sp.parent c (hlsub c (Treap.root_mem _ _ hc))]
          exact hpl c hc
        · exact p1.1
        · exact ParIn.congr_par l (fun y hy => sp.parent y (hlsub y hy)) hpil

end Heap

namespace set

open Heap set_iterator

variable {T : Type} [LinearOrder T]

theorem erase_spec {h : Heap T} {s : Addr} {t : Treap T} (inv : Inv h s t) {p : Nat} {a : Addr}
    (hp : h.its p = some ⟨some a, true, some s⟩) (ha : a ∈ t.addrs) :
    ∃ h', erase h s p = .ok (h', h.nextIt) ∧ Erased h h' s t a := by
  have hfuel := inv.fuel
  have has : a ≠ s := by rintro rfl; exact inv.not_mem ha
  have hplt := inv.wf.lt_nextIt hp
  have hpn : p ≠ h.nextIt := Nat.ne_of_lt hplt
  -- the parameter
  have w1 : (h.place h.nextIt ⟨some a, true, some s⟩).WF :=
    inv.wf.place _ _ (fun _ => ⟨a, rfl, Rep.live _ inv.rep a ha⟩)
  simp only [erase, copy_eq inv.wf hp, Res.ok_bind]
  rw [getIt_ok (c := ⟨some a, true, some s⟩) (by simp), Res.ok_bind]
  have hc3 : (some a != some s) = true := by simpa using has
  simp only [check_true, Res.ok_bind, beq_self_eq_true, hc3, post_incr]
  obtain ⟨h2, hh2⟩ : ∃ h2, h2 = size_dec (h.place h.nextIt ⟨some a, true, some s⟩) s := ⟨_, rfl⟩
  rw [← hh2]
  have w2 : h2.WF := by rw [hh2]; exact w1.of_eq rfl rfl rfl rfl rfl
  have sh2 : Shape h2 s t := by
    rw [hh2]
    exact inv.toShape.of_eq_shape (by rw [← hh2]; exact w2) rfl rfl rfl rfl rfl
  have hi2 : h2.its h.nextIt = some ⟨some a, true, some s⟩ := by rw [hh2]; simp
  have hn2 : h2.nextIt = h.nextIt + 1 := by rw [hh2]; simp
  have hf2 : h2.fuel = h.fuel := by rw [hh2]; rfl
  have ho2 : ∀ j, j ≠ h.nextIt → h2.its j = h.its j := by
    intro j hj; rw [hh2]; simp [hj]
  have hsz2 : h2.size s = t.size - 1 := by
    have : t.size ≠ 0 := by
      have := Treap.remove_size t a inv.nodup ha
      omega
    rw [hh2]
    simp [inv.size, this]
  -- `pos++`
  rw [copy_eq w2 hi2, Res.ok_bind, hn2]
  try simp only []
  have w3 : (h2.place (h.nextIt + 1) ⟨some a, true, some s⟩).WF :=
    w2.place _ _ (fun _ => ⟨a, rfl, Rep.live _ sh2.rep a ha⟩)
  have sh3 := sh2.same_shape (Same.place_same h2 (h.nextIt + 1) ⟨some a, true, some s⟩) w3
  obtain ⟨h4, e4, m4⟩ := incr_spec sh3 ha (i := h.nextIt) (o := some s) (by simp [hi2])
  rw [e4]
  simp only [Res.ok_bind]
  have hi4 : h4.its (h.nextIt + 1) = some ⟨some a, true, some s⟩ := by
    rw [m4.others _ (by omega)]; simp
  rw [destroy_eq m4.wf hi4, Res.ok_bind]
  obtain ⟨h5, hh5⟩ : ∃ h5, h5 = h4.remove (h.nextIt + 1) := ⟨_, rfl⟩
  rw [← hh5]
  have w5 : h5.WF := by rw [hh5]; exact m4.wf.remove _
  have s25 : Same h2 h5 := by
    rw [hh5]
    exact ((Same.place_same h2 _ _).trans m4.same).trans (Same.remove_same _ _)
  have sh5 : Shape h5 s t := sh2.same_shape s25 w5
  have hi5 : h5.its h.nextIt = some ⟨some (t.next a s), true, some s⟩ := by
    rw [hh5]; simp [m4.here]
  have hn5 : h5.nextIt = h.nextIt + 2 := by
    rw [hh5]; simp only [remove_nextIt, m4.nextIt, place_nextIt, hn2]; omega
  have ho5 : ∀ j, j < h.nextIt → h5.its j = h.its j := by
    intro j hj
    have h1j : j ≠ h.nextIt := Nat.ne_of_lt hj
    have h2j : j ≠ h.nextIt + 1 := by omega
    rw [hh5]
    simp only [remove_its, h2j, ↓reduceIte]
    rw [m4.others j h1j]
    simp only [place_its, h2j, ↓reduceIte]
    exact ho2 j h1j
  have hf5 : h5.fuel = h.fuel := by rw [s25.fuel_eq, hf2]
  have hsz5 : h5.size s = t.size - 1 := by rw [s25.size, hsz2]
  -- the two children
  obtain ⟨rl, rr, pl, pr, hle, hri, hpa⟩ := sub_rep t s sh5.rep sh5.par inv.nodup ha
  have hlive5 : h5.live a = true := Rep.live _ sh5.rep a ha
  have hsubnd := Treap.sub_nodup t a inv.nodup
  have hsubsz := Treap.sub_size t a
  have hsubl := Treap.lsub_mem t a inv.nodup
  have hsubr := Treap.rsub_mem t a inv.nodup
  have hsub : ∀ x ∈ (t.lsub a).addrs ++ (t.rsub a).addrs, x ∈ t.addrs ∧ x ≠ a := by
    intro x hx
    rcases List.mem_append.1 hx with hx | hx
    · exact hsubl x hx
    · exact hsubr x hx
  rw [rdLeft_ok hlive5, Res.ok_bind, rdRight_ok hlive5, Res.ok_bind, hle, hri]
  obtain ⟨h6, e6, r6, p6, f6, -⟩ :=
    merge_spec (t.lsub a) (t.rsub a) h5 h5.fuel rl rr pl pr hsubnd (by omega)
  rw [e6, Res.ok_bind]
  try simp only []
  have hasub : a ∉ (t.lsub a).addrs ++ (t.rsub a).addrs := fun hc => (hsub a hc).2 rfl
  have hssub : s ∉ (t.lsub a).addrs ++ (t.rsub a).addrs := fun hc => inv.not_mem (hsub s hc).1
  have hpasub := Treap.parentOf_not_sub t a s inv.nodup ha inv.not_mem
  have hpalive : h6.live (t.parentOf a s) = true := by
    rw [f6.live_frame]
    by_cases hroot : t.root = some a
    · rw [Treap.parentOf_root t a s hroot]; exact sh5.live_s
    · exact Rep.live _ sh5.rep _ (Treap.parentOf_mem t a s ha hroot)
  have hlive6 : h6.live a = true := by rw [f6.live_frame]; exact hlive5
  have hpar6 : h6.parent a = some (t.parentOf a s) := by rw [f6.parent a hasub]; exact hpa
  have hbeq : (some a == some s) = false := by simpa using has
  simp only [hbeq, Bool.false_eq_true, ↓reduceIte, rdParent_ok hlive6, Res.ok_bind, hpar6,
    rdLeft_ok hpalive]
  have hM : (Treap.merge (t.lsub a) (t.rsub a)).addrs = (t.lsub a).addrs ++ (t.rsub a).addrs :=
    Treap.merge_addrs _ _
  have hkids : ∀ c, (Treap.merge (t.lsub a) (t.rsub a)).root = some c →
      c ∈ (t.lsub a).addrs ++ (t.rsub a).addrs := by
    intro c hc; rw [← hM]; exact Treap.root_mem _ _ hc
  -- the heap after the splice
  have finish : ∀ h8, Spliced h5 h8 a (t.parentOf a s) (t.lsub a) (t.rsub a) →
      h8.iterators = h5.iterators → h8.its = h5.its → h8.size = h5.size → h8.next = h5.next →
      h8.nextIt = h5.nextIt →
      ∃ h', (h8.delete (some a) >>= fun h_2 => (Except.ok (h_2, h.nextIt) : Res (Heap T × Nat)))
        = Except.ok (h', h.nextIt) ∧ Erased h h' s t a := by
    intro h8 sp hit8 hits8 hsz8 hnx8 hni8
    obtain ⟨r8, p8⟩ := remove_rep t s sh5.rep sh5.par inv.nodup ha inv.not_mem sp
    have hl8 : ∀ x, h8.live x = h5.live x := fun x => by simp [Heap.live, sp.obj]
    have w8 : h8.WF := w5.of_eq sp.obj hit8 hits8 hnx8 hni8
    have hmem := Treap.mem_remove_addrs t a
    have hl25 : ∀ x, h5.live x = h.live x := by
      intro x; rw [s25.live_same, hh2]; rfl
    have hleft : (t.remove a) ≠ .nil → h8.left s = (t.remove a).root := by
      intro hne
      by_cases hroot : t.root = some a
      · have hpar := Treap.parentOf_root t a s hroot
        have := sp.slotL (by rw [hpar, sh5.root (Treap.ne_nil_of_mem ha), hroot])
        rw [hpar] at this
        rw [Treap.remove_root_eq t a hroot]
        exact this.1
      · have hpam := Treap.parentOf_mem t a s ha hroot
        have hne' : s ≠ t.parentOf a s := fun hc => inv.not_mem (hc ▸ hpam)
        rw [Treap.remove_root_ne t a hroot, (sp.links s hssub hne').1]
        exact sh5.root (Treap.ne_nil_of_mem ha)
    have hright : h8.right s = h5.right s := by
      by_cases hroot : t.root = some a
      · have hpar := Treap.parentOf_root t a s hroot
        have := sp.slotL (by rw [hpar, sh5.root (Treap.ne_nil_of_mem ha), hroot])
        rw [hpar] at this
        exact this.2
      · have hpam := Treap.parentOf_mem t a s ha hroot
        have hne' : s ≠ t.parentOf a s := fun hc => inv.not_mem (hc ▸ hpam)
        exact (sp.links s hssub hne').2
    have h25r : h5.right s = h.right s := by rw [s25.right, hh2]; rfl
    have h25p : h5.parent s = h.parent s := by rw [s25.parent, hh2]; rfl
    refine ⟨h8.deleted a, ?_, ?_, ?_, ?_, ?_, ?_, ?_, ?_, ?_, ?_, ?_, ?_⟩
    rotate_right 4
    · simp only [deleted_right]; rw [hright, h25r]
    · simp only [deleted_parent]; rw [sp.parent s hssub, h25p]
    · intro hnil
      have hroot : t.root = some a := by
        by_contra hc
        have := Treap.remove_root_ne t a hc
        rw [hnil] at this
        have hne := Treap.ne_nil_of_mem ha
        exact hne ((Treap.root_eq_none t).1 this.symm)
      have hpar := Treap.parentOf_root t a s hroot
      have := sp.slotL (by rw [hpar, sh5.root (Treap.ne_nil_of_mem ha), hroot])
      rw [hpar, ← Treap.remove_root_eq t a hroot, hnil] at this
      simpa using this.1
    · have hout : ∀ x, x ∉ s :: t.addrs →
          x ≠ s ∧ x ≠ a ∧ x ≠ t.parentOf a s ∧ x ∉ (t.lsub a).addrs ++ (t.rsub a).addrs := by
        intro x hx
        rw [List.mem_cons, not_or] at hx
        refine ⟨hx.1, fun hc => hx.2 (hc ▸ ha), ?_, fun hc => hx.2 (hsub x hc).1⟩
        by_cases hroot : t.root = some a
        · rw [Treap.parentOf_root t a s hroot]; exact hx.1
        · exact fun hc => hx.2 (hc ▸ Treap.parentOf_mem t a s ha hroot)
      refine ⟨?_, ?_, ?_, ?_, ?_, ?_⟩
      · intro x hx _
        obtain ⟨-, hxa, -, -⟩ := hout x hx
        rw [deleted_obj, if_neg hxa, sp.obj, s25.obj, hh2]
        rfl
      · intro x hx _
        obtain ⟨-, -, hxp, hxsub⟩ := hout x hx
        rw [deleted_left, (sp.links x hxsub hxp).1, s25.left, hh2]
        rfl
      · intro x hx _
        obtain ⟨-, -, hxp, hxsub⟩ := hout x hx
        rw [deleted_right, (sp.links x hxsub hxp).2, s25.right, hh2]
        rfl
      · intro x hx _
        obtain ⟨-, -, -, hxsub⟩ := hout x hx
        rw [deleted_parent, sp.parent x hxsub, s25.parent, hh2]
        rfl
      · intro x hx
        obtain ⟨hxs, -, -, -⟩ := hout x hx
        rw [deleted_size, hsz8, s25.size, hh2]
        simp [hxs]
      · rw [deleted_next, hnx8, s25.next, hh2]
        exact Nat.le_refl _
    · rw [delete_ok w8 (by rw [hl8]; exact hlive5), Res.ok_bind]
    · have hleft0 := hleft
      refine ⟨⟨w8.deleted a, ?_, ?_, ?_, ?_, Treap.remove_nodup t a inv.nodup, ?_⟩, ?_,
        Treap.remove_BST t a inv.nodup inv.bst⟩
      · simp [Ne.symm has, sp.obj, sh5.base]
      · refine Rep.congr_rep _ ?_ ?_ ?_ r8
        · intro x hx
          have : x ≠ a := ((hmem x inv.nodup).1 hx).2
          simp [this]
        · intro x _; simp
        · intro x _; simp
      · intro hne; simpa using hleft hne
      · exact ⟨fun b hb => by simpa using p8.1 b hb, ParIn.congr_par _ (fun x _ => by simp) p8.2⟩
      · intro r hr
        have hr' : h5.right s = some r := by rw [← hright]; simpa using hr
        obtain ⟨h1, h2'⟩ := sh5.right r hr'
        refine ⟨fun hc => h1 ((hmem r inv.nodup).1 hc).1, ?_⟩
        simpa [hnx8] using h2'
      · have := Treap.remove_size t a inv.nodup ha
        simp only [deleted_size, hsz8, hsz5]
        omega
    · have hne := Treap.next_ne t a s inv.nodup ha inv.not_mem
      have hnot : h.nextIt ∉ h8.iterators a := by
        rw [hit8]
        exact w5.not_mem_of_ne hi5 (by simpa using hne)
      rw [deleted_its, if_neg hnot, hits8]
      exact hi5
    · simp [hni8, hn5]
    · simp [hnx8, s25.next, hh2]
    · intro x
      rw [deleted_live, hl8, hl25]
    · intro j it hj hnot
      have hjlt := inv.wf.lt_nextIt hj
      have hj5 : h5.its j = some it := by rw [ho5 j hjlt]; exact hj
      have hnm : j ∉ h8.iterators a := by
        rw [hit8]
        intro hc
        obtain ⟨o, ho⟩ := w5.reg_it a j hc
        rw [hj5] at ho
        simp only [Option.some.injEq] at ho
        exact hnot (by rw [ho]; exact ⟨rfl, rfl⟩)
      rw [deleted_its, if_neg hnm, hits8]
      exact hj5
    · intro j o hj
      have hjlt := inv.wf.lt_nextIt hj
      have hj5 : h5.its j = some ⟨some a, true, o⟩ := by rw [ho5 j hjlt]; exact hj
      obtain ⟨a', ha', hm⟩ := w5.it_reg j _ hj5 rfl
      simp only [Option.some.injEq] at ha'
      subst ha'
      have hm8 : j ∈ h8.iterators a := by rw [hit8]; exact hm
      rw [deleted_its, if_pos hm8, hits8, hj5]
      rfl
  by_cases hslot : h6.left (t.parentOf a s) = some a
  · have hslot5 : h5.left (t.parentOf a s) = some a := by
      rw [← f6.left _ hpasub]; exact hslot
    simp only [hslot, beq_self_eq_true, ↓reduceIte, wrLeft_ok _ hpalive, Res.ok_bind]
    cases hk : (Treap.merge (t.lsub a) (t.rsub a)).root with
    | none =>
      refine finish _ ⟨?_, ?_, ?_, ?_, ?_, ?_, ?_, ?_⟩ ?_ ?_ ?_ ?_ ?_
      · simp [f6.obj]
      · intro x hx hxp
        simp [hxp, f6.left x hx, f6.right x hx]
      · intro x hx; simp [f6.parent x hx]
      · refine Rep.congr_rep _ ?_ ?_ ?_ r6
        · intro x _; simp
        · intro x hx
          rw [hM] at hx
          have : x ≠ t.parentOf a s := by rintro rfl; exact hpasub hx
          simp [this]
        · intro x _; simp
      · exact ParIn.congr_par _ (fun x _ => by simp) p6
      · intro _; simp [hk, f6.right _ hpasub]
      · intro hc; exact absurd hslot5 hc
      · intro c hc; rw [hk] at hc; exact Option.noConfusion hc
      · simp [f6.iterators]
      · simp [f6.its]
      · simp [f6.size]
      · simp [f6.next]
      · simp [f6.nextIt]
    | some c =>
      have hcm := hkids c hk
      have hclive : h6.live c = true := Rep.live _ r6 c (Treap.root_mem _ _ hk)
      have hcpa : c ≠ t.parentOf a s := by rintro rfl; exact hpasub hcm
      simp only [rdParent_ok (h := h6.setLeft (t.parentOf a s) (some c)) (a := a)
        (by simpa using hlive6), Res.ok_bind, setLeft_parent, hpar6,
        wrParent_ok (h := h6.setLeft (t.parentOf a s) (some c)) (a := c) _
          (by simpa using hclive)]
      refine finish _ ⟨?_, ?_, ?_, ?_, ?_, ?_, ?_, ?_⟩ ?_ ?_ ?_ ?_ ?_
      · simp [f6.obj]
      · intro x hx hxp
        simp [hxp, f6.left x hx, f6.right x hx]
      · intro x hx
        have : x ≠ c := by rintro rfl; exact hx hcm
        simp [this, f6.parent x hx]
      · refine Rep.congr_rep _ ?_ ?_ ?_ r6
        · intro x _; simp
        · intro x hx
          rw [hM] at hx
          have : x ≠ t.parentOf a s := by rintro rfl; exact hpasub hx
          simp [this]
        · intro x _; simp
      · refine ParIn.congr_top _ (by rw [hM]; exact hsubnd) ?_ p6
        intro x _ hne
        have : x ≠ c := by rintro rfl; exact hne hk
        simp [this]
      · intro _; simp [hk, f6.right _ hpasub]
      · intro hc; exact absurd hslot5 hc
      · intro c' hc'
        rw [hk] at hc'
        simp only [Option.some.injEq] at hc'
        subst hc'
        simp
      · simp [f6.iterators]
      · simp [f6.its]
      · simp [f6.size]
      · simp [f6.next]
      · simp [f6.nextIt]
  · have hslot5 : h5.left (t.parentOf a s) ≠ some a := by
      rw [← f6.left _ hpasub]; exact hslot
    have hbf : (h6.left (t.parentOf a s) == some a) = false := by simpa using hslot
    simp only [hbf, Bool.false_eq_true, ↓reduceIte, wrRight_ok _ hpalive, Res.ok_bind]
    cases hk : (Treap.merge (t.lsub a) (t.rsub a)).root with
    | none =>
      refine finish _ ⟨?_, ?_, ?_, ?_, ?_, ?_, ?_, ?_⟩ ?_ ?_ ?_ ?_ ?_
      · simp [f6.obj]
      · intro x hx hxp
        simp [hxp, f6.left x hx, f6.right x hx]
      · intro x hx; simp [f6.parent x hx]
      · refine Rep.congr_rep _ ?_ ?_ ?_ r6
        · intro x _; simp
        · intro x _; simp
        · intro x hx
          rw [hM] at hx
          have : x ≠ t.parentOf a s := by rintro rfl; exact hpasub hx
          simp [this]
      · exact ParIn.congr_par _ (fun x _ => by simp) p6
      · intro hc; exact absurd hc hslot5
      · intro _; simp [hk, f6.left _ hpasub]
      · intro c hc; rw [hk] at hc; exact Option.noConfusion hc
      · simp [f6.iterators]
      · simp [f6.its]
      · simp [f6.size]
      · simp [f6.next]
      · simp [f6.nextIt]
    | some c =>
      have hcm := hkids c hk
      have hclive : h6.live c = true := Rep.live _ r6 c (Treap.root_mem _ _ hk)
      have hcpa : c ≠ t.parentOf a s := by rintro rfl; exact hpasub hcm
      simp only [rdParent_ok (h := h6.setRight (t.parentOf a s) (some c)) (a := a)
        (by simpa using hlive6), Res.ok_bind, setRight_parent, hpar6,
        wrParent_ok (h := h6.setRight (t.parentOf a s) (some c)) (a := c) _
          (by simpa using hclive)]
      refine finish _ ⟨?_, ?_, ?_, ?_, ?_, ?_, ?_, ?_⟩ ?_ ?_ ?_ ?_ ?_
      · simp [f6.obj]
      · intro x hx hxp
        simp [hxp, f6.left x hx, f6.right x hx]
      · intro x hx
        have : x ≠ c := by rintro rfl; exact hx hcm
        simp [this, f6.parent x hx]
      · refine Rep.congr_rep _ ?_ ?_ ?_ r6
        · intro x _; simp
        · intro x _; simp
        · intro x hx
          rw [hM] at hx
          have : x ≠ t.parentOf a s := by rintro rfl; exact hpasub hx
          simp [this]
      · refine ParIn.congr_top _ (by rw [hM]; exact hsubnd) ?_ p6
        intro x _ hne
        have : x ≠ c := by rintro rfl; exact hne hk
        simp [this]
      · intro hc; exact absurd hc hslot5
      · intro _; simp [hk, f6.left _ hpasub]
      · intro c' hc'
        rw [hk] at hc'
        simp only [Option.some.injEq] at hc'
        subst hc'
        simp
      · simp [f6.iterators]
      · simp [f6.its]
      · simp [f6.size]
      · simp [f6.next]
      · simp [f6.nextIt]

end set

namespace set

open Heap set_iterator

variable {T : Type} [LinearOrder T]

/-- The public `find`: a new handle at the node holding the value, or at the
sentinel when the value is absent. -/
theorem find_spec {h : Heap T} {s : Addr} {t : Treap T} (inv : Inv h s t) (v : T) :
    find h s v = .ok (h.place h.nextIt ⟨some ((t.find v).getD s), true, some s⟩, h.nextIt) := by
  have hfuel := inv.fuel
  by_cases hne : t = .nil
  · subst hne
    have he : empty h s = true := inv.empty_iff.2 rfl
    simp only [find, he, ↓reduceIte, Treap.find, Option.getD_none]
    exact end_spec inv.toShape
  · have he : empty h s = false := by
      rw [← Bool.not_eq_true, inv.empty_iff]; exact hne
    simp only [find, he, Bool.false_eq_true, ↓reduceIte, rdLeft_ok inv.live_s, Res.ok_bind,
      inv.root hne, find_rec_spec v t h inv.rep h.fuel (by omega)]
    cases hf : t.find v with
    | none =>
      simp only [bne_self_eq_false, Bool.false_eq_true, ↓reduceIte, Option.getD_none]
      exact end_spec inv.toShape
    | some a =>
      have ha := Treap.mem_addrs_of_pairs (Treap.find_pairs t v a hf)
      simp only [bne_iff_ne, ne_eq, reduceCtorEq, not_false_eq_true, ↓reduceIte,
        Option.getD_some]
      exact create_eq inv.wf (Rep.live _ inv.rep a ha) _

theorem lower_loop_spec (s : Addr) (r : Nat) (v : T) (u : Treap T) :
    ∀ (h : Heap T) (n : Nat) (res : Addr), h.WF → h.Rep u → u.addrs.Nodup →
      h.its r = some ⟨some res, true, some s⟩ → u.size < n →
      ∃ h', lower_loop n h s r u.root v = .ok h' ∧ Bound h h' s r (u.lower v res) := by
  induction u with
  | nil =>
    intro h n res w _ _ hr hn
    cases n with
    | zero => simp at hn
    | succ n =>
      exact ⟨h, by simp [lower_loop], Same.refl h, w, hr, fun _ _ _ => rfl, Nat.le_refl _⟩
  | node l a x k r' ihl ihr =>
    intro h n res w hrep hnd hr hn
    have hrne := Rep.right_ne _ hrep hnd a (by simp)
    obtain ⟨ho, hle, hri, hrl, hrr⟩ := hrep
    obtain ⟨ndl, ndr, hal, har, hlr⟩ := Treap.nodup_node hnd
    cases n with
    | zero => simp at hn
    | succ n =>
      simp only [Treap.size_node] at hn
      have hc1 : (some a != (none : Option Addr)) = true := by simp
      have hc2 : (some a != h.right a) = true := by
        simp only [bne_iff_ne, ne_eq]; exact fun hc => hrne hc.symm
      simp only [Treap.root_node, lower_loop, hc1, ↓reduceIte, rdRight_ok (live_node ho),
        Res.ok_bind, hc2, value_ok ho, Treap.lower]
      by_cases hxv : x ≥ v
      · simp only [hxv, ↓reduceIte]
        obtain ⟨h1, e1, s1, w1, n1, i1, -, o1⟩ :=
          assign_new_eq w hr (live_node ho) (some s)
        obtain ⟨h2, e2, b2⟩ := ihl h1 n a w1 (s1.Rep _ hrl) ndl i1 (by omega)
        refine ⟨h2, ?_, s1.trans b2.same, b2.wf, b2.here, ?_, ?_⟩
        · rw [e1, Res.ok_bind, rdLeft_ok (by rw [s1.live_same]; exact live_node ho), Res.ok_bind,
            s1.left, hle, e2]
        · intro j hj hjr
          rw [b2.others j (by omega) hjr]
          exact o1 j hjr (Nat.ne_of_lt hj)
        · have := b2.nextIt; omega
      · simp only [hxv, ↓reduceIte]
        obtain ⟨h2, e2, b2⟩ := ihr h n res w hrr ndr hr (by omega)
        exact ⟨h2, by rw [hri, e2], b2⟩

theorem upper_loop_spec (s : Addr) (r : Nat) (v : T) (u : Treap T) :
    ∀ (h : Heap T) (n : Nat) (res : Addr), h.WF → h.Rep u → u.addrs.Nodup →
      h.its r = some ⟨some res, true, some s⟩ → u.size < n →
      ∃ h', upper_loop n h s r u.root v = .ok h' ∧ Bound h h' s r (u.upper v res) := by
  induction u with
  | nil =>
    intro h n res w _ _ hr hn
    cases n with
    | zero => simp at hn
    | succ n =>
      exact ⟨h, by simp [upper_loop], Same.refl h, w, hr, fun _ _ _ => rfl, Nat.le_refl _⟩
  | node l a x k r' ihl ihr =>
    intro h n res w hrep hnd hr hn
    have hrne := Rep.right_ne _ hrep hnd a (by simp)
    obtain ⟨ho, hle, hri, hrl, hrr⟩ := hrep
    obtain ⟨ndl, ndr, hal, har, hlr⟩ := Treap.nodup_node hnd
    cases n with
    | zero => simp at hn
    | succ n =>
      simp only [Treap.size_node] at hn
      have hc1 : (some a != (none : Option Addr)) = true := by simp
      have hc2 : (some a != h.right a) = true := by
        simp only [bne_iff_ne, ne_eq]; exact fun hc => hrne hc.symm
      simp only [Treap.root_node, upper_loop, hc1, ↓reduceIte, rdRight_ok (live_node ho),
        Res.ok_bind, hc2, value_ok ho, Treap.upper]
      by_cases hxv : x > v
      · simp only [hxv, ↓reduceIte]
        obtain ⟨h1, e1, s1, w1, n1, i1, -, o1⟩ :=
          assign_new_eq w hr (live_node ho) (some s)
        obtain ⟨h2, e2, b2⟩ := ihl h1 n a w1 (s1.Rep _ hrl) ndl i1 (by omega)
        refine ⟨h2, ?_, s1.trans b2.same, b2.wf, b2.here, ?_, ?_⟩
        · rw [e1, Res.ok_bind, rdLeft_ok (by rw [s1.live_same]; exact live_node ho), Res.ok_bind,
            s1.left, hle, e2]
        · intro j hj hjr
          rw [b2.others j (by omega) hjr]
          exact o1 j hjr (Nat.ne_of_lt hj)
        · have := b2.nextIt; omega
      · simp only [hxv, ↓reduceIte]
        obtain ⟨h2, e2, b2⟩ := ihr h n res w hrr ndr hr (by omega)
        exact ⟨h2, by rw [hri, e2], b2⟩

/-- `lower_bound` on a non-empty set returns a new handle at the node the descent
selects. -/
theorem lower_bound_spec {h : Heap T} {s : Addr} {t : Treap T} (inv : Inv h s t)
    (hne : t ≠ .nil) (v : T) :
    ∃ h', lower_bound h s v = .ok (h', h.nextIt) ∧ Same h h' ∧ h'.WF ∧
      h'.its h.nextIt = some ⟨some (t.lower v s), true, some s⟩ := by
  have hfuel := inv.fuel
  have w1 : (h.place h.nextIt ⟨some s, true, some s⟩).WF :=
    inv.wf.place _ _ (fun _ => ⟨s, rfl, inv.live_s⟩)
  obtain ⟨h2, e2, b2⟩ := lower_loop_spec s h.nextIt v t _
    (h.place h.nextIt ⟨some s, true, some s⟩).fuel s w1
    ((Same.place_same h _ _).Rep t inv.rep) inv.nodup (by simp) (by simp only [place_fuel]; omega)
  refine ⟨h2, ?_, (Same.place_same h _ _).trans b2.same, b2.wf, b2.here⟩
  simp only [lower_bound, rdLeft_ok inv.live_s, Res.ok_bind, inv.root hne,
    end_spec inv.toShape, e2]

/-- `upper_bound` on a non-empty set returns a new handle at the node the descent
selects. -/
theorem upper_bound_spec {h : Heap T} {s : Addr} {t : Treap T} (inv : Inv h s t)
    (hne : t ≠ .nil) (v : T) :
    ∃ h', upper_bound h s v = .ok (h', h.nextIt) ∧ Same h h' ∧ h'.WF ∧
      h'.its h.nextIt = some ⟨some (t.upper v s), true, some s⟩ := by
  have hfuel := inv.fuel
  have w1 : (h.place h.nextIt ⟨some s, true, some s⟩).WF :=
    inv.wf.place _ _ (fun _ => ⟨s, rfl, inv.live_s⟩)
  obtain ⟨h2, e2, b2⟩ := upper_loop_spec s h.nextIt v t _
    (h.place h.nextIt ⟨some s, true, some s⟩).fuel s w1
    ((Same.place_same h _ _).Rep t inv.rep) inv.nodup (by simp) (by simp only [place_fuel]; omega)
  refine ⟨h2, ?_, (Same.place_same h _ _).trans b2.same, b2.wf, b2.here⟩
  simp only [upper_bound, rdLeft_ok inv.live_s, Res.ok_bind, inv.root hne,
    end_spec inv.toShape, e2]

end set

namespace Treap

variable {T : Type} [LinearOrder T]

theorem values_nodup (t : Treap T) (hb : t.BST) : t.values.Nodup :=
  (BST_sorted t hb).imp (fun h => ne_of_lt h)

theorem pairs_sorted (t : Treap T) (hb : t.BST) :
    t.pairs.Pairwise (fun p q => p.2 < q.2) := by
  have h := BST_sorted t hb
  rw [← pairs_snd, List.pairwise_map] at h
  exact h

theorem pairs_inj_fst (t : Treap T) (hnd : t.addrs.Nodup) {p q : Addr × T} (hp : p ∈ t.pairs)
    (hq : q ∈ t.pairs) (h : p.1 = q.1) : p = q := by
  rw [← pairs_fst] at hnd
  exact List.inj_on_of_nodup_map hnd hp hq h

theorem pairs_inj_snd (t : Treap T) (hb : t.BST) {p q : Addr × T} (hp : p ∈ t.pairs)
    (hq : q ∈ t.pairs) (h : p.2 = q.2) : p = q := by
  have hnd := values_nodup t hb
  rw [← pairs_snd] at hnd
  exact List.inj_on_of_nodup_map hnd hp hq h

theorem pairs_of_mem_values (t : Treap T) {v : T} (hv : v ∈ t.values) :
    ∃ a, (a, v) ∈ t.pairs := by
  rw [← pairs_snd] at hv
  obtain ⟨p, hp, rfl⟩ := List.mem_map.1 hv
  exact ⟨p.1, hp⟩

/-- Removing the node that holds `v` removes `v` from the values and keeps the
others in order. -/
theorem remove_values (t : Treap T) (a : Addr) (v : T) (hnd : t.addrs.Nodup) (hb : t.BST)
    (hp : (a, v) ∈ t.pairs) : (t.remove a).values = t.values.filter (fun x => x != v) := by
  rw [← pairs_snd, ← pairs_snd, remove_pairs t a hnd, List.filter_map]
  congr 1
  apply List.filter_congr
  intro p hpm
  simp only [Function.comp]
  by_cases h1 : p.1 = a
  · have := pairs_inj_fst t hnd hpm hp h1
    subst this
    show (a != a) = (v != v)
    rw [bne_self_eq_false, bne_self_eq_false]
  · have h2 : p.2 ≠ v := fun hc => h1 (congrArg Prod.fst (pairs_inj_snd t hb hpm hp hc))
    rw [bne_iff_ne.2 h1, bne_iff_ne.2 h2]

/-- The value found by `find` is the only way a value is in the tree. -/
theorem find_eq_none_iff (t : Treap T) (v : T) (hb : t.BST) : t.find v = none ↔ v ∉ t.values := by
  constructor
  · exact find_none t v hb
  · intro hv
    cases hf : t.find v with
    | none => rfl
    | some a => exact absurd (mem_values_of_pairs (find_pairs t v a hf)) hv

/-- The descent of `lower_bound` ends at the node of the least value `≥ x`, or
keeps `res` when every value is smaller. -/
theorem lower_spec (t : Treap T) (hb : t.BST) (x : T) :
    ∀ res : Addr, ((∀ y ∈ t.values, y < x) ∧ t.lower x res = res) ∨
      (∃ m, (t.lower x res, m) ∈ t.pairs ∧ x ≤ m ∧ ∀ y ∈ t.values, x ≤ y → m ≤ y) := by
  induction t with
  | nil => intro res; left; simp [lower]
  | node l a v k r ihl ihr =>
    intro res
    obtain ⟨hl, hr, bl, br⟩ := hb
    by_cases hvx : v ≥ x
    · simp only [lower, hvx, ↓reduceIte]
      right
      rcases ihl bl a with ⟨hall, he⟩ | ⟨m, hm, hxm, hmin⟩
      · refine ⟨v, ?_, hvx, ?_⟩
        · rw [he]; simp [pairs]
        · intro y hy hxy
          simp only [values_node, List.mem_append, List.mem_cons] at hy
          rcases hy with hy | rfl | hy
          · exact absurd (hall y hy) (not_lt.2 hxy)
          · exact le_refl _
          · exact le_of_lt (hr y hy)
      · refine ⟨m, ?_, hxm, ?_⟩
        · simp only [pairs, List.mem_append, List.mem_cons]
          exact Or.inl hm
        · have hmv : m < v := hl m (mem_values_of_pairs hm)
          intro y hy hxy
          simp only [values_node, List.mem_append, List.mem_cons] at hy
          rcases hy with hy | rfl | hy
          · exact hmin y hy hxy
          · exact le_of_lt hmv
          · exact le_of_lt (lt_trans hmv (hr y hy))
    · have hvx2 : v < x := not_le.1 hvx
      simp only [lower, hvx, ↓reduceIte]
      rcases ihr br res with ⟨hall, he⟩ | ⟨m, hm, hxm, hmin⟩
      · left
        refine ⟨?_, he⟩
        intro y hy
        simp only [values_node, List.mem_append, List.mem_cons] at hy
        rcases hy with hy | rfl | hy
        · exact lt_trans (hl y hy) hvx2
        · exact hvx2
        · exact hall y hy
      · right
        refine ⟨m, ?_, hxm, ?_⟩
        · simp only [pairs, List.mem_append, List.mem_cons]
          exact Or.inr (Or.inr hm)
        · intro y hy hxy
          simp only [values_node, List.mem_append, List.mem_cons] at hy
          rcases hy with hy | rfl | hy
          · exact absurd (lt_trans (hl y hy) hvx2) (not_lt.2 hxy)
          · exact absurd hvx2 (not_lt.2 hxy)
          · exact hmin y hy hxy

/-- The descent of `upper_bound` ends at the node of the least value `> x`, or
keeps `res` when no value is greater. -/
theorem upper_spec (t : Treap T) (hb : t.BST) (x : T) :
    ∀ res : Addr, ((∀ y ∈ t.values, y ≤ x) ∧ t.upper x res = res) ∨
      (∃ m, (t.upper x res, m) ∈ t.pairs ∧ x < m ∧ ∀ y ∈ t.values, x < y → m ≤ y) := by
  induction t with
  | nil => intro res; left; simp [upper]
  | node l a v k r ihl ihr =>
    intro res
    obtain ⟨hl, hr, bl, br⟩ := hb
    by_cases hvx : v > x
    · simp only [upper, hvx, ↓reduceIte]
      right
      rcases ihl bl a with ⟨hall, he⟩ | ⟨m, hm, hxm, hmin⟩
      · refine ⟨v, ?_, hvx, ?_⟩
        · rw [he]; simp [pairs]
        · intro y hy hxy
          simp only [values_node, List.mem_append, List.mem_cons] at hy
          rcases hy with hy | rfl | hy
          · exact absurd (hall y hy) (not_le.2 hxy)
          · exact le_refl _
          · exact le_of_lt (hr y hy)
      · refine ⟨m, ?_, hxm, ?_⟩
        · simp only [pairs, List.mem_append, List.mem_cons]
          exact Or.inl hm
        · have hmv : m < v := hl m (mem_values_of_pairs hm)
          intro y hy hxy
          simp only [values_node, List.mem_append, List.mem_cons] at hy
          rcases hy with hy | rfl | hy
          · exact hmin y hy hxy
          · exact le_of_lt hmv
          · exact le_of_lt (lt_trans hmv (hr y hy))
    · have hvx2 : v ≤ x := not_lt.1 hvx
      simp only [upper, hvx, ↓reduceIte]
      rcases ihr br res with ⟨hall, he⟩ | ⟨m, hm, hxm, hmin⟩
      · left
        refine ⟨?_, he⟩
        intro y hy
        simp only [values_node, List.mem_append, List.mem_cons] at hy
        rcases hy with hy | rfl | hy
        · exact le_trans (le_of_lt (hl y hy)) hvx2
        · exact hvx2
        · exact hall y hy
      · right
        refine ⟨m, ?_, hxm, ?_⟩
        · simp only [pairs, List.mem_append, List.mem_cons]
          exact Or.inr (Or.inr hm)
        · intro y hy hxy
          simp only [values_node, List.mem_append, List.mem_cons] at hy
          rcases hy with hy | rfl | hy
          · exact absurd (lt_of_lt_of_le (hl y hy) hvx2) (not_lt.2 (le_of_lt hxy))
          · exact absurd hvx2 (not_le.2 hxy)
          · exact hmin y hy hxy

/-- The node after the one holding `v` holds the least value greater than `v`;
after the greatest value comes `e`. -/
theorem next_pairs (t : Treap T) (hnd : t.addrs.Nodup) (hb : t.BST) (a : Addr) (v : T) (e : Addr)
    (hp : (a, v) ∈ t.pairs) :
    ((∀ y ∈ t.values, y ≤ v) ∧ t.next a e = e) ∨
      (∃ m, (t.next a e, m) ∈ t.pairs ∧ v < m ∧ ∀ y ∈ t.values, v < y → m ≤ y) := by
  obtain ⟨pre, post, hpp⟩ := List.append_of_mem hp
  have hs := pairs_sorted t hb
  rw [hpp] at hs
  have hs2 := List.pairwise_append.1 hs
  have hs3 := List.pairwise_cons.1 hs2.2.1
  have hvals : t.values = pre.map Prod.snd ++ v :: post.map Prod.snd := by
    rw [← pairs_snd, hpp]; simp
  rw [next_spec t _ a _ e hnd (addrs_of_pairs hpp)]
  cases post with
  | nil =>
    left
    refine ⟨?_, rfl⟩
    intro y hy
    rw [hvals] at hy
    simp only [List.map_nil, List.mem_append, List.mem_cons, List.mem_map, List.not_mem_nil,
      or_false] at hy
    rcases hy with ⟨q, hq, rfl⟩ | rfl
    · exact le_of_lt (hs2.2.2 q hq (a, v) (List.mem_cons_self _ _))
    · exact le_refl _
  | cons q post =>
    right
    refine ⟨q.2, ?_, hs3.1 q (List.mem_cons_self _ _), ?_⟩
    · rw [hpp]
      simp
    · intro y hy hvy
      rw [hvals] at hy
      simp only [List.map_cons, List.mem_append, List.mem_cons, List.mem_map] at hy
      have hs4 := List.pairwise_cons.1 hs3.2
      rcases hy with ⟨q', hq', rfl⟩ | rfl | rfl | ⟨q', hq', rfl⟩
      · exact absurd (hs2.2.2 q' hq' (a, v) (List.mem_cons_self _ _)) (not_lt.2 (le_of_lt hvy))
      · exact absurd hvy (lt_irrefl _)
      · exact le_refl _
      · exact le_of_lt (hs4.1 q' hq')

end Treap

namespace set

open Heap set_iterator

variable {T : Type} [LinearOrder T]

/-- Dereferencing a valid handle at an element node gives the node's value. -/
theorem deref_elem {h : Heap T} {s : Addr} {t : Treap T} (inv : Shape h s t) {i : Nat}
    {b : Addr} {m : T} {o : Option Addr} (hp : (b, m) ∈ t.pairs)
    (hi : h.its i = some ⟨some b, true, o⟩) : deref h i = .ok m := by
  have hb := Treap.mem_addrs_of_pairs hp
  exact deref_spec hi (Rep.live _ inv.rep b hb) (Rep.right_ne _ inv.rep inv.nodup b hb)
    (Rep.value t inv.rep _ hp)

end set

namespace set

open Heap set_iterator

variable {T : Type} [LinearOrder T]

theorem Erased.to_dropped {h h' : Heap T} {s : Addr} {t : Treap T} {a : Addr}
    (e : Erased h h' s t a) : Dropped h h' s t a :=
  ⟨e.inv, e.live, e.right_s, e.parent_s, e.left_nil, e.outside⟩

theorem is_end_spec {h : Heap T} {s : Addr} {t : Treap T} (inv : Shape h s t) {i : Nat}
    {b : Addr} (hi : h.its i = some ⟨some b, true, some s⟩) :
    is_end h s i = .ok (b == s) := by
  have hne : i ≠ h.nextIt := Nat.ne_of_lt (inv.wf.lt_nextIt hi)
  simp only [is_end, end_spec inv, Res.ok_bind]
  exact eq_spec (a := b) (b := s) (o := some s) (by simp [hne, hi]) (by simp)

theorem begin_is_end_spec {h : Heap T} {s : Addr} {t : Treap T} (inv : Inv h s t) :
    begin_is_end h s = .ok (t.first s == s) := by
  have w1 : (h.place h.nextIt ⟨some (t.first s), true, some s⟩).WF := by
    refine inv.wf.place _ _ (fun _ => ⟨_, rfl, ?_⟩)
    cases t with
    | nil => exact inv.live_s
    | node l a v k r => exact Rep.live _ inv.rep _ (Treap.first_mem _ s (by simp))
  have inv1 := inv.same (Same.place_same h h.nextIt ⟨some (t.first s), true, some s⟩) w1
  simp only [begin_is_end, begin_spec inv, Res.ok_bind]
  exact is_end_spec inv1.toShape (b := t.first s) (by simp)

/-- `erase(value)` on a set that does not hold the value: 0 is returned and only
iterator objects were created and destroyed. -/
theorem erase_value_absent {h : Heap T} {s : Addr} {t : Treap T} (inv : Inv h s t) (v : T)
    (hf : t.find v = none) :
    ∃ h', erase_value h s v = .ok (h', 0) ∧ Same h h' ∧ h'.WF := by
  by_cases hne : t = .nil
  · have he : empty h s = true := inv.empty_iff.2 hne
    exact ⟨h, by simp only [erase_value, he, ↓reduceIte], Same.refl h, inv.wf⟩
  · have he : empty h s = false := by
      rw [← Bool.not_eq_true, inv.empty_iff]; exact hne
    have w1 : (h.place h.nextIt ⟨some s, true, some s⟩).WF :=
      inv.wf.place _ _ (fun _ => ⟨s, rfl, inv.live_s⟩)
    have inv1 := inv.same (Same.place_same h h.nextIt ⟨some s, true, some s⟩) w1
    obtain ⟨h1, hh1⟩ : ∃ h1, h1 = h.place h.nextIt ⟨some s, true, some s⟩ := ⟨_, rfl⟩
    rw [← hh1] at w1 inv1
    have hn1 : h.nextIt < h1.nextIt := by rw [hh1]; simp
    have hi1 : h1.its h.nextIt = some ⟨some s, true, some s⟩ := by rw [hh1]; simp
    have w2 : (h1.place h1.nextIt ⟨some s, true, some s⟩).WF :=
      w1.place _ _ (fun _ => ⟨s, rfl, inv1.live_s⟩)
    obtain ⟨h2, hh2⟩ : ∃ h2, h2 = h1.place h1.nextIt ⟨some s, true, some s⟩ := ⟨_, rfl⟩
    rw [← hh2] at w2
    have hi2 : h2.its h.nextIt = some ⟨some s, true, some s⟩ := by
      rw [hh2]; simp [Nat.ne_of_lt hn1, hi1]
    have he2 : h2.its h1.nextIt = some ⟨some s, true, some s⟩ := by rw [hh2]; simp
    have hi3 : (h2.remove h1.nextIt).its h.nextIt = some ⟨some s, true, some s⟩ := by
      simp [Nat.ne_of_lt hn1, hi2]
    refine ⟨(h2.remove h1.nextIt).remove h.nextIt, ?_, ?_, (w2.remove _).remove _⟩
    · simp only [erase_value, he, Bool.false_eq_true, ↓reduceIte, find_spec inv v, hf,
        Option.getD_none, Res.ok_bind, ← hh1, end_spec inv1.toShape, ← hh2,
        eq_spec hi2 he2, beq_self_eq_true, destroy_eq w2 he2, destroy_eq (w2.remove _) hi3]
    · rw [hh2, hh1]
      exact (((Same.place_same _ _ _).trans (Same.place_same _ _ _)).trans (Same.remove_same _ _)).trans
        (Same.remove_same _ _)

/-- `erase(value)` on a set that holds the value at node `a`: 1 is returned and the
node is removed. -/
theorem erase_value_present {h : Heap T} {s : Addr} {t : Treap T} (inv : Inv h s t) (v : T)
    {a : Addr} (hf : t.find v = some a) :
    ∃ h', erase_value h s v = .ok (h', 1) ∧ Dropped h h' s t a := by
  have hp := Treap.find_pairs t v a hf
  have ha := Treap.mem_addrs_of_pairs hp
  have hne := Treap.ne_nil_of_mem ha
  have has : a ≠ s := by rintro rfl; exact inv.not_mem ha
  have he : empty h s = false := by
    rw [← Bool.not_eq_true, inv.empty_iff]; exact hne
  have w1 : (h.place h.nextIt ⟨some a, true, some s⟩).WF :=
    inv.wf.place _ _ (fun _ => ⟨a, rfl, Rep.live _ inv.rep a ha⟩)
  have inv1 := inv.same (Same.place_same h h.nextIt ⟨some a, true, some s⟩) w1
  obtain ⟨h1, hh1⟩ : ∃ h1, h1 = h.place h.nextIt ⟨some a, true, some s⟩ := ⟨_, rfl⟩
  rw [← hh1] at w1 inv1
  have hn1 : h.nextIt < h1.nextIt := by rw [hh1]; simp
  have hi1 : h1.its h.nextIt = some ⟨some a, true, some s⟩ := by rw [hh1]; simp
  have w2 : (h1.place h1.nextIt ⟨some s, true, some s⟩).WF :=
    w1.place _ _ (fun _ => ⟨s, rfl, inv1.live_s⟩)
  obtain ⟨h2, hh2⟩ : ∃ h2, h2 = h1.place h1.nextIt ⟨some s, true, some s⟩ := ⟨_, rfl⟩
  rw [← hh2] at w2
  have hi2 : h2.its h.nextIt = some ⟨some a, true, some s⟩ := by
    rw [hh2]; simp [Nat.ne_of_lt hn1, hi1]
  have he2 : h2.its h1.nextIt = some ⟨some s, true, some s⟩ := by rw [hh2]; simp
  have s2 : Same h h2 := by
    rw [hh2, hh1]; exact (Same.place_same _ _ _).trans (Same.place_same _ _ _)
  obtain ⟨h3, hh3⟩ : ∃ h3, h3 = h2.remove h1.nextIt := ⟨_, rfl⟩
  have w3 : h3.WF := by rw [hh3]; exact w2.remove _
  have s3 : Same h h3 := by rw [hh3]; exact s2.trans (Same.remove_same _ _)
  have inv3 := inv.same s3 w3
  have hi3 : h3.its h.nextIt = some ⟨some a, true, some s⟩ := by
    rw [hh3]; simp [Nat.ne_of_lt hn1, hi2]
  have hn3 : h.nextIt < h3.nextIt := by
    rw [hh3, hh2]; simp only [remove_nextIt, place_nextIt]; omega
  obtain ⟨h4, e4, E⟩ := erase_spec inv3 hi3 ha
  have hi4 : h4.its h.nextIt = some ⟨some a, false, some s⟩ := E.stale _ _ hi3
  have w5 : (h4.remove h3.nextIt).WF := E.inv.wf.remove _
  have hi5 : (h4.remove h3.nextIt).its h.nextIt = some ⟨some a, false, some s⟩ := by
    simp [Nat.ne_of_lt hn3, hi4]
  have hbeq : (a == s) = false := by simpa using has
  refine ⟨(h4.remove h3.nextIt).remove h.nextIt, ?_, ?_, ?_, ?_, ?_, ?_, ?_⟩
  rotate_right
  · exact (E.outside.same_left s3).same_right
      ((Same.remove_same _ _).trans (Same.remove_same _ _))
  · simp only [erase_value, he, Bool.false_eq_true, ↓reduceIte, find_spec inv v, hf,
      Option.getD_some, Res.ok_bind, ← hh1, end_spec inv1.toShape, ← hh2,
      eq_spec hi2 he2, hbeq, destroy_eq w2 he2, ← hh3, e4, destroy_eq E.inv.wf E.here,
      destroy_eq w5 hi5]
  · exact E.inv.same ((Same.remove_same _ _).trans (Same.remove_same _ _)) (w5.remove _)
  · intro x
    simp only [remove_live, E.live x, s3.live_same x]
  · simp only [remove_right, E.right_s, s3.right]
  · simp only [remove_parent, E.parent_s, s3.parent]
  · intro hnil
    simp only [remove_left, E.left_nil hnil]

end set

namespace set

open Heap set_iterator

variable {T : Type} [LinearOrder T]

theorem Solo.same_solo {h h' : Heap T} {s : Addr} {t : Treap T} (sol : Solo h s t) (f : Same h h')
    (w : h'.WF) : Solo h' s t :=
  ⟨sol.toInv.same f w, fun a ha => sol.closed a (by rw [← f.live_same a]; exact ha),
    by rw [f.right]; exact sol.right_s, by rw [f.parent]; exact sol.parent_s,
    fun hn => by rw [f.left]; exact sol.left_s hn⟩

theorem Solo.dropped {h h' : Heap T} {s : Addr} {t : Treap T} {a : Addr} (sol : Solo h s t)
    (d : Dropped h h' s t a) : Solo h' s (t.remove a) := by
  refine ⟨d.inv, ?_, by rw [d.right_s]; exact sol.right_s,
    by rw [d.parent_s]; exact sol.parent_s, fun hn => Or.inr (d.left_nil hn)⟩
  intro x hx
  rw [d.live x] at hx
  by_cases hxa : x = a
  · simp [hxa] at hx
  · simp only [hxa, ↓reduceIte] at hx
    rcases sol.closed x hx with rfl | hm
    · exact Or.inl rfl
    · exact Or.inr ((Treap.mem_remove_addrs t a x sol.nodup).2 ⟨hm, hxa⟩)

theorem Solo.inserted {h h' : Heap T} {s : Addr} {t : Treap T} {v : T} {k r : Nat}
    (sol : Solo h s t) (d : Inserted h h' s t v k r) : Solo h' s (t.insert h.next v k) := by
  refine ⟨d.inv, ?_, by rw [d.right_s]; exact sol.right_s,
    by rw [d.parent_s]; exact sol.parent_s,
    fun hn => absurd hn (Treap.insert_ne_nil t h.next v k)⟩
  intro x hx
  rw [d.live x] at hx
  by_cases hxa : x = h.next
  · exact Or.inr ((Treap.mem_insert_addrs t h.next v k x).2 (Or.inl hxa))
  · simp only [hxa, ↓reduceIte] at hx
    rcases sol.closed x hx with rfl | hm
    · exact Or.inl rfl
    · exact Or.inr ((Treap.mem_insert_addrs t h.next v k x).2 (Or.inr hm))

/-- A valid handle references the sentinel or an element node. -/
theorem Solo.handle {h : Heap T} {s : Addr} {t : Treap T} (sol : Solo h s t) {i : Nat}
    {it : set_iterator} (hi : h.its i = some it) (hv : it.is_valid = true) :
    ∃ a, it.node = some a ∧ (a = s ∨ a ∈ t.addrs) := by
  obtain ⟨a, ha, hm⟩ := sol.wf.it_reg i it hi hv
  exact ⟨a, ha, sol.closed a (sol.wf.live_of_mem hm)⟩

/-- The freshly constructed set is empty and alone. -/
theorem fresh_solo : Solo (fresh : Heap T × Addr).1 (fresh : Heap T × Addr).2 .nil := by
  have hlive : ∀ a, (fresh : Heap T × Addr).1.live a = true → a = 0 := by
    intro a ha
    by_contra hc
    simp [fresh, construct, Heap.empty, Heap.live, Function.update_apply, hc] at ha
  refine ⟨⟨⟨⟨?_, ?_, ?_, ?_, ?_, ?_⟩, ?_, trivial, fun hc => absurd rfl hc, ?_, ?_, ?_⟩, ?_,
    trivial⟩, ?_, ?_, ?_, ?_⟩
  · intro a i hi
    simp [fresh, construct, Heap.empty, Function.update_apply] at hi
  · intro i it hi
    simp [fresh, construct, Heap.empty] at hi
  · intro i _
    rfl
  · intro a
    simp [fresh, construct, Heap.empty, Function.update_apply]
  · intro a _
    simp [fresh, construct, Heap.empty, Function.update_apply]
  · intro a ha
    cases hl : (fresh : Heap T × Addr).1.live a with
    | false => rfl
    | true =>
      have := hlive a hl
      subst this
      simp [fresh, construct, Heap.empty] at ha
  · simp [fresh, construct, Heap.empty]
  · exact ⟨fun b hb => by simp at hb, trivial⟩
  · simp
  · intro r hr
    simp [fresh, construct, Heap.empty] at hr
    subst hr
    simp [fresh, construct, Heap.empty]
  · simp [fresh, construct, Heap.empty]
  · intro a ha
    exact Or.inl (hlive a ha)
  · simp [fresh, construct, Heap.empty]
  · simp [fresh, construct, Heap.empty]
  · intro _
    left
    simp [fresh, construct, Heap.empty]

/-- A call made with its precondition met returns, and the invariant holds after
it. -/
theorem Op.run_keeps {h : Heap T} {s : Addr} {t : Treap T} (sol : Solo h s t) (op : Op T)
    (hr : op.ready h s = true) : ∃ h1 t1, op.run h s = .ok h1 ∧ Solo h1 s t1 := by
  cases op with
  | insert v k =>
    cases hf : t.find v with
    | none =>
      obtain ⟨h1, e1, d⟩ := insert_absent sol.toInv v k hf
      exact ⟨h1, _, by simp only [Op.run, e1, Res.ok_bind], sol.inserted d⟩
    | some a =>
      have ha := Treap.mem_addrs_of_pairs (Treap.find_pairs t v a hf)
      have w0 : (h.place h.nextIt ⟨none, false, none⟩).WF :=
        sol.wf.place _ _ (fun hc => Bool.noConfusion hc)
      have w1 : ((h.place h.nextIt ⟨none, false, none⟩).place (h.nextIt + 1)
          ⟨some a, true, some s⟩).WF :=
        w0.place _ _ (fun _ => ⟨a, rfl, Rep.live _ sol.rep a ha⟩)
      refine ⟨_, t, by simp only [Op.run, insert_present sol.toInv v k hf, Res.ok_bind]; rfl, ?_⟩
      exact sol.same_solo (((Same.place_same _ _ _).trans (Same.place_same _ _ _)).trans (Same.remove_same _ _))
        (w1.remove _)
  | erase p =>
    simp only [Op.ready] at hr
    cases hp : h.its p with
    | none => simp [hp] at hr
    | some it =>
      simp only [hp, Bool.and_eq_true, beq_iff_eq, bne_iff_ne, ne_eq] at hr
      obtain ⟨⟨hv, ho⟩, hn⟩ := hr
      obtain ⟨a, ha, hm⟩ := sol.handle hp hv
      have hit : it = ⟨some a, true, some s⟩ := by
        cases it with
        | mk n v o =>
          simp only at hv ho ha
          simp [hv, ho, ha]
      subst hit
      have hmem : a ∈ t.addrs := by
        rcases hm with rfl | hm
        · exact absurd rfl hn
        · exact hm
      obtain ⟨h1, e1, d⟩ := erase_spec sol.toInv hp hmem
      exact ⟨h1, _, by simp only [Op.run, e1, Res.ok_bind], sol.dropped d.to_dropped⟩
  | erase_value v =>
    cases hf : t.find v with
    | none =>
      obtain ⟨h1, e1, f, w⟩ := erase_value_absent sol.toInv v hf
      exact ⟨h1, t, by simp only [Op.run, e1, Res.ok_bind], sol.same_solo f w⟩
    | some a =>
      obtain ⟨h1, e1, d⟩ := erase_value_present sol.toInv v hf
      exact ⟨h1, _, by simp only [Op.run, e1, Res.ok_bind], sol.dropped d⟩
  | find v =>
    refine ⟨_, t, by simp only [Op.run, find_spec sol.toInv v, Res.ok_bind]; rfl, ?_⟩
    refine sol.same_solo (Same.place_same _ _ _) (sol.wf.place _ _ (fun _ => ⟨_, rfl, ?_⟩))
    cases hf : t.find v with
    | none => exact sol.live_s
    | some a =>
      exact Rep.live _ sol.rep a (Treap.mem_addrs_of_pairs (Treap.find_pairs t v a hf))
  | begin =>
    refine ⟨_, t, by simp only [Op.run, begin_spec sol.toInv, Res.ok_bind]; rfl, ?_⟩
    refine sol.same_solo (Same.place_same _ _ _) (sol.wf.place _ _ (fun _ => ⟨_, rfl, ?_⟩))
    cases t with
    | nil => exact sol.live_s
    | node l a v k r => exact Rep.live _ sol.rep _ (Treap.first_mem _ s (by simp))
  | end_ =>
    refine ⟨_, t, by simp only [Op.run, end_spec sol.toShape, Res.ok_bind]; rfl, ?_⟩
    exact sol.same_solo (Same.place_same _ _ _) (sol.wf.place _ _ (fun _ => ⟨s, rfl, sol.live_s⟩))

/-- A sequence of calls, each made with its precondition met, returns, and the
invariant holds after it. -/
theorem run_solo (s : Addr) (ops : List (Op T)) :
    ∀ (h : Heap T) (t : Treap T), Solo h s t → ready h s ops = true →
      ∃ h1 t1, run h s ops = .ok h1 ∧ Solo h1 s t1 := by
  induction ops with
  | nil => intro h t sol _; exact ⟨h, t, rfl, sol⟩
  | cons op ops ih =>
    intro h t sol hr
    simp only [ready, Bool.and_eq_true] at hr
    obtain ⟨h1, t1, e1, sol1⟩ := Op.run_keeps sol op hr.1
    have hr2 := hr.2
    rw [e1] at hr2
    obtain ⟨h2, t2, e2, sol2⟩ := ih h1 t1 sol1 hr2
    exact ⟨h2, t2, by simp only [run, e1, Res.ok_bind, e2], sol2⟩

/-- A sequence of insertions has no precondition. -/
theorem ready_inserts (s : Addr) (ins : List (T × Nat)) :
    ∀ h : Heap T, ready h s (inserts ins) = true := by
  induction ins with
  | nil => intro h; rfl
  | cons p ins ih =>
    intro h
    simp only [inserts, List.map_cons, ready, Op.ready, Bool.true_and]
    cases hrun : (Op.insert p.1 p.2).run h s with
    | error e => rfl
    | ok h1 => exact ih h1

/-- The nodes reachable from the top of a shape the heap holds are its nodes. -/
theorem reachable_rep (t : Treap T) :
    ∀ (h : Heap T) (n : Nat), h.Rep t → t.size < n → reachable n h t.root = t.addrs := by
  induction t with
  | nil =>
    intro h n _ hn
    cases n with
    | zero => rfl
    | succ n => rfl
  | node l a v k r ihl ihr =>
    intro h n hrep hn
    obtain ⟨h1, h2, h3, h4, h5⟩ := hrep
    cases n with
    | zero => simp at hn
    | succ n =>
      simp only [Treap.size] at hn
      show reachable (n + 1) h (some a) = l.addrs ++ a :: r.addrs
      simp only [reachable, h1, h2, h3]
      rw [ihl h n h4 (by omega), ihr h n h5 (by omega)]

/-- In a program whose only object is the set, the element nodes reachable from
the sentinel are the nodes of the shape. -/
theorem Solo.reachable {h : Heap T} {s : Addr} {t : Treap T} (sol : Solo h s t) :
    reachable h.fuel h (h.left s) = t.addrs := by
  have hfuel := sol.fuel
  by_cases hne : t = .nil
  · subst hne
    obtain ⟨n, hn⟩ : ∃ n, h.fuel = n + 1 := ⟨h.fuel - 1, by omega⟩
    rcases sol.left_s rfl with hl | hl
    · rw [hl, hn]
      simp only [set.reachable, sol.base, Treap.addrs_nil]
    · rw [hl, hn]
      rfl
  · rw [sol.root hne]
    exact reachable_rep t h h.fuel sol.rep (by omega)

end set

namespace set

open Heap set_iterator

variable {T : Type} [LinearOrder T]

/-- The traversal of a set is the list of values of its shape. -/
theorem Inv.values_eq {h : Heap T} {s : Addr} {t : Treap T} (inv : Inv h s t) {vs : List T}
    (htr : traverse h s = .ok vs) : vs = t.values := by
  rw [traverse_spec inv] at htr
  exact (Except.ok.inj htr).symm

/-- `begin()` is `end()` exactly when the shape has no node. -/
theorem Inv.first_beq {h : Heap T} {s : Addr} {t : Treap T} (inv : Inv h s t) :
    (t.first s == s) = empty h s := by
  by_cases hne : t = .nil
  · rw [inv.empty_iff.2 hne, hne]
    simp [Treap.first]
  · have he : empty h s = false := by
      rw [← Bool.not_eq_true, inv.empty_iff]; exact hne
    rw [he]
    have hm := Treap.first_mem t s hne
    have : t.first s ≠ s := by
      intro hc
      rw [hc] at hm
      exact inv.not_mem hm
    simpa using this

/-- An insertion returns, keeps the invariant, and adds the value to the values. -/
theorem insert_keeps {h : Heap T} {s : Addr} {t : Treap T} (sol : Solo h s t) (v : T) (k : Nat) :
    ∃ h1 t1, (Op.insert v k).run h s = .ok h1 ∧ Solo h1 s t1 ∧
      ∀ x, x ∈ t1.values ↔ x = v ∨ x ∈ t.values := by
  cases hf : t.find v with
  | none =>
    obtain ⟨h1, e1, d⟩ := insert_absent sol.toInv v k hf
    exact ⟨h1, _, by simp only [Op.run, e1, Res.ok_bind], sol.inserted d,
      Treap.mem_insert_values t h.next v k⟩
  | some a =>
    have hp := Treap.find_pairs t v a hf
    have ha := Treap.mem_addrs_of_pairs hp
    have w0 : (h.place h.nextIt ⟨none, false, none⟩).WF :=
      sol.wf.place _ _ (fun hc => Bool.noConfusion hc)
    have w1 : ((h.place h.nextIt ⟨none, false, none⟩).place (h.nextIt + 1)
        ⟨some a, true, some s⟩).WF :=
      w0.place _ _ (fun _ => ⟨a, rfl, Rep.live _ sol.rep a ha⟩)
    refine ⟨_, t, by simp only [Op.run, insert_present sol.toInv v k hf, Res.ok_bind]; rfl,
      ?_, ?_⟩
    · exact sol.same_solo (((Same.place_same _ _ _).trans (Same.place_same _ _ _)).trans
        (Same.remove_same _ _)) (w1.remove _)
    · intro x
      constructor
      · exact fun hx => Or.inr hx
      · rintro (rfl | hx)
        · exact Treap.mem_values_of_pairs hp
        · exact hx

/-- A sequence of insertions returns, keeps the invariant, and adds the values. -/
theorem run_inserts (s : Addr) (ins : List (T × Nat)) :
    ∀ (h : Heap T) (t : Treap T), Solo h s t →
      ∃ h1 t1, run h s (inserts ins) = .ok h1 ∧ Solo h1 s t1 ∧
        ∀ x, x ∈ t1.values ↔ x ∈ t.values ∨ x ∈ ins.map Prod.fst := by
  induction ins with
  | nil =>
    intro h t sol
    exact ⟨h, t, rfl, sol, fun x => by simp⟩
  | cons p ins ih =>
    intro h t sol
    obtain ⟨h1, t1, e1, sol1, hv1⟩ := insert_keeps sol p.1 p.2
    obtain ⟨h2, t2, e2, sol2, hv2⟩ := ih h1 t1 sol1
    refine ⟨h2, t2, ?_, sol2, ?_⟩
    · simp only [inserts, List.map_cons, run, e1, Res.ok_bind]
      exact e2
    · intro x
      rw [hv2 x, hv1 x]
      simp only [List.map_cons, List.mem_cons]
      tauto

/-- A client whose calls are made with their preconditions met returns, and the
invariant holds in its final state. -/
theorem build_solo (ops : List (Op T)) (hr : admissible ops = true) :
    ∃ h s t, build ops = .ok (h, s) ∧ Solo h s t := by
  obtain ⟨h1, t1, e1, sol1⟩ := run_solo _ ops _ _ fresh_solo hr
  exact ⟨h1, _, t1, by simp only [build, e1, Res.ok_bind], sol1⟩

/-- A client that only inserts returns, and the values of the final shape are the
inserted ones. -/
theorem build_inserts (ins : List (T × Nat)) :
    ∃ h s t, build (inserts ins) = .ok (h, s) ∧ Solo h s t ∧
      ∀ x, x ∈ t.values ↔ x ∈ ins.map Prod.fst := by
  obtain ⟨h1, t1, e1, sol1, hv⟩ := run_inserts _ ins _ _ (fresh_solo (T := T))
  refine ⟨h1, _, t1, by simp only [build, e1, Res.ok_bind], sol1, ?_⟩
  intro x
  rw [hv x]
  simp

/-- `lower_bound` on a non-empty set: the new handle is at the least value that is
`≥ v`, or is `end()` when every value is smaller; only iterator objects change. -/
theorem lower_bound_least {h : Heap T} {s : Addr} {t : Treap T} (inv : Inv h s t)
    (hne : t ≠ .nil) (v : T) :
    ∃ h1 r, lower_bound h s v = .ok (h1, r) ∧ Same h h1 ∧
      ((∀ x ∈ t.values, x < v) → is_end h1 s r = .ok true) ∧
      (∀ m ∈ t.values, v ≤ m → (∀ x ∈ t.values, v ≤ x → m ≤ x) →
        deref h1 r = .ok m ∧ is_end h1 s r = .ok false) := by
  obtain ⟨h1, e1, f1, w1, hi1⟩ := lower_bound_spec inv hne v
  have sh1 := inv.toShape.same_shape f1 w1
  refine ⟨h1, _, e1, f1, ?_, ?_⟩
  · intro hall
    rcases Treap.lower_spec t inv.bst v s with ⟨_, he⟩ | ⟨m, hm, hvm, _⟩
    · rw [he] at hi1
      rw [is_end_spec sh1 hi1]
      simp
    · exact absurd (hall m (Treap.mem_values_of_pairs hm)) (not_lt.2 hvm)
  · intro m hm hvm hmin
    rcases Treap.lower_spec t inv.bst v s with ⟨hall, _⟩ | ⟨m0, hm0, hvm0, hmin0⟩
    · exact absurd (hall m hm) (not_lt.2 hvm)
    · have hmm : m0 = m :=
        le_antisymm (hmin0 m hm hvm) (hmin m0 (Treap.mem_values_of_pairs hm0) hvm0)
      subst hmm
      refine ⟨deref_elem sh1 hm0 hi1, ?_⟩
      rw [is_end_spec sh1 hi1]
      have : t.lower v s ≠ s := by
        intro hc
        have := Treap.mem_addrs_of_pairs hm0
        rw [hc] at this
        exact inv.not_mem this
      simpa using this

/-- `upper_bound` on a non-empty set: the new handle is at the least value that is
`> v`, or is `end()` when no value is greater; only iterator objects change. -/
theorem upper_bound_least {h : Heap T} {s : Addr} {t : Treap T} (inv : Inv h s t)
    (hne : t ≠ .nil) (v : T) :
    ∃ h1 r, upper_bound h s v = .ok (h1, r) ∧ Same h h1 ∧
      ((∀ x ∈ t.values, x ≤ v) → is_end h1 s r = .ok true) ∧
      (∀ m ∈ t.values, v < m → (∀ x ∈ t.values, v < x → m ≤ x) →
        deref h1 r = .ok m ∧ is_end h1 s r = .ok false) := by
  obtain ⟨h1, e1, f1, w1, hi1⟩ := upper_bound_spec inv hne v
  have sh1 := inv.toShape.same_shape f1 w1
  refine ⟨h1, _, e1, f1, ?_, ?_⟩
  · intro hall
    rcases Treap.upper_spec t inv.bst v s with ⟨_, he⟩ | ⟨m, hm, hvm, _⟩
    · rw [he] at hi1
      rw [is_end_spec sh1 hi1]
      simp
    · exact absurd (hall m (Treap.mem_values_of_pairs hm)) (not_le.2 hvm)
  · intro m hm hvm hmin
    rcases Treap.upper_spec t inv.bst v s with ⟨hall, _⟩ | ⟨m0, hm0, hvm0, hmin0⟩
    · exact absurd (hall m hm) (not_le.2 hvm)
    · have hmm : m0 = m :=
        le_antisymm (hmin0 m hm hvm) (hmin m0 (Treap.mem_values_of_pairs hm0) hvm0)
      subst hmm
      refine ⟨deref_elem sh1 hm0 hi1, ?_⟩
      rw [is_end_spec sh1 hi1]
      have : t.upper v s ≠ s := by
        intro hc
        have := Treap.mem_addrs_of_pairs hm0
        rw [hc] at this
        exact inv.not_mem this
      simpa using this

end set

namespace set

open Heap set_iterator

variable {T : Type} [LinearOrder T]

/-- C1: for every finite sequence of values inserted into a freshly constructed
set, with any keys for the new nodes, the client returns, and reading the set from
`begin()` with `++` until `end()` gives a strictly increasing list (so each value
once) whose members are exactly the inserted values. -/
theorem traverse_after_inserts (ins : List (T × Nat)) :
    ∃ h s vs, build (inserts ins) = .ok (h, s) ∧ traverse h s = .ok vs ∧
      vs.Pairwise (fun x y => x < y) ∧ ∀ x, x ∈ vs ↔ x ∈ ins.map Prod.fst := by
  obtain ⟨h, s, t, e, sol, hv⟩ := build_inserts ins
  exact ⟨h, s, t.values, e, traverse_spec sol.toInv, Treap.BST_sorted t sol.bst, hv⟩

/-- C2: in every set, `insert` of a value `v` that the traversal holds returns
`false` with a valid handle of this set at a node that already held `v`, so the
handle dereferences to `v`; objects, links, keys, `size()` and the allocation
counter are the same after the call, and so is the traversal. -/
theorem insert_present_unchanged {h : Heap T} {s : Addr} {t : Treap T} (inv : Inv h s t)
    {vs : List T} (htr : traverse h s = .ok vs) {v : T} (hv : v ∈ vs) (k : Nat) :
    ∃ h1 r a, insert h s v k = .ok (h1, r, false) ∧ Same h h1 ∧
      h1.its r = some ⟨some a, true, some s⟩ ∧ h.value (some a) = .ok v ∧
      deref h1 r = .ok v ∧ size h1 s = size h s ∧ traverse h1 s = .ok vs := by
  have hvs := inv.values_eq htr
  subst hvs
  obtain ⟨a, hf⟩ := Treap.find_of_mem t v inv.bst hv
  have hp := Treap.find_pairs t v a hf
  have ha := Treap.mem_addrs_of_pairs hp
  have w0 : (h.place h.nextIt ⟨none, false, none⟩).WF :=
    inv.wf.place _ _ (fun hc => Bool.noConfusion hc)
  have w1 : ((h.place h.nextIt ⟨none, false, none⟩).place (h.nextIt + 1)
      ⟨some a, true, some s⟩).WF :=
    w0.place _ _ (fun _ => ⟨a, rfl, Rep.live _ inv.rep a ha⟩)
  have f : Same h (((h.place h.nextIt ⟨none, false, none⟩).place (h.nextIt + 1)
      ⟨some a, true, some s⟩).remove h.nextIt) :=
    ((Same.place_same _ _ _).trans (Same.place_same _ _ _)).trans (Same.remove_same _ _)
  have inv1 := inv.same f (w1.remove _)
  have hi : (((h.place h.nextIt ⟨none, false, none⟩).place (h.nextIt + 1)
      ⟨some a, true, some s⟩).remove h.nextIt).its (h.nextIt + 1)
      = some ⟨some a, true, some s⟩ := by simp
  exact ⟨_, _, a, insert_present inv v k hf, f, hi, Rep.value t inv.rep _ hp,
    deref_elem inv1.toShape hp hi, congrFun f.size s, traverse_spec inv1⟩

/-- C3: after any sequence of `insert`, `erase(handle)`, `erase(value)` (and
`find`, `begin`, `end`) calls on a freshly constructed set, each made with its
precondition met, the client returns, and `size()` is the length of the traversal,
which is strictly increasing, and the number of element nodes reachable from the
sentinel; `begin() == end()` has the value of `empty()`. -/
theorem size_counts_elements (ops : List (Op T)) (hr : admissible ops = true) :
    ∃ h s vs, build ops = .ok (h, s) ∧ traverse h s = .ok vs ∧
      vs.Pairwise (fun x y => x < y) ∧ size h s = vs.length ∧
      (reachable h.fuel h (h.left s)).length = size h s ∧
      begin_is_end h s = .ok (empty h s) := by
  obtain ⟨h, s, t, e, sol⟩ := build_solo ops hr
  have hsz : size h s = t.size := sol.size
  refine ⟨h, s, t.values, e, traverse_spec sol.toInv, Treap.BST_sorted t sol.bst, ?_, ?_, ?_⟩
  · rw [hsz, Treap.length_values]
  · rw [sol.reachable, Treap.length_addrs, hsz]
  · rw [begin_is_end_spec sol.toInv, sol.toInv.first_beq]

/-- C4: in every set, `find(v)` returns a new handle, changing only iterator
objects; when the traversal holds `v` the handle dereferences to `v` and is not
`end()`, and when it does not (an empty set included) the handle is `end()`. -/
theorem find_returns {h : Heap T} {s : Addr} {t : Treap T} (inv : Inv h s t)
    {vs : List T} (htr : traverse h s = .ok vs) (v : T) :
    ∃ h1 r, find h s v = .ok (h1, r) ∧ Same h h1 ∧
      (v ∈ vs → deref h1 r = .ok v ∧ is_end h1 s r = .ok false) ∧
      (v ∉ vs → is_end h1 s r = .ok true) := by
  have hvs := inv.values_eq htr
  subst hvs
  obtain ⟨b, hb⟩ : ∃ b, (t.find v).getD s = b := ⟨_, rfl⟩
  have hspec := find_spec inv v
  rw [hb] at hspec
  have hlive : h.live b = true := by
    rw [← hb]
    cases hf : t.find v with
    | none => exact inv.live_s
    | some a =>
      exact Rep.live _ inv.rep a (Treap.mem_addrs_of_pairs (Treap.find_pairs t v a hf))
  have w1 : (h.place h.nextIt ⟨some b, true, some s⟩).WF :=
    inv.wf.place _ _ (fun _ => ⟨_, rfl, hlive⟩)
  have sh1 := inv.toShape.same_shape (Same.place_same h h.nextIt _) w1
  have hi : (h.place h.nextIt ⟨some b, true, some s⟩).its h.nextIt
      = some ⟨some b, true, some s⟩ := by simp
  refine ⟨_, _, hspec, Same.place_same _ _ _, ?_, ?_⟩
  · intro hv
    obtain ⟨a, hf⟩ := Treap.find_of_mem t v inv.bst hv
    have hp := Treap.find_pairs t v a hf
    have hba : a = b := by rw [← hb, hf]; rfl
    subst hba
    refine ⟨deref_elem sh1 hp hi, ?_⟩
    rw [is_end_spec sh1 hi]
    have : a ≠ s := by
      rintro rfl
      exact inv.not_mem (Treap.mem_addrs_of_pairs hp)
    simpa using this
  · intro hv
    have hf := (Treap.find_eq_none_iff t v inv.bst).2 hv
    have hba : s = b := by rw [← hb, hf]; rfl
    subst hba
    rw [is_end_spec sh1 hi]
    simp

/-- C5: on every non-empty set built from a freshly constructed one by inserts and
erases, `lower_bound(v)` returns a new handle, changing only iterator objects; the
handle dereferences to the least value of the traversal that is `≥ v`, and it is
`end()` when every value is `< v`. -/
theorem lower_bound_least_ge (ops : List (Op T)) (hr : admissible ops = true) (v : T) :
    ∃ h s vs, build ops = .ok (h, s) ∧ traverse h s = .ok vs ∧
      (empty h s = false →
        ∃ h1 r, lower_bound h s v = .ok (h1, r) ∧ Same h h1 ∧
          ((∀ x ∈ vs, x < v) → is_end h1 s r = .ok true) ∧
          (∀ m ∈ vs, v ≤ m → (∀ x ∈ vs, v ≤ x → m ≤ x) →
            deref h1 r = .ok m ∧ is_end h1 s r = .ok false)) := by
  obtain ⟨h, s, t, e, sol⟩ := build_solo ops hr
  refine ⟨h, s, t.values, e, traverse_spec sol.toInv, ?_⟩
  intro he
  have hne : t ≠ .nil := by
    intro hc
    rw [sol.empty_iff.2 hc] at he
    exact Bool.noConfusion he
  exact lower_bound_least sol.toInv hne v

/-- C6: on every non-empty set built from a freshly constructed one by inserts and
erases, `upper_bound(v)` returns a new handle, changing only iterator objects; the
handle dereferences to the least value of the traversal that is `> v`, and it is
`end()` when every value is `≤ v`. -/
theorem upper_bound_least_gt (ops : List (Op T)) (hr : admissible ops = true) (v : T) :
    ∃ h s vs, build ops = .ok (h, s) ∧ traverse h s = .ok vs ∧
      (empty h s = false →
        ∃ h1 r, upper_bound h s v = .ok (h1, r) ∧ Same h h1 ∧
          ((∀ x ∈ vs, x ≤ v) → is_end h1 s r = .ok true) ∧
          (∀ m ∈ vs, v < m → (∀ x ∈ vs, v < x → m ≤ x) →
            deref h1 r = .ok m ∧ is_end h1 s r = .ok false)) := by
  obtain ⟨h, s, t, e, sol⟩ := build_solo ops hr
  refine ⟨h, s, t.values, e, traverse_spec sol.toInv, ?_⟩
  intro he
  have hne : t ≠ .nil := by
    intro hc
    rw [sol.empty_iff.2 hc] at he
    exact Bool.noConfusion he
  exact upper_bound_least sol.toInv hne v

/-- C7: in every set, for every valid handle of the set at the node `a` that
holds `v` (wherever the node is in the tree and whatever the keys are), the handle
dereferences to `v`, `erase` of it returns, and the traversal afterwards is the
traversal before with `v` filtered out; `size()` went down by one. -/
theorem erase_removes {h : Heap T} {s : Addr} {t : Treap T} (inv : Inv h s t) {p : Nat}
    {a : Addr} {v : T} (hp : h.its p = some ⟨some a, true, some s⟩) (ha : (a, v) ∈ t.pairs) :
    ∃ vs h1 r, traverse h s = .ok vs ∧ v ∈ vs ∧ deref h p = .ok v ∧
      erase h s p = .ok (h1, r) ∧ traverse h1 s = .ok (vs.filter (fun x => x != v)) ∧
      size h1 s + 1 = size h s := by
  have hm := Treap.mem_addrs_of_pairs ha
  obtain ⟨h1, e1, E⟩ := erase_spec inv hp hm
  refine ⟨t.values, h1, _, traverse_spec inv, Treap.mem_values_of_pairs ha,
    deref_elem inv.toShape ha hp, e1, ?_, ?_⟩
  · rw [traverse_spec E.inv, Treap.remove_values t a v inv.nodup inv.bst ha]
  · have h1s : size h1 s = (t.remove a).size := E.inv.size
    have hs : size h s = t.size := inv.size
    rw [h1s, hs]
    exact Treap.remove_size t a inv.nodup hm

/-- C8: in every set, for every valid handle of the set at the node that holds
`v`, `erase` of it returns a valid handle of the set; the handle is `end()` when no
value of the traversal is greater than `v`, and otherwise it dereferences, in the
state after the call, to the least value greater than `v`. -/
theorem erase_returns_successor {h : Heap T} {s : Addr} {t : Treap T} (inv : Inv h s t)
    {p : Nat} {a : Addr} {v : T} (hp : h.its p = some ⟨some a, true, some s⟩)
    (ha : (a, v) ∈ t.pairs) :
    ∃ vs h1 r b, traverse h s = .ok vs ∧ erase h s p = .ok (h1, r) ∧
      h1.its r = some ⟨some b, true, some s⟩ ∧
      ((∀ x ∈ vs, x ≤ v) → is_end h1 s r = .ok true) ∧
      (∀ m ∈ vs, v < m → (∀ x ∈ vs, v < x → m ≤ x) →
        deref h1 r = .ok m ∧ is_end h1 s r = .ok false) := by
  have hm := Treap.mem_addrs_of_pairs ha
  obtain ⟨h1, e1, E⟩ := erase_spec inv hp hm
  refine ⟨t.values, h1, _, _, traverse_spec inv, e1, E.here, ?_, ?_⟩
  · intro hall
    rcases Treap.next_pairs t inv.nodup inv.bst a v s ha with ⟨_, he⟩ | ⟨m, hpm, hvm, _⟩
    · have hi := E.here
      rw [he] at hi
      rw [is_end_spec E.inv.toShape hi]
      simp
    · exact absurd (hall m (Treap.mem_values_of_pairs hpm)) (not_le.2 hvm)
  · intro m hmv hvm hmin
    rcases Treap.next_pairs t inv.nodup inv.bst a v s ha with ⟨hall, _⟩ | ⟨m0, hpm, hvm0, hmin0⟩
    · exact absurd (hall m hmv) (not_le.2 hvm)
    · have hmm : m0 = m :=
        le_antisymm (hmin0 m hmv hvm) (hmin m0 (Treap.mem_values_of_pairs hpm) hvm0)
      subst hmm
      have hne : t.next a s ≠ a := Treap.next_ne t a s inv.nodup hm inv.not_mem
      have hpm1 : (t.next a s, m0) ∈ (t.remove a).pairs := by
        rw [Treap.remove_pairs t a inv.nodup]
        exact List.mem_filter.2 ⟨hpm, by simpa using hne⟩
      refine ⟨deref_elem E.inv.toShape hpm1 E.here, ?_⟩
      rw [is_end_spec E.inv.toShape E.here]
      have : t.next a s ≠ s := by
        intro hc
        have := Treap.mem_addrs_of_pairs hpm
        rw [hc] at this
        exact inv.not_mem this
      simpa using this

/-- C9: in every set, `erase(v)` returns 0 or 1: it returns 1 when the traversal
holds `v`, and then the traversal afterwards is the one before with `v` filtered
out and `size()` went down by one; it returns 0 when the traversal does not hold
`v`, and then objects, links and `size()` are the same and so is the traversal. -/
theorem erase_value_result {h : Heap T} {s : Addr} {t : Treap T} (inv : Inv h s t)
    {vs : List T} (htr : traverse h s = .ok vs) (v : T) :
    ∃ h1 n, erase_value h s v = .ok (h1, n) ∧ (n = 0 ∨ n = 1) ∧
      (v ∈ vs → n = 1 ∧ traverse h1 s = .ok (vs.filter (fun x => x != v)) ∧
        size h1 s + 1 = size h s) ∧
      (v ∉ vs → n = 0 ∧ Same h h1 ∧ traverse h1 s = .ok vs) := by
  have hvs := inv.values_eq htr
  subst hvs
  cases hf : t.find v with
  | none =>
    have hv := (Treap.find_eq_none_iff t v inv.bst).1 hf
    obtain ⟨h1, e1, f, w⟩ := erase_value_absent inv v hf
    exact ⟨h1, 0, e1, Or.inl rfl, fun hc => absurd hc hv,
      fun _ => ⟨rfl, f, traverse_spec (inv.same f w)⟩⟩
  | some a =>
    have hp := Treap.find_pairs t v a hf
    have hm := Treap.mem_addrs_of_pairs hp
    obtain ⟨h1, e1, d⟩ := erase_value_present inv v hf
    refine ⟨h1, 1, e1, Or.inr rfl, fun _ => ⟨rfl, ?_, ?_⟩,
      fun hc => absurd (Treap.mem_values_of_pairs hp) hc⟩
    · rw [traverse_spec d.inv, Treap.remove_values t a v inv.nodup inv.bst hp]
    · have h1s : size h1 s = (t.remove a).size := d.inv.size
      have hs : size h s = t.size := inv.size
      rw [h1s, hs]
      exact Treap.remove_size t a inv.nodup hm

/-- C10: for every sequence of insertions into a freshly constructed set, the
client returns, and reading the set backwards from `end()` with `--` until the
handle equals `begin()` gives the reverse of the forward traversal, a strictly
decreasing list; the backward loop makes one step for each value, `size()` steps. -/
theorem traverse_back_reverse (ins : List (T × Nat)) :
    ∃ h s vs, build (inserts ins) = .ok (h, s) ∧ traverse h s = .ok vs ∧
      traverse_back h s = .ok vs.reverse ∧ vs.reverse.Pairwise (fun x y => x > y) ∧
      vs.reverse.length = size h s := by
  obtain ⟨h, s, t, e, sol, _⟩ := build_inserts ins
  have hs : size h s = t.size := sol.size
  refine ⟨h, s, t.values, e, traverse_spec sol.toInv, traverse_back_spec sol.toInv, ?_, ?_⟩
  · rw [List.pairwise_reverse]
    exact Treap.BST_sorted t sol.bst
  · rw [List.length_reverse, Treap.length_values, hs]

end set

set_option maxRecDepth 100000

namespace Treap

variable {T : Type}

/-- The nodes with their values are the addresses paired with the values. -/
theorem pairs_zip (t : Treap T) : t.pairs = t.addrs.zip t.values := by
  induction t with
  | nil => rfl
  | node l a v k r ihl ihr =>
    simp only [pairs, addrs_node, values_node]
    rw [List.zip_append (by rw [length_addrs, length_values]), List.zip_cons_cons, ihl, ihr]

end Treap

namespace set

open Heap set_iterator

/-- The state of the sample client satisfies the invariant, with these nodes. -/
theorem sample_shape :
    ∃ t, Solo sample.1 sample.2 t ∧ t.pairs = [(4, 1), (2, 3), (5, 4), (1, 5), (3, 8)] := by
  obtain ⟨h, s, t, e, sol⟩ := build_solo sample_calls (by rfl)
  have e2 : build sample_calls = .ok sample := rfl
  have hs : (h, s) = sample := Except.ok.inj (e.symm.trans e2)
  have h1 : h = sample.1 := congrArg Prod.fst hs
  have h2 : s = sample.2 := congrArg Prod.snd hs
  subst h1 h2
  refine ⟨t, sol, ?_⟩
  have hv : [1, 3, 4, 5, 8] = t.values := sol.toInv.values_eq rfl
  have ha : reachable sample.1.fuel sample.1 (sample.1.left sample.2) = t.addrs := sol.reachable
  have hr : reachable sample.1.fuel sample.1 (sample.1.left sample.2) = [4, 2, 5, 1, 3] := rfl
  rw [Treap.pairs_zip, ← hv, ← ha, hr]
  rfl

/-- C2 at the sample: 3 is present, and inserting it again changes nothing. -/
theorem insert_present_unchanged_witness :
    ∃ t, Inv sample.1 sample.2 t ∧ traverse sample.1 sample.2 = .ok [1, 3, 4, 5, 8] ∧
      3 ∈ [1, 3, 4, 5, 8] ∧
      ∃ h1 r a, insert sample.1 sample.2 3 7 = .ok (h1, r, false) ∧ Same sample.1 h1 ∧
        h1.its r = some ⟨some a, true, some sample.2⟩ ∧ sample.1.value (some a) = .ok 3 ∧
        deref h1 r = .ok 3 ∧ size h1 sample.2 = size sample.1 sample.2 ∧
        traverse h1 sample.2 = .ok [1, 3, 4, 5, 8] := by
  obtain ⟨t, sol, _⟩ := sample_shape
  exact ⟨t, sol.toInv, rfl, by decide, insert_present_unchanged sol.toInv rfl (by decide) 7⟩

/-- C3 at a client that inserts and erases by handle and by value. -/
theorem size_counts_elements_witness :
    admissible mixed_calls = true ∧
      ∃ h s vs, build mixed_calls = .ok (h, s) ∧ traverse h s = .ok vs ∧
        vs.Pairwise (fun x y => x < y) ∧ size h s = vs.length ∧
        (reachable h.fuel h (h.left s)).length = size h s ∧
        begin_is_end h s = .ok (empty h s) :=
  ⟨rfl, size_counts_elements mixed_calls (by rfl)⟩

/-- C4 at the sample: looking up 4, which is present. -/
theorem find_returns_witness :
    ∃ t, Inv sample.1 sample.2 t ∧ traverse sample.1 sample.2 = .ok [1, 3, 4, 5, 8] ∧
      ∃ h1 r, find sample.1 sample.2 4 = .ok (h1, r) ∧ Same sample.1 h1 ∧
        (4 ∈ [1, 3, 4, 5, 8] → deref h1 r = .ok 4 ∧ is_end h1 sample.2 r = .ok false) ∧
        (4 ∉ [1, 3, 4, 5, 8] → is_end h1 sample.2 r = .ok true) := by
  obtain ⟨t, sol, _⟩ := sample_shape
  exact ⟨t, sol.toInv, rfl, find_returns sol.toInv rfl 4⟩

/-- C5 at the sample client, which ends with a non-empty set: `lower_bound(2)`. -/
theorem lower_bound_least_ge_witness :
    admissible sample_calls = true ∧ build sample_calls = .ok sample ∧
      empty sample.1 sample.2 = false ∧
      ∃ h s vs, build sample_calls = .ok (h, s) ∧ traverse h s = .ok vs ∧
        (empty h s = false →
          ∃ h1 r, lower_bound h s 2 = .ok (h1, r) ∧ Same h h1 ∧
            ((∀ x ∈ vs, x < 2) → is_end h1 s r = .ok true) ∧
            (∀ m ∈ vs, 2 ≤ m → (∀ x ∈ vs, 2 ≤ x → m ≤ x) →
              deref h1 r = .ok m ∧ is_end h1 s r = .ok false)) :=
  ⟨rfl, rfl, rfl, lower_bound_least_ge sample_calls (by rfl) 2⟩

/-- C6 at the sample client, which ends with a non-empty set: `upper_bound(5)`. -/
theorem upper_bound_least_gt_witness :
    admissible sample_calls = true ∧ build sample_calls = .ok sample ∧
      empty sample.1 sample.2 = false ∧
      ∃ h s vs, build sample_calls = .ok (h, s) ∧ traverse h s = .ok vs ∧
        (empty h s = false →
          ∃ h1 r, upper_bound h s 5 = .ok (h1, r) ∧ Same h h1 ∧
            ((∀ x ∈ vs, x ≤ 5) → is_end h1 s r = .ok true) ∧
            (∀ m ∈ vs, 5 < m → (∀ x ∈ vs, 5 < x → m ≤ x) →
              deref h1 r = .ok m ∧ is_end h1 s r = .ok false)) :=
  ⟨rfl, rfl, rfl, upper_bound_least_gt sample_calls (by rfl) 5⟩

/-- C7 at the sample: erasing through the handle the insertion of 3 returned. -/
theorem erase_removes_witness :
    ∃ t, Inv sample.1 sample.2 t ∧
      sample.1.its 5 = some ⟨some 2, true, some sample.2⟩ ∧ (2, 3) ∈ t.pairs ∧
      ∃ vs h1 r, traverse sample.1 sample.2 = .ok vs ∧ 3 ∈ vs ∧ deref sample.1 5 = .ok 3 ∧
        erase sample.1 sample.2 5 = .ok (h1, r) ∧
        traverse h1 sample.2 = .ok (vs.filter (fun x => x != 3)) ∧
        size h1 sample.2 + 1 = size sample.1 sample.2 := by
  obtain ⟨t, sol, hp⟩ := sample_shape
  have ha : (2, 3) ∈ t.pairs := by rw [hp]; decide
  exact ⟨t, sol.toInv, rfl, ha, erase_removes sol.toInv rfl ha⟩

/-- C8 at the sample: erasing through the handle the insertion of 8, the greatest
value, returned. -/
theorem erase_returns_successor_witness :
    ∃ t, Inv sample.1 sample.2 t ∧
      sample.1.its 8 = some ⟨some 3, true, some sample.2⟩ ∧ (3, 8) ∈ t.pairs ∧
      ∃ vs h1 r b, traverse sample.1 sample.2 = .ok vs ∧
        erase sample.1 sample.2 8 = .ok (h1, r) ∧
        h1.its r = some ⟨some b, true, some sample.2⟩ ∧
        ((∀ x ∈ vs, x ≤ 8) → is_end h1 sample.2 r = .ok true) ∧
        (∀ m ∈ vs, 8 < m → (∀ x ∈ vs, 8 < x → m ≤ x) →
          deref h1 r = .ok m ∧ is_end h1 sample.2 r = .ok false) := by
  obtain ⟨t, sol, hp⟩ := sample_shape
  have ha : (3, 8) ∈ t.pairs := by rw [hp]; decide
  exact ⟨t, sol.toInv, rfl, ha, erase_returns_successor sol.toInv rfl ha⟩

/-- C9 at the sample: erasing the value 4, which is present. -/
theorem erase_value_result_witness :
    ∃ t, Inv sample.1 sample.2 t ∧ traverse sample.1 sample.2 = .ok [1, 3, 4, 5, 8] ∧
      ∃ h1 n, erase_value sample.1 sample.2 4 = .ok (h1, n) ∧ (n = 0 ∨ n = 1) ∧
        (4 ∈ [1, 3, 4, 5, 8] → n = 1 ∧
          traverse h1 sample.2 = .ok ([1, 3, 4, 5, 8].filter (fun x => x != 4)) ∧
          size h1 sample.2 + 1 = size sample.1 sample.2) ∧
        (4 ∉ [1, 3, 4, 5, 8] → n = 0 ∧ Same sample.1 h1 ∧
          traverse h1 sample.2 = .ok [1, 3, 4, 5, 8]) := by
  obtain ⟨t, sol, _⟩ := sample_shape
  exact ⟨t, sol.toInv, rfl, erase_value_result sol.toInv rfl 4⟩

end set

namespace set

open Heap set_iterator

variable {T : Type} [LinearOrder T]

theorem Res.ite_bind {α β : Type} (c : Prop) [Decidable c] (a b : Res α) (f : α → Res β) :
    ((if c then a else b) >>= f) = if c then a >>= f else b >>= f := by
  split <;> rfl

/-- When no step fails, `insert_fault` is `insert`. -/
theorem insert_fault_never (h : Heap T) (s : Addr) (value : T) (k : Nat) :
    insert_fault h s value k .never =
      (insert h s value k >>= fun x => (.ok (x.1, some x.2) : Res (Heap T × Option (Nat × Bool)))) := by
  simp only [insert_fault, insert, try_new_node, assign_new, reduceCtorEq, ↓reduceIte,
    Res.ite_bind, bind_assoc, Res.ok_bind]

end set

set_option maxRecDepth 100000

namespace set

open Heap set_iterator

/-- C12 at a failing input: `A` was emptied by erasing its only element, or by
`clear()`, and `B` holds 2.  Both sets are well-formed for their clients (size 0 and
traversal `[]`, size 1 and traversal `[2]`), but `A = B` has undefined behaviour: the
`swap` inside `operator=` writes `parent` through `A`'s `_root.left`, which is null
after the erase and dangling after `clear()`. -/
theorem copy_assign_emptied_undefined :
    (∃ h, pair_erased = .ok h ∧ size h 0 = 0 ∧ traverse h 0 = .ok [] ∧ size h 1 = 1 ∧
      traverse h 1 = .ok [2] ∧ h.left 0 = none ∧
      copy_assign h 0 1 (fun _ => 3) = .error .undefined) ∧
    (∃ h, pair_cleared = .ok h ∧ size h 0 = 0 ∧ traverse h 0 = .ok [] ∧ size h 1 = 1 ∧
      traverse h 1 = .ok [2] ∧ h.left 0 = some 2 ∧ h.live 2 = false ∧
      copy_assign h 0 1 (fun _ => 3) = .error .undefined) :=
  ⟨⟨_, rfl, rfl, rfl, rfl, rfl, rfl, rfl⟩, ⟨_, rfl, rfl, rfl, rfl, rfl, rfl, rfl, rfl⟩⟩

/-- C13 at a failing input: `A` was emptied by erasing its only element, or by
`clear()`, and `B` holds 2.  `swap(A, B)` and `swap(B, A)` have undefined behaviour:
`swap` writes `parent` through both `_root.left` links, and that of `A` is null
after the erase and dangling after `clear()`. -/
theorem swap_emptied_undefined :
    (∃ h, pair_erased = .ok h ∧ size h 0 = 0 ∧ traverse h 0 = .ok [] ∧ size h 1 = 1 ∧
      traverse h 1 = .ok [2] ∧ h.left 0 = none ∧
      swap h 0 1 = .error .undefined ∧ swap h 1 0 = .error .undefined) ∧
    (∃ h, pair_cleared = .ok h ∧ size h 0 = 0 ∧ traverse h 0 = .ok [] ∧ size h 1 = 1 ∧
      traverse h 1 = .ok [2] ∧ h.left 0 = some 2 ∧ h.live 2 = false ∧
      swap h 0 1 = .error .undefined ∧ swap h 1 0 = .error .undefined) :=
  ⟨⟨_, rfl, rfl, rfl, rfl, rfl, rfl, rfl, rfl⟩, ⟨_, rfl, rfl, rfl, rfl, rfl, rfl, rfl, rfl, rfl⟩⟩

/-- C14 at a failing input: the set at address 1 holds 2, the iterator object 7 is
a valid handle of it that references 2, and the set at address 0 was emptied by
erasing its only element.  Swapping the two has undefined behaviour, so there is no
state after the swap in which the handle could be used. -/
theorem swap_handle_emptied_undefined :
    ∃ h, pair_erased = .ok h ∧ h.its 7 = some ⟨some 3, true, some 1⟩ ∧ deref h 7 = .ok 2 ∧
      traverse h 1 = .ok [2] ∧ traverse h 0 = .ok [] ∧ swap h 1 0 = .error .undefined :=
  ⟨_, rfl, rfl, rfl, rfl, rfl, rfl⟩

/-- C16 at a failing input: `insert(5)` on a freshly constructed set, with the
registration of the handle of the returned pair failing.  The exception leaves the
call (no pair is returned), but the node is already linked in and counted: the
size went from 0 to 1 and the traversal from `[]` to `[5]`.  When an earlier step
fails (the construction of the node, the registration of the temporary handle or of
`it`), the set is as before. -/
theorem insert_fault_result_changes_set :
    size one_fresh 0 = 0 ∧ traverse one_fresh 0 = .ok [] ∧ one_fresh.left 0 = some 0 ∧
      (∃ h, insert_fault one_fresh 0 5 1 .reg_result = .ok (h, none) ∧
        size h 0 = 1 ∧ traverse h 0 = .ok [5] ∧ h.left 0 = some 1) ∧
      (∃ h, insert_fault one_fresh 0 5 1 .node = .ok (h, none) ∧
        size h 0 = 0 ∧ traverse h 0 = .ok [] ∧ h.left 0 = some 0) ∧
      (∃ h, insert_fault one_fresh 0 5 1 .reg_temp = .ok (h, none) ∧
        size h 0 = 0 ∧ traverse h 0 = .ok [] ∧ h.left 0 = some 0) ∧
      (∃ h, insert_fault one_fresh 0 5 1 .reg_it = .ok (h, none) ∧
        size h 0 = 0 ∧ traverse h 0 = .ok [] ∧ h.left 0 = some 0) :=
  ⟨rfl, rfl, rfl, ⟨_, rfl, rfl, rfl, rfl⟩, ⟨_, rfl, rfl, rfl, rfl⟩, ⟨_, rfl, rfl, rfl, rfl⟩,
    ⟨_, rfl, rfl, rfl, rfl⟩⟩

/-- C19 at failing inputs.  After `swap(A, B)` of two freshly constructed sets,
dereferencing `A.end()` passes both assertions and reads the value of a sentinel,
which has none (undefined behaviour, not an assertion failure).  After `swap(A, B)`
with 1 and 3 in `A` and 2 in `B`, incrementing `A.end()` returns normally and leaves
the handle on the element 1, which now belongs to `B`.  After `A = B`, dereferencing
and incrementing `A.end()` read the destroyed temporary. -/
theorem end_after_swap_not_fatal :
    (∃ h1 h2 e, swap pair_fresh 0 1 = .ok h1 ∧ end_ h1 0 = .ok (h2, e) ∧
      deref h2 e = .error .undefined) ∧
    (∃ h h1 h2 e h3, pair_full = .ok h ∧ swap h 0 1 = .ok h1 ∧ end_ h1 0 = .ok (h2, e) ∧
      deref h2 e = .error .undefined ∧ incr h2 e = .ok h3 ∧
      h3.its e = some ⟨some 2, true, some 0⟩ ∧ deref h3 e = .ok 1) ∧
    (∃ h h1 h2 e, pair_full = .ok h ∧ copy_assign h 0 1 (fun _ => 3) = .ok h1 ∧
      end_ h1 0 = .ok (h2, e) ∧ deref h2 e = .error .undefined ∧
      incr h2 e = .error .undefined) :=
  ⟨⟨_, _, _, rfl, rfl, rfl⟩, ⟨_, _, _, _, _, rfl, rfl, rfl, rfl, rfl, rfl, rfl⟩,
    ⟨_, _, _, _, rfl, rfl, rfl, rfl, rfl⟩⟩

/-- C20 at failing inputs, with 1 and 3 in `A` and 2 in `B`.  Before any swap,
decrementing `A.begin()` fails the assertion.  After `swap(A, B)`, decrementing
`A.begin()` (which references 2) returns normally and leaves the handle on the
sentinel of `B`.  After `A = B`, decrementing `A.begin()` reads the destroyed
temporary (undefined behaviour, not an assertion failure). -/
theorem decr_begin_after_swap_not_fatal :
    (∃ h h2 b, pair_full = .ok h ∧ begin h 0 = .ok (h2, b) ∧ decr h2 b = .error .assertion) ∧
    (∃ h h1 h2 b h3, pair_full = .ok h ∧ swap h 0 1 = .ok h1 ∧ begin h1 0 = .ok (h2, b) ∧
      deref h2 b = .ok 2 ∧ decr h2 b = .ok h3 ∧ h3.its b = some ⟨some 1, true, some 0⟩) ∧
    (∃ h h1 h2 b, pair_full = .ok h ∧ copy_assign h 0 1 (fun _ => 3) = .ok h1 ∧
      begin h1 0 = .ok (h2, b) ∧ deref h2 b = .ok 2 ∧ decr h2 b = .error .undefined) :=
  ⟨⟨_, _, _, rfl, rfl, rfl⟩, ⟨_, _, _, _, _, rfl, rfl, rfl, rfl, rfl, rfl⟩,
    ⟨_, _, _, _, rfl, rfl, rfl, rfl, rfl⟩⟩

end set

set_option maxRecDepth 100000

namespace set_iterator

open Heap

variable {T : Type}

/-- Dereference, increment and decrement of a handle whose flag is clear fail the
first assertion. -/
theorem fatal_of_invalid {h : Heap T} {i : Nat} {it : set_iterator} (hi : h.its i = some it)
    (hv : it.is_valid = false) :
    deref h i = .error .assertion ∧ incr h i = .error .assertion ∧
      decr h i = .error .assertion := by
  refine ⟨?_, ?_, ?_⟩
  · simp only [deref, getIt_ok hi, Res.ok_bind, hv, check, Bool.false_eq_true, ↓reduceIte]
    rfl
  · simp only [incr, getIt_ok hi, Res.ok_bind, hv, check, Bool.false_eq_true, ↓reduceIte]
    rfl
  · simp only [decr, getIt_ok hi, Res.ok_bind, hv, check, Bool.false_eq_true, ↓reduceIte]
    rfl

/-- The post-increment and the post-decrement of a handle whose flag is clear make
the copy and then fail the first assertion. -/
theorem post_fatal_of_invalid {h : Heap T} (w : h.WF) {i : Nat} {it : set_iterator}
    (hi : h.its i = some it) (hv : it.is_valid = false) :
    post_incr h i = .error .assertion ∧ post_decr h i = .error .assertion := by
  have hlt := w.lt_nextIt hi
  have hi1 : (h.place h.nextIt it).its i = some it := by
    rw [place_its, if_neg (Nat.ne_of_lt hlt)]
    exact hi
  obtain ⟨_, e2, e3⟩ := fatal_of_invalid hi1 hv
  constructor
  · simp only [post_incr, copy_eq w hi, Res.ok_bind, e2]
    rfl
  · simp only [post_decr, copy_eq w hi, Res.ok_bind, e3]
    rfl

end set_iterator

namespace set_iterator

open Heap

variable {T : Type}

/-- C18: the default constructor makes a handle with the flag clear.  For every
handle `i` whose flag is clear (a singular handle), dereference, pre- and
post-increment and pre- and post-decrement fail an assertion; the copy constructor
makes from it a handle with the same members, so with the flag clear, on which the
same operations fail; and assigning it to any handle `j`, also one that references a
live position, leaves `j` with the same members, on which the same operations
fail. -/
theorem singular_handle_fatal {h : Heap T} (w : h.WF) {i : Nat} {it : set_iterator}
    (hi : h.its i = some it) (hv : it.is_valid = false) :
    ((singular h).1.WF ∧ (singular h).1.its (singular h).2 = some ⟨none, false, none⟩) ∧
      deref h i = .error .assertion ∧ incr h i = .error .assertion ∧
      decr h i = .error .assertion ∧ post_incr h i = .error .assertion ∧
      post_decr h i = .error .assertion ∧
      (∃ h1 r, copy h i = .ok (h1, r) ∧ h1.its r = some it ∧ r ≠ i ∧
        deref h1 r = .error .assertion ∧ incr h1 r = .error .assertion ∧
        decr h1 r = .error .assertion ∧ post_incr h1 r = .error .assertion ∧
        post_decr h1 r = .error .assertion) ∧
      (∀ j jt, h.its j = some jt →
        ∃ h1, assign h j i = .ok h1 ∧ h1.its j = some it ∧
          deref h1 j = .error .assertion ∧ incr h1 j = .error .assertion ∧
          decr h1 j = .error .assertion ∧ post_incr h1 j = .error .assertion ∧
          post_decr h1 j = .error .assertion) := by
  obtain ⟨e1, e2, e3⟩ := fatal_of_invalid hi hv
  obtain ⟨e4, e5⟩ := post_fatal_of_invalid w hi hv
  have hval : it.is_valid = true → ∃ a, it.node = some a ∧ h.live a = true := by
    intro hc
    rw [hv] at hc
    exact absurd hc (by simp)
  refine ⟨⟨?_, ?_⟩, e1, e2, e3, e4, e5, ?_, ?_⟩
  · rw [singular_eq w]
    exact w.place _ _ (fun hc => absurd hc (by simp))
  · rw [singular_eq w]
    simp
  · have w1 : (h.place h.nextIt it).WF := w.place _ _ hval
    have hr : (h.place h.nextIt it).its h.nextIt = some it := by simp
    obtain ⟨f1, f2, f3⟩ := fatal_of_invalid hr hv
    obtain ⟨f4, f5⟩ := post_fatal_of_invalid w1 hr hv
    exact ⟨_, _, copy_eq w hi, hr, Nat.ne_of_gt (w.lt_nextIt hi), f1, f2, f3, f4, f5⟩
  · intro j jt hj
    by_cases hji : j = i
    · subst hji
      refine ⟨h, ?_, hi, e1, e2, e3, e4, e5⟩
      simp [assign]
    · have w1 : (h.place j it).WF := w.place _ _ hval
      have hr : (h.place j it).its j = some it := by simp
      obtain ⟨f1, f2, f3⟩ := fatal_of_invalid hr hv
      obtain ⟨f4, f5⟩ := post_fatal_of_invalid w1 hr hv
      exact ⟨_, assign_eq w hj hi hji, hr, f1, f2, f3, f4, f5⟩

end set_iterator

set_option maxRecDepth 100000

namespace Heap

variable {T : Type}

theorem empty_wf : (Heap.empty : Heap T).WF := by
  refine ⟨?_, ?_, ?_, ?_, ?_, ?_⟩
  · intro a i hi
    simp [Heap.empty] at hi
  · intro i it hi
    simp [Heap.empty] at hi
  · intro i _
    rfl
  · intro a
    simp [Heap.empty]
  · intro a _
    rfl
  · intro a _
    rfl

end Heap

namespace set

open Heap set_iterator

variable {T : Type} [LinearOrder T]

/-- C17: `erase` through a valid handle `p` that references the element `v` (node
`a`) returns, and for every valid handle `g` of the set before the call: if `g`
referenced the erased element it is invalid afterwards (its flag is clear, and
dereference, increment and decrement fail an assertion); if it referenced another
element or `end()` it is valid afterwards, references the same node, dereferences
to the same value as before, and an `end()` handle still compares equal to
`end()`. -/
theorem erase_invalidates_exactly {h : Heap T} {s : Addr} {t : Treap T} (inv : Inv h s t)
    {p : Nat} {a : Addr} {v : T} (hp : h.its p = some ⟨some a, true, some s⟩)
    (ha : (a, v) ∈ t.pairs) :
    ∃ h1 r, erase h s p = .ok (h1, r) ∧
      ∀ g b, h.its g = some ⟨some b, true, some s⟩ →
        (b = a → h1.its g = some ⟨some a, false, some s⟩ ∧
          deref h1 g = .error .assertion ∧ incr h1 g = .error .assertion ∧
          decr h1 g = .error .assertion) ∧
        (b ≠ a → h1.its g = some ⟨some b, true, some s⟩ ∧
          (∀ w, (b, w) ∈ t.pairs → deref h g = .ok w ∧ deref h1 g = .ok w) ∧
          (b = s → is_end h1 s g = .ok true)) := by
  have haddr := Treap.mem_addrs_of_pairs ha
  obtain ⟨h1, e1, er⟩ := erase_spec inv hp haddr
  refine ⟨h1, _, e1, ?_⟩
  intro g b hg
  constructor
  · rintro rfl
    have hs := er.stale g _ hg
    obtain ⟨f1, f2, f3⟩ := fatal_of_invalid hs rfl
    exact ⟨hs, f1, f2, f3⟩
  · intro hba
    have ho := er.others g _ hg (fun hc => hba (Option.some.inj hc.1))
    refine ⟨ho, ?_, ?_⟩
    · intro w hw
      refine ⟨deref_elem inv.toShape hw hg, deref_elem er.inv.toShape ?_ ho⟩
      rw [Treap.remove_pairs t a inv.nodup, List.mem_filter]
      exact ⟨hw, by simpa using hba⟩
    · rintro rfl
      rw [is_end_spec er.inv.toShape ho]
      simp

end set

namespace Heap

variable {T : Type}

theorem Cleared.none {h : Heap T} (w : h.WF) : Cleared h h [] :=
  ⟨w, rfl, rfl, rfl, rfl, rfl, rfl, fun _ => by simp, fun _ _ _ _ hb => by simp at hb,
    fun _ _ hi _ => hi⟩

theorem Cleared.one {h : Heap T} (w : h.WF) (a : Addr) : Cleared h (h.deleted a) [a] := by
  refine ⟨w.deleted a, rfl, rfl, rfl, rfl, rfl, rfl, ?_, ?_, ?_⟩
  · intro x
    simp only [deleted_obj, List.mem_singleton]
  · intro i b o hi hb
    simp only [List.mem_singleton] at hb
    subst hb
    obtain ⟨c, hc, hm⟩ := w.it_reg i _ hi rfl
    simp only [Option.some.injEq] at hc
    subst hc
    rw [deleted_its, if_pos hm, hi]
    rfl
  · intro i it hi hn
    rw [deleted_its, if_neg, hi]
    intro hm
    obtain ⟨o, ho⟩ := w.reg_it a i hm
    rw [hi] at ho
    simp only [Option.some.injEq] at ho
    subst ho
    exact hn a rfl rfl (by simp)

theorem Cleared.append {h h1 h2 : Heap T} {L1 L2 : List Addr} (f : Cleared h h1 L1)
    (g : Cleared h1 h2 L2) : Cleared h h2 (L1 ++ L2) := by
  refine ⟨g.wf, g.left.trans f.left, g.right.trans f.right, g.parent.trans f.parent,
    g.size.trans f.size, g.next.trans f.next, g.nextIt.trans f.nextIt, ?_, ?_, ?_⟩
  · intro x
    rw [g.obj, f.obj]
    by_cases h1 : x ∈ L1 <;> by_cases h2 : x ∈ L2 <;> simp [h1, h2]
  · intro i b o hi hb
    by_cases h1 : b ∈ L1
    · exact g.keep i _ (f.stale i b o hi h1) (fun _ _ hv => by simp at hv)
    · have h2 : b ∈ L2 := by
        rcases List.mem_append.1 hb with hb | hb
        · exact absurd hb h1
        · exact hb
      refine g.stale i b o (f.keep i _ hi ?_) h2
      intro c hc _
      simp only [Option.some.injEq] at hc
      subst hc
      exact h1
  · intro i it hi hn
    refine g.keep i it (f.keep i it hi ?_) ?_
    · intro b hb hv hc
      exact hn b hb hv (List.mem_append.2 (Or.inl hc))
    · intro b hb hv hc
      exact hn b hb hv (List.mem_append.2 (Or.inr hc))

theorem Cleared.congr_mem {h h' : Heap T} {L L' : List Addr} (f : Cleared h h' L)
    (hm : ∀ x, x ∈ L ↔ x ∈ L') : Cleared h h' L' := by
  refine ⟨f.wf, f.left, f.right, f.parent, f.size, f.next, f.nextIt, ?_, ?_, ?_⟩
  · intro x
    rw [f.obj]
    by_cases hx : x ∈ L
    · rw [if_pos hx, if_pos ((hm x).1 hx)]
    · rw [if_neg hx, if_neg (fun hc => hx ((hm x).2 hc))]
  · intro i b o hi hb
    exact f.stale i b o hi ((hm b).2 hb)
  · intro i it hi hn
    exact f.keep i it hi (fun b hb hv hc => hn b hb hv ((hm b).1 hc))

theorem Cleared.live_cleared {h h' : Heap T} {L : List Addr} (f : Cleared h h' L) (x : Addr) :
    h'.live x = if x ∈ L then false else h.live x := by
  simp only [Heap.live, f.obj]
  by_cases hx : x ∈ L
  · simp [hx]
  · simp [hx]

end Heap

namespace set

open Heap set_iterator

variable {T : Type} [LinearOrder T]

/-- `deleting` of a subtree deletes exactly its nodes. -/
theorem deleting_spec (t : Treap T) :
    ∀ (n : Nat) (h : Heap T), h.WF → h.Rep t → t.addrs.Nodup → t.size < n →
      ∃ h', deleting n h t.root = .ok h' ∧ Cleared h h' t.addrs := by
  induction t with
  | nil =>
    intro n h w _ _ hn
    obtain ⟨n, rfl⟩ : ∃ m, n = m + 1 := ⟨n - 1, by simp at hn; omega⟩
    exact ⟨h, rfl, Cleared.none w⟩
  | node l a v k r ihl ihr =>
    intro n h w hrep hnd hn
    obtain ⟨ho, hle, hri, hrl, hrr⟩ := hrep
    obtain ⟨ndl, ndr, hal, har, hlr⟩ := Treap.nodup_node hnd
    obtain ⟨n, rfl⟩ : ∃ m, n = m + 1 := ⟨n - 1, by omega⟩
    simp only [Treap.size_node] at hn
    obtain ⟨h1, e1, c1⟩ := ihl n h w hrl ndl (by omega)
    have hrep1 : h1.Rep r := by
      refine Rep.congr_rep r (fun x hx => ?_) (fun _ _ => by rw [c1.left])
        (fun _ _ => by rw [c1.right]) hrr
      rw [c1.obj, if_neg (fun hc => hlr x hc hx)]
    obtain ⟨h2, e2, c2⟩ := ihr n h1 c1.wf hrep1 ndr (by omega)
    have c12 := c1.append c2
    have hl1 : h1.live a = true := by
      rw [c1.live_cleared, if_neg hal]
      exact live_node ho
    have hl2 : h2.live a = true := by
      rw [c12.live_cleared, if_neg (by simp [hal, har])]
      exact live_node ho
    refine ⟨h2.deleted a, ?_, ?_⟩
    · simp only [Treap.root_node, deleting, rdLeft_ok (live_node ho), Res.ok_bind, hle, e1,
        rdRight_ok hl1, c1.right, hri, e2, delete_ok c2.wf hl2]
    · refine (c12.append (Cleared.one c2.wf a)).congr_mem ?_
      intro x
      simp only [Treap.addrs_node, List.mem_append, List.mem_cons, List.mem_singleton,
        List.not_mem_nil, or_false]
      tauto

/-- `clear()` deletes exactly the nodes of the set and resets the count. -/
theorem clear_spec {h : Heap T} {s : Addr} {t : Treap T} (inv : Inv h s t) :
    ∃ h0, clear h s = .ok (size_zero h0 s) ∧ Cleared h h0 t.addrs ∧
      Inv (size_zero h0 s) s .nil := by
  have key : ∀ h0, Cleared h h0 t.addrs → Inv (size_zero h0 s) s .nil := by
    intro h0 c
    have w0 : (size_zero h0 s).WF := c.wf.of_eq rfl rfl rfl rfl rfl
    refine ⟨⟨w0, ?_, trivial, fun hc => absurd rfl hc, ⟨fun b hb => by simp at hb, trivial⟩,
      List.nodup_nil, ?_⟩, ?_, trivial⟩
    · show h0.obj s = .base
      rw [c.obj, if_neg inv.not_mem]
      exact inv.base
    · intro r hr
      have hr' : h.right s = some r := by rw [← c.right]; exact hr
      refine ⟨by simp, ?_⟩
      show r < h0.next
      rw [c.next]
      exact (inv.right r hr').2
    · simp [size_zero]
  cases t with
  | nil =>
    have he : empty h s = true := inv.empty_iff.2 rfl
    have hs : h.size s = 0 := inv.size
    have heq : size_zero h s = h := by
      apply Heap.ext <;> try rfl
      simp only [size_zero]
      rw [← hs]
      exact Function.update_eq_self s h.size
    refine ⟨h, ?_, Cleared.none inv.wf, key h (Cleared.none inv.wf)⟩
    simp only [clear, he, ↓reduceIte, heq]
  | node l a v k r =>
    have he : empty h s = false := by
      cases hc : empty h s with
      | false => rfl
      | true => exact absurd (inv.empty_iff.1 hc) (by simp)
    have hfuel := inv.fuel
    obtain ⟨h0, e0, c0⟩ := deleting_spec (.node l a v k r) h.fuel h inv.wf inv.rep inv.nodup
      (by omega)
    refine ⟨h0, ?_, c0, key h0 c0⟩
    simp only [clear, he, Bool.false_eq_true, ↓reduceIte, rdLeft_ok inv.live_s, Res.ok_bind,
      inv.root (by simp), e0]

end set

set_option maxRecDepth 100000

namespace set

open Heap set_iterator

variable {T : Type} [LinearOrder T]

/-- C15: `clear()` returns, and afterwards `size()` is 0, `empty()` is true,
`begin() == end()` and the traversal is empty; every valid handle that referenced an
element of the set is invalid (its flag is clear, and dereference, increment and
decrement fail an assertion); every valid handle of the set that referenced `end()`
is unchanged and still compares equal to `end()`. -/
theorem clear_empties {h : Heap T} {s : Addr} {t : Treap T} (inv : Inv h s t) :
    ∃ h1, clear h s = .ok h1 ∧ size h1 s = 0 ∧ empty h1 s = true ∧
      begin_is_end h1 s = .ok true ∧ traverse h1 s = .ok [] ∧
      (∀ g b o, h.its g = some ⟨some b, true, o⟩ → b ∈ t.addrs →
        h1.its g = some ⟨some b, false, o⟩ ∧ deref h1 g = .error .assertion ∧
          incr h1 g = .error .assertion ∧ decr h1 g = .error .assertion) ∧
      (∀ g, h.its g = some ⟨some s, true, some s⟩ →
        h1.its g = some ⟨some s, true, some s⟩ ∧ is_end h1 s g = .ok true) := by
  obtain ⟨h0, e0, c0, inv0⟩ := clear_spec inv
  have hsz : size (size_zero h0 s) s = 0 := by simp [size, size_zero]
  refine ⟨_, e0, hsz, by simp [empty, hsz], ?_, ?_, ?_, ?_⟩
  · rw [begin_is_end_spec inv0]
    simp [Treap.first]
  · rw [traverse_spec inv0]
    rfl
  · intro g b o hg hb
    have hs : (size_zero h0 s).its g = some ⟨some b, false, o⟩ := c0.stale g b o hg hb
    obtain ⟨f1, f2, f3⟩ := fatal_of_invalid hs rfl
    exact ⟨hs, f1, f2, f3⟩
  · intro g hg
    have hk : (size_zero h0 s).its g = some ⟨some s, true, some s⟩ := by
      refine c0.keep g _ hg ?_
      intro b hb _
      simp only [Option.some.injEq] at hb
      subst hb
      exact inv.not_mem
    refine ⟨hk, ?_⟩
    rw [is_end_spec inv0.toShape hk]
    simp

end set

namespace set

open Heap set_iterator

variable {T : Type} [LinearOrder T]

/-- The invariant of a set is kept by a change that stays away from its
sentinel and its nodes. -/
theorem Inv.keep_outside {h h' : Heap T} {y : Addr} {ty : Treap T} {A : List Addr} (inv : Inv h y ty)
    (w : h'.WF) (f : Outside h h' A) (hy : y ∉ A) (hd : ∀ a ∈ ty.addrs, a ∉ A) :
    Inv h' y ty := by
  have hlt : ∀ a ∈ ty.addrs, a < h.next := fun a ha => inv.wf.lt_next (Rep.live _ inv.rep a ha)
  have hylt : y < h.next := inv.wf.lt_next inv.live_s
  refine ⟨⟨w, ?_, ?_, ?_, ⟨?_, ?_⟩, inv.nodup, ?_⟩, ?_, inv.bst⟩
  · rw [f.obj y hy hylt]
    exact inv.base
  · exact Rep.congr_rep ty (fun a ha => f.obj a (hd a ha) (hlt a ha))
      (fun a ha => f.left a (hd a ha) (hlt a ha)) (fun a ha => f.right a (hd a ha) (hlt a ha))
      inv.rep
  · intro hne
    rw [f.left y hy hylt]
    exact inv.root hne
  · intro b hb
    have hbm := Treap.root_mem _ _ hb
    rw [f.parent b (hd b hbm) (hlt b hbm)]
    exact inv.par.1 b hb
  · exact ParIn.congr_par ty (fun a ha => f.parent a (hd a ha) (hlt a ha)) inv.par.2
  · intro r hr
    rw [f.right y hy hylt] at hr
    obtain ⟨h1, h2⟩ := inv.right r hr
    exact ⟨h1, Nat.lt_of_lt_of_le h2 f.next⟩
  · rw [f.size y hy]
    exact inv.size

/-- What any `insert` leaves: the set holds the value and what it held, its nodes are
the old ones and at most the newly allocated one, and the older iterator objects
are untouched. -/
theorem insert_any {h : Heap T} {c : Addr} {tc : Treap T} (inv : Inv h c tc) (v : T) (k : Nat) :
    ∃ h' r b tc' it, insert h c v k = .ok (h', r, b) ∧ Inv h' c tc' ∧
      Outside h h' (c :: tc.addrs) ∧ (∀ x, x ∈ tc'.values ↔ x = v ∨ x ∈ tc.values) ∧
      (∀ a ∈ tc'.addrs, a = h.next ∨ a ∈ tc.addrs) ∧
      (∀ j, j < h.nextIt → h'.its j = h.its j) ∧ h'.its r = some it ∧ h.nextIt < r := by
  cases hf : tc.find v with
  | some a =>
    have hp := Treap.find_pairs tc v a hf
    have ha := Treap.mem_addrs_of_pairs hp
    have hv := Treap.mem_values_of_pairs hp
    have w0 : (h.place h.nextIt ⟨none, false, none⟩).WF :=
      inv.wf.place _ _ (fun hc => Bool.noConfusion hc)
    have hlive : (h.place h.nextIt ⟨none, false, none⟩).live a = true := by
      simpa using Rep.live _ inv.rep a ha
    have w1 := w0.place (h.nextIt + 1) ⟨some a, true, some c⟩ (fun _ => ⟨a, rfl, hlive⟩)
    have sm : Same h (((h.place h.nextIt ⟨none, false, none⟩).place (h.nextIt + 1)
        ⟨some a, true, some c⟩).remove h.nextIt) :=
      ((Same.place_same _ _ _).trans (Same.place_same _ _ _)).trans (Same.remove_same _ _)
    refine ⟨_, _, _, tc, ⟨some a, true, some c⟩, insert_present inv v k hf,
      inv.same sm (w1.remove _), sm.outside _, ?_, fun a ha => Or.inr ha, ?_, by simp,
      Nat.lt_succ_self _⟩
    · intro x
      constructor
      · exact fun hx => Or.inr hx
      · rintro (rfl | hx)
        · exact hv
        · exact hx
    · intro j hj
      have h1 : j ≠ h.nextIt := Nat.ne_of_lt hj
      have h2 : j ≠ h.nextIt + 1 := Nat.ne_of_lt (Nat.lt_succ_of_lt hj)
      simp [h1, h2]
  | none =>
    obtain ⟨h', e, ins⟩ := insert_absent inv v k hf
    refine ⟨h', _, _, _, _, e, ins.inv, ins.outside, ?_, ?_, ins.others, ins.here, by omega⟩
    · intro x
      rw [Treap.mem_insert_values]
    · intro a ha
      exact (Treap.mem_insert_addrs tc h.next v k a).1 ha

theorem Apart.same_apart {h h' : Heap T} {s c : Addr} {t tc : Treap T} (ap : Apart h s c t tc)
    (f : Same h h') (w : h'.WF) : Apart h' s c t tc :=
  ⟨ap.one.same f w, ap.two.same f w, ap.ne, ap.disj⟩

theorem Apart.symm_apart {h : Heap T} {s c : Addr} {t tc : Treap T} (ap : Apart h s c t tc) :
    Apart h c s tc t :=
  ⟨ap.two, ap.one, Ne.symm ap.ne, fun a ha hc => ap.disj a hc ha⟩

/-- The sentinel of a set is no node of another set. -/
theorem Inv.not_node {h : Heap T} {s : Addr} {t : Treap T} (inv : Inv h s t) (u : Treap T)
    (hr : h.Rep u) : s ∉ u.addrs := by
  induction u with
  | nil => simp
  | node l a v k r ihl ihr =>
    obtain ⟨h1, _, _, h4, h5⟩ := hr
    simp only [Treap.addrs_node, List.mem_append, List.mem_cons, not_or]
    refine ⟨ihl h4, ?_, ihr h5⟩
    rintro rfl
    rw [inv.base] at h1
    exact Obj.noConfusion h1

/-- A change of the set at `c` that stays on its sentinel and nodes keeps the
invariant of the set at `s`. -/
theorem Apart.keep_one {h h' : Heap T} {s c : Addr} {t tc : Treap T} (ap : Apart h s c t tc)
    (w : h'.WF) (f : Outside h h' (c :: tc.addrs)) : Inv h' s t := by
  refine ap.one.keep_outside w f ?_ ?_
  · rw [List.mem_cons, not_or]
    exact ⟨ap.ne, ap.one.not_node tc ap.two.rep⟩
  · intro a ha
    rw [List.mem_cons, not_or]
    refine ⟨?_, ap.disj a ha⟩
    rintro rfl
    exact ap.two.not_node t ap.one.rep ha

/-- The loop of the copy constructor: the handle `i` walks the rest `post` of the
original while the copy receives the values. -/
theorem copy_loop_spec (s c : Addr) (t : Treap T) (i : Nat) :
    ∀ (post pre : List (Addr × T)) (n : Nat) (h : Heap T) (tc : Treap T) (keys : Nat → Nat),
      Apart h s c t tc → t.pairs = pre ++ post →
      h.its i = some ⟨some ((post.map Prod.fst).headD s), true, some s⟩ →
      (∀ x, x ∈ tc.values ↔ x ∈ pre.map Prod.snd) → post.length < n →
      ∃ h' tc', copy_loop n h c s i keys = .ok h' ∧ Apart h' s c t tc' ∧
        (∀ x, x ∈ tc'.values ↔ x ∈ t.values) ∧ h'.its i = some ⟨some s, true, some s⟩ := by
  intro post
  induction post with
  | nil =>
    intro pre n h tc keys ap hp hi hv hn
    obtain ⟨n, rfl⟩ : ∃ m, n = m + 1 := ⟨n - 1, by simp at hn; omega⟩
    simp only [List.map_nil, List.headD_nil] at hi
    have hilt := ap.one.wf.lt_nextIt hi
    have hine : i ≠ h.nextIt := Nat.ne_of_lt hilt
    have w1 : (h.place h.nextIt ⟨some s, true, some s⟩).WF :=
      ap.one.wf.place _ _ (fun _ => ⟨s, rfl, ap.one.live_s⟩)
    have hi1 : (h.place h.nextIt ⟨some s, true, some s⟩).its i = some ⟨some s, true, some s⟩ := by
      simp [hine, hi]
    have he1 : (h.place h.nextIt ⟨some s, true, some s⟩).its h.nextIt =
        some ⟨some s, true, some s⟩ := by simp
    have sm : Same h ((h.place h.nextIt ⟨some s, true, some s⟩).remove h.nextIt) :=
      (Same.place_same _ _ _).trans (Same.remove_same _ _)
    refine ⟨(h.place h.nextIt ⟨some s, true, some s⟩).remove h.nextIt, tc, ?_,
      ap.same_apart sm (w1.remove _), ?_, by simp [hine, hi]⟩
    · simp only [copy_loop, end_spec ap.one.toShape, Res.ok_bind, ne_spec hi1 he1,
        destroy_eq w1 he1, bne_self_eq_false, Bool.false_eq_true, ↓reduceIte]
    · intro x
      rw [hv, ← Treap.pairs_snd, hp, List.append_nil]
  | cons p post ih =>
    intro pre n h tc keys ap hp hi hv hn
    obtain ⟨n, rfl⟩ : ∃ m, n = m + 1 := ⟨n - 1, by simp at hn; omega⟩
    simp only [List.map_cons, List.headD_cons] at hi
    have hpm : p ∈ t.pairs := by rw [hp]; simp
    have haddrs := Treap.addrs_of_pairs hp
    have ha : p.1 ∈ t.addrs := Treap.mem_addrs_of_pairs hpm
    have hps : p.1 ≠ s := by rintro hc; exact ap.one.not_mem (hc ▸ ha)
    have hilt := ap.one.wf.lt_nextIt hi
    have hine : i ≠ h.nextIt := Nat.ne_of_lt hilt
    -- `t != other.end()`
    have w1 : (h.place h.nextIt ⟨some s, true, some s⟩).WF :=
      ap.one.wf.place _ _ (fun _ => ⟨s, rfl, ap.one.live_s⟩)
    have hi1 : (h.place h.nextIt ⟨some s, true, some s⟩).its i =
        some ⟨some p.1, true, some s⟩ := by simp [hine, hi]
    have he1 : (h.place h.nextIt ⟨some s, true, some s⟩).its h.nextIt =
        some ⟨some s, true, some s⟩ := by simp
    obtain ⟨h2, hh2⟩ : ∃ h2, h2 = (h.place h.nextIt ⟨some s, true, some s⟩).remove h.nextIt :=
      ⟨_, rfl⟩
    have sm2 : Same h h2 := by
      rw [hh2]; exact (Same.place_same _ _ _).trans (Same.remove_same _ _)
    have w2 : h2.WF := by rw [hh2]; exact w1.remove _
    have ap2 := ap.same_apart sm2 w2
    have hi2 : h2.its i = some ⟨some p.1, true, some s⟩ := by rw [hh2]; simp [hine, hi]
    have hn2 : h.nextIt ≤ h2.nextIt := by rw [hh2]; simp
    have hne : (p.1 != s) = true := by simpa using hps
    -- `insert(*t)`
    have hd2 : deref h2 i = .ok p.2 := deref_elem ap2.one.toShape hpm hi2
    obtain ⟨h3, r, b, tc3, it3, e3, inv3, out3, hv3, ha3, ho3, hr3, hlt3⟩ :=
      insert_any ap2.two p.2 (keys 0)
    have inv3s : Inv h3 s t := ap2.keep_one inv3.wf out3
    have hir : i ≠ r := Nat.ne_of_lt (by omega)
    obtain ⟨h4, hh4⟩ : ∃ h4, h4 = h3.remove r := ⟨_, rfl⟩
    have sm4 : Same h3 h4 := by rw [hh4]; exact Same.remove_same _ _
    have w4 : h4.WF := by rw [hh4]; exact inv3.wf.remove _
    have hi4 : h4.its i = some ⟨some p.1, true, some s⟩ := by
      rw [hh4]; simp only [remove_its, if_neg hir]
      rw [ho3 i (by omega)]; exact hi2
    -- `t++`
    have hilt4 := w4.lt_nextIt hi4
    have hine4 : i ≠ h4.nextIt := Nat.ne_of_lt hilt4
    obtain ⟨h5, hh5⟩ : ∃ h5, h5 = h4.place h4.nextIt ⟨some p.1, true, some s⟩ := ⟨_, rfl⟩
    have sm5 : Same h4 h5 := by rw [hh5]; exact Same.place_same _ _ _
    have w5 : h5.WF := by
      rw [hh5]
      exact w4.place _ _ (fun _ => ⟨p.1, rfl, by
        rw [sm4.live_same]; exact Rep.live _ inv3s.rep _ ha⟩)
    have hi5 : h5.its i = some ⟨some p.1, true, some s⟩ := by rw [hh5]; simp [hine4, hi4]
    have ht5 : h5.its h4.nextIt = some ⟨some p.1, true, some s⟩ := by rw [hh5]; simp
    have sh5 : Shape h5 s t := inv3s.toShape.same_shape (sm4.trans sm5) w5
    obtain ⟨h6, e6, m6⟩ := incr_spec sh5 ha hi5
    have ht6 : h6.its h4.nextIt = some ⟨some p.1, true, some s⟩ := by
      rw [m6.others _ (Ne.symm hine4)]; exact ht5
    obtain ⟨h7, hh7⟩ : ∃ h7, h7 = h6.remove h4.nextIt := ⟨_, rfl⟩
    have sm7 : Same h3 h7 := by
      rw [hh7]
      exact ((sm4.trans sm5).trans m6.same).trans (Same.remove_same _ _)
    have w7 : h7.WF := by rw [hh7]; exact m6.wf.remove _
    have hnext : t.next p.1 s = (post.map Prod.fst).headD s :=
      Treap.next_spec t _ _ _ s ap.one.nodup haddrs
    have hi7 : h7.its i = some ⟨some ((post.map Prod.fst).headD s), true, some s⟩ := by
      rw [hh7, ← hnext]; simp only [remove_its, if_neg hine4]; exact m6.here
    have ap7 : Apart h7 s c t tc3 := by
      refine ⟨inv3s.same sm7 w7, inv3.same sm7 w7, ap.ne, ?_⟩
      intro a ha' hc
      rcases ha3 a hc with rfl | hc'
      · exact Nat.lt_irrefl _ (w2.lt_next (Rep.live _ ap2.one.rep _ ha'))
      · exact ap.disj a ha' hc'
    have hv7 : ∀ x, x ∈ tc3.values ↔ x ∈ (pre ++ [p]).map Prod.snd := by
      intro x
      rw [hv3, hv]
      simp only [List.map_append, List.map_cons, List.map_nil, List.mem_append,
        List.mem_singleton]
      tauto
    obtain ⟨h8, tc8, e8, ap8, hv8, hi8⟩ := ih (pre ++ [p]) n h7 tc3 (fun j => keys (j + 1)) ap7
      (by rw [hp]; simp) hi7 hv7 (by simp at hn ⊢; omega)
    refine ⟨h8, tc8, ?_, ap8, hv8, hi8⟩
    simp only [copy_loop, end_spec ap.one.toShape, Res.ok_bind, ne_spec hi1 he1,
      destroy_eq w1 he1, hne, ↓reduceIte, ← hh2, hd2, e3, destroy_eq inv3.wf hr3, ← hh4,
      post_incr, copy_eq w4 hi4, ← hh5, e6, destroy_eq m6.wf ht6, ← hh7, e8]

theorem construct_wf {h : Heap T} (w : h.WF) : (construct h).1.WF := by
  have hdead : h.iterators h.next = [] := w.dead _ (w.alloc _ (Nat.le_refl _))
  refine ⟨?_, ?_, ?_, ?_, ?_, ?_⟩
  · intro a i hi
    simp only [construct, Function.update_apply] at hi
    split at hi
    · simp at hi
    · exact w.reg_it a i hi
  · intro i it hi hv
    obtain ⟨a, ha, hm⟩ := w.it_reg i it hi hv
    refine ⟨a, ha, ?_⟩
    have hne : a ≠ h.next := by
      rintro rfl
      rw [hdead] at hm
      simp at hm
    simp only [construct, Function.update_apply, if_neg hne]
    exact hm
  · intro i hi
    exact w.fresh i hi
  · intro a
    simp only [construct, Function.update_apply]
    split
    · exact List.nodup_nil
    · exact w.nodup a
  · intro a ha
    simp only [construct, Function.update_apply, Heap.live] at ha ⊢
    split
    · rfl
    · rename_i hne
      rw [if_neg hne] at ha
      exact w.dead a ha
  · intro a ha
    have hne : a ≠ h.next := by
      rintro rfl
      exact Nat.lt_irrefl _ (Nat.lt_of_succ_le ha)
    simp only [construct, Function.update_apply, Heap.live, if_neg hne]
    exact w.alloc a (Nat.le_of_succ_le ha)

theorem construct_outside (h : Heap T) : Outside h (construct h).1 [h.next] := by
  refine ⟨?_, ?_, ?_, ?_, ?_, Nat.le_succ _⟩
  · intro x _ hlt
    simp [construct, Function.update_apply, Nat.ne_of_lt hlt]
  · intro x _ hlt
    simp [construct, Function.update_apply, Nat.ne_of_lt hlt]
  · intro x _ hlt
    simp [construct, Function.update_apply, Nat.ne_of_lt hlt]
  · intro x _ hlt
    simp [construct, Function.update_apply, Nat.ne_of_lt hlt]
  · intro x hx
    have hne : x ≠ h.next := fun hc => hx (by simp [hc])
    simp [construct, Function.update_apply, hne]

/-- A freshly constructed set satisfies the invariant with no node. -/
theorem construct_inv {h : Heap T} (w : h.WF) : Inv (construct h).1 h.next .nil := by
  refine ⟨⟨construct_wf w, ?_, trivial, fun hc => absurd rfl hc,
    ⟨fun b hb => by simp at hb, trivial⟩, List.nodup_nil, ?_⟩, ?_, trivial⟩
  · simp [construct]
  · intro r hr
    simp only [construct, Function.update_same, Option.some.injEq] at hr
    subst hr
    exact ⟨by simp, Nat.lt_succ_self _⟩
  · simp [construct]

/-- The copy constructor returns a new set, at the next free address, that holds
the values of the original on nodes of its own; the original keeps its shape. -/
theorem copy_construct_spec {h : Heap T} {s : Addr} {t : Treap T} (inv : Inv h s t)
    (keys : Nat → Nat) :
    ∃ h1 tc, copy_construct h s keys = .ok (h1, h.next) ∧ Apart h1 s h.next t tc ∧
      tc.values = t.values := by
  have hfuel := inv.fuel
  have hslt : s < h.next := inv.wf.lt_next inv.live_s
  obtain ⟨h0, hh0⟩ : ∃ h0, h0 = (construct h).1 := ⟨_, rfl⟩
  have w0 : h0.WF := by rw [hh0]; exact construct_wf inv.wf
  have inv0c : Inv h0 h.next .nil := by rw [hh0]; exact construct_inv inv.wf
  have inv0s : Inv h0 s t := by
    rw [hh0]
    refine inv.keep_outside (construct_wf inv.wf) (construct_outside h) ?_ ?_
    · simp [Nat.ne_of_lt hslt]
    · intro a ha
      simp [Nat.ne_of_lt (inv.wf.lt_next (Rep.live _ inv.rep a ha))]
  have hni0 : h0.nextIt = h.nextIt := by rw [hh0]; rfl
  have ap0 : Apart h0 s h.next t .nil := ⟨inv0s, inv0c, Nat.ne_of_lt hslt, fun _ _ => by simp⟩
  obtain ⟨h1, hh1⟩ : ∃ h1, h1 = h0.place h0.nextIt ⟨some (t.first s), true, some s⟩ := ⟨_, rfl⟩
  have hlive : h0.live (t.first s) = true := by
    cases t with
    | nil => exact inv0s.live_s
    | node l a v k r => exact Rep.live _ inv0s.rep _ (Treap.first_mem _ s (by simp))
  have w1 : h1.WF := by rw [hh1]; exact w0.place _ _ (fun _ => ⟨_, rfl, hlive⟩)
  have ap1 : Apart h1 s h.next t .nil := by
    rw [hh1]
    exact ap0.same_apart (Same.place_same _ _ _) (by rw [← hh1]; exact w1)
  have hi1 : h1.its h0.nextIt =
      some ⟨some ((t.pairs.map Prod.fst).headD s), true, some s⟩ := by
    rw [hh1, Treap.pairs_fst, ← Treap.first_eq]
    simp
  have hlen : t.pairs.length = t.size := by
    rw [← Treap.length_addrs, ← Treap.pairs_fst, List.length_map]
  obtain ⟨h2, tc, e2, ap2, hv2, hi2⟩ := copy_loop_spec s h.next t h0.nextIt t.pairs [] h.fuel h1
    .nil keys ap1 rfl hi1 (fun x => by simp) (by rw [hlen]; omega)
  refine ⟨h2.remove h0.nextIt, tc, ?_,
    ap2.same_apart (Same.remove_same _ _) (ap2.one.wf.remove _), ?_⟩
  · have hc2 : (construct h).2 = h.next := rfl
    simp only [copy_construct, ← hh0, begin_spec inv0s, ← hh1, Res.ok_bind, hc2, e2,
      destroy_eq ap2.one.wf hi2]
  · have hperm : tc.values.Perm t.values :=
      (List.perm_ext_iff_of_nodup (Treap.values_nodup tc ap2.two.bst)
        (Treap.values_nodup t inv.bst)).2 hv2
    exact List.eq_of_perm_of_sorted hperm (Treap.BST_sorted tc ap2.two.bst)
      (Treap.BST_sorted t inv.bst)

/-- A mutation of one of two separate sets, made with its precondition met,
returns and keeps the shape of the other. -/
theorem Mut.run_apart {h : Heap T} {x y : Addr} {tx ty : Treap T} (ap : Apart h x y tx ty)
    (m : Mut T) (hr : m.ready h x = true) :
    ∃ h' tx', m.run h x = .ok h' ∧ Apart h' x y tx' ty := by
  have hfuel := ap.one.fuel
  have hnew : ∀ a ∈ ty.addrs, a ≠ h.next := fun a ha hc =>
    Nat.lt_irrefl _ (hc ▸ ap.two.wf.lt_next (Rep.live _ ap.two.rep a ha))
  cases m with
  | insert v k =>
    obtain ⟨h', r, b, tx', it, e, inv', out, -, ha', -, -, -⟩ := insert_any ap.one v k
    refine ⟨h', tx', ?_, inv', ap.symm_apart.keep_one inv'.wf out, ap.ne, ?_⟩
    · simp only [Mut.run, e, Res.ok_bind]
    · intro a ha hc
      rcases ha' a ha with rfl | ha
      · exact hnew _ hc rfl
      · exact ap.disj a ha hc
  | erase pos =>
    simp only [Mut.ready] at hr
    cases hits : h.its pos with
    | none => rw [hits] at hr; simp at hr
    | some it =>
      rw [hits] at hr
      simp only [Bool.and_eq_true, beq_iff_eq, Bool.not_eq_true', List.any_eq_true] at hr
      obtain ⟨⟨⟨hv, ho⟩, he⟩, a, ha, hnode⟩ := hr
      have hne : tx ≠ .nil := by
        intro hc
        rw [ap.one.empty_iff.2 hc] at he
        exact Bool.noConfusion he
      rw [ap.one.root hne, reachable_rep tx h h.fuel ap.one.rep (by omega)] at ha
      have hp : h.its pos = some ⟨some a, true, some x⟩ := by
        rw [hits]
        cases it with
        | mk n v' o =>
          simp only at hv ho hnode
          rw [hv, ho, hnode]
      obtain ⟨h', e, er⟩ := erase_spec ap.one hp ha
      refine ⟨h', tx.remove a, ?_, er.inv, ap.symm_apart.keep_one er.inv.wf er.outside, ap.ne, ?_⟩
      · simp only [Mut.run, e, Res.ok_bind]
      · intro b hb
        exact ap.disj b ((Treap.mem_remove_addrs tx a b ap.one.nodup).1 hb).1
  | erase_value v =>
    cases hf : tx.find v with
    | none =>
      obtain ⟨h', e, sm, w⟩ := erase_value_absent ap.one v hf
      exact ⟨h', tx, by simp only [Mut.run, e, Res.ok_bind], ap.same_apart sm w⟩
    | some a =>
      obtain ⟨h', e, d⟩ := erase_value_present ap.one v hf
      refine ⟨h', tx.remove a, ?_, d.inv, ap.symm_apart.keep_one d.inv.wf d.outside, ap.ne, ?_⟩
      · simp only [Mut.run, e, Res.ok_bind]
      · intro b hb
        exact ap.disj b ((Treap.mem_remove_addrs tx a b ap.one.nodup).1 hb).1
  | clear =>
    obtain ⟨h0, e, c0, inv0⟩ := clear_spec ap.one
    have out : Outside h (size_zero h0 x) (x :: tx.addrs) := by
      refine ⟨?_, ?_, ?_, ?_, ?_, ?_⟩
      · intro z hz _
        rw [List.mem_cons, not_or] at hz
        show h0.obj z = h.obj z
        rw [c0.obj, if_neg hz.2]
      · intro z _ _
        show h0.left z = h.left z
        rw [c0.left]
      · intro z _ _
        show h0.right z = h.right z
        rw [c0.right]
      · intro z _ _
        show h0.parent z = h.parent z
        rw [c0.parent]
      · intro z hz
        rw [List.mem_cons, not_or] at hz
        simp [size_zero, Function.update_apply, hz.1, c0.size]
      · show h.next ≤ h0.next
        rw [c0.next]
    exact ⟨_, .nil, e, inv0, ap.symm_apart.keep_one inv0.wf out, ap.ne, fun _ hb => by simp at hb⟩

/-- A sequence of mutations of two separate sets, each made with its precondition
met, returns and leaves two separate sets. -/
theorem mutate_apart (s c : Addr) :
    ∀ (ms : List (Bool × Mut T)) (h : Heap T) (ts tc : Treap T), Apart h s c ts tc →
      mutable h s c ms = true →
      ∃ h' ts' tc', mutate h s c ms = .ok h' ∧ Apart h' s c ts' tc' := by
  intro ms
  induction ms with
  | nil =>
    intro h ts tc ap _
    exact ⟨h, ts, tc, rfl, ap⟩
  | cons m ms ih =>
    intro h ts tc ap hm
    obtain ⟨b, m⟩ := m
    simp only [mutable, Bool.and_eq_true] at hm
    obtain ⟨hr, hrest⟩ := hm
    cases b with
    | true =>
      simp only [↓reduceIte] at hr hrest
      obtain ⟨h1, tc1, e1, ap1⟩ := Mut.run_apart ap.symm_apart m hr
      rw [e1] at hrest
      obtain ⟨h2, ts2, tc2, e2, ap2⟩ := ih h1 ts tc1 ap1.symm_apart hrest
      exact ⟨h2, ts2, tc2, by simp only [mutate, ↓reduceIte, e1, Res.ok_bind, e2], ap2⟩
    | false =>
      simp only [Bool.false_eq_true, ↓reduceIte] at hr hrest
      obtain ⟨h1, ts1, e1, ap1⟩ := Mut.run_apart ap m hr
      rw [e1] at hrest
      obtain ⟨h2, ts2, tc2, e2, ap2⟩ := ih h1 ts1 tc ap1 hrest
      exact ⟨h2, ts2, tc2,
        by simp only [mutate, Bool.false_eq_true, ↓reduceIte, e1, Res.ok_bind, e2], ap2⟩

end set

set_option maxRecDepth 100000

namespace set

open Heap set_iterator

variable {T : Type} [LinearOrder T]

/-- C11: the copy constructor returns a new set `c` that has the size and the
forward traversal of the original `s`, which keeps its own.  After any sequence of
later mutations (`insert`, `erase` by handle, `erase` by value, `clear`) of the two
sets, each made with its precondition met, one more mutation of the copy returns and
leaves the size and the traversal of the original unchanged, and one more mutation
of the original returns and leaves those of the copy unchanged. -/
theorem copy_independent {h : Heap T} {s : Addr} {t : Treap T} (inv : Inv h s t)
    (keys : Nat → Nat) :
    ∃ h1 c vs, copy_construct h s keys = .ok (h1, c) ∧ c ≠ s ∧
      traverse h s = .ok vs ∧ traverse h1 c = .ok vs ∧ traverse h1 s = .ok vs ∧
      size h1 c = size h s ∧ size h1 s = size h s ∧
      ∀ ms, mutable h1 s c ms = true →
        ∃ h2, mutate h1 s c ms = .ok h2 ∧
          ∀ m : Mut T,
            (m.ready h2 c = true →
              ∃ h3 ws, m.run h2 c = .ok h3 ∧ traverse h2 s = .ok ws ∧
                traverse h3 s = .ok ws ∧ size h3 s = size h2 s) ∧
            (m.ready h2 s = true →
              ∃ h3 ws, m.run h2 s = .ok h3 ∧ traverse h2 c = .ok ws ∧
                traverse h3 c = .ok ws ∧ size h3 c = size h2 c) := by
  obtain ⟨h1, tc, e1, ap1, hv1⟩ := copy_construct_spec inv keys
  refine ⟨h1, h.next, t.values, e1, Ne.symm ap1.ne, traverse_spec inv, ?_,
    traverse_spec ap1.one, ?_, ?_, ?_⟩
  · rw [traverse_spec ap1.two, hv1]
  · show h1.size h.next = h.size s
    rw [ap1.two.size, inv.size, ← Treap.length_values, hv1, Treap.length_values]
  · show h1.size s = h.size s
    rw [ap1.one.size, inv.size]
  · intro ms hm
    obtain ⟨h2, ts2, tc2, e2, ap2⟩ := mutate_apart s h.next ms h1 t tc ap1 hm
    refine ⟨h2, e2, ?_⟩
    intro m
    constructor
    · intro hr
      obtain ⟨h3, tc3, e3, ap3⟩ := Mut.run_apart ap2.symm_apart m hr
      refine ⟨h3, ts2.values, e3, traverse_spec ap2.one, traverse_spec ap3.two, ?_⟩
      show h3.size s = h2.size s
      rw [ap3.two.size, ap2.one.size]
    · intro hr
      obtain ⟨h3, ts3, e3, ap3⟩ := Mut.run_apart ap2 m hr
      refine ⟨h3, tc2.values, e3, traverse_spec ap2.two, traverse_spec ap3.two, ?_⟩
      show h3.size h.next = h2.size h.next
      rw [ap3.two.size, ap2.two.size]

end set

set_option maxRecDepth 100000

namespace set_iterator

open Heap

/-- The state with one default-constructed handle and nothing else is well-formed. -/
theorem singular_empty_wf : (singular (Heap.empty : Heap Nat)).1.WF := by
  rw [singular_eq empty_wf]
  exact empty_wf.place _ _ (fun hc => Bool.noConfusion hc)

/-- C18 at a default-constructed handle, the only object of the program. -/
theorem singular_handle_fatal_witness :
    (singular (Heap.empty : Heap Nat)).1.WF ∧
      (singular (Heap.empty : Heap Nat)).1.its 0 = some ⟨none, false, none⟩ ∧
      (⟨none, false, none⟩ : set_iterator).is_valid = false ∧
      ((singular (singular (Heap.empty : Heap Nat)).1).1.WF ∧
        (singular (singular (Heap.empty : Heap Nat)).1).1.its
          (singular (singular (Heap.empty : Heap Nat)).1).2 = some ⟨none, false, none⟩) ∧
      deref (singular (Heap.empty : Heap Nat)).1 0 = .error .assertion ∧
      incr (singular (Heap.empty : Heap Nat)).1 0 = .error .assertion ∧
      decr (singular (Heap.empty : Heap Nat)).1 0 = .error .assertion ∧
      post_incr (singular (Heap.empty : Heap Nat)).1 0 = .error .assertion ∧
      post_decr (singular (Heap.empty : Heap Nat)).1 0 = .error .assertion ∧
      (∃ h1 r, copy (singular (Heap.empty : Heap Nat)).1 0 = .ok (h1, r) ∧
        h1.its r = some ⟨none, false, none⟩ ∧ r ≠ 0 ∧
        deref h1 r = .error .assertion ∧ incr h1 r = .error .assertion ∧
        decr h1 r = .error .assertion ∧ post_incr h1 r = .error .assertion ∧
        post_decr h1 r = .error .assertion) ∧
      (∀ j jt, (singular (Heap.empty : Heap Nat)).1.its j = some jt →
        ∃ h1, assign (singular (Heap.empty : Heap Nat)).1 j 0 = .ok h1 ∧
          h1.its j = some ⟨none, false, none⟩ ∧
          deref h1 j = .error .assertion ∧ incr h1 j = .error .assertion ∧
          decr h1 j = .error .assertion ∧ post_incr h1 j = .error .assertion ∧
          post_decr h1 j = .error .assertion) :=
  ⟨singular_empty_wf, rfl, rfl, singular_handle_fatal singular_empty_wf rfl rfl⟩

end set_iterator

namespace set

open Heap set_iterator

/-- C11 at the sample: the copy of the set that holds 1, 3, 4, 5 and 8. -/
theorem copy_independent_witness :
    ∃ t, Inv sample.1 sample.2 t ∧
      ∃ h1 c vs, copy_construct sample.1 sample.2 (fun i => i) = .ok (h1, c) ∧ c ≠ sample.2 ∧
        traverse sample.1 sample.2 = .ok vs ∧ traverse h1 c = .ok vs ∧
        traverse h1 sample.2 = .ok vs ∧
        size h1 c = size sample.1 sample.2 ∧ size h1 sample.2 = size sample.1 sample.2 ∧
        ∀ ms, mutable h1 sample.2 c ms = true →
          ∃ h2, mutate h1 sample.2 c ms = .ok h2 ∧
            ∀ m : Mut Nat,
              (m.ready h2 c = true →
                ∃ h3 ws, m.run h2 c = .ok h3 ∧ traverse h2 sample.2 = .ok ws ∧
                  traverse h3 sample.2 = .ok ws ∧ size h3 sample.2 = size h2 sample.2) ∧
              (m.ready h2 sample.2 = true →
                ∃ h3 ws, m.run h2 sample.2 = .ok h3 ∧ traverse h2 c = .ok ws ∧
                  traverse h3 c = .ok ws ∧ size h3 c = size h2 c) := by
  obtain ⟨t, sol, _⟩ := sample_shape
  exact ⟨t, sol.toInv, copy_independent sol.toInv (fun i => i)⟩

/-- The copy of the sample evaluated: it is made at address 6 and holds 1, 3, 4, 5
and 8, and a sequence of later mutations of the two sets (an insertion into the copy,
the erasure of 3 from the original through the handle its insertion returned,
`clear()` of the copy, the erasure of 8 from the original by value) meets every
precondition and leaves the original with 1, 4 and 5 and the copy empty. -/
theorem copy_sample_mutated :
    ∃ h1 h2, copy_construct sample.1 sample.2 (fun i => i) = .ok (h1, 6) ∧
      traverse h1 6 = .ok [1, 3, 4, 5, 8] ∧
      mutable h1 sample.2 6 [(true, .insert 9 1), (false, .erase 5), (true, .clear),
        (false, .erase_value 8)] = true ∧
      mutate h1 sample.2 6 [(true, .insert 9 1), (false, .erase 5), (true, .clear),
        (false, .erase_value 8)] = .ok h2 ∧
      traverse h2 sample.2 = .ok [1, 4, 5] ∧ traverse h2 6 = .ok [] :=
  ⟨_, _, rfl, rfl, rfl, rfl, rfl, rfl⟩

/-- C15 at the sample: `clear()` of the set that holds 1, 3, 4, 5 and 8. -/
theorem clear_empties_witness :
    ∃ t, Inv sample.1 sample.2 t ∧
      ∃ h1, clear sample.1 sample.2 = .ok h1 ∧ size h1 sample.2 = 0 ∧
        empty h1 sample.2 = true ∧ begin_is_end h1 sample.2 = .ok true ∧
        traverse h1 sample.2 = .ok [] ∧
        (∀ g b o, sample.1.its g = some ⟨some b, true, o⟩ → b ∈ t.addrs →
          h1.its g = some ⟨some b, false, o⟩ ∧ deref h1 g = .error .assertion ∧
            incr h1 g = .error .assertion ∧ decr h1 g = .error .assertion) ∧
        (∀ g, sample.1.its g = some ⟨some sample.2, true, some sample.2⟩ →
          h1.its g = some ⟨some sample.2, true, some sample.2⟩ ∧
            is_end h1 sample.2 g = .ok true) := by
  obtain ⟨t, sol, _⟩ := sample_shape
  exact ⟨t, sol.toInv, clear_empties sol.toInv⟩

/-- C17 at the sample: erasing 3 through the handle its insertion returned. -/
theorem erase_invalidates_exactly_witness :
    ∃ t, Inv sample.1 sample.2 t ∧
      sample.1.its 5 = some ⟨some 2, true, some sample.2⟩ ∧ (2, 3) ∈ t.pairs ∧
      ∃ h1 r, erase sample.1 sample.2 5 = .ok (h1, r) ∧
        ∀ g b, sample.1.its g = some ⟨some b, true, some sample.2⟩ →
          (b = 2 → h1.its g = some ⟨some 2, false, some sample.2⟩ ∧
            deref h1 g = .error .assertion ∧ incr h1 g = .error .assertion ∧
            decr h1 g = .error .assertion) ∧
          (b ≠ 2 → h1.its g = some ⟨some b, true, some sample.2⟩ ∧
            (∀ w, (b, w) ∈ t.pairs → deref sample.1 g = .ok w ∧ deref h1 g = .ok w) ∧
            (b = sample.2 → is_end h1 sample.2 g = .ok true)) := by
  obtain ⟨t, sol, hp⟩ := sample_shape
  have ha : (2, 3) ∈ t.pairs := by rw [hp]; decide
  exact ⟨t, sol.toInv, rfl, ha, erase_invalidates_exactly sol.toInv rfl ha⟩

end set

set_option maxRecDepth 100000

namespace set_iterator

open Heap

variable {T : Type}

/-- C21: for every two handles, `==` and `!=` fail an assertion when either has its
flag clear (a singular or an invalidated handle) or when their recorded owners
differ; otherwise `==` returns whether they reference the same node and `!=`
returns the negation. -/
theorem compare_handles {h : Heap T} {i j : Nat} {a b : set_iterator} (hi : h.its i = some a)
    (hj : h.its j = some b) :
    ((a.is_valid = false ∨ b.is_valid = false ∨ a.owner ≠ b.owner) →
      set_iterator.eq h i j = .error .assertion ∧ set_iterator.ne h i j = .error .assertion) ∧
    (a.is_valid = true → b.is_valid = true → a.owner = b.owner →
      set_iterator.eq h i j = .ok (a.node == b.node) ∧
        set_iterator.ne h i j = .ok (!(a.node == b.node))) := by
  constructor
  · intro hc
    cases hva : a.is_valid with
    | false =>
      simp only [set_iterator.eq, set_iterator.ne, getIt_ok hi, getIt_ok hj, Res.ok_bind, hva,
        check_false, Res.error_bind, and_self]
    | true =>
      cases hvb : b.is_valid with
      | false =>
        simp only [set_iterator.eq, set_iterator.ne, getIt_ok hi, getIt_ok hj, Res.ok_bind, hva,
          hvb, check_true, check_false, Res.error_bind, and_self]
      | true =>
        have ho : (a.owner == b.owner) = false := by
          rcases hc with hc | hc | hc
          · rw [hva] at hc; exact absurd hc (by simp)
          · rw [hvb] at hc; exact absurd hc (by simp)
          · simpa using hc
        simp only [set_iterator.eq, set_iterator.ne, getIt_ok hi, getIt_ok hj, Res.ok_bind, hva,
          hvb, check_true, ho, check_false, Res.error_bind, and_self]
  · intro hva hvb ho
    have ho' : (a.owner == b.owner) = true := by simpa using ho
    constructor
    · simp only [set_iterator.eq, getIt_ok hi, getIt_ok hj, Res.ok_bind, hva, hvb, check_true,
        ho']
    · simp only [set_iterator.ne, getIt_ok hi, getIt_ok hj, Res.ok_bind, hva, hvb, check_true,
        ho']
      rfl

end set_iterator

namespace set

open Heap set_iterator

/-- C22 at failing inputs, with 1 and 3 in `A` and 2 in `B`; the iterator objects 2
and 8 are the handles the insertions of 1 and of 2 returned.  Without any swap,
`A.erase` fails an assertion for the handle into `B`, for `A.end()` and for a default
constructed handle.  After the handle swap `swap(i, j)` of the two handles, `j` (8)
still references 2, which is stored in `B`, but `A.erase(j)` returns normally: the
node of `B` is deleted and `A` is left with size 1 and the traversal `[1, 3]`.  After
the container swap `swap(A, B)`, the handle 2 references 1, which is then stored in
`B`, and `A.erase` of it returns normally, leaving `B` with size 2 and the
traversal `[3]`. -/
theorem erase_foreign_not_fatal :
    (∃ h h1 e h2 d, pair_full = .ok h ∧ erase h 0 8 = .error .assertion ∧
      end_ h 0 = .ok (h1, e) ∧ erase h1 0 e = .error .assertion ∧
      singular h = (h2, d) ∧ erase h2 0 d = .error .assertion) ∧
    (∃ h h1 h2 r, pair_full = .ok h ∧ set_iterator.swap h 2 8 = .ok h1 ∧
      h1.its 8 = some ⟨some 4, true, some 0⟩ ∧ deref h1 8 = .ok 2 ∧
      reachable h1.fuel h1 (h1.left 0) = [2, 3] ∧ reachable h1.fuel h1 (h1.left 1) = [4] ∧
      erase h1 0 8 = .ok (h2, r) ∧ h2.live 4 = false ∧ size h2 0 = 1 ∧
      traverse h2 0 = .ok [1, 3] ∧ size h2 1 = 1 ∧ h2.left 1 = none) ∧
    (∃ h h1 h2 r, pair_full = .ok h ∧ swap h 0 1 = .ok h1 ∧
      h1.its 2 = some ⟨some 2, true, some 0⟩ ∧ deref h1 2 = .ok 1 ∧
      traverse h1 0 = .ok [2] ∧ traverse h1 1 = .ok [1, 3] ∧
      erase h1 0 2 = .ok (h2, r) ∧ h2.live 2 = false ∧ size h2 0 = 0 ∧ size h2 1 = 2 ∧
      traverse h2 1 = .ok [3]) :=
  ⟨⟨_, _, _, _, _, rfl, rfl, rfl, rfl, rfl, rfl⟩,
    ⟨_, _, _, _, rfl, rfl, rfl, rfl, rfl, rfl, rfl, rfl, rfl, rfl, rfl, rfl⟩,
    ⟨_, _, _, _, rfl, rfl, rfl, rfl, rfl, rfl, rfl, rfl, rfl, rfl, rfl⟩⟩

/-- C23 at a failing input, with 1 and 3 in `A` and 2 in `B`: the iterator object 2
references 1 (node 2, owner `A`) and the iterator object 8 references 2 (node 4,
owner `B`).  After `swap(i, j)` of the two, each handle still references its own
node and dereferences to its own former value; only the recorded owners are
exchanged, and the registries are as before.  The swap of a handle with itself or
with a copy of it fails the assertion. -/
theorem swap_handles_keeps_nodes :
    ∃ h h1 h2 c, pair_full = .ok h ∧
      h.its 2 = some ⟨some 2, true, some 0⟩ ∧ h.its 8 = some ⟨some 4, true, some 1⟩ ∧
      deref h 2 = .ok 1 ∧ deref h 8 = .ok 2 ∧
      set_iterator.swap h 2 8 = .ok h1 ∧
      h1.its 2 = some ⟨some 2, true, some 1⟩ ∧ h1.its 8 = some ⟨some 4, true, some 0⟩ ∧
      deref h1 2 = .ok 1 ∧ deref h1 8 = .ok 2 ∧
      h1.iterators 2 = [2] ∧ h1.iterators 4 = [8] ∧
      set_iterator.swap h 2 2 = .error .assertion ∧
      copy h 2 = .ok (h2, c) ∧ set_iterator.swap h2 2 c = .error .assertion :=
  ⟨_, _, _, _, rfl, rfl, rfl, rfl, rfl, rfl, rfl, rfl, rfl, rfl, rfl, rfl, rfl, rfl, rfl⟩

/-- C24 at a failing input: two freshly constructed sets, the handle `e` (iterator
object 0) obtained from `A.end()` and the handle `f` (iterator object 1) obtained
from `B.end()`.  After `swap(A, B)` the flag of `e` is clear, `e` is registered at the
sentinel of `B` and `f` at the sentinel of `A`, and comparing `e` with a fresh
`A.end()` fails the assertion; before the swap the comparison returns `true`. -/
theorem end_handle_lost_in_swap :
    ∃ h1 h2 h3 h4 g h5 g', end_ pair_fresh 0 = .ok (h1, 0) ∧ end_ h1 1 = .ok (h2, 1) ∧
      h2.its 0 = some ⟨some 0, true, some 0⟩ ∧ h2.iterators 0 = [0] ∧ h2.iterators 1 = [1] ∧
      end_ h2 0 = .ok (h5, g') ∧ set_iterator.eq h5 0 g' = .ok true ∧
      swap h2 0 1 = .ok h3 ∧
      h3.its 0 = some ⟨some 0, false, some 0⟩ ∧ h3.its 1 = some ⟨some 1, true, some 1⟩ ∧
      h3.iterators 0 = [1] ∧ h3.iterators 1 = [0] ∧
      end_ h3 0 = .ok (h4, g) ∧ set_iterator.eq h4 0 g = .error .assertion :=
  ⟨_, _, _, _, _, _, _, rfl, rfl, rfl, rfl, rfl, rfl, rfl, rfl, rfl, rfl, rfl, rfl, rfl, rfl⟩

/-- C25 at failing inputs.  On a freshly constructed set and on a set emptied by
erasing its only element, `lower_bound(5)` and `upper_bound(5)` return `end()`.  On a
set emptied by `clear()` they read the deleted node; on a set left empty by a swap
with a freshly constructed set they read the value of the other set's sentinel; on a
set left empty by the assignment of a freshly constructed set they read the
destroyed temporary: undefined behaviour in all three. -/
theorem bounds_on_empty_undefined :
    (∃ h1 r1 h2 r2, lower_bound one_fresh 0 5 = .ok (h1, r1) ∧ is_end h1 0 r1 = .ok true ∧
      upper_bound one_fresh 0 5 = .ok (h2, r2) ∧ is_end h2 0 r2 = .ok true) ∧
    (∃ h h1 r1 h2 r2, run one_fresh 0 [.insert 1 5, .erase 2] = .ok h ∧ size h 0 = 0 ∧
      lower_bound h 0 5 = .ok (h1, r1) ∧ is_end h1 0 r1 = .ok true ∧
      upper_bound h 0 5 = .ok (h2, r2) ∧ is_end h2 0 r2 = .ok true) ∧
    (∃ h h1, run one_fresh 0 [.insert 1 5] = .ok h ∧ clear h 0 = .ok h1 ∧ size h1 0 = 0 ∧
      h1.left 0 = some 1 ∧ h1.live 1 = false ∧
      lower_bound h1 0 5 = .error .undefined ∧ upper_bound h1 0 5 = .error .undefined) ∧
    (∃ h h1, run pair_fresh 0 [.insert 1 5] = .ok h ∧ swap h 0 1 = .ok h1 ∧ size h1 0 = 0 ∧
      h1.left 0 = some 1 ∧ h1.right 1 = some 0 ∧
      lower_bound h1 0 5 = .error .undefined ∧ upper_bound h1 0 5 = .error .undefined) ∧
    (∃ h h1, run pair_fresh 0 [.insert 1 5] = .ok h ∧
      copy_assign h 0 1 (fun _ => 3) = .ok h1 ∧ size h1 0 = 0 ∧
      h1.left 0 = some 3 ∧ h1.live 3 = false ∧
      lower_bound h1 0 5 = .error .undefined ∧ upper_bound h1 0 5 = .error .undefined) :=
  ⟨⟨_, _, _, _, rfl, rfl, rfl, rfl⟩, ⟨_, _, _, _, _, rfl, rfl, rfl, rfl, rfl, rfl⟩,
    ⟨_, _, rfl, rfl, rfl, rfl, rfl, rfl, rfl⟩, ⟨_, _, rfl, rfl, rfl, rfl, rfl, rfl, rfl⟩,
    ⟨_, _, rfl, rfl, rfl, rfl, rfl, rfl, rfl⟩⟩

/-- C29 at failing inputs.  In two freshly constructed sets the `right` link of each
sentinel references that sentinel.  After `swap(A, B)` the `right` link of the
sentinel of `A` references the sentinel of `B` and the other way round.  After
`A = B`, with 1 and 3 in `A` and 2 in `B`, the `right` link of the sentinel of `A`
references the destroyed temporary. -/
theorem sentinel_right_after_swap :
    pair_fresh.right 0 = some 0 ∧ pair_fresh.right 1 = some 1 ∧
    (∃ h1, swap pair_fresh 0 1 = .ok h1 ∧ h1.right 0 = some 1 ∧ h1.right 1 = some 0) ∧
    (∃ h h1, pair_full = .ok h ∧ h.right 0 = some 0 ∧
      copy_assign h 0 1 (fun _ => 3) = .ok h1 ∧ h1.right 0 = some 5 ∧ h1.live 5 = false) :=
  ⟨rfl, rfl, ⟨_, rfl, rfl, rfl⟩, ⟨_, _, rfl, rfl, rfl, rfl, rfl⟩⟩

end set

namespace Treap

variable {T : Type}

@[simp] theorem nodes_nil : (nil : Treap T).nodes = [] := rfl
@[simp] theorem nodes_node (l : Treap T) (a : Addr) (v : T) (k : Nat) (r : Treap T) :
    (node l a v k r).nodes = l.nodes ++ (a, v, k) :: r.nodes := rfl
@[simp] theorem rootKey_nil : (nil : Treap T).rootKey = none := rfl
@[simp] theorem rootKey_node (l : Treap T) (a : Addr) (v : T) (k : Nat) (r : Treap T) :
    (node l a v k r).rootKey = some k := rfl

theorem heapOrdered_node (l : Treap T) (a : Addr) (v : T) (k : Nat) (r : Treap T) :
    (node l a v k r).HeapOrdered ↔
      (∀ j, l.rootKey = some j → j ≤ k) ∧ (∀ j, r.rootKey = some j → j ≤ k) ∧
        l.HeapOrdered ∧ r.HeapOrdered := by
  cases l <;> cases r <;> rfl

theorem nodes_fst (t : Treap T) : t.nodes.map (fun x => x.1) = t.addrs := by
  induction t with
  | nil => rfl
  | node l a v k r ihl ihr => simp [ihl, ihr]

theorem nodes_snd (t : Treap T) : t.nodes.map (fun x => x.2.1) = t.values := by
  induction t with
  | nil => rfl
  | node l a v k r ihl ihr => simp [ihl, ihr]

theorem mem_addrs_of_nodes {t : Treap T} {x : Addr × T × Nat} (hx : x ∈ t.nodes) :
    x.1 ∈ t.addrs := by
  rw [← nodes_fst]
  exact List.mem_map_of_mem _ hx

theorem nodes_of_mem_addrs {t : Treap T} {a : Addr} (ha : a ∈ t.addrs) :
    ∃ v k, (a, v, k) ∈ t.nodes := by
  rw [← nodes_fst] at ha
  obtain ⟨x, hx, rfl⟩ := List.mem_map.1 ha
  exact ⟨x.2.1, x.2.2, hx⟩

theorem nodes_inj (t : Treap T) (hnd : t.addrs.Nodup) {x y : Addr × T × Nat} (hx : x ∈ t.nodes)
    (hy : y ∈ t.nodes) (h : x.1 = y.1) : x = y := by
  rw [← nodes_fst] at hnd
  exact List.inj_on_of_nodup_map hnd hx hy h

theorem rootKey_mem {t : Treap T} {j : Nat} (h : t.rootKey = some j) :
    ∃ a v, (a, v, j) ∈ t.nodes := by
  cases t with
  | nil => simp at h
  | node l a v k r =>
    simp only [rootKey_node, Option.some.injEq] at h
    subst h
    exact ⟨a, v, by simp⟩

/-- In a heap-ordered tree no key exceeds a bound of the top key. -/
theorem keys_le (t : Treap T) (ho : t.HeapOrdered) (k : Nat)
    (hk : ∀ j, t.rootKey = some j → j ≤ k) : ∀ x ∈ t.nodes, x.2.2 ≤ k := by
  induction t generalizing k with
  | nil => intro x hx; simp at hx
  | node l a v j r ihl ihr =>
    obtain ⟨h1, h2, h3, h4⟩ := (heapOrdered_node l a v j r).1 ho
    have hjk : j ≤ k := hk j rfl
    intro x hx
    simp only [nodes_node, List.mem_append, List.mem_cons] at hx
    rcases hx with hx | rfl | hx
    · exact ihl h3 k (fun i hi => le_trans (h1 i hi) hjk) x hx
    · exact hjk
    · exact ihr h4 k (fun i hi => le_trans (h2 i hi) hjk) x hx

/-- A tree whose keys are all bounded has a bounded top key. -/
theorem rootKey_le_of_nodes {t : Treap T} {k : Nat} (h : ∀ x ∈ t.nodes, x.2.2 ≤ k) :
    ∀ j, t.rootKey = some j → j ≤ k := by
  intro j hj
  obtain ⟨a, v, hm⟩ := rootKey_mem hj
  exact h _ hm

theorem merge_nodes (l r : Treap T) : (merge l r).nodes = l.nodes ++ r.nodes := by
  induction l generalizing r with
  | nil => simp [merge_nil_left]
  | node ll a v k lr _ ihr =>
    induction r with
    | nil => simp [merge_nil_right]
    | node rl b w j rr ihl _ =>
      rw [merge_node]
      split
      · simp [ihr]
      · simp [ihl]

/-- The root of a merge: the other operand's when one is empty, else the left
operand's when its key is strictly larger and the right operand's otherwise. -/
theorem merge_root (l r : Treap T) :
    (l = nil → (merge l r).root = r.root) ∧ (r = nil → (merge l r).root = l.root) ∧
      (∀ ka kb, l.rootKey = some ka → r.rootKey = some kb →
        (merge l r).root = if kb < ka then l.root else r.root) := by
  refine ⟨?_, ?_, ?_⟩
  · rintro rfl
    rw [merge_nil_left]
  · rintro rfl
    rw [merge_nil_right]
  · intro ka kb hka hkb
    cases l with
    | nil => simp at hka
    | node ll a v k lr =>
      cases r with
      | nil => simp at hkb
      | node rl b w j rr =>
        simp only [rootKey_node, Option.some.injEq] at hka hkb
        subst hka hkb
        rw [merge_node]
        by_cases hkj : k > j
        · rw [if_pos hkj, if_pos hkj]
          rfl
        · rw [if_neg hkj, if_neg hkj]
          rfl

theorem merge_rootKey (l r : Treap T) (j : Nat) (h : (merge l r).rootKey = some j) :
    l.rootKey = some j ∨ r.rootKey = some j := by
  cases l with
  | nil => rw [merge_nil_left] at h; exact Or.inr h
  | node ll a v k lr =>
    cases r with
    | nil => rw [merge_nil_right] at h; exact Or.inl h
    | node rl b w i rr =>
      rw [merge_node] at h
      split at h
      · exact Or.inl h
      · exact Or.inr h

theorem merge_heapOrdered (l r : Treap T) (hl : l.HeapOrdered) (hr : r.HeapOrdered) :
    (merge l r).HeapOrdered := by
  induction l generalizing r with
  | nil => simpa [merge_nil_left] using hr
  | node ll a v k lr _ ihr =>
    induction r with
    | nil => simpa [merge_nil_right] using hl
    | node rl b w j rr ihl _ =>
      rw [merge_node]
      obtain ⟨hl1, hl2, hl3, hl4⟩ := (heapOrdered_node ll a v k lr).1 hl
      obtain ⟨hr1, hr2, hr3, hr4⟩ := (heapOrdered_node rl b w j rr).1 hr
      split
      · rename_i hkj
        refine (heapOrdered_node _ _ _ _ _).2 ⟨hl1, ?_, hl3, ihr _ hl4 hr⟩
        intro i hi
        rcases merge_rootKey _ _ i hi with hi | hi
        · exact hl2 i hi
        · simp only [rootKey_node, Option.some.injEq] at hi
          omega
      · rename_i hkj
        refine (heapOrdered_node _ _ _ _ _).2 ⟨?_, hr2, ihl hr3, hr4⟩
        intro i hi
        rcases merge_rootKey _ _ i hi with hi | hi
        · simp only [rootKey_node, Option.some.injEq] at hi
          omega
        · exact hr1 i hi

section order

variable [LinearOrder T]

theorem split_nodes (t : Treap T) (x : T) :
    (t.split x).1.nodes ++ (t.split x).2.nodes = t.nodes := by
  induction t with
  | nil => rfl
  | node l a v k r ihl ihr =>
    simp only [split]
    split
    · simp [ihr]
    · simp [← ihl]

theorem split_heapOrdered (t : Treap T) (x : T) (ho : t.HeapOrdered) :
    (t.split x).1.HeapOrdered ∧ (t.split x).2.HeapOrdered := by
  induction t with
  | nil => exact ⟨trivial, trivial⟩
  | node l a v k r ihl ihr =>
    obtain ⟨h1, h2, h3, h4⟩ := (heapOrdered_node l a v k r).1 ho
    simp only [split]
    split
    · refine ⟨(heapOrdered_node _ _ _ _ _).2 ⟨h1, ?_, h3, (ihr h4).1⟩, (ihr h4).2⟩
      refine rootKey_le_of_nodes (fun y hy => keys_le r h4 k h2 y ?_)
      rw [← split_nodes r x]
      exact List.mem_append.2 (Or.inl hy)
    · refine ⟨(ihl h3).1, (heapOrdered_node _ _ _ _ _).2 ⟨?_, h2, (ihl h3).2, h4⟩⟩
      refine rootKey_le_of_nodes (fun y hy => keys_le l h3 k h1 y ?_)
      rw [← split_nodes l x]
      exact List.mem_append.2 (Or.inr hy)

theorem insert_nodes (t : Treap T) (a : Addr) (v : T) (k : Nat) :
    (t.insert a v k).nodes = (t.split v).1.nodes ++ (a, v, k) :: (t.split v).2.nodes := by
  simp [insert, merge_nodes]

theorem mem_insert_nodes (t : Treap T) (a : Addr) (v : T) (k : Nat) (x : Addr × T × Nat) :
    x ∈ (t.insert a v k).nodes ↔ x = (a, v, k) ∨ x ∈ t.nodes := by
  rw [insert_nodes, ← split_nodes t v]
  simp only [List.mem_append, List.mem_cons]
  tauto

theorem insert_heapOrdered (t : Treap T) (a : Addr) (v : T) (k : Nat) (ho : t.HeapOrdered) :
    (t.insert a v k).HeapOrdered := by
  obtain ⟨h1, h2⟩ := split_heapOrdered t v ho
  refine merge_heapOrdered _ _ (merge_heapOrdered _ _ h1 ?_) h2
  exact (heapOrdered_node _ _ _ _ _).2 ⟨fun j hj => by simp at hj, fun j hj => by simp at hj,
    trivial, trivial⟩

end order

theorem remove_nodes_subset (t : Treap T) (a : Addr) : ∀ x ∈ (t.remove a).nodes, x ∈ t.nodes := by
  induction t with
  | nil => intro x hx; exact hx
  | node l b v k r ihl ihr =>
    intro x hx
    simp only [remove] at hx
    split at hx
    · rw [merge_nodes] at hx
      simp only [nodes_node, List.mem_append, List.mem_cons]
      rcases List.mem_append.1 hx with hx | hx
      · exact Or.inl hx
      · exact Or.inr (Or.inr hx)
    · split at hx
      · simp only [nodes_node, List.mem_append, List.mem_cons] at hx ⊢
        rcases hx with hx | hx | hx
        · exact Or.inl (ihl x hx)
        · exact Or.inr (Or.inl hx)
        · exact Or.inr (Or.inr hx)
      · simp only [nodes_node, List.mem_append, List.mem_cons] at hx ⊢
        rcases hx with hx | hx | hx
        · exact Or.inl hx
        · exact Or.inr (Or.inl hx)
        · exact Or.inr (Or.inr (ihr x hx))

theorem remove_heapOrdered (t : Treap T) (a : Addr) (ho : t.HeapOrdered) :
    (t.remove a).HeapOrdered := by
  induction t with
  | nil => exact trivial
  | node l b v k r ihl ihr =>
    obtain ⟨h1, h2, h3, h4⟩ := (heapOrdered_node l b v k r).1 ho
    simp only [remove]
    split
    · exact merge_heapOrdered _ _ h3 h4
    · split
      · refine (heapOrdered_node _ _ _ _ _).2 ⟨?_, h2, ihl h3, h4⟩
        exact rootKey_le_of_nodes
          (fun y hy => keys_le l h3 k h1 y (remove_nodes_subset l a y hy))
      · refine (heapOrdered_node _ _ _ _ _).2 ⟨h1, ?_, h3, ihr h4⟩
        exact rootKey_le_of_nodes
          (fun y hy => keys_le r h4 k h2 y (remove_nodes_subset r a y hy))

end Treap

namespace Heap

variable {T : Type}

/-- The heap stores each node of the shape with its value and key. -/
theorem Rep.obj_nodes {h : Heap T} (t : Treap T) (hrep : h.Rep t) :
    ∀ x ∈ t.nodes, h.obj x.1 = .node x.2.1 x.2.2 := by
  induction t with
  | nil => intro x hx; simp at hx
  | node l a v k r ihl ihr =>
    obtain ⟨h1, _, _, h4, h5⟩ := hrep
    intro x hx
    simp only [Treap.nodes_node, List.mem_append, List.mem_cons] at hx
    rcases hx with hx | rfl | hx
    · exact ihl h4 x hx
    · exact h1
    · exact ihr h5 x hx

/-- The top key of a shape the heap holds is the key stored at its top node. -/
theorem Rep.key_root {h : Heap T} (t : Treap T) (hrep : h.Rep t) (c : Addr)
    (hc : t.root = some c) : ∃ j, t.rootKey = some j ∧ h.key (some c) = .ok j := by
  cases t with
  | nil => simp at hc
  | node l a v k r =>
    simp only [Treap.root_node, Option.some.injEq] at hc
    subst hc
    exact ⟨k, rfl, key_ok hrep.1⟩

/-- In a heap that holds a heap-ordered shape, the key stored at a node is not
smaller than the key stored at either child. -/
theorem Rep.heap_order {h : Heap T} (t : Treap T) (hrep : h.Rep t) (ho : t.HeapOrdered) :
    ∀ a ∈ t.addrs, ∀ c, (h.left a = some c ∨ h.right a = some c) →
      ∃ ka kc, h.key (some a) = .ok ka ∧ h.key (some c) = .ok kc ∧ kc ≤ ka := by
  induction t with
  | nil => intro a ha; simp at ha
  | node l b v k r ihl ihr =>
    obtain ⟨h1, h2, h3, h4, h5⟩ := hrep
    obtain ⟨o1, o2, o3, o4⟩ := (Treap.heapOrdered_node l b v k r).1 ho
    intro a ha c hc
    simp only [Treap.addrs_node, List.mem_append, List.mem_cons] at ha
    rcases ha with ha | rfl | ha
    · exact ihl h4 o3 a ha c hc
    · rcases hc with hc | hc
      · rw [h2] at hc
        obtain ⟨j, hj, hkey⟩ := Rep.key_root l h4 c hc
        exact ⟨k, j, key_ok h1, hkey, o1 j hj⟩
      · rw [h3] at hc
        obtain ⟨j, hj, hkey⟩ := Rep.key_root r h5 c hc
        exact ⟨k, j, key_ok h1, hkey, o2 j hj⟩
    · exact ihr h5 o4 a ha c hc

end Heap

set_option maxRecDepth 100000

namespace set

open Heap set_iterator

variable {T : Type} [LinearOrder T]

/-- C26: `merge` of two treaps the heap holds (each a search tree, heap-ordered and
with correct parent links inside, on separate nodes), every value of `low` less than
every value of `high`, returns the top of a tree `m` the heap then holds.  `m` is a
search tree and heap-ordered, its nodes with their values and keys are those of
`low` followed by those of `high` (no stored object changed), its root is that of
the other operand when one is empty, else that of `low` when the key there is
strictly larger and that of `high` otherwise, and the parent links inside `m` are
correct.  In the heap the key of every node of `m` is not smaller than the key of
either child. -/
theorem merge_treaps {h : Heap T} {low high : Treap T} (rl : h.Rep low) (rh : h.Rep high)
    (pl : h.ParIn low) (ph : h.ParIn high) (hnd : (low.addrs ++ high.addrs).Nodup)
    (bl : low.BST) (bh : high.BST) (ol : low.HeapOrdered) (oh : high.HeapOrdered)
    (hlt : ∀ x ∈ low.values, ∀ y ∈ high.values, x < y) (n : Nat)
    (hn : low.size + high.size < n) :
    ∃ h' m, merge n h low.root high.root = .ok (h', m.root) ∧ h'.Rep m ∧ h'.ParIn m ∧
      m.BST ∧ m.HeapOrdered ∧ m.nodes = low.nodes ++ high.nodes ∧
      m.values = low.values ++ high.values ∧ h'.obj = h.obj ∧
      (low = .nil → m.root = high.root) ∧ (high = .nil → m.root = low.root) ∧
      (∀ ka kb, low.rootKey = some ka → high.rootKey = some kb →
        m.root = if kb < ka then low.root else high.root) ∧
      (∀ a ∈ m.addrs, ∀ c, (h'.left a = some c ∨ h'.right a = some c) →
        ∃ ka kc, h'.key (some a) = .ok ka ∧ h'.key (some c) = .ok kc ∧ kc ≤ ka) := by
  obtain ⟨h', e, r, p, f, -⟩ := merge_spec low high h n rl rh pl ph hnd hn
  have ho := Treap.merge_heapOrdered low high ol oh
  obtain ⟨m1, m2, m3⟩ := Treap.merge_root low high
  exact ⟨h', Treap.merge low high, e, r, p, Treap.merge_BST low high bl bh hlt, ho,
    Treap.merge_nodes low high, Treap.merge_values low high, f.obj, m1, m2, m3,
    Rep.heap_order _ r ho⟩

/-- C27: `split` of a search tree the heap holds (with correct parent links inside)
at the pivot `p` returns the tops of two trees `low` and `high` the heap then holds.
Every value of `low` is less than `p` and every value of `high` is at least `p`; the
nodes of `low` followed by those of `high`, with their values and keys, are the nodes
of the tree in order (no stored object changed); both are heap-ordered when the tree
is; the parent link of each result root is null and the parent links inside both
results are correct. -/
theorem split_tree {h : Heap T} {t : Treap T} (rt : h.Rep t) (pt : h.ParIn t)
    (hnd : t.addrs.Nodup) (bt : t.BST) (p : T) (n : Nat) (hn : t.size < n) :
    ∃ h' low high, split n h t.root p = .ok (h', low.root, high.root) ∧
      h'.Rep low ∧ h'.Rep high ∧
      (∀ x ∈ low.values, x < p) ∧ (∀ x ∈ high.values, p ≤ x) ∧
      low.values ++ high.values = t.values ∧ low.nodes ++ high.nodes = t.nodes ∧
      h'.obj = h.obj ∧ (t.HeapOrdered → low.HeapOrdered ∧ high.HeapOrdered) ∧
      (∀ b, low.root = some b → h'.parent b = none) ∧
      (∀ b, high.root = some b → h'.parent b = none) ∧ h'.ParIn low ∧ h'.ParIn high := by
  obtain ⟨h', e, r1, r2, p1, p2, f⟩ := split_spec p t h n rt pt hnd hn
  exact ⟨h', (t.split p).1, (t.split p).2, e, r1, r2, Treap.split_fst_lt t p bt,
    Treap.split_snd_ge t p bt, Treap.split_values t p, Treap.split_nodes t p, f.obj,
    Treap.split_heapOrdered t p, p1.1, p2.1, p1.2, p2.2⟩

end set

set_option maxRecDepth 100000

namespace Heap

variable {T : Type}

theorem Kept.refl_kept (h : Heap T) : Kept h h :=
  ⟨Nat.le_refl _, fun _ _ _ ho => Or.inl ho, fun _ _ ho => ho⟩

theorem Kept.trans_kept {h h1 h2 : Heap T} (w : h.WF) (f : Kept h h1) (g : Kept h1 h2) :
    Kept h h2 := by
  refine ⟨Nat.le_trans f.next g.next, ?_, ?_⟩
  · intro a v k ho
    rcases f.node a v k ho with h1o | h1o
    · exact g.node a v k h1o
    · have hlt : a < h.next := w.lt_next (live_node ho)
      exact Or.inr (g.free a (Nat.lt_of_lt_of_le hlt f.next) h1o)
  · intro a hlt ho
    exact g.free a (Nat.lt_of_lt_of_le hlt f.next) (f.free a hlt ho)

theorem free_of_not_live {h : Heap T} {a : Addr} (hl : h.live a = false) : h.obj a = .free := by
  simp only [Heap.live] at hl
  cases ho : h.obj a with
  | free => rfl
  | base => rw [ho] at hl; exact Bool.noConfusion hl
  | node v k => rw [ho] at hl; exact Bool.noConfusion hl

end Heap

namespace set

open Heap set_iterator

variable {T : Type} [LinearOrder T]

theorem run_append (s : Addr) (ops1 ops2 : List (Op T)) :
    ∀ h : Heap T, run h s (ops1 ++ ops2) = (run h s ops1 >>= fun h1 => run h1 s ops2) := by
  induction ops1 with
  | nil => intro h; rfl
  | cons op ops ih =>
    intro h
    simp only [List.cons_append, run]
    cases op.run h s with
    | error e => rfl
    | ok h1 => simp only [Res.ok_bind]; exact ih h1

theorem ready_append (s : Addr) (ops1 ops2 : List (Op T)) :
    ∀ h : Heap T, ready h s (ops1 ++ ops2) = true →
      ready h s ops1 = true ∧ ∀ h1, run h s ops1 = .ok h1 → ready h1 s ops2 = true := by
  induction ops1 with
  | nil =>
    intro h hr
    refine ⟨rfl, ?_⟩
    intro h1 e
    simp only [run] at e
    cases e
    exact hr
  | cons op ops ih =>
    intro h hr
    simp only [List.cons_append, ready, Bool.and_eq_true] at hr ⊢
    obtain ⟨hr1, hr2⟩ := hr
    cases e1 : op.run h s with
    | error e =>
      refine ⟨⟨hr1, rfl⟩, ?_⟩
      intro h1 he
      simp only [run, e1, Res.error_bind] at he
      cases he
    | ok h1 =>
      rw [e1] at hr2
      simp only at hr2
      obtain ⟨i1, i2⟩ := ih h1 hr2
      refine ⟨⟨hr1, i1⟩, ?_⟩
      intro h2 he
      simp only [run, e1, Res.ok_bind] at he
      exact i2 h2 he

/-- In a program whose only object is the set, a change of the shape that keeps
the old nodes as they are, or drops them, keeps the stored nodes. -/
theorem Solo.kept {h h' : Heap T} {s : Addr} {t t' : Treap T} (sol : Solo h s t)
    (sol' : Solo h' s t') (hn : h.next ≤ h'.next)
    (hsub : ∀ x ∈ t'.nodes, x ∈ t.nodes ∨ x.1 = h.next) : Kept h h' := by
  have hold : ∀ a, a < h.next → h'.live a = true → a ≠ s →
      ∃ v k, (a, v, k) ∈ t.nodes ∧ h'.obj a = .node v k := by
    intro a hlt hl has
    rcases sol'.closed a hl with rfl | hm
    · exact absurd rfl has
    · obtain ⟨v, k, hx⟩ := Treap.nodes_of_mem_addrs hm
      rcases hsub _ hx with hx' | hx'
      · exact ⟨v, k, hx', Rep.obj_nodes t' sol'.rep _ hx⟩
      · exact absurd hx' (Nat.ne_of_lt hlt)
  refine ⟨hn, ?_, ?_⟩
  · intro a v k ho
    have hlt : a < h.next := sol.wf.lt_next (live_node ho)
    have has : a ≠ s := by
      rintro rfl
      rw [sol.base] at ho
      exact Obj.noConfusion ho
    cases hl : h'.live a with
    | false => exact Or.inr (free_of_not_live hl)
    | true =>
      obtain ⟨v', k', hx, ho'⟩ := hold a hlt hl has
      have := Rep.obj_nodes t sol.rep _ hx
      simp only at this
      rw [ho] at this
      cases this
      exact Or.inl ho'
  · intro a hlt ho
    have has : a ≠ s := by
      rintro rfl
      rw [sol.base] at ho
      exact Obj.noConfusion ho
    cases hl : h'.live a with
    | false => exact free_of_not_live hl
    | true =>
      obtain ⟨v', k', hx, -⟩ := hold a hlt hl has
      have := Rep.obj_nodes t sol.rep _ hx
      simp only at this
      rw [ho] at this
      exact Obj.noConfusion this

/-- A call made with its precondition met returns, keeps the invariant and the
heap order, and keeps the stored nodes. -/
theorem Op.step_ordered {h : Heap T} {s : Addr} {t : Treap T} (sol : Solo h s t)
    (ho : t.HeapOrdered) (op : Op T) (hr : op.ready h s = true) :
    ∃ h1 t1, op.run h s = .ok h1 ∧ Solo h1 s t1 ∧ t1.HeapOrdered ∧ Kept h h1 := by
  have same : ∀ h1, op.run h s = .ok h1 → Same h h1 → h1.WF →
      ∃ h1 t1, op.run h s = .ok h1 ∧ Solo h1 s t1 ∧ t1.HeapOrdered ∧ Kept h h1 := by
    intro h1 e f w
    exact ⟨h1, t, e, sol.same_solo f w, ho,
      sol.kept (sol.same_solo f w) (Nat.le_of_eq f.next.symm) (fun x hx => Or.inl hx)⟩
  have drop : ∀ h1 a, op.run h s = .ok h1 → Dropped h h1 s t a →
      ∃ h1 t1, op.run h s = .ok h1 ∧ Solo h1 s t1 ∧ t1.HeapOrdered ∧ Kept h h1 := by
    intro h1 a e d
    exact ⟨h1, t.remove a, e, sol.dropped d, Treap.remove_heapOrdered t a ho,
      sol.kept (sol.dropped d) d.outside.next
        (fun x hx => Or.inl (Treap.remove_nodes_subset t a x hx))⟩
  cases op with
  | insert v k =>
    cases hf : t.find v with
    | none =>
      obtain ⟨h1, e1, d⟩ := insert_absent sol.toInv v k hf
      refine ⟨h1, _, by simp only [Op.run, e1, Res.ok_bind], sol.inserted d,
        Treap.insert_heapOrdered t h.next v k ho, sol.kept (sol.inserted d) d.outside.next ?_⟩
      intro x hx
      rcases (Treap.mem_insert_nodes t h.next v k x).1 hx with rfl | hx
      · exact Or.inr rfl
      · exact Or.inl hx
    | some a =>
      have ha := Treap.mem_addrs_of_pairs (Treap.find_pairs t v a hf)
      have w0 : (h.place h.nextIt ⟨none, false, none⟩).WF :=
        sol.wf.place _ _ (fun hc => Bool.noConfusion hc)
      have w1 : ((h.place h.nextIt ⟨none, false, none⟩).place (h.nextIt + 1)
          ⟨some a, true, some s⟩).WF :=
        w0.place _ _ (fun _ => ⟨a, rfl, Rep.live _ sol.rep a ha⟩)
      exact same _ (by simp only [Op.run, insert_present sol.toInv v k hf, Res.ok_bind]; rfl)
        (((Same.place_same _ _ _).trans (Same.place_same _ _ _)).trans (Same.remove_same _ _))
        (w1.remove _)
  | erase p =>
    simp only [Op.ready] at hr
    cases hp : h.its p with
    | none => simp [hp] at hr
    | some it =>
      simp only [hp, Bool.and_eq_true, beq_iff_eq, bne_iff_ne, ne_eq] at hr
      obtain ⟨⟨hv, hown⟩, hn⟩ := hr
      obtain ⟨a, ha, hm⟩ := sol.handle hp hv
      have hit : it = ⟨some a, true, some s⟩ := by
        cases it with
        | mk n v o =>
          simp only at hv hown ha
          simp [hv, hown, ha]
      subst hit
      have hmem : a ∈ t.addrs := by
        rcases hm with rfl | hm
        · exact absurd rfl hn
        · exact hm
      obtain ⟨h1, e1, d⟩ := erase_spec sol.toInv hp hmem
      exact drop h1 a (by simp only [Op.run, e1, Res.ok_bind]) d.to_dropped
  | erase_value v =>
    cases hf : t.find v with
    | none =>
      obtain ⟨h1, e1, f, w⟩ := erase_value_absent sol.toInv v hf
      exact same h1 (by simp only [Op.run, e1, Res.ok_bind]) f w
    | some a =>
      obtain ⟨h1, e1, d⟩ := erase_value_present sol.toInv v hf
      exact drop h1 a (by simp only [Op.run, e1, Res.ok_bind]) d
  | find v =>
    refine same _ (by simp only [Op.run, find_spec sol.toInv v, Res.ok_bind]; rfl)
      (Same.place_same _ _ _) (sol.wf.place _ _ (fun _ => ⟨_, rfl, ?_⟩))
    cases hf : t.find v with
    | none => exact sol.live_s
    | some a =>
      exact Rep.live _ sol.rep a (Treap.mem_addrs_of_pairs (Treap.find_pairs t v a hf))
  | begin =>
    refine same _ (by simp only [Op.run, begin_spec sol.toInv, Res.ok_bind]; rfl)
      (Same.place_same _ _ _) (sol.wf.place _ _ (fun _ => ⟨_, rfl, ?_⟩))
    cases t with
    | nil => exact sol.live_s
    | node l a v k r => exact Rep.live _ sol.rep _ (Treap.first_mem _ s (by simp))
  | end_ =>
    exact same _ (by simp only [Op.run, end_spec sol.toShape, Res.ok_bind]; rfl)
      (Same.place_same _ _ _) (sol.wf.place _ _ (fun _ => ⟨s, rfl, sol.live_s⟩))

/-- A sequence of calls, each made with its precondition met, returns, keeps the
invariant and the heap order, and keeps the stored nodes. -/
theorem run_ordered (s : Addr) (ops : List (Op T)) :
    ∀ (h : Heap T) (t : Treap T), Solo h s t → t.HeapOrdered → ready h s ops = true →
      ∃ h1 t1, run h s ops = .ok h1 ∧ Solo h1 s t1 ∧ t1.HeapOrdered ∧ Kept h h1 := by
  induction ops with
  | nil => intro h t sol ho _; exact ⟨h, t, rfl, sol, ho, Kept.refl_kept h⟩
  | cons op ops ih =>
    intro h t sol ho hr
    simp only [ready, Bool.and_eq_true] at hr
    obtain ⟨h1, t1, e1, sol1, ho1, k1⟩ := Op.step_ordered sol ho op hr.1
    have hr2 := hr.2
    rw [e1] at hr2
    obtain ⟨h2, t2, e2, sol2, ho2, k2⟩ := ih h1 t1 sol1 ho1 hr2
    exact ⟨h2, t2, by simp only [run, e1, Res.ok_bind, e2], sol2, ho2,
      k1.trans_kept sol.wf k2⟩

end set

set_option maxRecDepth 100000

namespace set

open Heap set_iterator

variable {T : Type} [LinearOrder T]

/-- C28: a client constructs a set and makes the calls `ops1` and then `ops2`
(insertions with arbitrary keys, erasures by handle and by value, look-ups), each
with its precondition met.  Both runs return.  In the final state the element nodes
reachable from the sentinel form a heap-ordered tree: the key of every node is not
smaller than the key of either child.  Every node stored after `ops1` is, in the
final state, still stored with the same value and key, or deleted. -/
theorem heap_order_kept (ops1 ops2 : List (Op T)) (hr : admissible (ops1 ++ ops2) = true) :
    ∃ h1 h2 s t, build ops1 = .ok (h1, s) ∧ build (ops1 ++ ops2) = .ok (h2, s) ∧
      Inv h2 s t ∧ reachable h2.fuel h2 (h2.left s) = t.addrs ∧ t.HeapOrdered ∧
      (∀ a ∈ reachable h2.fuel h2 (h2.left s), ∀ c,
        (h2.left a = some c ∨ h2.right a = some c) →
          ∃ ka kc, h2.key (some a) = .ok ka ∧ h2.key (some c) = .ok kc ∧ kc ≤ ka) ∧
      (∀ a v k, h1.obj a = .node v k → h2.obj a = .node v k ∨ h2.obj a = .free) := by
  obtain ⟨r1, r2⟩ := ready_append _ ops1 ops2 _ hr
  obtain ⟨h1, t1, e1, sol1, ho1, -⟩ := run_ordered _ ops1 _ _ (fresh_solo (T := T)) trivial r1
  obtain ⟨h2, t2, e2, sol2, ho2, k2⟩ := run_ordered _ ops2 h1 t1 sol1 ho1 (r2 h1 e1)
  refine ⟨h1, h2, _, t2, by simp only [build, e1, Res.ok_bind], ?_, sol2.toInv, sol2.reachable,
    ho2, ?_, k2.node⟩
  · simp only [build, run_append, e1, Res.ok_bind, e2]
  · rw [sol2.reachable]
    exact Rep.heap_order t2 sol2.rep ho2

end set

set_option maxRecDepth 100000

namespace set_iterator

open Heap set

/-- C21 at the sample: the handles the insertions of 5 and of 3 returned. -/
theorem compare_handles_witness :
    sample.1.its 2 = some ⟨some 1, true, some 0⟩ ∧
      sample.1.its 5 = some ⟨some 2, true, some 0⟩ ∧
      (((true = false ∨ true = false ∨ (some 0 : Option Addr) ≠ some 0) →
        set_iterator.eq sample.1 2 5 = .error .assertion ∧
          set_iterator.ne sample.1 2 5 = .error .assertion) ∧
      (true = true → true = true → (some 0 : Option Addr) = some 0 →
        set_iterator.eq sample.1 2 5 = .ok ((some 1 : Option Addr) == some 2) ∧
          set_iterator.ne sample.1 2 5 = .ok (!((some 1 : Option Addr) == some 2)))) :=
  ⟨rfl, rfl, compare_handles (h := sample.1) (i := 2) (j := 5) (a := ⟨some 1, true, some 0⟩)
    (b := ⟨some 2, true, some 0⟩) rfl rfl⟩

end set_iterator

namespace set

open Heap set_iterator

/-- C26 at two one-node trees: 1 with key 5 and 7 with key 3. -/
theorem merge_treaps_witness :
    two_nodes.Rep (.node .nil 0 1 5 .nil) ∧ two_nodes.Rep (.node .nil 1 7 3 .nil) ∧
      two_nodes.ParIn (.node .nil 0 1 5 .nil) ∧ two_nodes.ParIn (.node .nil 1 7 3 .nil) ∧
      ((Treap.node .nil 0 1 5 .nil : Treap Nat).addrs ++
        (Treap.node .nil 1 7 3 .nil : Treap Nat).addrs).Nodup ∧
      (Treap.node .nil 0 1 5 .nil : Treap Nat).BST ∧
      (Treap.node .nil 1 7 3 .nil : Treap Nat).BST ∧
      (Treap.node .nil 0 1 5 .nil : Treap Nat).HeapOrdered ∧
      (Treap.node .nil 1 7 3 .nil : Treap Nat).HeapOrdered ∧
      (∀ x ∈ (Treap.node .nil 0 1 5 .nil : Treap Nat).values,
        ∀ y ∈ (Treap.node .nil 1 7 3 .nil : Treap Nat).values, x < y) ∧
      (Treap.node .nil 0 1 5 .nil : Treap Nat).size +
        (Treap.node .nil 1 7 3 .nil : Treap Nat).size < 3 ∧
      ∃ h' m, merge 3 two_nodes (Treap.node .nil 0 1 5 .nil : Treap Nat).root
          (Treap.node .nil 1 7 3 .nil : Treap Nat).root = .ok (h', m.root) ∧
        h'.Rep m ∧ h'.ParIn m ∧ m.BST ∧ m.HeapOrdered ∧
        m.nodes = (Treap.node .nil 0 1 5 .nil : Treap Nat).nodes ++
          (Treap.node .nil 1 7 3 .nil : Treap Nat).nodes ∧
        m.values = (Treap.node .nil 0 1 5 .nil : Treap Nat).values ++
          (Treap.node .nil 1 7 3 .nil : Treap Nat).values ∧
        h'.obj = two_nodes.obj ∧
        ((Treap.node .nil 0 1 5 .nil : Treap Nat) = .nil →
          m.root = (Treap.node .nil 1 7 3 .nil : Treap Nat).root) ∧
        ((Treap.node .nil 1 7 3 .nil : Treap Nat) = .nil →
          m.root = (Treap.node .nil 0 1 5 .nil : Treap Nat).root) ∧
        (∀ ka kb, (Treap.node .nil 0 1 5 .nil : Treap Nat).rootKey = some ka →
          (Treap.node .nil 1 7 3 .nil : Treap Nat).rootKey = some kb →
          m.root = if kb < ka then (Treap.node .nil 0 1 5 .nil : Treap Nat).root
            else (Treap.node .nil 1 7 3 .nil : Treap Nat).root) ∧
        (∀ a ∈ m.addrs, ∀ c, (h'.left a = some c ∨ h'.right a = some c) →
          ∃ ka kc, h'.key (some a) = .ok ka ∧ h'.key (some c) = .ok kc ∧ kc ≤ ka) := by
  have rl : two_nodes.Rep (.node .nil 0 1 5 .nil) := ⟨rfl, rfl, rfl, trivial, trivial⟩
  have rh : two_nodes.Rep (.node .nil 1 7 3 .nil) := ⟨rfl, rfl, rfl, trivial, trivial⟩
  have pl : two_nodes.ParIn (.node .nil 0 1 5 .nil) :=
    ⟨fun b hb => by simp at hb, fun b hb => by simp at hb, trivial, trivial⟩
  have ph : two_nodes.ParIn (.node .nil 1 7 3 .nil) :=
    ⟨fun b hb => by simp at hb, fun b hb => by simp at hb, trivial, trivial⟩
  have hnd : ((Treap.node .nil 0 1 5 .nil : Treap Nat).addrs ++
      (Treap.node .nil 1 7 3 .nil : Treap Nat).addrs).Nodup := by decide
  have bl : (Treap.node .nil 0 1 5 .nil : Treap Nat).BST :=
    ⟨fun x hx => by simp at hx, fun x hx => by simp at hx, trivial, trivial⟩
  have bh : (Treap.node .nil 1 7 3 .nil : Treap Nat).BST :=
    ⟨fun x hx => by simp at hx, fun x hx => by simp at hx, trivial, trivial⟩
  have ol : (Treap.node .nil 0 1 5 .nil : Treap Nat).HeapOrdered :=
    (Treap.heapOrdered_node _ _ _ _ _).2
      ⟨fun j hj => by simp at hj, fun j hj => by simp at hj, trivial, trivial⟩
  have oh : (Treap.node .nil 1 7 3 .nil : Treap Nat).HeapOrdered :=
    (Treap.heapOrdered_node _ _ _ _ _).2
      ⟨fun j hj => by simp at hj, fun j hj => by simp at hj, trivial, trivial⟩
  have hlt : ∀ x ∈ (Treap.node .nil 0 1 5 .nil : Treap Nat).values,
      ∀ y ∈ (Treap.node .nil 1 7 3 .nil : Treap Nat).values, x < y := by
    intro x hx y hy
    simp only [Treap.values_node, Treap.values_nil, List.nil_append, List.mem_singleton] at hx hy
    omega
  have hn : (Treap.node .nil 0 1 5 .nil : Treap Nat).size +
      (Treap.node .nil 1 7 3 .nil : Treap Nat).size < 3 := by decide
  exact ⟨rl, rh, pl, ph, hnd, bl, bh, ol, oh, hlt, hn,
    merge_treaps rl rh pl ph hnd bl bh ol oh hlt 3 hn⟩

/-- C27 at a two-node tree, 5 with the left child 3, split at the pivot 4. -/
theorem split_tree_witness :
    small_tree.Rep (.node (.node .nil 1 3 4 .nil) 0 5 9 .nil) ∧
      small_tree.ParIn (.node (.node .nil 1 3 4 .nil) 0 5 9 .nil) ∧
      (Treap.node (.node .nil 1 3 4 .nil) 0 5 9 .nil : Treap Nat).addrs.Nodup ∧
      (Treap.node (.node .nil 1 3 4 .nil) 0 5 9 .nil : Treap Nat).BST ∧
      (Treap.node (.node .nil 1 3 4 .nil) 0 5 9 .nil : Treap Nat).size < 3 ∧
      ∃ h' low high,
        split 3 small_tree (Treap.node (.node .nil 1 3 4 .nil) 0 5 9 .nil : Treap Nat).root 4 =
          .ok (h', low.root, high.root) ∧
        h'.Rep low ∧ h'.Rep high ∧
        (∀ x ∈ low.values, x < 4) ∧ (∀ x ∈ high.values, 4 ≤ x) ∧
        low.values ++ high.values =
          (Treap.node (.node .nil 1 3 4 .nil) 0 5 9 .nil : Treap Nat).values ∧
        low.nodes ++ high.nodes =
          (Treap.node (.node .nil 1 3 4 .nil) 0 5 9 .nil : Treap Nat).nodes ∧
        h'.obj = small_tree.obj ∧
        ((Treap.node (.node .nil 1 3 4 .nil) 0 5 9 .nil : Treap Nat).HeapOrdered →
          low.HeapOrdered ∧ high.HeapOrdered) ∧
        (∀ b, low.root = some b → h'.parent b = none) ∧
        (∀ b, high.root = some b → h'.parent b = none) ∧ h'.ParIn low ∧ h'.ParIn high := by
  have rt : small_tree.Rep (.node (.node .nil 1 3 4 .nil) 0 5 9 .nil) :=
    ⟨rfl, rfl, rfl, ⟨rfl, rfl, rfl, trivial, trivial⟩, trivial⟩
  have pt : small_tree.ParIn (.node (.node .nil 1 3 4 .nil) 0 5 9 .nil) := by
    refine ⟨?_, fun b hb => by simp at hb,
      ⟨fun b hb => by simp at hb, fun b hb => by simp at hb, trivial, trivial⟩, trivial⟩
    intro b hb
    simp only [Treap.root_node, Option.some.injEq] at hb
    subst hb
    rfl
  have hnd : (Treap.node (.node .nil 1 3 4 .nil) 0 5 9 .nil : Treap Nat).addrs.Nodup := by
    decide
  have bt : (Treap.node (.node .nil 1 3 4 .nil) 0 5 9 .nil : Treap Nat).BST := by
    refine ⟨?_, fun x hx => by simp at hx,
      ⟨fun x hx => by simp at hx, fun x hx => by simp at hx, trivial, trivial⟩, trivial⟩
    intro x hx
    simp only [Treap.values_node, Treap.values_nil, List.nil_append, List.mem_singleton] at hx
    omega
  have hn : (Treap.node (.node .nil 1 3 4 .nil) 0 5 9 .nil : Treap Nat).size < 3 := by decide
  exact ⟨rt, pt, hnd, bt, hn, split_tree rt pt hnd bt 4 3 hn⟩

/-- C28 at the sample client followed by two erasures and two insertions. -/
theorem heap_order_kept_witness :
    admissible (sample_calls ++ later_calls) = true ∧
      ∃ h1 h2 s t, build sample_calls = .ok (h1, s) ∧
        build (sample_calls ++ later_calls) = .ok (h2, s) ∧
        Inv h2 s t ∧ reachable h2.fuel h2 (h2.left s) = t.addrs ∧ t.HeapOrdered ∧
        (∀ a ∈ reachable h2.fuel h2 (h2.left s), ∀ c,
          (h2.left a = some c ∨ h2.right a = some c) →
            ∃ ka kc, h2.key (some a) = .ok ka ∧ h2.key (some c) = .ok kc ∧ kc ≤ ka) ∧
        (∀ a v k, h1.obj a = .node v k → h2.obj a = .node v k ∨ h2.obj a = .free) :=
  ⟨rfl, heap_order_kept sample_calls later_calls (by rfl)⟩

/-- The sample client followed by the later calls, evaluated: the set ends with 1,
2, 4, 5 and 7, the node of 5 (address 1, key 90) is still stored with its value and
key, and the node of 3 (address 2) is deleted. -/
theorem later_calls_evaluated :
    ∃ h2, build (sample_calls ++ later_calls) = .ok (h2, 0) ∧
      traverse h2 0 = .ok [1, 2, 4, 5, 7] ∧ sample.1.obj 1 = .node 5 90 ∧
      h2.obj 1 = .node 5 90 ∧ sample.1.obj 2 = .node 3 70 ∧ h2.obj 2 = .free :=
  ⟨_, rfl, rfl, rfl, rfl, rfl, rfl⟩

end set
